import Mathlib

/-!
# tasbot: state cache, state codec, objective evaluator, planner selection, dispatcher

A shallow embedding of the parts of `emulator.cc`, `weighted-objectives.cc`,
`playfun-backtrack.cc` and `netutil.h` that the verified properties are about.

Conventions of the embedding.
* A `vector<uint8>` is a `List Nat`; byte arithmetic is written with an explicit `% 256`.
* Entry counts and use-sequence numbers (`uint64`, and the `int` copy `num_to_remove`)
  are natural numbers: the development is about tables far below `2^31` entries, where
  the machine arithmetic and the natural-number arithmetic agree.
* A failed `CHECK` or an `abort()` is the result `none` (or an `Except.error` naming the
  check); a function that returns normally yields `some`.
* `double` scores and weights are exact rationals.
-/

namespace Tasbot

/-! ## The emulation engine (FCEUX), taken as a parameter -/

/-- Modelled from the spec: the game-stepping engine (`FCEUI_Emulate`, `FCEUSS_SaveRAW`,
`FCEUSS_LoadRAW`, the `RAM` array) lives in `fceu/`, outside the sources at hand. Following
sections 3 and 6 of the specification, an engine state is a blob sufficient to resume
deterministic emulation, so the machine state is identified with its raw savestate:
`emulate input raw` is the raw state after one frame with joypad byte `input`, `loadRAW raw`
tells whether `FCEUSS_LoadRAW` accepts the blob, and `ram raw` is the `0x800` bytes of RAM. -/
structure Engine where
  emulate : Nat → List Nat → List Nat
  loadRAW : List Nat → Bool
  ram : List Nat → List Nat

/-- The `Emulator::Step` function: one frame with the given joypad byte. -/
def Emulator.Step (E : Engine) (inputs : Nat) (st : List Nat) : List Nat :=
  E.emulate inputs st

/-- The `Emulator::SaveUncompressed` function: `FCEUSS_SaveRAW(out)`. -/
def Emulator.SaveUncompressed (st : List Nat) : List Nat := st

/-- The `Emulator::LoadUncompressed` function: aborts when `FCEUSS_LoadRAW` refuses the blob. -/
def Emulator.LoadUncompressed (E : Engine) (v : List Nat) : Option (List Nat) :=
  if E.loadRAW v then some v else none

/-- The `Emulator::GetMemory` function: a copy of the `0x800` bytes of RAM. -/
def Emulator.GetMemory (E : Engine) (st : List Nat) : List Nat := E.ram st

/-! ## `StateCache` (emulator.cc) -/

/-- One binding of `StateCache::Hash`: the key `(input, start)` and the value
`(sequence number, result)`. -/
structure Entry where
  input : Nat
  start : List Nat
  seq : Nat
  result : List Nat
deriving DecidableEq, Repr

/-- The `StateCache` struct. The `unordered_map` is the list of its bindings, in
iteration order. -/
structure StateCache where
  hashtable : List Entry
  limit : Nat
  count : Nat
  next_sequence : Nat
  slop : Nat
  hits : Nat
  misses : Nat
deriving DecidableEq, Repr

namespace StateCache

/-- The constructor `StateCache()`. -/
def new : StateCache :=
  { hashtable := [], limit := 0, count := 0, next_sequence := 0,
    slop := 10000, hits := 0, misses := 0 }

/-- The `StateCache::Resize` method: frees every binding and installs limit and slop. -/
def Resize (ll ss : Nat) (c : StateCache) : StateCache :=
  { c with hashtable := [], limit := ll, slop := ss, next_sequence := 0, count := 0 }

/-- `KeyEquals`: value equality on the input byte and on the starting state. -/
def keyEquals (e : Entry) (input : Nat) (start : List Nat) : Bool :=
  e.input == input && e.start == start

/-- `hashtable.find(key)`: the binding of the key, if there is one. -/
def find (c : StateCache) (input : Nat) (start : List Nat) : Option Entry :=
  c.hashtable.find? (fun e => keyEquals e input start)

/-- `it->second.first = seq` on the binding that `find` returned. -/
def touch (input : Nat) (start : List Nat) (seq : Nat) : List Entry → List Entry
  | [] => []
  | e :: es =>
    if keyEquals e input start then { e with seq := seq } :: es
    else e :: touch input start seq es

/-- `HashFunction`: hashing a key reads `k.second->at(0)`, which throws on an empty starting
state; every lookup and insertion hashes its key. -/
def hashable (start : List Nat) : Bool := !start.isEmpty

/-- The `StateCache::GetKnownResult` method: on a hit, stamps the binding with the next
sequence number and returns the stored result; on a miss returns `NULL`. The result is `none`
when hashing the key throws. -/
def GetKnownResult (c : StateCache) (input : Nat) (start : List Nat) :
    Option (StateCache × Option (List Nat)) :=
  if hashable start then
    match c.find input start with
    | none => some ({ c with misses := c.misses + 1 }, none)
    | some e =>
      some ({ c with hits := c.hits + 1,
                     hashtable := touch input start c.next_sequence c.hashtable,
                     next_sequence := c.next_sequence + 1 }, some e.result)
  else none

/-- The second loop of `MaybeResize`: erase every binding whose sequence number is below
`minseq`, decrementing `count` for each. -/
def evict (minseq : Nat) : List Entry → Nat → List Entry × Nat
  | [], count => ([], count)
  | e :: es, count =>
    if e.seq < minseq then evict minseq es (count - 1)
    else ((evict minseq es count).1.cons e, (evict minseq es count).2)

/-- The `StateCache::MaybeResize` method. `none` is the failure of
`CHECK(num_to_remove < all_sequences.size())`. The sum and the difference are those of the
natural numbers; `MaybeResize64` is the method in the arithmetic of the machine. -/
def MaybeResize (c : StateCache) : Option StateCache :=
  if c.count > c.limit + c.slop then
    let num_to_remove := c.count - c.limit
    let all_sequences := (c.hashtable.map (fun e => e.seq)).insertionSort (fun a b => a ≤ b)
    match all_sequences[num_to_remove]? with
    | none => none
    | some minseq =>
      some { c with hashtable := (evict minseq c.hashtable c.count).1,
                    count := (evict minseq c.hashtable c.count).2 }
  else some c

/-- The part of `StateCache::Remember` before the call of `MaybeResize`: the insertion,
`next_sequence++` and `count++`. `none` is the failure of `CHECK(it.second)` (the key was
already bound), or hashing the key throws. -/
def insert (c : StateCache) (input : Nat) (start result : List Nat) : Option StateCache :=
  if hashable start then
    match c.find input start with
    | some _ => none
    | none =>
      some { c with hashtable := c.hashtable ++ [⟨input, start, c.next_sequence, result⟩],
                    next_sequence := c.next_sequence + 1,
                    count := c.count + 1 }
  else none

/-- The `StateCache::Remember` method. -/
def Remember (c : StateCache) (input : Nat) (start result : List Nat) : Option StateCache :=
  (c.insert input start result).bind MaybeResize

end StateCache

/-- The `Emulator::ResetCache` function. -/
def Emulator.ResetCache (numstates slop : Nat) (cache : StateCache) : StateCache :=
  cache.Resize numstates slop

/-- The `Emulator::CachingStep` function, on the pair of the cache and the machine state. The
last lookup is the `CHECK(NULL != cache->GetKnownResult(input, start))` of the miss branch. -/
def Emulator.CachingStep (E : Engine) (input : Nat) (cache : StateCache) (st : List Nat) :
    Option (StateCache × List Nat) :=
  let start := Emulator.SaveUncompressed st
  match cache.GetKnownResult input start with
  | none => none
  | some (c1, some cached) => (Emulator.LoadUncompressed E cached).map (fun st1 => (c1, st1))
  | some (c1, none) =>
    let st1 := Emulator.Step E input st
    let result := Emulator.SaveUncompressed st1
    match c1.Remember input start result with
    | none => none
    | some c2 =>
      match c2.GetKnownResult input start with
      | some (c3, some _) => some (c3, st1)
      | _ => none

/-- A client of the cache: operations on `StateCache` that insert or look up. -/
inductive CacheOp where
  | remember (input : Nat) (start result : List Nat)
  | lookup (input : Nat) (start : List Nat)
deriving DecidableEq, Repr

/-- One cache operation; `none` when a `CHECK` inside it fails. -/
def StateCache.apply (c : StateCache) : CacheOp → Option StateCache
  | .remember input start result => c.Remember input start result
  | .lookup input start => (c.GetKnownResult input start).map (fun r => r.1)

/-- A sequence of cache operations, left to right. -/
def StateCache.run (c : StateCache) : List CacheOp → Option StateCache
  | [] => some c
  | op :: ops => (c.apply op).bind (fun c1 => c1.run ops)

/-- A sequence of `(starting state, action)` pairs: for each pair the machine is put in the
starting state and `CachingStep(action)` is called; the states it leaves are collected. -/
def Emulator.runCaching (E : Engine) (cache : StateCache) :
    List (List Nat × Nat) → Option (StateCache × List (List Nat))
  | [] => some (cache, [])
  | (start, action) :: rest =>
    match Emulator.CachingStep E action cache start with
    | none => none
    | some (c1, st1) =>
      match Emulator.runCaching E c1 rest with
      | none => none
      | some (c2, outs) => some (c2, st1 :: outs)

/-- What holds of a cache between two statements of its methods, for the limit `L` and the
slop `S` installed by `Resize`: `count` is the size of the table, and the sequence numbers in
the table are pairwise different and below `next_sequence`. -/
structure StateCache.Consistent (L S : Nat) (c : StateCache) : Prop where
  limit_eq : c.limit = L
  slop_eq : c.slop = S
  count_eq : c.count = c.hashtable.length
  seq_lt : ∀ e ∈ c.hashtable, e.seq < c.next_sequence
  seq_nodup : (c.hashtable.map (fun e => e.seq)).Nodup

/-- Every stored binding maps `(input, start)` to the state that `Step(input)` produces from
`start`. -/
def StateCache.Sound (E : Engine) (c : StateCache) : Prop :=
  ∀ e ∈ c.hashtable, e.result = Emulator.Step E e.input e.start

/-- A small engine for concrete runs: a frame pushes the joypad byte on the state. -/
def pushEngine : Engine :=
  { emulate := fun input st => input :: st, loadRAW := fun _ => true, ram := fun st => st }

end Tasbot

namespace Tasbot

/-! ## The state codec: `SaveEx` and `LoadEx` (emulator.cc) -/

/-- Modelled from the spec: zlib is outside the sources at hand. `compress raw` is the stream
that `compress2` writes for `raw` at `Z_DEFAULT_COMPRESSION` when its buffer is large enough;
`uncompress stream` is the data that the stream inflates to, or `none` for a stream that
zlib rejects. -/
structure Zlib where
  compress : List Nat → List Nat
  uncompress : List Nat → Option (List Nat)

/-- The store `*(uint32*)&(*state)[0] = len`: the four bytes of `len`, least significant
first. -/
def header (len : Nat) : List Nat :=
  [len % 256, len / 256 % 256, len / 65536 % 256, len / 16777216 % 256]

/-- The load `*(uint32*)&(*state)[0]`. -/
def readHeader (state : List Nat) : Nat :=
  state.getD 0 0 + 256 * state.getD 1 0 + 65536 * state.getD 2 0 + 16777216 * state.getD 3 0

/-- The loop `for (i < blen) raw[i] -= (*basis)[i]` on `uint8`. -/
def subBasis (raw basis : List Nat) (blen : Nat) : List Nat :=
  (List.range raw.length).map
    (fun i => if i < blen then (raw.getD i 0 + (256 - basis.getD i 0 % 256)) % 256
              else raw.getD i 0)

/-- The loop `for (i < blen) uncompressed[i] += (*basis)[i]` on `uint8`. -/
def addBasis (uncompressed basis : List Nat) (blen : Nat) : List Nat :=
  (List.range uncompressed.length).map
    (fun i => if i < blen then (uncompressed.getD i 0 + basis.getD i 0) % 256
              else uncompressed.getD i 0)

/-- `blen = (basis == NULL) ? 0 : min(basis->size(), raw.size())`. -/
def basisLen (basis : Option (List Nat)) (raw : List Nat) : Nat :=
  match basis with
  | none => 0
  | some b => min b.length raw.length

/-- The `Emulator::SaveEx` function on the machine state `st`. `none` is the `abort()` taken
when `compress2` does not return `Z_OK`, which is when the stream does not fit the
`(len >> 9) + 12 + len` bytes reserved for it. -/
def Emulator.SaveEx (Z : Zlib) (st : List Nat) (basis : Option (List Nat)) :
    Option (List Nat) :=
  let raw := Emulator.SaveUncompressed st
  let blen := basisLen basis raw
  let raw := subBasis raw (basis.getD []) blen
  let len := raw.length
  let comprlen := len / 512 + 12 + len
  let stream := Z.compress raw
  if stream.length ≤ comprlen then some (header len ++ stream) else none

/-- The `Emulator::LoadEx` function: the machine state it restores, or `none` when it aborts:
the declared length does not fit the `int uncomprlen` (it is negative there and `resize`
throws); `uncompress` returns `Z_BUF_ERROR` because the data is longer than the declared
length, or another error; or `FCEUSS_LoadRAW` refuses the decoded state. The source reads a
blob shorter than four bytes past its end; here the missing bytes read as 0. The cast of
`&uncomprlen` to `uLongf*` is read where `uLongf` is as wide as `int`. -/
def Emulator.LoadEx (E : Engine) (Z : Zlib) (state : List Nat) (basis : Option (List Nat)) :
    Option (List Nat) :=
  let uncomprlen := readHeader state
  if uncomprlen < 2147483648 then
    match Z.uncompress (state.drop 4) with
    | none => none
    | some data =>
      if data.length ≤ uncomprlen then
        let uncompressed := data
        let blen := basisLen basis uncompressed
        let uncompressed := addBasis uncompressed (basis.getD []) blen
        if E.loadRAW uncompressed then some uncompressed else none
      else none
  else none

/-- A stand-in for zlib in concrete runs: the identity in both directions. -/
def storeZlib : Zlib := { compress := fun x => x, uncompress := fun x => some x }

end Tasbot

namespace Tasbot

/-! ## `WeightedObjectives` (weighted-objectives.cc) -/

/-- The `WeightedObjectives::Info` struct: the weight and the sorted observations. -/
structure Info where
  weight : ℚ
  observations : List (List Nat)

/-- The map `WeightedObjectives::weighted`, from an objective (a list of memory locations)
to its `Info`, as the list of its bindings in iteration order. -/
abbrev Weighted := List (List Nat × Info)

/-- The read `mem[p]` of a memory vector (locations outside the vector read as 0). -/
def memAt (mem : List Nat) (p : Nat) : Nat := mem.getD p 0

/-- The static function `Order`: `-1`, `1` or `0` by the first location of `order` at which
the two memories differ. -/
def Order (mem1 mem2 : List Nat) : List Nat → Int
  | [] => 0
  | p :: rest =>
    if memAt mem1 p > memAt mem2 p then -1
    else if memAt mem1 p < memAt mem2 p then 1
    else Order mem1 mem2 rest

/-- The body of the loop of `WeightedObjectives::Evaluate`: the `switch` on `Order`. -/
def evaluateStep (mem1 mem2 : List Nat) (score : ℚ) (it : List Nat × Info) : ℚ :=
  match Order mem1 mem2 it.1 with
  | -1 => score - it.2.weight
  | 1 => score + it.2.weight
  | _ => score

/-- The `WeightedObjectives::Evaluate` method. -/
def Evaluate (weighted : Weighted) (mem1 mem2 : List Nat) : ℚ :=
  weighted.foldl (evaluateStep mem1 mem2) 0

/-- The ordering of objective.h in its own words: `memA < memB` under the objective
`L1..Ln` when for some `i` the two agree on `L1..Li-1` and `memA[Li] < memB[Li]`. -/
def LexLess (memA memB : List Nat) (obj : List Nat) : Prop :=
  ∃ i, i < obj.length ∧ (∀ j, j < i → memAt memA (obj.getD j 0) = memAt memB (obj.getD j 0))
    ∧ memAt memA (obj.getD i 0) < memAt memB (obj.getD i 0)

instance (memA memB obj : List Nat) : Decidable (LexLess memA memB obj) := by
  unfold LexLess
  infer_instance

/-- The score of section 4.3 of the specification: the sum over all objectives of `+weight`
when `memA < memB` under the objective, `-weight` when `memA > memB`, and `0` when tied. -/
def EvaluateSpec (weighted : Weighted) (memA memB : List Nat) : ℚ :=
  (weighted.map (fun it =>
    if LexLess memA memB it.1 then it.2.weight
    else if LexLess memB memA it.1 then - it.2.weight
    else 0)).sum

end Tasbot

namespace Tasbot

/-! ## The planner (playfun-backtrack.cc): `IsImprovement` and `ParallelStep` -/

/-- The loop `for (i < inputs.size()) Emulator::CachingStep(inputs[i])`. -/
def Emulator.cachingSteps (E : Engine) :
    StateCache → List Nat → List Nat → Option (StateCache × List Nat)
  | cache, st, [] => some (cache, st)
  | cache, st, input :: rest =>
    match Emulator.CachingStep E input cache st with
    | none => none
    | some (c1, st1) => Emulator.cachingSteps E c1 st1 rest

/-- The `PlayFun::IsImprovement` method. The result is `none` when the replay aborts;
otherwise it holds the cache and the machine state that the call leaves, and the value
stored in `*score` when the method returns `true` (`none` when it returns `false`, which
leaves `*score` alone). -/
def IsImprovement (E : Engine) (objectives : Weighted) (cache : StateCache)
    (start_state start_memory inputs end_memory : List Nat) :
    Option (StateCache × List Nat × Option ℚ) :=
  match Emulator.LoadUncompressed E start_state with
  | none => none
  | some st0 =>
    match Emulator.cachingSteps E cache st0 inputs with
    | none => none
    | some (c1, st1) =>
      let new_memory := Emulator.GetMemory E st1
      let e_minus_s := Evaluate objectives start_memory end_memory
      let n_minus_s := Evaluate objectives start_memory new_memory
      let n_minus_e := Evaluate objectives end_memory new_memory
      if e_minus_s ≥ n_minus_s then some (c1, st1, none)
      else if n_minus_s ≤ 0 then some (c1, st1, none)
      else if n_minus_e ≤ 0 then some (c1, st1, none)
      else some (c1, st1, some (n_minus_e + n_minus_s))

/-- A small engine for concrete runs: a frame adds the joypad byte to every byte of the
state, and the state is the RAM. -/
def addEngine : Engine :=
  { emulate := fun input st => st.map (fun x => (x + input) % 256),
    loadRAW := fun _ => true, ram := fun st => st }

end Tasbot

namespace Tasbot

/-- The `PlayFunResponse` message: the scores that `InnerLoop` computed for one candidate. -/
structure PlayFunResponse where
  immediate_score : ℚ
  best_future_score : ℚ
  worst_future_score : ℚ
  futures_score : ℚ
  futurescores : List ℚ
deriving DecidableEq

/-- What the candidate loop of `ParallelStep` updates: `*futuretotals`, `best_score` and
`*best_next_idx`. -/
structure Selection where
  futuretotals : List ℚ
  best_score : ℚ
  best_next_idx : Nat
deriving DecidableEq

/-- The loop `for (f < futurescores.size()) (*futuretotals)[f] += futurescores[f]`. `none`
when there are more future scores than slots in `futuretotals` (the store is then outside
the vector, or `CHECK(f <= futuretotals->size())` fails). -/
def addFutureScores : List ℚ → List ℚ → Option (List ℚ)
  | totals, [] => some totals
  | [], _ :: _ => none
  | t :: ts, s :: ss => (addFutureScores ts ss).map (fun r => (t + s) :: r)

/-- One iteration of the candidate loop of `ParallelStep`, for candidate `i` with scores
`res`. -/
def parallelStepBody (sel : Selection) (i : Nat) (res : PlayFunResponse) : Option Selection :=
  match addFutureScores sel.futuretotals res.futurescores with
  | none => none
  | some totals =>
    let score := res.immediate_score + res.futures_score
    if score > sel.best_score then
      some { futuretotals := totals, best_score := score, best_next_idx := i }
    else some { sel with futuretotals := totals }

/-- The candidate loop of `ParallelStep`, from candidate `i` on. -/
def parallelStepLoop : List PlayFunResponse → Nat → Selection → Option Selection
  | [], _, sel => some sel
  | res :: rest, i, sel =>
    match parallelStepBody sel i res with
    | none => none
    | some sel1 => parallelStepLoop rest (i + 1) sel1

/-- The `PlayFun::ParallelStep` method, on the per-candidate scores (`work[i].res` in the
distributed build, the outputs of `InnerLoop` in the local one). `none` when
`CHECK(nexts.size() > 0)` fails or the loop aborts. -/
def ParallelStep (work : List PlayFunResponse) (futuretotals : List ℚ) : Option Selection :=
  if work.length > 0 then
    parallelStepLoop work 0 { futuretotals := futuretotals, best_score := 0, best_next_idx := 0 }
  else none

/-- The total score of a candidate: `immediate_score + futures_score`. -/
def PlayFunResponse.totalScore (res : PlayFunResponse) : ℚ :=
  res.immediate_score + res.futures_score

end Tasbot

namespace Tasbot

/-- What the candidate loop of `ParallelStep` has established after the candidates `pre`:
`best_score` is `0` with `best_next_idx` still `0` and no candidate above `0`, or it is the
positive total score of candidate `best_next_idx`, which no candidate exceeds and no earlier
candidate reaches. -/
def Selected (pre : List PlayFunResponse) (sel : Selection) : Prop :=
  (∀ r ∈ pre, r.totalScore ≤ sel.best_score)
    ∧ ((sel.best_score = 0 ∧ sel.best_next_idx = 0)
      ∨ (0 < sel.best_score ∧ ∃ r, pre[sel.best_next_idx]? = some r
          ∧ r.totalScore = sel.best_score
          ∧ ∀ j r1, j < sel.best_next_idx → pre[j]? = some r1 → r1.totalScore < sel.best_score))

end Tasbot

namespace Tasbot

/-! ## The dispatcher `GetAnswers` (netutil.h) -/

/-- The enum `GetAnswers::State`. -/
inductive HelperState where
  | DISCONNECTED
  | WORKING
deriving DecidableEq, Repr

/-- The struct `GetAnswers::Helper`. The field `workidx` is `none` for the `-1` of the
source; the socket is part of the network state and is named by the helper's index. -/
structure Helper where
  port : Int
  state : HelperState
  workidx : Option Nat
deriving DecidableEq, Repr

/-- The struct `GetAnswers::Work`: a request and the slot for its response. -/
structure Work (Req Res : Type) where
  req : Req
  res : Res
deriving DecidableEq, Repr

/-- The fields of `GetAnswers`. -/
structure GetAnswers (Req Res : Type) where
  helpers_ : List Helper
  work_ : List (Work Req Res)
  done_ : List Bool
  workdone_ : Nat
  workqueued_ : Nat
deriving DecidableEq, Repr

/-- What a call of `ReadProto(sock, &res)` does to `res` and returns: `ok r` when it returns
true having parsed `r`; `parseError g` when the payload arrived but did not parse, which
leaves `g` in `res` and returns false; `ioError` when a read failed, which leaves `res` alone
and returns false. -/
inductive ReadResult (Res : Type) where
  | ok (r : Res)
  | parseError (g : Res)
  | ioError
deriving DecidableEq, Repr

/-- Modelled from the spec: the network (`SDL_net`, the helper processes and `ConnectLocal`,
`ReadProto`, `WriteProto` of netutil.cc that drive it) is outside the dispatcher; it is a
state `ν` with the operations the dispatcher performs on the connection of helper `h`.
* `fetch nu h port req`: `ConnectLocal(port)` followed by `WriteProto(sock, req)`; `none` when
  `ConnectLocal` returns `NULL`.
* `alloc nu n`: whether `SDLNet_AllocSocketSet(n)` returns a socket set (not `NULL`).
* `add nu h`: whether `SDLNet_TCP_AddSocket(ss, helper->sock)` succeeds (does not return
  `-1`).
* `checkFails nu`: whether a call of `SDLNet_CheckSockets` in the loop that blocks returns
  `-1` before a socket is ready.
* `check nu`: the loop around `SDLNet_CheckSockets`, which returns once a socket is ready.
* `ready nu h`: `SDLNet_SocketReady(helper->sock)`.
* `read nu h`: `ReadProto(helper->sock, &res)`.
* `close nu h`: `SDLNet_TCP_Close(helper->sock)`. -/
structure Net (ν Req Res : Type) where
  fetch : ν → Nat → Int → Req → Option ν
  alloc : ν → Nat → Bool
  add : ν → Nat → Bool
  checkFails : ν → Bool
  check : ν → ν
  ready : ν → Nat → Bool
  read : ν → Nat → ν × ReadResult Res
  close : ν → Nat → ν

/-- The places where `GetAnswers::Loop` and its helpers can abort. -/
inductive Check where
  /-- `CHECK(low < high)` -/
  | lowHigh
  /-- `CHECK(helper == -1)`: a queued unit is held by two helpers -/
  | helperTwice
  /-- `CHECK(helper != -1)`: a queued unit is held by no helper -/
  | helperMissing
  /-- `CHECK(numworking > 0)` -/
  | numworking
  /-- `CHECK(done_[workidx] == false)` -/
  | doneFalse
  /-- `CHECK(workidx < workqueued_)` of `FetchWork` -/
  | fetchQueued
  /-- `CHECK(helper->state == DISCONNECTED)` of `FetchWork` -/
  | fetchDisconnected
  /-- a call of SDL_net failed: `CHECK(helper->sock)` of `FetchWork`, and in `Loop`
  `CHECK(ss != NULL)`, `CHECK(-1 != SDLNet_TCP_AddSocket(ss, helpers_[i].sock))` and the
  `abort()` after `SDLNet_CheckSockets` returned `-1` -/
  | connect
  /-- `CHECK(workqueued_ < work_.size())` of `DoNextWork` -/
  | nextWork
  /-- an access outside `work_` (no `CHECK` in the source; undefined there) -/
  | outOfRange
deriving DecidableEq, Repr

namespace GetAnswers

variable {ν Req Res : Type}

/-- The constructor `GetAnswers(ports, requests)`; `res0` is the default-constructed
`Response`. -/
def new (res0 : Res) (ports : List Int) (requests : List Req) : GetAnswers Req Res :=
  { helpers_ := ports.map (fun p => { port := p, state := .DISCONNECTED, workidx := none }),
    work_ := requests.map (fun r => { req := r, res := res0 }),
    done_ := requests.map (fun _ => false),
    workdone_ := 0,
    workqueued_ := 0 }

/-- The scan of `GetIdleHelper`, from index `i` on. -/
def idleFrom : List Helper → Nat → Option Nat
  | [], _ => none
  | h :: hs, i => if h.state = .DISCONNECTED then some i else idleFrom hs (i + 1)

/-- The `GetAnswers::GetIdleHelper` method (`none` for `-1`). -/
def GetIdleHelper (ga : GetAnswers Req Res) : Option Nat := idleFrom ga.helpers_ 0

/-- The `GetAnswers::FetchWork` method on the helper `helper`, which is `helpers_[h]`: the
network state and the helper it leaves. -/
def FetchWork (net : Net ν Req Res) (nu : ν) (ga : GetAnswers Req Res)
    (h : Nat) (helper : Helper) (workidx : Nat) : Except Check (ν × Helper) :=
  if workidx < ga.workqueued_ then
    if helper.state = .DISCONNECTED then
      match ga.work_[workidx]? with
      | none => .error .outOfRange
      | some w =>
        match net.fetch nu h helper.port w.req with
        | none => .error .connect
        | some nu1 => .ok (nu1, { helper with state := .WORKING, workidx := some workidx })
    else .error .fetchDisconnected
  else .error .fetchQueued

/-- The `GetAnswers::DoNextWork` method. -/
def DoNextWork (net : Net ν Req Res) (nu : ν) (ga : GetAnswers Req Res) (helperidx : Nat) :
    Except Check (ν × GetAnswers Req Res) :=
  if ga.workqueued_ < ga.work_.length then
    let workidx := ga.workqueued_
    let ga1 := { ga with workqueued_ := ga.workqueued_ + 1 }
    match ga1.helpers_[helperidx]? with
    | none => .error .outOfRange
    | some helper =>
      match FetchWork net nu ga1 helperidx helper workidx with
      | .error c => .error c
      | .ok (nu1, helper1) => .ok (nu1, { ga1 with helpers_ := ga1.helpers_.set helperidx helper1 })
  else .error .nextWork

/-- The loop `while (workqueued_ < work_.size())` of `Loop`, which hands the next unit to an
idle helper until there is no unit or no idle helper left. Each turn increments
`workqueued_`, so `work_.size()` turns of fuel are never used up. -/
def enqueue (net : Net ν Req Res) : Nat → ν → GetAnswers Req Res →
    Except Check (ν × GetAnswers Req Res)
  | 0, nu, ga => .ok (nu, ga)
  | fuel + 1, nu, ga =>
    if ga.workqueued_ < ga.work_.length then
      match ga.GetIdleHelper with
      | none => .ok (nu, ga)
      | some idle =>
        match DoNextWork net nu ga idle with
        | .error c => .error c
        | .ok (nu1, ga1) => enqueue net fuel nu1 ga1
    else .ok (nu, ga)

/-- The window `[low, high)` of units that the progress meter shows (`MAXCOLS = 77`). -/
def meterWindow (ga : GetAnswers Req Res) : Nat × Nat :=
  let high := ga.work_.length
  if high > 77 then
    let overflow := high - 77
    let low := min overflow ga.workdone_
    let overflow := overflow - low
    if overflow > 0 then (low, high - overflow) else (low, high)
  else (0, high)

/-- The checks made while the meter draws unit `i`: a unit that is queued and not done is
held by exactly one helper. -/
def meterCell (ga : GetAnswers Req Res) (i : Nat) : Except Check Unit :=
  if ga.done_.getD i false then .ok ()
  else if i < ga.workqueued_ then
    match ga.helpers_.countP (fun h => h.workidx == some i) with
    | 0 => .error .helperMissing
    | 1 => .ok ()
    | _ => .error .helperTwice
  else .ok ()

/-- The loop `for (i = low; i < high; i++)` of the meter. -/
def meterCells (ga : GetAnswers Req Res) : List Nat → Except Check Unit
  | [] => .ok ()
  | i :: rest =>
    match meterCell ga i with
    | .error c => .error c
    | .ok _ => meterCells ga rest

/-- The drawing of the meter at the top of `Loop`, for its `CHECK`s. -/
def meterCheck (ga : GetAnswers Req Res) : Except Check Unit :=
  if (meterWindow ga).1 < (meterWindow ga).2 then
    meterCells ga (List.range' (meterWindow ga).1 ((meterWindow ga).2 - (meterWindow ga).1))
  else .error .lowHigh

/-- The body of the loop `for (i < helpers_.size())` of `Loop` that reads results: helper `i`,
when it is working and its socket is ready, either delivers its result or is sent the same
unit again. -/
def handleHelper (net : Net ν Req Res) (s : ν × GetAnswers Req Res) (i : Nat) :
    Except Check (ν × GetAnswers Req Res) :=
  match s.2.helpers_[i]? with
  | none => .ok s
  | some helper =>
    if helper.state = .WORKING ∧ net.ready s.1 i = true then
      match helper.workidx with
      | none => .error .outOfRange
      | some workidx =>
        match s.2.work_[workidx]? with
        | none => .error .outOfRange
        | some w =>
          match net.read s.1 i with
          | (nu1, .ok r) =>
            if s.2.done_.getD workidx false = false then
              .ok (net.close nu1 i,
                { s.2 with
                  work_ := s.2.work_.set workidx { w with res := r },
                  done_ := s.2.done_.set workidx true,
                  helpers_ := s.2.helpers_.set i
                    { helper with state := .DISCONNECTED, workidx := none } })
            else .error .doneFalse
          | (nu1, .parseError g) =>
            let ga1 := { s.2 with work_ := s.2.work_.set workidx { w with res := g } }
            match FetchWork net (net.close nu1 i) ga1 i
                { helper with state := .DISCONNECTED } workidx with
            | .error c => .error c
            | .ok (nu2, helper2) => .ok (nu2, { ga1 with helpers_ := ga1.helpers_.set i helper2 })
          | (nu1, .ioError) =>
            match FetchWork net (net.close nu1 i) s.2 i
                { helper with state := .DISCONNECTED } workidx with
            | .error c => .error c
            | .ok (nu2, helper2) => .ok (nu2, { s.2 with helpers_ := s.2.helpers_.set i helper2 })
    else .ok s

/-- The loop over the helpers, for the indices in the list. -/
def handleHelpers (net : Net ν Req Res) :
    List Nat → ν × GetAnswers Req Res → Except Check (ν × GetAnswers Req Res)
  | [], s => .ok s
  | i :: rest, s =>
    match handleHelper net s i with
    | .error c => .error c
    | .ok s1 => handleHelpers net rest s1

/-- The loop `while (workdone_ < work_.size() && done_[workdone_]) workdone_++`. Each turn
increments `workdone_`, so `work_.size()` turns of fuel are never used up. -/
def advance : Nat → GetAnswers Req Res → GetAnswers Req Res
  | 0, ga => ga
  | fuel + 1, ga =>
    if ga.workdone_ < ga.work_.length ∧ ga.done_.getD ga.workdone_ false = true then
      advance fuel { ga with workdone_ := ga.workdone_ + 1 }
    else ga

/-- The count `numworking` of helpers in state `WORKING`. -/
def numworking (ga : GetAnswers Req Res) : Nat :=
  ga.helpers_.countP (fun h => h.state == .WORKING)

/-- The checks `CHECK(-1 != SDLNet_TCP_AddSocket(ss, helpers_[i].sock))` of the loop that
counts the helpers in state `WORKING`: whether all of them pass. -/
def addSockets (net : Net ν Req Res) (nu : ν) (ga : GetAnswers Req Res) : Bool :=
  (List.range ga.helpers_.length).all (fun i =>
    match ga.helpers_[i]? with
    | none => true
    | some helper => if helper.state = .WORKING then net.add nu i else true)

/-- One turn of the `for (;;)` of `GetAnswers::Loop`. The result is `(true, s)` when the loop
returns in state `s`, and `(false, s)` when the turn ends in state `s` and the loop goes on. -/
def LoopBody (net : Net ν Req Res) (s : ν × GetAnswers Req Res) :
    Except Check (Bool × ν × GetAnswers Req Res) :=
  match meterCheck s.2 with
  | .error c => .error c
  | .ok _ =>
    if s.2.workdone_ = s.2.work_.length then .ok (true, s)
    else
      match enqueue net s.2.work_.length s.1 s.2 with
      | .error c => .error c
      | .ok (nu1, ga1) =>
        if net.alloc nu1 ga1.helpers_.length = true then
          if addSockets net nu1 ga1 = true then
            if numworking ga1 > 0 then
              if net.checkFails nu1 = true then .error .connect
              else
                match handleHelpers net (List.range ga1.helpers_.length)
                    (net.check nu1, ga1) with
                | .error c => .error c
                | .ok (nu2, ga2) => .ok (false, nu2, advance ga2.work_.length ga2)
            else .error .numworking
          else .error .connect
        else .error .connect

/-- The `GetAnswers::Loop` method, for at most `fuel` turns: `none` when the fuel runs out,
`some (.error c)` when the check `c` fails, `some (.ok s)` when the loop returns in
state `s`. -/
def Loop (net : Net ν Req Res) : Nat → ν × GetAnswers Req Res →
    Option (Except Check (ν × GetAnswers Req Res))
  | 0, _ => none
  | fuel + 1, s =>
    match LoopBody net s with
    | .error c => some (.error c)
    | .ok (true, s1) => some (.ok s1)
    | .ok (false, s1) => Loop net fuel s1

/-- The `GetAnswers::GetWork` method. -/
def GetWork (ga : GetAnswers Req Res) : List (Work Req Res) := ga.work_

/-- The states that `Loop` passes through, started on the network state `nu0` with the
dispatcher just constructed: the states at the top of a turn of the `for (;;)`, and inside a
turn the states after units were queued, after the sockets were polled and after a helper
was handled in the reading loop. -/
inductive Reachable (net : Net ν Req Res) (nu0 : ν) (res0 : Res) (ports : List Int)
    (requests : List Req) : ν × GetAnswers Req Res → Prop where
  | init : Reachable net nu0 res0 ports requests (nu0, GetAnswers.new res0 ports requests)
  | turn (s s1 : ν × GetAnswers Req Res) (b : Bool) :
      Reachable net nu0 res0 ports requests s → LoopBody net s = .ok (b, s1) →
      Reachable net nu0 res0 ports requests s1
  | queued (s s1 : ν × GetAnswers Req Res) (fuel : Nat) :
      Reachable net nu0 res0 ports requests s → enqueue net fuel s.1 s.2 = .ok s1 →
      Reachable net nu0 res0 ports requests s1
  | polled (s : ν × GetAnswers Req Res) :
      Reachable net nu0 res0 ports requests s →
      Reachable net nu0 res0 ports requests (net.check s.1, s.2)
  | handled (s s1 : ν × GetAnswers Req Res) (i : Nat) :
      Reachable net nu0 res0 ports requests s → handleHelper net s i = .ok s1 →
      Reachable net nu0 res0 ports requests s1

end GetAnswers

/-- Modelled from the spec: the mock worker of its section 8 (dispatcher fault tolerance),
one that fails its first `K` attempts and then succeeds. Helper `h` is sent a request and
answers it with `answer req` after `K req` failed reads. The state of a connection is the request awaiting its answer
and the number of reads that will still fail; a request that arrives while one awaits its
answer is the resubmission of that one. Every socket is always ready, and the socket set
is allocated and filled without error. -/
def mockNet {Req Res : Type} (K : Req → Nat) (answer : Req → Res) :
    Net (Nat → Option Req × Nat) Req Res :=
  { fetch := fun nu h _ req =>
      match nu h with
      | (some _, left) => some (fun j => if j = h then (some req, left) else nu j)
      | (none, _) => some (fun j => if j = h then (some req, K req) else nu j),
    alloc := fun _ _ => true,
    add := fun _ _ => true,
    checkFails := fun _ => false,
    check := fun nu => nu,
    ready := fun _ _ => true,
    read := fun nu h =>
      match nu h with
      | (some req, 0) => (fun j => if j = h then (none, 0) else nu j, .ok (answer req))
      | (some req, left + 1) => (fun j => if j = h then (some req, left) else nu j, .ioError)
      | (none, _) => (nu, .ioError),
    close := fun nu _ => nu }

/-- The mock network before any connection. -/
def mockNet0 {Req : Type} : Nat → Option Req × Nat := fun _ => (none, 0)

end Tasbot

namespace Tasbot

/-- What holds of the dispatcher at the top of each turn of `Loop` and between the statements
of a turn: `done_` has a flag per unit; a helper is `WORKING` exactly when it holds a unit;
each unit that is queued and not done is held by exactly one helper, every other unit by
none; only queued units are done; the units below `workdone_` are done. -/
structure GetAnswers.Inv {Req Res : Type} (ga : GetAnswers Req Res) : Prop where
  done_length : ga.done_.length = ga.work_.length
  queued_le : ga.workqueued_ ≤ ga.work_.length
  state_iff : ∀ h ∈ ga.helpers_, (h.state = .WORKING ↔ h.workidx ≠ none)
  held : ∀ u, ga.helpers_.countP (fun h => h.workidx == some u)
    = if u < ga.workqueued_ ∧ ga.done_.getD u false = false then 1 else 0
  done_queued : ∀ u, ga.done_.getD u false = true → u < ga.workqueued_
  done_below : ∀ u, u < ga.workdone_ → ga.done_.getD u false = true

end Tasbot

namespace Tasbot

/-! ### The mock network: what is left to do -/

/-- The reads that a unit which is not yet queued will take: the `K req` that fail and the
one that succeeds. -/
def unitLoad {Req : Type} (K : Req → Nat) (reqs : List Req) (u : Nat) : Nat :=
  match reqs[u]? with
  | some r => K r + 1
  | none => 0

/-- The reads that the unit held by a helper will still take, `left` of them failing. -/
def helperLoad (left : Nat) : Option Helper → Nat
  | some helper => if helper.state = .WORKING then left + 1 else 0
  | none => 0

/-- The number of reads that the dispatcher still has to make on the mock network. -/
def mockLoad {Req Res : Type} (K : Req → Nat)
    (s : (Nat → Option Req × Nat) × GetAnswers Req Res) : Nat :=
  (∑ u ∈ Finset.Ico s.2.workqueued_ s.2.work_.length,
      unitLoad K (s.2.work_.map (fun w => w.req)) u)
    + ∑ h ∈ Finset.range s.2.helpers_.length, helperLoad (s.1 h).2 s.2.helpers_[h]?

/-- What holds of the dispatcher on the mock network: the invariant of the dispatcher; a
connection awaits the answer to the request of the unit that its helper holds, and awaits
nothing when the helper holds no unit; and the result recorded for a unit that is done is
the answer to its request. -/
structure MockInv {Req Res : Type} (answer : Req → Res)
    (s : (Nat → Option Req × Nat) × GetAnswers Req Res) : Prop where
  inv : s.2.Inv
  pending : ∀ h helper u w, s.2.helpers_[h]? = some helper → helper.workidx = some u →
    s.2.work_[u]? = some w → (s.1 h).1 = some w.req
  idle : ∀ h helper, s.2.helpers_[h]? = some helper → helper.workidx = none → (s.1 h).1 = none
  results : ∀ u w, s.2.done_.getD u false = true → s.2.work_[u]? = some w →
    w.res = answer w.req

/-- The loop that advances `workdone_` has run to its end: `workdone_` is the number of
units, or the unit at `workdone_` is not done. -/
def Advanced {Req Res : Type} (ga : GetAnswers Req Res) : Prop :=
  ga.workdone_ = ga.work_.length ∨ ga.done_.getD ga.workdone_ false = false

end Tasbot

namespace Tasbot

/-! ## Observations and `GetNormalizedValue` (weighted-objectives.cc) -/

/-- The comparison `operator<` of `vector<uint8>` (lexicographic, a proper prefix is
smaller), which `std::sort` and `lower_bound` use on the observations. -/
def vecLess : List Nat → List Nat → Bool
  | _, [] => false
  | [], _ :: _ => true
  | a :: as, b :: bs => if a < b then true else if b < a then false else vecLess as bs

/-- The loop of `Observe` and of `GetNormalizedValue` that projects a memory on an objective:
`cur->push_back(memory[obj[i]])`, without a bounds check. -/
def projectMemory (mem : List Nat) (objective : List Nat) : List Nat :=
  objective.map (memAt mem)

/-- The `WeightedObjectives::Observe` method: every objective gets the projection of `memory`
appended to its observations, which are then sorted with `std::sort`. -/
def Observe (weighted : Weighted) (memory : List Nat) : Weighted :=
  weighted.map (fun it =>
    (it.1, { it.2 with
      observations := List.insertionSort (fun a b => vecLess b a = false)
        (it.2.observations ++ [projectMemory memory it.1]) }))

/-- The static function `GetValueIndex`: `lower_bound(values.begin(), values.end(), now)
- values.begin()`, the number of leading values that are smaller than `now`. -/
def GetValueIndex (values : List (List Nat)) (now : List Nat) : Nat :=
  (values.takeWhile (fun v => vecLess v now)).length

/-- The division of a `double` by a size converted to `double`. `none` stands for the result
of a division by zero (NaN or an infinity), which no later sum or quotient turns into a
number again. -/
def divSize (a : ℚ) (size : Nat) : Option ℚ :=
  if size = 0 then none else some (a / size)

/-- The static function `GetValueFrac`: `(double)idx / values.size()`. -/
def GetValueFrac (values : List (List Nat)) (now : List Nat) : Option ℚ :=
  divSize (GetValueIndex values now) values.length

/-- The body of the loop of `GetNormalizedValue`: `sum += GetValueFrac(info.observations,
cur)`. -/
def normalizedStep (mem : List Nat) (sum : Option ℚ) (it : List Nat × Info) : Option ℚ :=
  match sum, GetValueFrac it.2.observations (projectMemory mem it.1) with
  | some s, some f => some (s + f)
  | _, _ => none

/-- The `WeightedObjectives::GetNormalizedValue` method: the sum of the fractions, then
`sum /= (double)weighted.size()`. -/
def GetNormalizedValue (weighted : Weighted) (mem : List Nat) : Option ℚ :=
  match weighted.foldl (normalizedStep mem) (some 0) with
  | some sum => divSize sum weighted.length
  | none => none

end Tasbot

namespace Tasbot

/-! ## Framed messages: `sdlnet_recvall` (netutil.cc) and `ReadProto` (netutil.h) -/

/-- The constant `MAX_MESSAGE`, `1 << 30`. -/
def MAX_MESSAGE : Nat := 1073741824

/-- Modelled from the spec: a TCP connection of `SDL_net`, which is outside the sources at
hand, is a state `σ` with the operation `recv s maxlen`, the call
`SDLNet_TCP_Recv(sock, buffer, maxlen)`: it gives the state after the call, the value
returned (the number of bytes received, or a value `≤ 0` for an error or a closed
connection) and the bytes received; `errno s` is the value of `errno` in state `s`. -/
structure Conn (σ : Type) where
  recv : σ → Nat → σ × Int × List Nat
  errno : σ → Int

/-- The `ret` bytes that a call of `SDLNet_TCP_Recv` stores in the buffer (a byte that the
connection does not supply reads as 0). -/
def stored (data : List Nat) (ret : Int) : List Nat :=
  (List.range ret.toNat).map (fun i => data.getD i 0)

/-- What a read leaves behind: the connection, the calls of `SDLNet_TCP_Recv` made (the
length asked for and the value returned, in order), the value returned and the buffer
contents. -/
structure Recvd (σ : Type) where
  sock : σ
  recvs : List (Nat × Int)
  ret : Int
  buffer : List Nat

/-- The loop `while (len > 0)` of `sdlnet_recvall`, with `alreadyread` and the part of the
buffer filled so far. Every further turn has a smaller `len`, so `len` turns suffice; the
first argument counts the turns left. -/
def recvallLoop {σ : Type} (conn : Conn σ) :
    Nat → σ → Nat → Nat → List Nat → List (Nat × Int) → Recvd σ
  | 0, s, _, alreadyread, buffer, recvs => ⟨s, recvs, alreadyread, buffer⟩
  | fuel + 1, s, len, alreadyread, buffer, recvs =>
    if 0 < len then
      let r := conn.recv s len
      let ret := r.2.1
      let recvs := recvs ++ [(len, ret)]
      if ret ≤ 0 then ⟨r.1, recvs, ret, buffer⟩
      else if ret > len then ⟨r.1, recvs, -1, buffer⟩
      else if ret = len then ⟨r.1, recvs, alreadyread + ret, buffer ++ stored r.2.2 ret⟩
      else if conn.errno r.1 ≠ 0 then
        ⟨r.1, recvs, alreadyread + ret, buffer ++ stored r.2.2 ret⟩
      else
        recvallLoop conn fuel r.1 (len - ret.toNat) (alreadyread + ret.toNat)
          (buffer ++ stored r.2.2 ret) recvs
    else ⟨s, recvs, alreadyread, buffer⟩

/-- The `sdlnet_recvall` function. -/
def sdlnet_recvall {σ : Type} (conn : Conn σ) (s : σ) (len : Nat) : Recvd σ :=
  recvallLoop conn len s len 0 [] []

/-- Modelled from the spec: `SDLNet_Read32` of `SDL_net` reads the four bytes of the header
as a big-endian number. -/
def SDLNet_Read32 (header : List Nat) : Nat :=
  16777216 * (header.getD 0 0 % 256) + 65536 * (header.getD 1 0 % 256)
    + 256 * (header.getD 2 0 % 256) + header.getD 3 0 % 256

/-- Modelled from the spec: `SDLNet_Write32` of `SDL_net`, with which `WriteProto` writes the
header: the four bytes of `len`, most significant first. -/
def SDLNet_Write32 (len : Nat) : List Nat :=
  [len / 16777216 % 256, len / 65536 % 256, len / 256 % 256, len % 256]

/-- What `ReadProto` leaves behind: the connection, the calls of `SDLNet_TCP_Recv` made, the
size of the buffer it allocated with `malloc` (if it got there), and the message parsed when
it returns `true` (`none` when it returns `false`). -/
structure ProtoRead (σ T : Type) where
  sock : σ
  recvs : List (Nat × Int)
  allocated : Option Nat
  result : Option T

/-- The `ReadProto` function template; `parse` is `T::ParseFromArray`. The `malloc` is taken
to succeed. -/
def ReadProto {σ T : Type} (conn : Conn σ) (parse : List Nat → Option T) (s : σ) :
    ProtoRead σ T :=
  let r := conn.recv s 4
  let bytes := r.2.1
  if 4 ≠ bytes then ⟨r.1, [(4, bytes)], none, none⟩
  else
    let len := SDLNet_Read32 (stored r.2.2 4)
    if len > MAX_MESSAGE then ⟨r.1, [(4, bytes)], none, none⟩
    else
      let p := sdlnet_recvall conn r.1 len
      if (len : Int) ≠ p.ret then ⟨p.sock, (4, bytes) :: p.recvs, some len, none⟩
      else ⟨p.sock, (4, bytes) :: p.recvs, some len, parse p.buffer⟩

/-- A connection for concrete runs: the bytes the peer has sent and that were not received
yet, and the sizes of the next deliveries (past the end of that list a call receives all it
asks for). A call receives the bytes of one delivery, at most `maxlen` of them; it returns 0
when nothing is left; `errno` stays 0. -/
structure Wire where
  incoming : List Nat
  chunks : List Nat

/-- The connection that `Wire` describes. -/
def wire : Conn Wire :=
  { recv := fun w maxlen =>
      let k := min (w.chunks.headD maxlen) (min maxlen w.incoming.length)
      (⟨w.incoming.drop k, w.chunks.tail⟩, (k : Int), w.incoming.take k)
    errno := fun _ => 0 }

end Tasbot

namespace Tasbot

/-! ## The planner state (playfun-backtrack.cc): `Commit`, `Rewind`, checkpoints -/

/-- The constant `CHECKPOINT_EVERY`. -/
def CHECKPOINT_EVERY : Nat := 100

/-- The constant `OBSERVE_EVERY`. -/
def OBSERVE_EVERY : Nat := 10

/-- The `PlayFun::Checkpoint` struct. -/
structure Checkpoint where
  save : List Nat
  movenum : Nat
deriving DecidableEq

/-- The part of a `PlayFun` object that `Commit`, `Rewind` and the backtracking step work on,
together with the emulator (its machine state and its cache), which is global in the
source. -/
structure PlayFun where
  state : List Nat
  cache : StateCache
  movie : List Nat
  subtitles : List String
  checkpoints : List Checkpoint
  memories : List (List Nat)
  objectives : Weighted
  watermark : Nat

/-- The planner before the first `Commit`: the machine in the state `st0` that
`Emulator::Initialize` leaves, the loaded objectives, and the cache after
`ResetCache(100000, 10000)`. -/
def PlayFun.init (st0 : List Nat) (objectives : Weighted) : PlayFun :=
  { state := st0, cache := Emulator.ResetCache 100000 10000 StateCache.new,
    movie := [], subtitles := [], checkpoints := [], memories := [],
    objectives := objectives, watermark := 0 }

/-- The `PlayFun::Commit` method; `none` when `CachingStep` aborts. -/
def Commit (E : Engine) (input : Nat) (message : String) (pf : PlayFun) : Option PlayFun :=
  match Emulator.CachingStep E input pf.cache pf.state with
  | none => none
  | some (cache, state) =>
    let movie := pf.movie ++ [input]
    let subtitles := pf.subtitles ++ [message]
    let checkpoints :=
      if movie.length % CHECKPOINT_EVERY = 0 then
        pf.checkpoints ++ [⟨Emulator.SaveUncompressed state, movie.length⟩]
      else pf.checkpoints
    let observe : Bool := movie.length % OBSERVE_EVERY = 0
    let mem := Emulator.GetMemory E state
    some { pf with
      state := state, cache := cache, movie := movie, subtitles := subtitles,
      checkpoints := checkpoints,
      memories := if observe then pf.memories ++ [mem] else pf.memories,
      objectives := if observe then Observe pf.objectives mem else pf.objectives }

/-- The `PlayFun::Rewind` method; `none` when one of its three `CHECK`s fails. The loop pops
checkpoints from the back while the last one has a larger `movenum`. -/
def Rewind (movenum : Int) (pf : PlayFun) : Option PlayFun :=
  if 0 ≤ movenum ∧ movenum < pf.movie.length ∧ pf.movie.length = pf.subtitles.length then
    some { pf with
      movie := pf.movie.take movenum.toNat,
      subtitles := pf.subtitles.take movenum.toNat,
      checkpoints := pf.checkpoints.rdropWhile (fun cp => decide ((cp.movenum : Int) > movenum)) }
  else none

/-- Replaying a list of inputs from a machine state with `Emulator::Step`. -/
def replay (E : Engine) (st0 : List Nat) (inputs : List Nat) : List Nat :=
  inputs.foldl (fun st input => Emulator.Step E input st) st0

/-- The planner states that arise from the initial one through
* `Commit` (in the constructor's warm-up the watermark is incremented after it);
* the backtracking sequence of `MaybeBacktrack`: `Rewind(start.movenum)` followed by
  `LoadUncompressed(&start.save)`, for a stored checkpoint `start`;
* exploration, as in `TakeBestAmong`: the state is saved, the emulator is put in arbitrary
  states and stepped with `CachingStep`, and the saved state is loaded again. -/
inductive PlayFun.Reachable (E : Engine) (st0 : List Nat) (objectives : Weighted) :
    PlayFun → Prop
  | init : PlayFun.Reachable E st0 objectives (PlayFun.init st0 objectives)
  | commit (pf pf1 : PlayFun) (input : Nat) (message : String) :
      PlayFun.Reachable E st0 objectives pf → Commit E input message pf = some pf1 →
      PlayFun.Reachable E st0 objectives pf1
  | warmup (pf pf1 : PlayFun) (input : Nat) :
      PlayFun.Reachable E st0 objectives pf → Commit E input "warmup" pf = some pf1 →
      PlayFun.Reachable E st0 objectives { pf1 with watermark := pf1.watermark + 1 }
  | backtrack (pf pf1 : PlayFun) (start : Checkpoint) (st : List Nat) :
      PlayFun.Reachable E st0 objectives pf → start ∈ pf.checkpoints →
      Rewind start.movenum pf = some pf1 →
      Emulator.LoadUncompressed E start.save = some st →
      PlayFun.Reachable E st0 objectives { pf1 with state := st }
  | explore (pf : PlayFun) (steps : List (List Nat × Nat)) (cache : StateCache)
      (outs : List (List Nat)) (st : List Nat) :
      PlayFun.Reachable E st0 objectives pf →
      Emulator.runCaching E pf.cache steps = some (cache, outs) →
      Emulator.LoadUncompressed E (Emulator.SaveUncompressed pf.state) = some st →
      PlayFun.Reachable E st0 objectives { pf with cache := cache, state := st }

/-- What holds of every reachable planner state: the machine is in the state that the movie
replays to, the cache holds results of `Step` only, movie and subtitles have one length, and
the checkpoints are in increasing order of `movenum`, within the movie, each holding the
state that its prefix of the movie replays to. -/
structure PlayFun.Inv (E : Engine) (st0 : List Nat) (pf : PlayFun) : Prop where
  sync : pf.state = replay E st0 pf.movie
  sound : pf.cache.Sound E
  subtitles_length : pf.subtitles.length = pf.movie.length
  movenum_le : ∀ cp ∈ pf.checkpoints, cp.movenum ≤ pf.movie.length
  sorted : pf.checkpoints.Pairwise (fun a b => a.movenum < b.movenum)
  save_eq : ∀ cp ∈ pf.checkpoints, cp.save = replay E st0 (pf.movie.take cp.movenum)

/-- A run of `Commit`s. -/
def Commits (E : Engine) (message : String) : List Nat → PlayFun → Option PlayFun
  | [], pf => some pf
  | input :: rest, pf =>
    match Commit E input message pf with
    | none => none
    | some pf1 => Commits E message rest pf1

/-- The engine accepts the states it steps to from the states of `good`, which are not
empty, and those are states of `good` again. -/
structure Engine.Closed (E : Engine) (good : List Nat → Prop) : Prop where
  ne_nil : ∀ st, good st → st ≠ []
  accepts : ∀ st, good st → E.loadRAW st = true
  step : ∀ input st, good st → good (Emulator.Step E input st)

end Tasbot

namespace Tasbot

/-! ## Scoring a candidate: `ScoreByFuture`, `InnerLoop` and the two branches of
`ParallelStep` (playfun-backtrack.cc) -/

/-- The constant `NFUTURES`. -/
def NFUTURES : Nat := 34

/-- The `PlayFun::ScoreByFuture` method, which leaves the machine at the end of the future:
the cache and the machine state it leaves, and the score. -/
def ScoreByFuture (E : Engine) (objectives : Weighted) (cache : StateCache) (st : List Nat)
    (future base_memory : List Nat) : Option (StateCache × List Nat × ℚ) :=
  match Emulator.cachingSteps E cache st future with
  | none => none
  | some (c1, st1) =>
    some (c1, st1, Evaluate objectives base_memory (Emulator.GetMemory E st1))

/-- The store `(*futurescores)[f] += future_score`; `none` when `f` is outside the vector. -/
def addAt (v : List ℚ) (f : Nat) (x : ℚ) : Option (List ℚ) :=
  if f < v.length then some (v.set f (v.getD f 0 + x)) else none

/-- What `InnerLoop` works on: the emulator (cache and machine state) and its outputs. -/
structure InnerState where
  cache : StateCache
  state : List Nat
  res : PlayFunResponse

/-- The outputs of `InnerLoop` after one more future scored `future_score`: the sum, the
maximum and the minimum. -/
def scoreFuture (res : PlayFunResponse) (futurescores : List ℚ) (future_score : ℚ) :
    PlayFunResponse :=
  { res with
    futurescores := futurescores
    futures_score := res.futures_score + future_score
    best_future_score :=
      if future_score > res.best_future_score then future_score else res.best_future_score
    worst_future_score :=
      if future_score < res.worst_future_score then future_score
      else res.worst_future_score }

/-- The loop over the futures in `InnerLoop`, from future `f` on; `norig` is
`futures_orig.size()`. -/
def innerLoopFutures (E : Engine) (objectives : Weighted) (new_memory new_state : List Nat)
    (norig : Nat) : List (List Nat) → Nat → InnerState → Option InnerState
  | [], _, s => some s
  | future :: rest, f, s =>
    match (if f ≠ 0 then Emulator.LoadUncompressed E new_state else some s.state) with
    | none => none
    | some st =>
      match ScoreByFuture E objectives s.cache st future new_memory with
      | none => none
      | some (c1, st1, future_score) =>
        match (if f < norig then addAt s.res.futurescores f future_score
               else some s.res.futurescores) with
        | none => none
        | some futurescores =>
          innerLoopFutures E objectives new_memory new_state norig rest (f + 1)
            { cache := c1, state := st1, res := scoreFuture s.res futurescores future_score }

/-- The synthetic future of `InnerLoop`: `next.back()` held for `average_future_length`
frames; `none` when `next.back()` is read from an empty `next`. -/
def fakeFuture (next : List Nat) (average_future_length : Nat) : Option (List Nat) :=
  if average_future_length = 0 then some []
  else next.getLast?.map (fun b => List.replicate average_future_length b)

/-- The `PlayFun::InnerLoop` method for the candidate `next`, on the emulator's cache (the
machine state it starts from is loaded from `current_state`); `futurescores` is the vector
the caller passes. `none` when the emulator aborts, when there is no future (the average
length is then the conversion of 0/0 to `int`), or when a store is outside its vector. -/
def InnerLoop (E : Engine) (objectives : Weighted) (cache : StateCache) (next : List Nat)
    (futures_orig : List (List Nat)) (current_state : List Nat) (futurescores : List ℚ) :
    Option InnerState :=
  match Emulator.LoadUncompressed E current_state with
  | none => none
  | some st =>
    let current_memory := Emulator.GetMemory E st
    match Emulator.cachingSteps E cache st next with
    | none => none
    | some (c1, st1) =>
      let new_memory := Emulator.GetMemory E st1
      let new_state := Emulator.SaveUncompressed st1
      let immediate_score := Evaluate objectives current_memory new_memory
      if futures_orig.length = 0 then none
      else
        let total_future_length := (futures_orig.map (fun f => f.length)).sum
        let average_future_length := total_future_length / futures_orig.length
        match fakeFuture next average_future_length with
        | none => none
        | some fakefuture_hold =>
          innerLoopFutures E objectives new_memory new_state futures_orig.length
            (futures_orig ++ [fakefuture_hold]) 0
            { cache := c1, state := st1,
              res := { immediate_score := immediate_score,
                       best_future_score := -9999999,
                       worst_future_score := 9999999,
                       futures_score := 0,
                       futurescores := futurescores } }

/-- The `PlayFunRequest` message: the state, the candidate and the inputs of the futures. -/
structure PlayFunRequest where
  current_state : List Nat
  next : List Nat
  futures : List (List Nat)
deriving DecidableEq

/-- The default-constructed `PlayFunResponse`. -/
def PlayFunResponse.empty : PlayFunResponse :=
  { immediate_score := 0, best_future_score := 0, worst_future_score := 0,
    futures_score := 0, futurescores := [] }

/-- The branch of `PlayFun::Helper` for a `playfun` request, on the helper's emulator cache:
`InnerLoop` on the decoded request with `futurescores(futures.size(), 0.0)`, and the
response built from its outputs. -/
def helperPlayFun (E : Engine) (objectives : Weighted) (cache : StateCache)
    (req : PlayFunRequest) : Option InnerState :=
  InnerLoop E objectives cache req.next req.futures req.current_state
    (List.replicate req.futures.length 0)

/-- The struct `Scoredist`, without the fields that only the diagnostics use. -/
structure Scoredist where
  immediates : List ℚ
  positives : List ℚ
  negatives : List ℚ
  norms : List ℚ
  chosen_idx : Nat
deriving DecidableEq

/-- The four `push_back` on `distribution` for a candidate with scores `res`. -/
def Scoredist.push (d : Scoredist) (res : PlayFunResponse) : Scoredist :=
  { d with
    immediates := d.immediates ++ [res.immediate_score]
    positives := d.positives ++ [res.futures_score]
    negatives := d.negatives ++ [res.worst_future_score]
    norms := d.norms ++ [0] }

/-- What `ParallelStep` leaves: the emulator, `*futuretotals`, `best_score` and
`*best_next_idx`, and the distribution pushed on `distributions`. -/
structure Stepped where
  cache : StateCache
  state : List Nat
  sel : Selection
  distribution : Scoredist

/-- The candidate loop of the local branch (`#else`) of `ParallelStep`, from candidate `i`
on: `InnerLoop` with `futurescores(NFUTURES, 0.0)`, then the sums into `*futuretotals` and
the selection. -/
def parallelStepLocalLoop (E : Engine) (objectives : Weighted) (futures : List (List Nat))
    (current_state : List Nat) : List (List Nat) → Nat → Stepped → Option Stepped
  | [], _, s => some s
  | next :: rest, i, s =>
    match InnerLoop E objectives s.cache next futures current_state
        (List.replicate NFUTURES 0) with
    | none => none
    | some r =>
      match parallelStepBody s.sel i r.res with
      | none => none
      | some sel1 =>
        parallelStepLocalLoop E objectives futures current_state rest (i + 1)
          { cache := r.cache, state := r.state, sel := sel1,
            distribution := s.distribution.push r.res }

/-- The `PlayFun::ParallelStep` method as compiled without `MARIONET`, on the emulator
(`cache`, `state`). -/
def ParallelStepLocal (E : Engine) (objectives : Weighted) (cache : StateCache)
    (state : List Nat) (nexts futures : List (List Nat)) (current_state : List Nat)
    (futuretotals : List ℚ) : Option Stepped :=
  if nexts.length > 0 then
    match parallelStepLocalLoop E objectives futures current_state nexts 0
        { cache := cache, state := state,
          sel := { futuretotals := futuretotals, best_score := 0, best_next_idx := 0 },
          distribution := ⟨[], [], [], [], 0⟩ } with
    | none => none
    | some s => some { s with distribution := { s.distribution with
                                                chosen_idx := s.sel.best_next_idx } }
  else none

/-- The statements `GetAnswers<Req, Res> getanswers(ports, requests); getanswers.Loop();`
followed by `getanswers.GetWork()`, with `Loop` run for at most `fuel` turns on the network
`net`: `none` when the fuel runs out or a `CHECK` fails. -/
def dispatchOn {ν Req Res : Type} (net : Net ν Req Res) (fuel : Nat) (nu0 : ν) (res0 : Res)
    (ports : List Int) (requests : List Req) : Option (List (Work Req Res)) :=
  match GetAnswers.Loop net fuel (nu0, GetAnswers.new res0 ports requests) with
  | some (.ok s) => some s.2.GetWork
  | _ => none

/-- The `PlayFun::ParallelStep` method as compiled with `MARIONET`: one request for each
candidate, the dispatch of the requests (`dispatch requests` is the work that
`GetAnswers::Loop` leaves, `none` when it does not return), then the sums and the selection
on the responses. The result holds `*futuretotals`, `best_score`, `*best_next_idx` and the
distribution. The master's emulator is not used. -/
def ParallelStepMarionet
    (dispatch : List PlayFunRequest → Option (List (Work PlayFunRequest PlayFunResponse)))
    (nexts futures : List (List Nat)) (current_state : List Nat) (futuretotals : List ℚ) :
    Option (Selection × Scoredist) :=
  if nexts.length > 0 then
    let requests := nexts.map (fun next =>
      ({ current_state := current_state, next := next, futures := futures } : PlayFunRequest))
    match dispatch requests with
    | none => none
    | some getwork =>
      let work := getwork.map (fun w => w.res)
      match ParallelStep work futuretotals with
      | none => none
      | some sel =>
        some (sel,
          { work.foldl Scoredist.push ⟨[], [], [], [], 0⟩ with chosen_idx := sel.best_next_idx })
  else none

/-- A helper's answer to a `playfun` request: the response of `helperPlayFun` run on the
cache `cacheOf req` that the helper has when the request arrives. The default response
stands for a run that aborts. -/
def helperAnswer (E : Engine) (objectives : Weighted)
    (cacheOf : PlayFunRequest → StateCache) (req : PlayFunRequest) : PlayFunResponse :=
  match helperPlayFun E objectives (cacheOf req) req with
  | some r => r.res
  | none => PlayFunResponse.empty

/-- The outputs of the loop over the futures in `InnerLoop` when every `CachingStep` is a
`Step`: the futures are replayed from `new_state`. -/
def futuresScores (E : Engine) (objectives : Weighted) (new_memory new_state : List Nat)
    (norig : Nat) : List (List Nat) → Nat → PlayFunResponse → Option PlayFunResponse
  | [], _, res => some res
  | future :: rest, f, res =>
    let future_score := Evaluate objectives new_memory
      (Emulator.GetMemory E (replay E new_state future))
    match (if f < norig then addAt res.futurescores f future_score
           else some res.futurescores) with
    | none => none
    | some futurescores =>
      futuresScores E objectives new_memory new_state norig rest (f + 1)
        (scoreFuture res futurescores future_score)

/-- The outputs of `InnerLoop` when every `CachingStep` is a `Step` and the engine accepts
every state: a function of the candidate, the futures and the starting state alone. -/
def innerLoopScores (E : Engine) (objectives : Weighted) (next : List Nat)
    (futures_orig : List (List Nat)) (current_state : List Nat) (futurescores : List ℚ) :
    Option PlayFunResponse :=
  let new_state := replay E current_state next
  let new_memory := Emulator.GetMemory E new_state
  if futures_orig.length = 0 then none
  else
    match fakeFuture next ((futures_orig.map (fun f => f.length)).sum / futures_orig.length) with
    | none => none
    | some fakefuture_hold =>
      futuresScores E objectives new_memory new_state futures_orig.length
        (futures_orig ++ [fakefuture_hold]) 0
        { immediate_score := Evaluate objectives (Emulator.GetMemory E current_state) new_memory,
          best_future_score := -9999999,
          worst_future_score := 9999999,
          futures_score := 0,
          futurescores := futurescores }

/-- The scores of the candidate `next` as `innerLoopScores` computes them on a vector of
`NFUTURES` zeros (the default response when it has no value). -/
def candidateScores (E : Engine) (objectives : Weighted) (futures : List (List Nat))
    (current_state : List Nat) (next : List Nat) : PlayFunResponse :=
  (innerLoopScores E objectives next futures current_state (List.replicate NFUTURES 0)).getD
    PlayFunResponse.empty

end Tasbot

namespace Tasbot

/-! ## Backtracking (playfun-backtrack.cc): `GetRecentCheckpoint`, `TryImprove`,
`TakeBestAmong`, `MaybeBacktrack` -/

/-- The constant `DROPFUTURES`. -/
def DROPFUTURES : Nat := 7

/-- The constant `TRY_BACKTRACK_EVERY`. -/
def TRY_BACKTRACK_EVERY : Int := 18

/-- The constant `MIN_BACKTRACK_DISTANCE`. -/
def MIN_BACKTRACK_DISTANCE : Nat := 300

/-- The struct `Replacement`. -/
structure Replacement where
  inputs : List Nat
  score : ℚ
  method : String

/-- The `TryImproveRequest` message. -/
structure TryImproveRequest where
  start_state : List Nat
  improveme : List Nat
  end_state : List Nat
  maxbest : Nat
  approach : String
  iters : Nat
  seed : String
deriving DecidableEq

/-- The `TryImproveResponse` message. -/
structure TryImproveResponse where
  inputs : List (List Nat)
  score : List ℚ
deriving DecidableEq

/-- What a build with `MARIONET` adds to the planner: the dispatch of requests to the
helpers. `improve requests` and `step requests` are the work that `GetAnswers::Loop` leaves
for the requests of `TryImprove` and of `ParallelStep`; `none` when it does not return. -/
structure Marionet where
  improve : List TryImproveRequest →
    Option (List (Work TryImproveRequest TryImproveResponse))
  step : List PlayFunRequest → Option (List (Work PlayFunRequest PlayFunResponse))

/-- The `PlayFun::GetRecentCheckpoint` method: the last checkpoint that satisfies the test
of the loop, a copy of it. The difference `movie.size() - checkpoints[i].movenum` is taken
in `size_t` (64 bits). -/
def PlayFun.GetRecentCheckpoint (pf : PlayFun) : Option Checkpoint :=
  pf.checkpoints.reverse.find? (fun cp =>
    decide ((pf.movie.length + 18446744073709551616 - cp.movenum) % 18446744073709551616
        > MIN_BACKTRACK_DISTANCE)
      && decide (cp.movenum > pf.watermark))

/-- The requests that `TryImprove` builds: one for the opposites, two each for ablation,
chop and random, with 200 iterations each and `MAXBEST` 10. -/
def tryImproveRequests (start : Checkpoint) (improveme current_state : List Nat) :
    List TryImproveRequest :=
  let req (approach : String) (seed : String) : TryImproveRequest :=
    { start_state := start.save, improveme := improveme, end_state := current_state,
      maxbest := 10, approach := approach, iters := 200, seed := seed }
  [req "OPPOSITES" ("opp" ++ toString start.movenum)]
    ++ (List.range 2).map (fun i =>
        req "ABLATION" ("abl" ++ toString start.movenum ++ "." ++ toString i))
    ++ (List.range 2).map (fun i =>
        req "CHOP" ("chop" ++ toString start.movenum ++ "." ++ toString i))
    ++ (List.range 2).map (fun i =>
        req "RANDOM" ("seed" ++ toString start.movenum ++ "." ++ toString i))

/-- The loop of `TryImprove` over the work: the replacements of each response, after
`CHECK(res.score_size() == res.inputs_size())`. -/
def collectReplacements :
    List (Work TryImproveRequest TryImproveResponse) → Option (List Replacement)
  | [] => some []
  | w :: rest =>
    if w.res.score.length = w.res.inputs.length then
      (collectReplacements rest).map (fun rs =>
        (w.res.inputs.zip w.res.score).map (fun p =>
          { inputs := p.1, score := p.2,
            method := w.req.approach ++ "-" ++ toString w.req.iters ++ "-" ++ w.req.seed })
          ++ rs)
    else none

/-- The `PlayFun::TryImprove` method: the replacements it leaves. Without `MARIONET` it
leaves none; with it, those of the helpers' responses (`none` when the dispatch does not
return or a check fails). -/
def PlayFun.TryImprove (marionet : Option Marionet) (start : Checkpoint)
    (improveme current_state : List Nat) : Option (List Replacement) :=
  match marionet with
  | none => some []
  | some m =>
    match m.improve (tryImproveRequests start improveme current_state) with
    | none => none
    | some work => collectReplacements work

/-- The `PlayFun::ParallelStep` method, in the build given by `marionet`, on the emulator
(`cache`, `state`). -/
def PlayFun.ParallelStep (E : Engine) (marionet : Option Marionet) (objectives : Weighted)
    (cache : StateCache) (state : List Nat) (nexts futures : List (List Nat))
    (current_state : List Nat) (futuretotals : List ℚ) : Option Stepped :=
  match marionet with
  | none => ParallelStepLocal E objectives cache state nexts futures current_state futuretotals
  | some m =>
    (ParallelStepMarionet m.step nexts futures current_state futuretotals).map
      (fun r => { cache := cache, state := state, sel := r.1, distribution := r.2 })

/-- The `PlayFun::TakeBestAmong` method on the planner state: the scoring of the candidates
`nexts` by `ParallelStep`, the two `CHECK`s on `best_next_idx`, the `CHECK`s of the
`DROPFUTURES` passes that drop a future (they need a future to drop in each pass), and the
replay of the best candidate with `Commit`. The futures and the motif weights, which the
method also updates, are not part of the planner state. -/
def PlayFun.TakeBestAmong (E : Engine) (marionet : Option Marionet)
    (nexts : List (List Nat)) (nextsplanations : List String) (futures : List (List Nat))
    (pf : PlayFun) : Option PlayFun :=
  let current_state := Emulator.SaveUncompressed pf.state
  let futuretotals : List ℚ := List.replicate futures.length 0
  match PlayFun.ParallelStep E marionet pf.objectives pf.cache pf.state nexts futures
      current_state futuretotals with
  | none => none
  | some stepped =>
    if stepped.sel.best_next_idx < nexts.length ∧ DROPFUTURES ≤ futures.length then
      match Emulator.LoadUncompressed E current_state with
      | none => none
      | some st =>
        Commits E (nextsplanations.getD stepped.sel.best_next_idx "")
          (nexts.getD stepped.sel.best_next_idx [])
          { pf with cache := stepped.cache, state := st }
    else none

/-- The candidates that `MaybeBacktrack` passes to `TakeBestAmong`: the original inputs,
then the inputs of each replacement that is not among them yet, with their explanations. -/
def tryCandidates (improveme : List Nat) (replacements : List Replacement) :
    List (List Nat) × List String :=
  replacements.foldl
    (fun acc r => if r.inputs ∈ acc.1 then acc else (acc.1 ++ [r.inputs], acc.2 ++ [r.method]))
    ([improveme], ["original"])

/-- The `PlayFun::MaybeBacktrack` method on the planner state and
`*rounds_until_backtrack`; `none` when it aborts. -/
def PlayFun.MaybeBacktrack (E : Engine) (marionet : Option Marionet)
    (rounds_until_backtrack : Int) (futures : List (List Nat)) (pf : PlayFun) :
    Option (PlayFun × Int) :=
  let rounds := rounds_until_backtrack - 1
  if rounds = 0 then
    let rounds := TRY_BACKTRACK_EVERY
    match pf.GetRecentCheckpoint with
    | none => some (pf, rounds)
    | some start =>
      let nmoves : Int := (pf.movie.length : Int) - start.movenum
      if nmoves > 0 then
        let improveme := pf.movie.drop start.movenum
        let current_state := Emulator.SaveUncompressed pf.state
        match PlayFun.TryImprove marionet start improveme current_state with
        | none => none
        | some replacements =>
          if replacements.isEmpty then some (pf, rounds)
          else
            match Rewind start.movenum pf with
            | none => none
            | some pf1 =>
              match Emulator.LoadUncompressed E start.save with
              | none => none
              | some st =>
                let candidates := tryCandidates improveme replacements
                match PlayFun.TakeBestAmong E marionet candidates.1 candidates.2 futures
                    { pf1 with state := st } with
                | none => none
                | some pf2 => some (pf2, rounds)
      else none
  else some (pf, rounds)

end Tasbot

namespace Tasbot

/-! ## Opposites (playfun-backtrack.cc): `Dualize`, `ReverseRange`, `TryDualizeAndReverse` -/

/-- The constant `INPUT_R` of simplefm2.h. -/
def INPUT_R : Nat := 128
/-- The constant `INPUT_L` of simplefm2.h. -/
def INPUT_L : Nat := 64
/-- The constant `INPUT_D` of simplefm2.h. -/
def INPUT_D : Nat := 32
/-- The constant `INPUT_U` of simplefm2.h. -/
def INPUT_U : Nat := 16
/-- The constant `INPUT_T` of simplefm2.h. -/
def INPUT_T : Nat := 8
/-- The constant `INPUT_S` of simplefm2.h. -/
def INPUT_S : Nat := 4
/-- The constant `INPUT_B` of simplefm2.h. -/
def INPUT_B : Nat := 2
/-- The constant `INPUT_A` of simplefm2.h. -/
def INPUT_A : Nat := 1

/-- The body of the loop of `Dualize`: `newinput` for the byte `input`. -/
def dualizeInput (input : Nat) : Nat :=
  let r := input &&& INPUT_R ≠ 0
  let l := input &&& INPUT_L ≠ 0
  let d := input &&& INPUT_D ≠ 0
  let u := input &&& INPUT_U ≠ 0
  let t := input &&& INPUT_T ≠ 0
  let s := input &&& INPUT_S ≠ 0
  let b := input &&& INPUT_B ≠ 0
  let a := input &&& INPUT_A ≠ 0
  let newinput := 0
  let newinput := if r then newinput ||| INPUT_L else newinput
  let newinput := if l then newinput ||| INPUT_R else newinput
  let newinput := if d then newinput ||| INPUT_U else newinput
  let newinput := if u then newinput ||| INPUT_D else newinput
  let newinput := if t then newinput ||| INPUT_S else newinput
  let newinput := if s then newinput ||| INPUT_T else newinput
  let newinput := if b then newinput ||| INPUT_A else newinput
  let newinput := if a then newinput ||| INPUT_B else newinput
  newinput

/-- The `PlayFun::Dualize` function; `none` when `CHECK(start >= 0)` or
`CHECK((start + len) <= v->size())` fails (the sum is compared as a `size_t`, so a negative
sum fails the check). -/
def Dualize (v : List Nat) (start len : Int) : Option (List Nat) :=
  if 0 ≤ start ∧ 0 ≤ start + len ∧ start + len ≤ v.length then
    some ((List.range v.length).map (fun i : Nat =>
      if start ≤ (i : Int) ∧ (i : Int) < start + len then dualizeInput (v.getD i 0)
      else v.getD i 0))
  else none

/-- The `PlayFun::ReverseRange` function: the loop stores `(*v)[(start + len - 1) - i]` in
`vnew[i]` for `i < len`, in a copy `vnew` of `*v`; `none` when a `CHECK` fails. -/
def ReverseRange (v : List Nat) (start len : Int) : Option (List Nat) :=
  if 0 ≤ start ∧ 0 ≤ start + len ∧ start + len ≤ v.length then
    some ((List.range v.length).map (fun i : Nat =>
      if (i : Int) < len then v.getD ((start + len - 1) - (i : Int)).toNat 0 else v.getD i 0))
  else none

/-- What `TryDualizeAndReverse` works on: the emulator, `*inputs` and `*repls`. -/
structure Trying where
  cache : StateCache
  state : List Nat
  inputs : List Nat
  repls : List (ℚ × List Nat)

/-- A call of `IsImprovement` on `s.inputs` followed by the `push_back` on `repls` when it
returns true; `score` is the variable that `IsImprovement` writes when it returns true. -/
def tryInputs (E : Engine) (objectives : Weighted)
    (start_state start_memory end_memory : List Nat) (s : Trying) (score : ℚ) :
    Option (Trying × ℚ) :=
  match IsImprovement E objectives s.cache start_state start_memory s.inputs end_memory with
  | none => none
  | some (c1, st1, some score1) =>
    some ({ s with cache := c1, state := st1, repls := s.repls ++ [(score1, s.inputs)] },
      score1)
  | some (c1, st1, none) => some ({ s with cache := c1, state := st1 }, score)

/-- The `PlayFun::TryDualizeAndReverse` method. -/
def TryDualizeAndReverse (E : Engine) (objectives : Weighted)
    (start_state start_memory end_memory : List Nat) (startidx len : Int)
    ( keepreversed : Bool) (s : Trying) : Option Trying :=
  match Dualize s.inputs startidx len with
  | none => none
  | some dual =>
    match tryInputs E objectives start_state start_memory end_memory
        { s with inputs := dual } 0 with
    | none => none
    | some (s1, score) =>
      match ReverseRange s1.inputs startidx len with
      | none => none
      | some rev =>
        match tryInputs E objectives start_state start_memory end_memory
            { s1 with inputs := rev } score with
        | none => none
        | some (s2, _) =>
          if keepreversed then some s2
          else (ReverseRange s2.inputs startidx len).map (fun v => { s2 with inputs := v })

/-- The exchange of the two bits of each pair of opposite buttons, in words: the byte `b` has
a button exactly when the byte `a` has the opposite one. -/
def Exchanged (a b : Nat) : Prop :=
  (b.testBit 7 = a.testBit 6) ∧ (b.testBit 6 = a.testBit 7)
    ∧ (b.testBit 5 = a.testBit 4) ∧ (b.testBit 4 = a.testBit 5)
    ∧ (b.testBit 3 = a.testBit 2) ∧ (b.testBit 2 = a.testBit 3)
    ∧ (b.testBit 1 = a.testBit 0) ∧ (b.testBit 0 = a.testBit 1)
    ∧ b < 256

instance (a b : Nat) : Decidable (Exchanged a b) := by
  unfold Exchanged
  infer_instance

end Tasbot

namespace Tasbot

/-! ## The pool of futures in `TakeBestAmong` (playfun-backtrack.cc) -/

/-- The struct `Future`. -/
structure Future where
  inputs : List Nat
  weighted : Bool
  desired_length : Int
  rounds_survived : Int
deriving DecidableEq

/-- The block `if (chopfutures)` of `TakeBestAmong`: the first `choplength` inputs are
removed from every future. -/
def chopFutures (futures : List Future) (choplength : Nat) : List Future :=
  futures.map (fun f => { f with inputs := f.inputs.drop choplength })

/-- The inner loop of a pass that drops a future: from `worst_total = futuretotals[0]`,
`worst_idx = 0`, the scan of the indices `1 .. size - 1` with the test
`worst_total < futuretotals[i]`. -/
def worstFuture (futuretotals : List ℚ) (size : Nat) : ℚ × Nat :=
  (List.range' 1 (size - 1)).foldl
    (fun worst i =>
      if worst.1 < futuretotals.getD i 0 then (futuretotals.getD i 0, i) else worst)
    (futuretotals.getD 0 0, 0)

/-- One pass of the loop `for (t < DROPFUTURES)` of `TakeBestAmong`: the two `CHECK`s, the
scan, and the deletion by swapping with the last future. -/
def dropFuture (futures : List Future) (futuretotals : List ℚ) : Option (List Future) :=
  match futures.getLast? with
  | none => none
  | some last =>
    if futures.length ≤ futuretotals.length then
      let worst_idx := (worstFuture futuretotals futures.length).2
      let futures := if worst_idx ≠ futures.length - 1 then futures.set worst_idx last
                     else futures
      some futures.dropLast
    else none

/-- The loop `for (t < DROPFUTURES)` of `TakeBestAmong`, for `passes` passes; the vector
`futuretotals` is the one that `ParallelStep` filled and is not changed by the loop. -/
def dropFutures (futuretotals : List ℚ) : Nat → List Future → Option (List Future)
  | 0, futures => some futures
  | passes + 1, futures =>
    match dropFuture futures futuretotals with
    | none => none
    | some futures1 => dropFutures futuretotals passes futures1

/-- A pool for concrete runs: eight futures, future `k` holding the one input `k`. -/
def eightFutures : List Future :=
  (List.range 8).map (fun k => { inputs := [k], weighted := true, desired_length := 0,
                                  rounds_survived := 0 })

end Tasbot

namespace Tasbot

/-! ## Motif weights (motifs.cc) and their reweighting in `TakeBestAmong` -/

/-- The constant `MOTIF_ALPHA`, 0.8. -/
def MOTIF_ALPHA : ℚ := 8 / 10

/-- The constant `MOTIF_MAX_FRAC`, 0.1. -/
def MOTIF_MAX_FRAC : ℚ := 1 / 10

/-- The constant `MOTIF_MIN_FRAC`, 0.00001. -/
def MOTIF_MIN_FRAC : ℚ := 1 / 100000

/-- The struct `Motifs::Info`, without the history kept for the diagnostics. -/
structure Motifs.Info where
  weight : ℚ
  picked : Int
deriving DecidableEq

/-- The struct `Motifs`: the map `motifs` from inputs to `Info`, as the list of its bindings
in iteration order. -/
structure Motifs where
  motifs : List (List Nat × Motifs.Info)
deriving DecidableEq

namespace Motifs

/-- The binding that `motifs.find(inputs)` returns. -/
def find (m : Motifs) (inputs : List Nat) : Option (List Nat × Motifs.Info) :=
  m.motifs.find? (fun b => b.1 == inputs)

/-- A write through the iterator that `motifs.find(inputs)` returns. -/
def update (inputs : List Nat) (f : Motifs.Info → Motifs.Info) :
    List (List Nat × Motifs.Info) → List (List Nat × Motifs.Info)
  | [] => []
  | b :: rest =>
    if b.1 == inputs then (b.1, f b.2) :: rest else b :: update inputs f rest

/-- The `Motifs::IsMotif` method. -/
def IsMotif (m : Motifs) (inputs : List Nat) : Bool := (m.find inputs).isSome

/-- The `Motifs::GetTotalWeight` method. -/
def GetTotalWeight (m : Motifs) : ℚ :=
  m.motifs.foldl (fun totalweight b => totalweight + b.2.weight) 0

/-- The `Motifs::Pick` method. -/
def Pick (m : Motifs) (inputs : List Nat) : Motifs :=
  { motifs := update inputs (fun info => { info with picked := info.picked + 1 }) m.motifs }

/-- The `Motifs::GetWeightPtr` method: the weight the pointer points to, `none` for
`NULL`. -/
def GetWeightPtr (m : Motifs) (inputs : List Nat) : Option ℚ :=
  (m.find inputs).map (fun b => b.2.weight)

/-- The store `*weight = d` through the pointer that `GetWeightPtr(inputs)` returned. -/
def setWeight (m : Motifs) (inputs : List Nat) (d : ℚ) : Motifs :=
  { motifs := update inputs (fun info => { info with weight := d }) m.motifs }

end Motifs

/-- The test `d / total < MOTIF_MAX_FRAC` on doubles; with `total` zero the quotient is an
infinity or NaN, and only minus infinity is below the bound. -/
def belowMaxFrac (d total : ℚ) : Bool :=
  if total = 0 then decide (d < 0) else decide (d / total < MOTIF_MAX_FRAC)

/-- The test `d / total > MOTIF_MIN_FRAC` on doubles; with `total` zero only plus infinity
is above the bound. -/
def aboveMinFrac (d total : ℚ) : Bool :=
  if total = 0 then decide (d > 0) else decide (d / total > MOTIF_MIN_FRAC)

/-- The test `newval > oldval` on the two normalized values, which is false when one of them
is not a number. -/
def valueIncreased (oldval newval : Option ℚ) : Bool :=
  match oldval, newval with
  | some o, some n => decide (n > o)
  | _, _ => false

/-- The block of `TakeBestAmong` that reweights the motif `next` it committed; `oldval` and
`newval` are `GetNormalizedValue(current_memory)` and `GetNormalizedValue(new_memory)`.
`none` when `CHECK(weight != NULL)` fails. -/
def reweightMotif (motifs : Motifs) (next : List Nat) (oldval newval : Option ℚ) :
    Option Motifs :=
  if motifs.IsMotif next then
    let total := motifs.GetTotalWeight
    let motifs := motifs.Pick next
    match motifs.GetWeightPtr next with
    | none => none
    | some weight =>
      if valueIncreased oldval newval then
        let d := weight / MOTIF_ALPHA
        if belowMaxFrac d total then some (motifs.setWeight next d) else some motifs
      else
        let d := weight * MOTIF_ALPHA
        if aboveMinFrac d total then some (motifs.setWeight next d) else some motifs
  else some motifs

/-- A motif library for concrete runs: two motifs of weight 1 and nine of weight 9/10. -/
def elevenMotifs : Motifs :=
  { motifs := [([0], ⟨1, 0⟩), ([1], ⟨1, 0⟩)]
      ++ (List.range 9).map (fun k => ([k + 2], ⟨9 / 10, 0⟩)) }

/-- A motif library for concrete runs: twenty motifs of weight 1. -/
def twentyMotifs : Motifs :=
  { motifs := (List.range 20).map (fun k => ([k], ⟨1, 0⟩)) }

end Tasbot

namespace Tasbot

/-! ## Learning lexicographic orderings (objective.cc)

The matrix `memories` is a list of memories; an ordering (the source's `prefix`) is a list
of memory locations. On a rectangular matrix every read below is inside its vector. -/

/-- The memory `memories[i]`. -/
def memoryAt (memories : List (List Nat)) (i : Nat) : List Nat := memories.getD i []

/-- The function `EqualOnPrefix`. -/
def EqualOnPrefix (mem1 mem2 : List Nat) : List Nat → Bool
  | [] => true
  | p :: rest =>
    if memAt mem1 p ≠ memAt mem2 p then false else EqualOnPrefix mem1 mem2 rest

/-- The function `LessEqual`. -/
def LessEqual (mem1 mem2 : List Nat) : List Nat → Bool
  | [] => true
  | p :: rest =>
    if memAt mem1 p > memAt mem2 p then false
    else if memAt mem1 p < memAt mem2 p then true
    else LessEqual mem1 mem2 rest

/-- The vector `lequal` of `EnumeratePartial`: the indices `lo` for which `look[lo]` and
`look[lo + 1]` are equal on the ordering `pfx`. -/
def lequal (memories : List (List Nat)) (look pfx : List Nat) : List Nat :=
  (List.range (look.length - 1)).filter (fun lo =>
    EqualOnPrefix (memoryAt memories (look.getD lo 0))
      (memoryAt memories (look.getD (lo + 1) 0)) pfx)

/-- The loop of `EnumeratePartial` over `lequal` for the location `c`: `none` when it leaves
with `goto skip` at a pair on which `c` decreases, else the final value of `less`. -/
def scanLocation (memories : List (List Nat)) (look : List Nat) (c : Nat) :
    List Nat → Bool → Option Bool
  | [], less => some less
  | lo :: rest, less =>
    let i := look.getD lo 0
    let j := look.getD (lo + 1) 0
    if memAt (memoryAt memories i) c > memAt (memoryAt memories j) c then none
    else scanLocation memories look c rest
      (less || decide (memAt (memoryAt memories i) c < memAt (memoryAt memories j) c))

/-- The body of the loop of `EnumeratePartial` over `left`, on the pair of `*remain` and
`*candidates`. -/
def enumerateStep (memories : List (List Nat)) (look pfx : List Nat)
    (acc : List Nat × List Nat) (c : Nat) : List Nat × List Nat :=
  if pfx.contains c then acc
  else
    match scanLocation memories look c (lequal memories look pfx) false with
    | none => (acc.1 ++ [c], acc.2)
    | some true => (acc.1 ++ [c], acc.2 ++ [c])
    | some false => acc

/-- The `Objective::EnumeratePartial` method: the pair of `*remain` and `*candidates`, which
the caller passes empty. With an empty `look` the unsigned bound `look.size() - 1` of the
first loop wraps around and the loop reads outside `look`: `none`. -/
def EnumeratePartial (memories : List (List Nat)) (look pfx left : List Nat) :
    Option (List Nat × List Nat) :=
  if look = [] then none
  else some (left.foldl (enumerateStep memories look pfx) ([], []))

/-- The function `CheckOrdering`: `false` when it aborts. -/
def CheckOrdering (look : List Nat) (memories : List (List Nat)) (ordering : List Nat) :
    Bool :=
  (List.range (look.length - 1)).all (fun lo =>
    LessEqual (memoryAt memories (look.getD lo 0)) (memoryAt memories (look.getD (lo + 1) 0))
      ordering)

/-- One round of the loop of `CompareByHash::CrapHash` on the 64-bit value `ret`. In round
`i = 0` the shift by `64 - i` contributes no bit. -/
def crapHashRound (seed : Nat) (ret i : Nat) : Nat :=
  let ret := ((ret >>> i) ||| (ret <<< (64 - i))) % 18446744073709551616
  let ret := (ret * 31337) % 18446744073709551616
  let ret := (ret + ((seed <<< 7) ||| (seed >>> (64 - 7))) % 18446744073709551616)
    % 18446744073709551616
  let ret := ret ^^^ 0xDEADBEEF
  let ret := ((ret >>> 17) ||| (ret <<< (64 - 17))) % 18446744073709551616
  let ret := (ret + 18446744073709551616 - 911911911911) % 18446744073709551616
  let ret := (ret * 65537) % 18446744073709551616
  ret ^^^ 0xCAFEBABE

/-- The `CompareByHash::CrapHash` method for the location `a`, with the 64-bit field
`seed`. -/
def CrapHash (seed : Nat) (a : Nat) : Nat :=
  (List.range (a % 4 + 1)).foldl (crapHashRound seed)
    ((-(a : Int) - 1) % 18446744073709551616).toNat

/-- The function `Shuffle`: `std::sort` by `CrapHash`, here the stable sort; `seed` is the
`int` that the constructor of `CompareByHash` converts to 64 bits. -/
def Shuffle (v : List Nat) (seed : Int) : List Nat :=
  v.insertionSort (fun a b =>
    CrapHash (seed % 18446744073709551616).toNat a
      ≤ CrapHash (seed % 18446744073709551616).toNat b)

/-- The value that an `int` holds after a store of `x`. -/
def toInt32 (x : Int) : Int := (x + 2147483648) % 4294967296 - 2147483648

/-- The update of `seed` in `EnumeratePartialRec` when it is not zero. -/
def nextSeed (look pfx : List Nat) (limit seed : Int) : Int :=
  toInt32 (Int.xor (toInt32 (toInt32 (seed + limit + pfx.length) + look.getD 0 0 * 8))
    look.length)

/-- The loop of `EnumeratePartialRec` over the candidates, on the pair of the orderings
passed to the callback so far and `*limit`; `call c` is the recursive call for the ordering
extended by the candidate `c`. -/
def candidatesLoop
    (call : Nat → List (List Nat) × Int → Option (List (List Nat) × Int)) :
    List Nat → List (List Nat) × Int → Option (List (List Nat) × Int)
  | [], s => some s
  | c :: rest, s =>
    match call c s with
    | none => none
    | some s1 => if s1.2 = 0 then some s1 else candidatesLoop call rest s1

/-- The `Objective::EnumeratePartialRec` method, on the pair of the orderings passed to the
callback `f` so far and `*limit`. `none` when `CheckOrdering` aborts, when `look` is empty,
or when the depth of the recursion exceeds `fuel`. -/
def EnumeratePartialRec (memories : List (List Nat)) (look : List Nat) :
    Nat → List Nat → List Nat → Int → List (List Nat) × Int →
      Option (List (List Nat) × Int)
  | 0, _, _, _, _ => none
  | fuel + 1, pfx, left, seed, s =>
    match EnumeratePartial memories look pfx left with
    | none => none
    | some (remain, candidates) =>
      let seed1 := if seed ≠ 0 then nextSeed look pfx s.2 seed else seed
      let candidates1 := if seed ≠ 0 then Shuffle candidates seed1 else candidates
      if candidates1 = [] then
        if CheckOrdering look memories pfx then
          some (s.1 ++ [pfx], if s.2 > 0 then s.2 - 1 else s.2)
        else none
      else
        candidatesLoop
          (fun c s1 => EnumeratePartialRec memories look fuel (pfx ++ [c]) remain seed1 s1)
          candidates1 s

/-- The `Objective::EnumerateFull` method: the orderings it passes to the callback, in that
order. `none` for an empty matrix, on which the constructor of `Objective` aborts. The
recursion extends the ordering by a location of `left` that is not in it, so its depth is at
most `left.size() + 1`. -/
def EnumerateFull (memories : List (List Nat)) (look : List Nat) (limit seed : Int) :
    Option (List (List Nat)) :=
  if memories = [] then none
  else
    let left := List.range (memoryAt memories 0).length
    (EnumeratePartialRec memories look (left.length + 1) [] left seed ([], limit)).map
      (fun s => s.1)

/-- The vector `look` that `EnumerateFullAll` builds: the indices of the memories that
differ from their predecessor. -/
def lookAll (memories : List (List Nat)) : List Nat :=
  (List.range memories.length).filter (fun i =>
    !(decide (i > 0) && decide (memoryAt memories i = memoryAt memories (i - 1))))

/-- The `Objective::EnumerateFullAll` method. -/
def EnumerateFullAll (memories : List (List Nat)) (limit seed : Int) :
    Option (List (List Nat)) :=
  EnumerateFull memories (lookAll memories) limit seed

/-- The matrix `kMem0` of objective_test.cc, as `MakeMem` builds it: the bytes of the
characters. -/
def kMem0 : List (List Nat) :=
  ["12345", "10346", "12346", "13346", "11347", "11347", "20001", "20091", "20051"].map
    (fun s => s.toList.map (fun ch => ch.toNat))

end Tasbot

namespace Tasbot

/-- The invariant of `EnumeratePartialRec` for the ordering `pfx` and the locations `left`
(objective.h): adjacent memories of `look` are ordered by `pfx`; a location below `width`
that is neither in `left` nor in `pfx` is equal on every adjacent pair of memories that is
equal on `pfx`; and the locations of `left` and of `pfx` are below `width`. -/
structure Objective.Inv (memories : List (List Nat)) (look : List Nat) (width : Nat)
    (pfx left : List Nat) : Prop where
  adj : ∀ lo, lo + 1 < look.length →
    LessEqual (memoryAt memories (look.getD lo 0)) (memoryAt memories (look.getD (lo + 1) 0))
      pfx = true
  gone : ∀ c, c < width → c ∉ left → c ∉ pfx → ∀ lo, lo + 1 < look.length →
    EqualOnPrefix (memoryAt memories (look.getD lo 0))
      (memoryAt memories (look.getD (lo + 1) 0)) pfx = true →
    memAt (memoryAt memories (look.getD lo 0)) c
      = memAt (memoryAt memories (look.getD (lo + 1) 0)) c
  left_lt : ∀ c ∈ left, c < width
  pfx_lt : ∀ c ∈ pfx, c < width

/-- What holds of an ordering `o` that `EnumeratePartialRec` passes to the callback: adjacent
memories of `look` are ordered by `o`; no location below `width` outside `o` is
non-decreasing on every adjacent pair of memories that is equal on `o` and increasing on one
of them; and the locations of `o` are below `width`. -/
structure Objective.Emitted (memories : List (List Nat)) (look : List Nat) (width : Nat)
    (o : List Nat) : Prop where
  adj : ∀ lo, lo + 1 < look.length →
    LessEqual (memoryAt memories (look.getD lo 0)) (memoryAt memories (look.getD (lo + 1) 0))
      o = true
  maximal : ∀ c, c < width → c ∉ o →
    ¬ ((∀ lo, lo + 1 < look.length →
          EqualOnPrefix (memoryAt memories (look.getD lo 0))
            (memoryAt memories (look.getD (lo + 1) 0)) o = true →
          memAt (memoryAt memories (look.getD lo 0)) c
            ≤ memAt (memoryAt memories (look.getD (lo + 1) 0)) c)
        ∧ ∃ lo, lo + 1 < look.length
          ∧ EqualOnPrefix (memoryAt memories (look.getD lo 0))
              (memoryAt memories (look.getD (lo + 1) 0)) o = true
          ∧ memAt (memoryAt memories (look.getD lo 0)) c
              < memAt (memoryAt memories (look.getD (lo + 1) 0)) c)
  lt : ∀ c ∈ o, c < width

/-- The value `limit1` of `*limit` after a call of `EnumeratePartialRec` that found it at
`limit` and passed `n` orderings to the callback. -/
structure Objective.LimitAfter (limit limit1 : Int) (n : Nat) : Prop where
  one_le : 1 ≤ n
  neg : limit < 0 → limit1 = limit
  zero : limit = 0 → limit1 = 0 ∧ n = 1
  pos : 0 < limit → limit1 = limit - n ∧ 0 ≤ limit1

end Tasbot

namespace Tasbot

/-- Whether the body of the loop of `EnumeratePartial` pushes the location `c` on
`*remain`. -/
def keptInRemain (memories : List (List Nat)) (look pfx : List Nat) (c : Nat) : Bool :=
  !pfx.contains c
    && (scanLocation memories look c (lequal memories look pfx) false != some false)

/-- Whether the body of the loop of `EnumeratePartial` pushes the location `c` on
`*candidates`. -/
def keptAsCandidate (memories : List (List Nat)) (look pfx : List Nat) (c : Nat) : Bool :=
  !pfx.contains c
    && (scanLocation memories look c (lequal memories look pfx) false == some true)

end Tasbot

namespace Tasbot

/-! ## The work of a helper on a `TryImproveRequest` (playfun-backtrack.cc): `GetRandomSpan`,
`ChopOut`, `DoTryImprove` -/

/-- The order of `CompareByFirstDesc`, as the order of a sorted vector: `a` may stand before
`b` when the score of `b` is not above that of `a`. -/
def firstDesc (a b : ℚ × List Nat) : Prop := b.1 ≤ a.1

instance : DecidableRel firstDesc := fun a b => by
  unfold firstDesc
  infer_instance

end Tasbot

namespace Tasbot

end Tasbot

namespace Tasbot

end Tasbot

namespace Tasbot

/-! ## `StateCache::MaybeResize` in the arithmetic of the machine (emulator.cc)

The definitions of `MaybeResize` and `Remember` above compute with natural numbers. These
are the same methods with the arithmetic of the source: `limit`, `slop` and `count` are
`uint64` and `num_to_remove` is an `int`. The two agree as long as `limit + slop` is below
`2^64` and `slop + 1` below `2^31`. -/

namespace StateCache

/-- The `StateCache::MaybeResize` method in the arithmetic of the machine: the sum
`limit + slop` and the difference `count - limit` are computed in `uint64`, so they wrap at
`2^64`; the difference is stored in the `int` `num_to_remove`; and
`CHECK(num_to_remove < all_sequences.size())` and the index `all_sequences[num_to_remove]`
convert the `int` to `size_t`. `none` is the failure of the check. -/
def MaybeResize64 (c : StateCache) : Option StateCache :=
  if c.count > (c.limit + c.slop) % 18446744073709551616 then
    let num_to_remove : Int :=
      toInt32 (((c.count : Int) - (c.limit : Int)) % 18446744073709551616)
    let all_sequences := (c.hashtable.map (fun e => e.seq)).insertionSort (fun a b => a ≤ b)
    match all_sequences[(num_to_remove % 18446744073709551616).toNat]? with
    | none => none
    | some minseq =>
      some { c with hashtable := (evict minseq c.hashtable c.count).1,
                    count := (evict minseq c.hashtable c.count).2 }
  else some c

/-- The `StateCache::Remember` method in the arithmetic of the machine. -/
def Remember64 (c : StateCache) (input : Nat) (start result : List Nat) :
    Option StateCache :=
  (c.insert input start result).bind MaybeResize64

/-- One cache operation in the arithmetic of the machine; `none` when a `CHECK` inside it
fails. -/
def apply64 (c : StateCache) : CacheOp → Option StateCache
  | .remember input start result => c.Remember64 input start result
  | .lookup input start => (c.GetKnownResult input start).map (fun r => r.1)

/-- A sequence of cache operations in the arithmetic of the machine, left to right. -/
def run64 (c : StateCache) : List CacheOp → Option StateCache
  | [] => some c
  | op :: ops => (c.apply64 op).bind (fun c1 => c1.run64 ops)

end StateCache

end Tasbot

/-! # Theorems -/

namespace Tasbot
namespace StateCache

/-! ## Lemmas on the state cache -/

theorem countP_lt_of_sorted (s : List Nat) (hs : s.Sorted (fun a b => a < b)) :
    ∀ (n m : Nat), s[n]? = some m → s.countP (fun x => decide (x < m)) = n := by
  induction s with
  | nil => intro n m h; simp at h
  | cons a t ih =>
    intro n m h
    rw [List.sorted_cons] at hs
    cases n with
    | zero =>
      simp at h
      subst h
      rw [List.countP_cons]
      have h0 : t.countP (fun x => decide (x < a)) = 0 := by
        rw [List.countP_eq_zero]
        intro x hx
        have := hs.1 x hx
        simp; omega
      simp [h0]
    | succ k =>
      simp at h
      have hk := ih hs.2 k m h
      have ham : a < m := hs.1 m (List.mem_iff_getElem?.mpr ⟨k, h⟩)
      rw [List.countP_cons, hk]
      simp [ham]

theorem countP_lt_sorted_seqs (l : List Entry) (hnd : (l.map (fun e => e.seq)).Nodup)
    (n m : Nat)
    (h : ((l.map (fun e => e.seq)).insertionSort (fun a b => a ≤ b))[n]? = some m) :
    l.countP (fun e => decide (e.seq < m)) = n := by
  have hperm := List.perm_insertionSort (fun a b : Nat => a ≤ b) (l.map (fun e => e.seq))
  have hsorted := List.sorted_insertionSort (fun a b : Nat => a ≤ b) (l.map (fun e => e.seq))
  have hstrict := hsorted.lt_of_le (hperm.nodup_iff.mpr hnd)
  have h1 := countP_lt_of_sorted _ hstrict n m h
  rw [hperm.countP_eq] at h1
  rw [List.countP_map] at h1
  exact h1

theorem evict_fst (minseq : Nat) (l : List Entry) (count : Nat) :
    (evict minseq l count).1 = l.filter (fun e => decide (minseq ≤ e.seq)) := by
  induction l generalizing count with
  | nil => rfl
  | cons e es ih =>
    unfold evict
    by_cases h : e.seq < minseq
    · simp only [h, if_true]
      rw [ih, List.filter_cons_of_neg (by simp; omega)]
    · simp only [h, if_false]
      rw [ih, List.filter_cons_of_pos (by simp; omega)]

theorem evict_snd (minseq : Nat) (l : List Entry) (count : Nat) :
    (evict minseq l count).2 = count - l.countP (fun e => decide (e.seq < minseq)) := by
  induction l generalizing count with
  | nil => simp [evict]
  | cons e es ih =>
    unfold evict
    by_cases h : e.seq < minseq
    · simp only [h, if_true]
      rw [ih, List.countP_cons]
      simp [h]; omega
    · simp only [h, if_false]
      rw [ih, List.countP_cons]
      simp [h]

theorem length_filter_le_seq (l : List Entry) (m : Nat) :
    (l.filter (fun e => decide (m ≤ e.seq))).length
      = l.length - l.countP (fun e => decide (e.seq < m)) := by
  induction l with
  | nil => rfl
  | cons e es ih =>
    by_cases h : e.seq < m
    · rw [List.filter_cons_of_neg (by simp; omega), ih, List.countP_cons]
      simp [h]
    · rw [List.filter_cons_of_pos (by simp; omega), List.countP_cons]
      have hle : es.countP (fun e => decide (e.seq < m)) ≤ es.length := List.countP_le_length _
      simp [h, ih]; omega

end StateCache
end Tasbot
namespace Tasbot
namespace StateCache

theorem touch_length (input : Nat) (start : List Nat) (q : Nat) (l : List Entry) :
    (touch input start q l).length = l.length := by
  induction l with
  | nil => rfl
  | cons e es ih =>
    unfold touch
    split <;> simp [ih]

theorem mem_touch (input : Nat) (start : List Nat) (q : Nat) (l : List Entry) (x : Entry)
    (hx : x ∈ touch input start q l) : x ∈ l ∨ x.seq = q := by
  induction l with
  | nil => simp [touch] at hx
  | cons e es ih =>
    unfold touch at hx
    split at hx
    · rcases List.mem_cons.mp hx with h | h
      · right; rw [h]
      · left; exact List.mem_cons_of_mem _ h
    · rcases List.mem_cons.mp hx with h | h
      · left; rw [h]; exact List.mem_cons_self _ _
      · rcases ih h with h1 | h1
        · left; exact List.mem_cons_of_mem _ h1
        · right; exact h1

theorem touch_nodup (input : Nat) (start : List Nat) (q : Nat) (l : List Entry)
    (hlt : ∀ e ∈ l, e.seq < q) (hnd : (l.map (fun e => e.seq)).Nodup) :
    ((touch input start q l).map (fun e => e.seq)).Nodup := by
  induction l with
  | nil => simp [touch]
  | cons e es ih =>
    have hes : ∀ x ∈ es, x.seq < q := fun x hx => hlt x (List.mem_cons_of_mem _ hx)
    rw [List.map_cons, List.nodup_cons] at hnd
    unfold touch
    split
    · rw [List.map_cons, List.nodup_cons]
      refine ⟨?_, hnd.2⟩
      intro hmem
      rcases List.mem_map.mp hmem with ⟨x, hx, hxq⟩
      have := hes x hx
      simp at hxq
      omega
    · rw [List.map_cons, List.nodup_cons]
      refine ⟨?_, ih hes hnd.2⟩
      intro hmem
      rcases List.mem_map.mp hmem with ⟨x, hx, hxq⟩
      rcases mem_touch _ _ _ _ _ hx with h1 | h1
      · exact hnd.1 (List.mem_map.mpr ⟨x, h1, hxq⟩)
      · have := hlt e (List.mem_cons_self _ _)
        omega

theorem consistent_resize (L S : Nat) (c : StateCache) : (c.Resize L S).Consistent L S :=
  ⟨rfl, rfl, rfl, by simp [Resize], by simp [Resize]⟩

theorem consistent_getKnownResult {L S : Nat} {c c1 : StateCache} (h : c.Consistent L S)
    {input : Nat} {start : List Nat} {r : Option (List Nat)}
    (hget : c.GetKnownResult input start = some (c1, r)) :
    c1.Consistent L S ∧ c1.count = c.count := by
  unfold GetKnownResult at hget
  split at hget
  · split at hget
    · simp only [Option.some.injEq, Prod.mk.injEq] at hget
      rw [← hget.1]
      exact ⟨⟨h.limit_eq, h.slop_eq, h.count_eq, h.seq_lt, h.seq_nodup⟩, rfl⟩
    · simp only [Option.some.injEq, Prod.mk.injEq] at hget
      rw [← hget.1]
      refine ⟨⟨h.limit_eq, h.slop_eq, ?_, ?_, ?_⟩, rfl⟩
      · simp [touch_length, h.count_eq]
      · intro e he
        rcases mem_touch _ _ _ _ _ he with h1 | h1
        · have := h.seq_lt e h1
          show e.seq < c.next_sequence + 1
          omega
        · show e.seq < c.next_sequence + 1
          omega
      · exact touch_nodup _ _ _ _ h.seq_lt h.seq_nodup
  · simp at hget

theorem consistent_insert {L S : Nat} {c c1 : StateCache} (h : c.Consistent L S)
    {input : Nat} {start result : List Nat} (hins : c.insert input start result = some c1) :
    c1.Consistent L S ∧ c1.count = c.count + 1 := by
  unfold StateCache.insert at hins
  split at hins
  swap
  · simp at hins
  split at hins
  · simp at hins
  · simp at hins
    subst hins
    refine ⟨⟨h.limit_eq, h.slop_eq, ?_, ?_, ?_⟩, rfl⟩
    · simp [h.count_eq]
    · intro e he
      simp at he
      rcases he with h1 | h1
      · have := h.seq_lt e h1
        show e.seq < c.next_sequence + 1
        omega
      · subst h1; simp
    · simp only [List.map_append, List.map_cons, List.map_nil]
      rw [List.nodup_append]
      refine ⟨h.seq_nodup, by simp, ?_⟩
      intro a ha hb
      simp at hb
      rcases List.mem_map.mp ha with ⟨x, hx, hxa⟩
      have := h.seq_lt x hx
      omega

theorem consistent_maybeResize {L S : Nat} {c1 c2 : StateCache} (h : c1.Consistent L S)
    (hres : c1.MaybeResize = some c2) :
    c2.Consistent L S ∧ c2.count ≤ L + S := by
  have hL := h.limit_eq
  have hS := h.slop_eq
  unfold MaybeResize at hres
  split at hres
  · rename_i hover
    simp only at hres
    split at hres
    · simp at hres
    · rename_i minseq hmin
      simp at hres
      subst hres
      have hcnt := countP_lt_sorted_seqs c1.hashtable h.seq_nodup _ _ hmin
      have hlen := length_filter_le_seq c1.hashtable minseq
      refine ⟨⟨h.limit_eq, h.slop_eq, ?_, ?_, ?_⟩, ?_⟩
      · simp only [evict_fst, evict_snd]
        rw [hlen, h.count_eq]
      · intro e he
        simp only [evict_fst] at he
        exact h.seq_lt e (List.mem_filter.mp he).1
      · simp only [evict_fst]
        exact (List.filter_sublist _).map _ |>.nodup h.seq_nodup
      · simp only [evict_snd]
        rw [hcnt]
        have := List.getElem?_eq_some.mp hmin
        omega
  · simp at hres
    subst hres
    exact ⟨h, by omega⟩

end StateCache
end Tasbot
namespace Tasbot
namespace StateCache

theorem consistent_apply {L S : Nat} {c c1 : StateCache} (h : c.Consistent L S)
    (hb : c.count ≤ L + S) (op : CacheOp) (hop : c.apply op = some c1) :
    c1.Consistent L S ∧ c1.count ≤ L + S := by
  cases op with
  | remember input start result =>
    simp only [StateCache.apply, Remember] at hop
    rcases Option.bind_eq_some.mp hop with ⟨c2, hins, hres⟩
    exact consistent_maybeResize (consistent_insert h hins).1 hres
  | lookup input start =>
    simp only [StateCache.apply] at hop
    rcases Option.map_eq_some'.mp hop with ⟨⟨c2, r⟩, hget, hc⟩
    simp only at hc
    subst hc
    have := consistent_getKnownResult h hget
    exact ⟨this.1, by omega⟩

theorem consistent_run {L S : Nat} (ops : List CacheOp) :
    ∀ {c c1 : StateCache}, c.Consistent L S → c.count ≤ L + S → c.run ops = some c1 →
      c1.Consistent L S ∧ c1.count ≤ L + S := by
  induction ops with
  | nil =>
    intro c c1 h hb hrun
    simp only [StateCache.run, Option.some.injEq] at hrun
    subst hrun
    exact ⟨h, hb⟩
  | cons op ops ih =>
    intro c c1 h hb hrun
    simp only [StateCache.run] at hrun
    rcases Option.bind_eq_some.mp hrun with ⟨c2, hop, hrest⟩
    have h2 := consistent_apply h hb op hop
    exact ih h2.1 h2.2 hrest

theorem find_some {c : StateCache} {input : Nat} {start : List Nat} {e : Entry}
    (h : c.find input start = some e) :
    e ∈ c.hashtable ∧ e.input = input ∧ e.start = start := by
  unfold find at h
  have hmem := List.mem_of_find?_eq_some h
  have hp := List.find?_some h
  simp [keyEquals] at hp
  exact ⟨hmem, hp.1, hp.2⟩

theorem mem_touch_fields (input : Nat) (start : List Nat) (q : Nat) (l : List Entry)
    (x : Entry) (hx : x ∈ touch input start q l) :
    ∃ e ∈ l, x.input = e.input ∧ x.start = e.start ∧ x.result = e.result := by
  induction l with
  | nil => simp [touch] at hx
  | cons e es ih =>
    unfold touch at hx
    split at hx
    · rcases List.mem_cons.mp hx with h | h
      · exact ⟨e, List.mem_cons_self _ _, by rw [h], by rw [h], by rw [h]⟩
      · exact ⟨x, List.mem_cons_of_mem _ h, rfl, rfl, rfl⟩
    · rcases List.mem_cons.mp hx with h | h
      · exact ⟨e, List.mem_cons_self _ _, by rw [h], by rw [h], by rw [h]⟩
      · rcases ih h with ⟨e1, he1, h1⟩
        exact ⟨e1, List.mem_cons_of_mem _ he1, h1⟩

theorem sound_getKnownResult {E : Engine} {c c1 : StateCache} (h : c.Sound E)
    {input : Nat} {start : List Nat} {r : Option (List Nat)}
    (hget : c.GetKnownResult input start = some (c1, r)) :
    c1.Sound E ∧ ∀ x, r = some x → x = Emulator.Step E input start := by
  unfold GetKnownResult at hget
  split at hget
  · split at hget
    · simp only [Option.some.injEq, Prod.mk.injEq] at hget
      rw [← hget.1, ← hget.2]
      exact ⟨h, by intro x hx; simp at hx⟩
    · rename_i e he
      have hf := find_some he
      simp only [Option.some.injEq, Prod.mk.injEq] at hget
      rw [← hget.1, ← hget.2]
      refine ⟨?_, ?_⟩
      · intro x hx
        rcases mem_touch_fields _ _ _ _ _ hx with ⟨e1, he1, h1, h2, h3⟩
        rw [h1, h2, h3]
        exact h e1 he1
      · intro x hx
        simp only [Option.some.injEq] at hx
        rw [← hx, h e hf.1, hf.2.1, hf.2.2]
  · simp at hget

theorem sound_remember {E : Engine} {c c1 : StateCache} (h : c.Sound E)
    {input : Nat} {start : List Nat}
    (hrem : c.Remember input start (Emulator.Step E input start) = some c1) :
    c1.Sound E := by
  simp only [Remember] at hrem
  rcases Option.bind_eq_some.mp hrem with ⟨c2, hins, hres⟩
  have h2 : c2.Sound E := by
    unfold StateCache.insert at hins
    split at hins
    swap
    · simp at hins
    split at hins
    · simp at hins
    · simp only [Option.some.injEq] at hins
      subst hins
      intro x hx
      simp only [List.mem_append, List.mem_singleton] at hx
      rcases hx with h1 | h1
      · exact h x h1
      · subst h1; rfl
  unfold MaybeResize at hres
  split at hres
  · simp only at hres
    split at hres
    · simp at hres
    · simp only [Option.some.injEq] at hres
      subst hres
      intro x hx
      simp only [evict_fst] at hx
      exact h2 x (List.mem_filter.mp hx).1
  · simp only [Option.some.injEq] at hres
    subst hres
    exact h2

theorem sound_cachingStep {E : Engine} {c c1 : StateCache} (h : c.Sound E)
    {input : Nat} {st st1 : List Nat}
    (hstep : Emulator.CachingStep E input c st = some (c1, st1)) :
    c1.Sound E ∧ st1 = Emulator.Step E input st := by
  unfold Emulator.CachingStep at hstep
  simp only [Emulator.SaveUncompressed] at hstep
  split at hstep
  · simp at hstep
  · rename_i c2 cached hlook
    have hg := sound_getKnownResult h hlook
    have hc := hg.2 cached rfl
    unfold Emulator.LoadUncompressed at hstep
    split at hstep
    · simp only [Option.map_some', Option.some.injEq, Prod.mk.injEq] at hstep
      rw [← hstep.1, ← hstep.2]
      exact ⟨hg.1, hc⟩
    · simp at hstep
  · rename_i c2 hlook
    have hg := sound_getKnownResult h hlook
    split at hstep
    · simp at hstep
    · rename_i c3 hrem
      have h3 := sound_remember hg.1 hrem
      split at hstep
      · rename_i c4 r hl4
        have hg3 := sound_getKnownResult h3 hl4
        simp only [Option.some.injEq, Prod.mk.injEq] at hstep
        rw [← hstep.1, ← hstep.2]
        exact ⟨hg3.1, rfl⟩
      · simp at hstep

theorem sound_runCaching {E : Engine} (ops : List (List Nat × Nat)) :
    ∀ {c c1 : StateCache} {outs : List (List Nat)}, c.Sound E →
      Emulator.runCaching E c ops = some (c1, outs) →
      c1.Sound E ∧ outs = ops.map (fun p => Emulator.Step E p.2 p.1) := by
  induction ops with
  | nil =>
    intro c c1 outs h hrun
    simp only [Emulator.runCaching, Option.some.injEq, Prod.mk.injEq] at hrun
    rw [← hrun.1, ← hrun.2]
    exact ⟨h, rfl⟩
  | cons p ops ih =>
    intro c c1 outs h hrun
    obtain ⟨start, action⟩ := p
    simp only [Emulator.runCaching] at hrun
    split at hrun
    · simp at hrun
    · rename_i c2 st2 hstep
      have h2 := sound_cachingStep h hstep
      split at hrun
      · simp at hrun
      · rename_i c3 outs3 hrest
        have h3 := ih h2.1 hrest
        simp only [Option.some.injEq, Prod.mk.injEq] at hrun
        rw [← hrun.1, ← hrun.2, h2.2, h3.2]
        exact ⟨h3.1, rfl⟩

end StateCache

/-- C1: for every sequence of (starting state, action) pairs run through `CachingStep` after
`ResetCache(L, S)`, whenever the calls complete, each call leaves the machine in exactly the
state `Step(action)` produces from the same starting state, and every binding left in the
cache maps `(input, start)` to `Step(input)` applied to `start`. -/
theorem cachingStep_agrees_with_step (E : Engine) (L S : Nat) (c0 : StateCache)
    (ops : List (List Nat × Nat)) (c : StateCache) (outs : List (List Nat))
    (hrun : Emulator.runCaching E (Emulator.ResetCache L S c0) ops = some (c, outs)) :
    outs = ops.map (fun p => Emulator.Step E p.2 p.1)
      ∧ ∀ e ∈ c.hashtable, e.result = Emulator.Step E e.input e.start := by
  have h0 : (Emulator.ResetCache L S c0).Sound E := by
    intro e he
    simp [Emulator.ResetCache, StateCache.Resize] at he
  have h := StateCache.sound_runCaching ops h0 hrun
  exact ⟨h.2, h.1⟩

/-- Witness for C1: a run with repeated keys, novel keys and an eviction pass (limit 1,
slop 1) completes and agrees with `Step`. -/
theorem cachingStep_agrees_with_step_witness :
    [[1, 9], [2, 9], [1, 9], [3, 7], [2, 9]]
        = [([9], 1), ([9], 2), ([9], 1), ([7], 3), ([9], 2)].map
            (fun p => Emulator.Step pushEngine p.2 p.1)
      ∧ ∀ e ∈ [(⟨3, [7], 6, [3, 7]⟩ : Entry), ⟨2, [9], 8, [2, 9]⟩],
          e.result = Emulator.Step pushEngine e.input e.start :=
  cachingStep_agrees_with_step pushEngine 1 1 StateCache.new
    [([9], 1), ([9], 2), ([9], 1), ([7], 3), ([9], 2)]
    ⟨[⟨3, [7], 6, [3, 7]⟩, ⟨2, [9], 8, [2, 9]⟩], 1, 2, 9, 1, 5, 4⟩
    [[1, 9], [2, 9], [1, 9], [3, 7], [2, 9]] (by decide)

end Tasbot
namespace Tasbot

end Tasbot

namespace Tasbot

/-! ## Lemmas on the state codec -/

theorem readHeader_header (len : Nat) (rest : List Nat) (hlen : len < 2 ^ 32) :
    readHeader (header len ++ rest) = len := by
  simp only [readHeader, header, List.cons_append, List.nil_append, List.getD_cons_zero,
    List.getD_cons_succ]
  omega

theorem subBasis_length (raw basis : List Nat) (blen : Nat) :
    (subBasis raw basis blen).length = raw.length := by
  simp [subBasis]

theorem addBasis_subBasis (raw basis : List Nat) (blen : Nat) (hbytes : ∀ x ∈ raw, x < 256) :
    addBasis (subBasis raw basis blen) basis blen = raw := by
  apply List.ext_getElem
  · simp [addBasis, subBasis]
  · intro i h1 h2
    have hx : raw[i] < 256 := hbytes _ (List.getElem_mem h2)
    have hb : basis.getD i 0 % 256 < 256 := Nat.mod_lt _ (by decide)
    simp only [addBasis, subBasis, List.getElem_map, List.getElem_range, List.getD_eq_getElem?_getD,
      List.length_map, List.length_range]
    have hi : ((List.map (fun i => if i < blen then
        (raw[i]?.getD 0 + (256 - basis[i]?.getD 0 % 256)) % 256 else raw[i]?.getD 0)
        (List.range raw.length))[i]?).getD 0
        = if i < blen then (raw[i] + (256 - basis[i]?.getD 0 % 256)) % 256 else raw[i] := by
      rw [List.getElem?_map, List.getElem?_range h2]
      simp [List.getElem?_eq_getElem h2]
    rw [hi]
    simp only [List.getD_eq_getElem?_getD] at hb
    split
    · omega
    · rfl

/-- C2: for every raw state (a vector of bytes whose size fits the `int len`) and
every basis (absent, empty, shorter than, as long as or longer than the raw state), `LoadEx`
with basis `b`, applied to the blob that `SaveEx` produced with the same basis, restores
exactly the raw state that was saved; zlib is taken to be a lossless pair and the engine to
accept the savestates it wrote. -/
theorem loadEx_saveEx (E : Engine) (Z : Zlib) (raw : List Nat) (b : Option (List Nat))
    (blob : List Nat)
    (hlossless : ∀ x, Z.uncompress (Z.compress x) = some x)
    (hbytes : ∀ x ∈ raw, x < 256) (hsize : raw.length < 2 ^ 31)
    (hload : E.loadRAW raw = true)
    (hsave : Emulator.SaveEx Z raw b = some blob) :
    Emulator.LoadEx E Z blob b = some raw := by
  unfold Emulator.SaveEx at hsave
  simp only [Emulator.SaveUncompressed] at hsave
  split at hsave
  · simp only [Option.some.injEq] at hsave
    subst hsave
    unfold Emulator.LoadEx
    have hdrop : (header (subBasis raw (b.getD []) (basisLen b raw)).length
        ++ Z.compress (subBasis raw (b.getD []) (basisLen b raw))).drop 4
        = Z.compress (subBasis raw (b.getD []) (basisLen b raw)) := by
      simp [header]
    have hhead := readHeader_header (subBasis raw (b.getD []) (basisLen b raw)).length
      (Z.compress (subBasis raw (b.getD []) (basisLen b raw)))
      (by rw [subBasis_length]; omega)
    rw [hhead, if_pos (by rw [subBasis_length]; omega), hdrop, hlossless]
    simp only
    have hbl : basisLen b (subBasis raw (b.getD []) (basisLen b raw)) = basisLen b raw := by
      cases b with
      | none => rfl
      | some bb => simp [basisLen, subBasis_length]
    rw [if_pos (le_refl _), hbl, addBasis_subBasis raw _ _ hbytes, if_pos hload]
  · simp at hsave

/-- Witness for C2: a four-byte state saved and loaded against a basis of two bytes. -/
theorem loadEx_saveEx_witness :
    Emulator.LoadEx pushEngine storeZlib [4, 0, 0, 0, 251, 56, 0, 255] (some [10, 200])
      = some [5, 0, 0, 255] :=
  loadEx_saveEx pushEngine storeZlib [5, 0, 0, 255] (some [10, 200])
    [4, 0, 0, 0, 251, 56, 0, 255] (fun _ => rfl) (by decide) (by decide) rfl (by decide)

end Tasbot

namespace Tasbot

/-! ## Lemmas on the objective evaluator -/

theorem lexLess_cons (a b : List Nat) (p : Nat) (rest : List Nat) :
    LexLess a b (p :: rest) ↔
      memAt a p < memAt b p ∨ (memAt a p = memAt b p ∧ LexLess a b rest) := by
  constructor
  · rintro ⟨i, hi, heq, hlt⟩
    cases i with
    | zero => left; simpa using hlt
    | succ k =>
      right
      refine ⟨by simpa using heq 0 (by omega), k, by simpa using hi, ?_, by simpa using hlt⟩
      intro j hj
      simpa using heq (j + 1) (by omega)
  · rintro (h | ⟨h0, i, hi, heq, hlt⟩)
    · exact ⟨0, by simp, by intro j hj; omega, by simpa using h⟩
    · refine ⟨i + 1, by simpa using hi, ?_, by simpa using hlt⟩
      intro j hj
      cases j with
      | zero => simpa using h0
      | succ k => simpa using heq k (by omega)

theorem not_lexLess_nil (a b : List Nat) : ¬ LexLess a b [] := by
  rintro ⟨i, hi, _⟩
  simp at hi

theorem order_eq_one_iff (a b obj : List Nat) : Order a b obj = 1 ↔ LexLess a b obj := by
  induction obj with
  | nil => simp [Order, not_lexLess_nil]
  | cons p rest ih =>
    rw [lexLess_cons]
    unfold Order
    split
    · constructor
      · intro h; omega
      · rintro (h | ⟨h, _⟩) <;> omega
    · split
      · constructor
        · intro _; left; assumption
        · intro _; rfl
      · rw [ih]
        constructor
        · intro h; right; exact ⟨by omega, h⟩
        · rintro (h | ⟨_, h⟩)
          · omega
          · exact h

theorem order_eq_neg_one_iff (a b obj : List Nat) :
    Order a b obj = -1 ↔ LexLess b a obj := by
  induction obj with
  | nil => simp [Order, not_lexLess_nil]
  | cons p rest ih =>
    rw [lexLess_cons]
    unfold Order
    split
    · constructor
      · intro _; left; assumption
      · intro _; rfl
    · split
      · constructor
        · intro h; omega
        · rintro (h | ⟨h, _⟩) <;> omega
      · rw [ih]
        constructor
        · intro h; right; exact ⟨by omega, h⟩
        · rintro (h | ⟨_, h⟩)
          · omega
          · exact h

theorem lexLess_asymm (a b obj : List Nat) (h : LexLess a b obj) : ¬ LexLess b a obj := by
  induction obj with
  | nil => exact not_lexLess_nil b a
  | cons p rest ih =>
    rw [lexLess_cons] at h ⊢
    rintro (h2 | ⟨h2, h3⟩)
    · rcases h with h | ⟨h, _⟩ <;> omega
    · rcases h with h | ⟨_, h⟩
      · omega
      · exact ih h h3

theorem evaluateStep_eq (a b : List Nat) (score : ℚ) (it : List Nat × Info) :
    evaluateStep a b score it
      = score + (if LexLess a b it.1 then it.2.weight
                 else if LexLess b a it.1 then - it.2.weight else 0) := by
  unfold evaluateStep
  split
  · rename_i h
    have h2 := (order_eq_neg_one_iff a b it.1).mp h
    have h1 : ¬ LexLess a b it.1 := fun hh => lexLess_asymm a b it.1 hh h2
    rw [if_neg h1, if_pos h2]
    ring
  · rename_i h
    rw [if_pos ((order_eq_one_iff a b it.1).mp h)]
  · rename_i h1 h2
    have n1 : ¬ LexLess a b it.1 := fun hh => h2 ((order_eq_one_iff a b it.1).mpr hh)
    have n2 : ¬ LexLess b a it.1 := fun hh => h1 ((order_eq_neg_one_iff a b it.1).mpr hh)
    rw [if_neg n1, if_neg n2]
    ring

theorem foldl_evaluateStep (a b : List Nat) (weighted : Weighted) (score : ℚ) :
    weighted.foldl (evaluateStep a b) score = score + EvaluateSpec weighted a b := by
  induction weighted generalizing score with
  | nil => simp [EvaluateSpec]
  | cons it rest ih =>
    rw [List.foldl_cons, ih, evaluateStep_eq]
    simp only [EvaluateSpec, List.map_cons, List.sum_cons]
    ring

theorem evaluate_eq_evaluateSpec (weighted : Weighted) (a b : List Nat) :
    Evaluate weighted a b = EvaluateSpec weighted a b := by
  have h := foldl_evaluateStep a b weighted 0
  rw [zero_add] at h
  exact h

/-- C6: `Evaluate(memA, memB)` is the sum over all objectives of `+weight` when
`memA < memB` under the objective's lexicographic order (at the first listed location where
they differ the byte of `memA` is smaller), `-weight` when `memA > memB`, and `0` when the
two memories agree on every listed location. -/
theorem evaluate_eq_spec (weighted : Weighted) (memA memB : List Nat) :
    Evaluate weighted memA memB
        = (weighted.map (fun it =>
            if LexLess memA memB it.1 then it.2.weight
            else if LexLess memB memA it.1 then - it.2.weight
            else 0)).sum
      ∧ ∀ obj, (¬ LexLess memA memB obj ∧ ¬ LexLess memB memA obj
          ↔ ∀ p ∈ obj, memAt memA p = memAt memB p) := by
  constructor
  · exact evaluate_eq_evaluateSpec weighted memA memB
  · intro obj
    induction obj with
    | nil => simp [not_lexLess_nil]
    | cons p rest ih =>
      rw [lexLess_cons, lexLess_cons]
      constructor
      · rintro ⟨h1, h2⟩
        have hp : memAt memA p = memAt memB p := by
          by_contra hne
          rcases Nat.lt_or_gt_of_ne hne with h | h
          · exact h1 (Or.inl h)
          · exact h2 (Or.inl h)
        have hrest := ih.mp ⟨fun h => h1 (Or.inr ⟨hp, h⟩), fun h => h2 (Or.inr ⟨hp.symm, h⟩)⟩
        intro q hq
        rcases List.mem_cons.mp hq with h | h
        · rw [h]; exact hp
        · exact hrest q h
      · intro h
        have hp := h p (List.mem_cons_self _ _)
        have hrest := ih.mpr (fun q hq => h q (List.mem_cons_of_mem _ hq))
        constructor
        · rintro (h1 | ⟨_, h1⟩)
          · omega
          · exact hrest.1 h1
        · rintro (h1 | ⟨_, h1⟩)
          · omega
          · exact hrest.2 h1

/-- C5: for every set of weighted objectives and all memories `a`, `b`,
`Evaluate(a, b) = -Evaluate(b, a)`, and `Evaluate(a, a) = 0`. -/
theorem evaluate_sign_law (weighted : Weighted) (a b : List Nat) :
    Evaluate weighted a b = - Evaluate weighted b a ∧ Evaluate weighted a a = 0 := by
  have key : ∀ x y : List Nat, Evaluate weighted x y = - Evaluate weighted y x := by
    intro x y
    rw [evaluate_eq_evaluateSpec weighted x y, evaluate_eq_evaluateSpec weighted y x]
    unfold EvaluateSpec
    induction weighted with
    | nil => simp
    | cons it rest ih =>
      simp only [List.map_cons, List.sum_cons, ih]
      by_cases h1 : LexLess x y it.1
      · have h2 := lexLess_asymm x y it.1 h1
        simp only [if_pos h1, if_neg h2]
        ring
      · by_cases h2 : LexLess y x it.1
        · simp only [if_neg h1, if_pos h2]
          ring
        · simp only [if_neg h1, if_neg h2]
          ring
  refine ⟨key a b, ?_⟩
  have h := key a a
  linarith

end Tasbot

namespace Tasbot

/-- When `IsImprovement` returns with the machine in state `st1`: with
`S = Evaluate(start_memory, end_memory)`, `N = Evaluate(start_memory, new_memory)` and
`E = Evaluate(end_memory, new_memory)`, where `new_memory` is the memory of `st1`, it returns
true if and only if `S < N`, `N > 0` and `E > 0`, and the score it then reports is
`N + E`. -/
theorem isImprovement_value (E : Engine) (objectives : Weighted) (cache : StateCache)
    (start_state start_memory inputs end_memory : List Nat)
    (c1 : StateCache) (st1 : List Nat) (r : Option ℚ)
    (hret : IsImprovement E objectives cache start_state start_memory inputs end_memory
      = some (c1, st1, r)) :
    (r.isSome = true ↔
        Evaluate objectives start_memory end_memory
            < Evaluate objectives start_memory (Emulator.GetMemory E st1)
          ∧ Evaluate objectives start_memory (Emulator.GetMemory E st1) > 0
          ∧ Evaluate objectives end_memory (Emulator.GetMemory E st1) > 0)
      ∧ ∀ score, r = some score →
          score = Evaluate objectives start_memory (Emulator.GetMemory E st1)
                    + Evaluate objectives end_memory (Emulator.GetMemory E st1) := by
  unfold IsImprovement at hret
  split at hret
  · simp at hret
  · split at hret
    · simp at hret
    · rename_i c2 st2 _
      simp only at hret
      split at hret
      · rename_i h
        simp only [Option.some.injEq, Prod.mk.injEq] at hret
        obtain ⟨_, hst, hr⟩ := hret
        subst hst; subst hr
        refine ⟨⟨by simp, fun hh => absurd hh.1 (not_lt.mpr h)⟩, by simp⟩
      · split at hret
        · rename_i h1 h
          simp only [Option.some.injEq, Prod.mk.injEq] at hret
          obtain ⟨_, hst, hr⟩ := hret
          subst hst; subst hr
          refine ⟨⟨by simp, fun hh => absurd hh.2.1 (not_lt.mpr h)⟩, by simp⟩
        · split at hret
          · rename_i h1 h2 h
            simp only [Option.some.injEq, Prod.mk.injEq] at hret
            obtain ⟨_, hst, hr⟩ := hret
            subst hst; subst hr
            refine ⟨⟨by simp, fun hh => absurd hh.2.2 (not_lt.mpr h)⟩, by simp⟩
          · rename_i h1 h2 h3
            simp only [Option.some.injEq, Prod.mk.injEq] at hret
            obtain ⟨_, hst, hr⟩ := hret
            subst hst; subst hr
            refine ⟨⟨fun _ => ⟨not_le.mp h1, not_le.mp h2, not_le.mp h3⟩, fun _ => rfl⟩, ?_⟩
            intro score hs
            simp only [Option.some.injEq] at hs
            rw [← hs]
            ring

end Tasbot

namespace Tasbot

/-- C8 (the code at a failing input): with two candidates of total scores `-2` and `-1`,
`ParallelStep` leaves `best_next_idx` at `0`, although the maximum total score is that of
candidate `1`. -/
theorem parallelStep_all_negative :
    (ParallelStep [⟨-2, 0, 0, 0, []⟩, ⟨-1, 0, 0, 0, []⟩] []).map (fun s => s.best_next_idx)
        = some 0
      ∧ PlayFunResponse.totalScore ⟨-2, 0, 0, 0, []⟩
          < PlayFunResponse.totalScore ⟨-1, 0, 0, 0, []⟩ := by
  norm_num [ParallelStep, parallelStepLoop, parallelStepBody, addFutureScores,
    PlayFunResponse.totalScore]

end Tasbot

namespace Tasbot

theorem selected_body (pre : List PlayFunResponse) (sel sel1 : Selection)
    (res : PlayFunResponse) (hsel : Selected pre sel)
    (h : parallelStepBody sel pre.length res = some sel1) : Selected (pre ++ [res]) sel1 := by
  unfold parallelStepBody at h
  split at h
  · simp at h
  · simp only at h
    split at h
    · rename_i hgt
      simp only [Option.some.injEq] at h
      subst h
      have hnonneg : 0 ≤ sel.best_score := by
        rcases hsel.2 with ⟨h0, _⟩ | ⟨hpos, _⟩
        · rw [h0]
        · exact le_of_lt hpos
      refine ⟨?_, Or.inr ⟨lt_of_le_of_lt hnonneg hgt, res, by simp, rfl, ?_⟩⟩
      · intro r hr
        rcases List.mem_append.mp hr with hr | hr
        · exact le_trans (hsel.1 r hr) (le_of_lt hgt)
        · simp only [List.mem_singleton] at hr
          subst hr
          exact le_refl _
      · intro j r1 hj hget
        simp only at hj
        rw [List.getElem?_append_left hj] at hget
        exact lt_of_le_of_lt (hsel.1 r1 (List.mem_iff_getElem?.mpr ⟨j, hget⟩)) hgt
    · rename_i hle
      simp only [Option.some.injEq] at h
      subst h
      refine ⟨?_, ?_⟩
      · intro r hr
        rcases List.mem_append.mp hr with hr | hr
        · exact hsel.1 r hr
        · simp only [List.mem_singleton] at hr
          subst hr
          exact not_lt.mp hle
      · rcases hsel.2 with h0 | ⟨hpos, r, hget, hr, hbefore⟩
        · exact Or.inl h0
        · have hlt : sel.best_next_idx < pre.length := (List.getElem?_eq_some.mp hget).1
          refine Or.inr ⟨hpos, r, ?_, hr, ?_⟩
          · show (pre ++ [res])[sel.best_next_idx]? = some r
            rw [List.getElem?_append_left hlt]
            exact hget
          · intro j r1 hj hget1
            have hj' : j < sel.best_next_idx := hj
            rw [List.getElem?_append_left (by omega)] at hget1
            exact hbefore j r1 hj' hget1

theorem selected_loop (rest : List PlayFunResponse) :
    ∀ (pre : List PlayFunResponse) (sel sel1 : Selection), Selected pre sel →
      parallelStepLoop rest pre.length sel = some sel1 → Selected (pre ++ rest) sel1 := by
  induction rest with
  | nil =>
    intro pre sel sel1 hsel h
    simp only [parallelStepLoop, Option.some.injEq] at h
    subst h
    simpa using hsel
  | cons res rest ih =>
    intro pre sel sel1 hsel h
    unfold parallelStepLoop at h
    split at h
    · simp at h
    · rename_i sel2 hbody
      have h2 := selected_body pre sel sel2 res hsel hbody
      have h3 := ih (pre ++ [res]) sel2 sel1 h2 (by simpa using h)
      simpa using h3

/-- What `ParallelStep` selects when it returns: the first candidate whose total score is the
maximum, provided that maximum is positive; candidate `0` when no total score is positive. -/
theorem parallelStep_selected (work : List PlayFunResponse) (futuretotals : List ℚ)
    (sel : Selection) (h : ParallelStep work futuretotals = some sel) :
    ((∀ r ∈ work, r.totalScore ≤ 0) → sel.best_next_idx = 0)
      ∧ ((∃ r ∈ work, 0 < r.totalScore) →
          ∃ r, work[sel.best_next_idx]? = some r
            ∧ (∀ r1 ∈ work, r1.totalScore ≤ r.totalScore)
            ∧ ∀ j r1, j < sel.best_next_idx → work[j]? = some r1 →
                r1.totalScore < r.totalScore) := by
  unfold ParallelStep at h
  split at h
  swap
  · simp at h
  have h0 : Selected [] { futuretotals := futuretotals, best_score := 0, best_next_idx := 0 } :=
    ⟨by intro r hr; simp at hr, Or.inl ⟨rfl, rfl⟩⟩
  have hs := selected_loop work [] _ sel h0 h
  simp only [List.nil_append] at hs
  constructor
  · intro hall
    rcases hs.2 with ⟨_, hidx⟩ | ⟨hpos, r, hget, hr, _⟩
    · exact hidx
    · have := hall r (List.mem_iff_getElem?.mpr ⟨_, hget⟩)
      rw [hr] at this
      exact absurd hpos (not_lt.mpr this)
  · rintro ⟨r0, hr0, hpos0⟩
    rcases hs.2 with ⟨hz, _⟩ | ⟨hpos, r, hget, hr, hbefore⟩
    · have := hs.1 r0 hr0
      rw [hz] at this
      exact absurd hpos0 (not_lt.mpr this)
    · refine ⟨r, hget, ?_, ?_⟩
      · intro r1 hr1
        rw [hr]; exact hs.1 r1 hr1
      · intro j r1 hj hget1
        rw [hr]; exact hbefore j r1 hj hget1

end Tasbot

namespace Tasbot

/-! ## Lemmas on the dispatcher -/

theorem countP_set_add {α : Type} (p : α → Bool) (a : α) :
    ∀ (l : List α) (i : Nat) (x : α), l[i]? = some x →
      (l.set i a).countP p + (if p x then 1 else 0) = l.countP p + (if p a then 1 else 0) := by
  intro l
  induction l with
  | nil => intro i x h; simp at h
  | cons b t ih =>
    intro i x h
    cases i with
    | zero =>
      simp only [List.getElem?_cons_zero, Option.some.injEq] at h
      subst h
      simp only [List.set_cons_zero, List.countP_cons]
      omega
    | succ k =>
      simp only [List.getElem?_cons_succ] at h
      have := ih k x h
      simp only [List.set_cons_succ, List.countP_cons]
      omega

theorem set_eq_self_of_getElem? {α : Type} :
    ∀ (l : List α) (i : Nat) (x : α), l[i]? = some x → l.set i x = l := by
  intro l
  induction l with
  | nil => intro i x h; simp at h
  | cons b t ih =>
    intro i x h
    cases i with
    | zero =>
      simp only [List.getElem?_cons_zero, Option.some.injEq] at h
      subst h
      rfl
    | succ k =>
      simp only [List.getElem?_cons_succ] at h
      simp only [List.set_cons_succ, ih k x h]

theorem getD_set_true (l : List Bool) (u v : Nat) :
    (l.set u true).getD v false = (if v = u ∧ u < l.length then true else l.getD v false) := by
  simp only [List.getD_eq_getElem?_getD, List.getElem?_set]
  by_cases h : u = v
  · subst h
    by_cases h2 : u < l.length
    · simp [h2]
    · simp [h2, List.getElem?_eq_none (not_lt.mp h2)]
  · have h' : ¬ v = u := fun e => h e.symm
    simp [h, h']

theorem mem_of_getElem?_eq_some {α : Type} {l : List α} {i : Nat} {x : α}
    (h : l[i]? = some x) : x ∈ l :=
  List.mem_iff_getElem?.mpr ⟨i, h⟩

namespace GetAnswers

variable {ν Req Res : Type}

theorem idleFrom_some (l : List Helper) :
    ∀ (k i : Nat), idleFrom l k = some i →
      ∃ helper, k ≤ i ∧ l[i - k]? = some helper ∧ helper.state = .DISCONNECTED := by
  induction l with
  | nil => intro k i h; simp [idleFrom] at h
  | cons a t ih =>
    intro k i h
    unfold idleFrom at h
    split at h
    · rename_i hs
      simp only [Option.some.injEq] at h
      subst h
      exact ⟨a, le_refl _, by simp, hs⟩
    · rcases ih (k + 1) i h with ⟨helper, hk, hget, hst⟩
      refine ⟨helper, by omega, ?_, hst⟩
      have : i - k = (i - (k + 1)) + 1 := by omega
      rw [this, List.getElem?_cons_succ]
      exact hget

theorem idleFrom_none (l : List Helper) :
    ∀ (k : Nat), idleFrom l k = none → ∀ h ∈ l, h.state = .WORKING := by
  induction l with
  | nil => intro k _ h hh; simp at hh
  | cons a t ih =>
    intro k h x hx
    unfold idleFrom at h
    split at h
    · simp at h
    · rename_i hs
      rcases List.mem_cons.mp hx with e | e
      · subst e
        cases hst : x.state with
        | DISCONNECTED => exact absurd hst hs
        | WORKING => rfl
      · exact ih (k + 1) h x e

theorem inv_new (res0 : Res) (ports : List Int) (requests : List Req) :
    (GetAnswers.new res0 ports requests).Inv := by
  refine ⟨by simp [GetAnswers.new], by simp [GetAnswers.new], ?_, ?_, ?_, ?_⟩
  · intro h hh
    simp only [GetAnswers.new, List.mem_map] at hh
    rcases hh with ⟨p, _, rfl⟩
    simp
  · intro u
    simp only [GetAnswers.new]
    rw [if_neg (by simp), List.countP_eq_zero]
    intro h hh
    simp only [List.mem_map] at hh
    rcases hh with ⟨p, _, rfl⟩
    simp
  · intro u hu
    simp only [GetAnswers.new, List.getD_eq_getElem?_getD, List.getElem?_map] at hu
    cases hr : requests[u]? <;> simp [hr] at hu
  · intro u hu
    simp [GetAnswers.new] at hu

/-- The effect of `FetchWork` when it returns. -/
theorem fetchWork_ok (net : Net ν Req Res) (nu nu1 : ν) (ga : GetAnswers Req Res)
    (i : Nat) (helper helper1 : Helper) (workidx : Nat)
    (h : FetchWork net nu ga i helper workidx = .ok (nu1, helper1)) :
    ∃ w, workidx < ga.workqueued_ ∧ helper.state = .DISCONNECTED
      ∧ ga.work_[workidx]? = some w
      ∧ net.fetch nu i helper.port w.req = some nu1
      ∧ helper1 = { helper with state := .WORKING, workidx := some workidx } := by
  unfold FetchWork at h
  split at h
  · rename_i hlt
    split at h
    · rename_i hst
      split at h
      · simp at h
      · rename_i w hw
        split at h
        · simp at h
        · rename_i nu2 hf
          simp only [Except.ok.injEq, Prod.mk.injEq] at h
          exact ⟨w, hlt, hst, hw, by rw [hf, h.1], h.2.symm⟩
    · simp at h
  · simp at h

/-- The checks of `FetchWork` that can fail on a queued, existing unit and a disconnected
helper: only the connection. -/
theorem fetchWork_error (net : Net ν Req Res) (nu : ν) (ga : GetAnswers Req Res)
    (i : Nat) (helper : Helper) (workidx : Nat) (c : Check)
    (hq : workidx < ga.workqueued_) (hle : ga.workqueued_ ≤ ga.work_.length)
    (hst : helper.state = .DISCONNECTED)
    (h : FetchWork net nu ga i helper workidx = .error c) : c = .connect := by
  unfold FetchWork at h
  rw [if_pos hq, if_pos hst] at h
  split at h
  · rename_i hw
    have := List.getElem?_eq_none_iff.mp hw
    omega
  · split at h
    · simp only [Except.error.injEq] at h
      exact h.symm
    · simp at h

/-- The effect of `DoNextWork` when it returns. -/
theorem doNextWork_ok (net : Net ν Req Res) (nu nu1 : ν) (ga ga1 : GetAnswers Req Res)
    (idle : Nat) (h : DoNextWork net nu ga idle = .ok (nu1, ga1)) :
    ∃ helper w, ga.workqueued_ < ga.work_.length ∧ ga.helpers_[idle]? = some helper
      ∧ ga.work_[ga.workqueued_]? = some w
      ∧ helper.state = .DISCONNECTED
      ∧ net.fetch nu idle helper.port w.req = some nu1
      ∧ ga1 = { ga with workqueued_ := ga.workqueued_ + 1,
                        helpers_ := ga.helpers_.set idle
                          { helper with state := .WORKING, workidx := some ga.workqueued_ } } := by
  unfold DoNextWork at h
  split at h
  · rename_i hlt
    simp only at h
    split at h
    · simp at h
    · rename_i helper hget
      split at h
      · simp at h
      · rename_i nu2 helper2 hf
        rcases fetchWork_ok net nu nu2 _ idle helper helper2 _ hf with ⟨w, _, hst, hw, hfe, hh⟩
        simp only [Except.ok.injEq, Prod.mk.injEq] at h
        refine ⟨helper, w, hlt, hget, hw, hst, by rw [hfe, h.1], ?_⟩
        rw [← h.2, hh]
  · simp at h

/-- `DoNextWork` on an idle helper, with a unit left to queue, fails only by the
connection. -/
theorem doNextWork_error (net : Net ν Req Res) (nu : ν) (ga : GetAnswers Req Res)
    (idle : Nat) (c : Check) (hlt : ga.workqueued_ < ga.work_.length)
    (hidle : ga.GetIdleHelper = some idle)
    (h : DoNextWork net nu ga idle = .error c) : c = .connect := by
  rcases idleFrom_some ga.helpers_ 0 idle hidle with ⟨helper, _, hget, hst⟩
  simp only [Nat.sub_zero] at hget
  unfold DoNextWork at h
  rw [if_pos hlt] at h
  simp only [hget] at h
  split at h
  · rename_i c1 hf
    simp only [Except.error.injEq] at h
    subst h
    exact fetchWork_error net nu _ idle helper _ c1 (by simp) (by simpa using hlt) hst hf
  · simp at h

end GetAnswers
end Tasbot

namespace Tasbot
namespace GetAnswers

variable {ν Req Res : Type}

/-- A unit held by a helper is queued and not done. -/
theorem inv_held_unit {ga : GetAnswers Req Res} (hinv : ga.Inv) {helper : Helper}
    (hmem : helper ∈ ga.helpers_) {u : Nat} (hu : helper.workidx = some u) :
    u < ga.workqueued_ ∧ ga.done_.getD u false = false := by
  have hpos : 0 < ga.helpers_.countP (fun h => h.workidx == some u) :=
    List.countP_pos_iff.mpr ⟨helper, hmem, by simp [hu]⟩
  rw [hinv.held u] at hpos
  by_contra hcon
  rw [if_neg hcon] at hpos
  omega

theorem inv_doNextWork (net : Net ν Req Res) (nu nu1 : ν) (ga ga1 : GetAnswers Req Res)
    (idle : Nat) (hinv : ga.Inv) (h : DoNextWork net nu ga idle = .ok (nu1, ga1)) :
    ga1.Inv ∧ ga1.work_ = ga.work_ ∧ ga1.workdone_ = ga.workdone_ ∧ ga1.done_ = ga.done_
      ∧ ga1.helpers_.length = ga.helpers_.length := by
  rcases doNextWork_ok net nu nu1 ga ga1 idle h with ⟨helper, w, hlt, hget, hw, hst, hf, rfl⟩
  have hmem := mem_of_getElem?_eq_some hget
  have hnone : helper.workidx = none := by
    by_contra hne
    have := (hinv.state_iff helper hmem).mpr hne
    rw [hst] at this
    cases this
  refine ⟨⟨hinv.done_length, hlt, ?_, ?_, ?_, hinv.done_below⟩, rfl, rfl, rfl, by simp⟩
  · intro x hx
    rcases List.mem_or_eq_of_mem_set hx with hx | hx
    · exact hinv.state_iff x hx
    · subst hx; simp
  · intro u
    have hc := countP_set_add (fun h : Helper => h.workidx == some u)
      { helper with state := .WORKING, workidx := some ga.workqueued_ } ga.helpers_ idle helper
      hget
    have hh := hinv.held u
    simp only [hnone] at hc
    simp only at hc ⊢
    by_cases hu : u = ga.workqueued_
    · subst hu
      have hd : ga.done_.getD ga.workqueued_ false = false := by
        cases hdd : ga.done_.getD ga.workqueued_ false with
        | false => rfl
        | true => have := hinv.done_queued _ hdd; omega
      rw [if_neg (by omega)] at hh
      rw [if_pos ⟨by omega, hd⟩]
      simp at hc
      omega
    · have hne : ¬ ga.workqueued_ = u := fun e => hu e.symm
      have hiff : (u < ga.workqueued_ + 1 ∧ ga.done_.getD u false = false)
          ↔ (u < ga.workqueued_ ∧ ga.done_.getD u false = false) := by
        constructor
        · rintro ⟨a, b⟩; exact ⟨by omega, b⟩
        · rintro ⟨a, b⟩; exact ⟨by omega, b⟩
      rw [if_congr hiff rfl rfl, ← hh]
      simp [hne] at hc
      omega
  · intro u hu
    have := hinv.done_queued u hu
    show u < ga.workqueued_ + 1
    omega

theorem inv_enqueue (net : Net ν Req Res) :
    ∀ (fuel : Nat) (nu nu1 : ν) (ga ga1 : GetAnswers Req Res), ga.Inv →
      enqueue net fuel nu ga = .ok (nu1, ga1) →
      ga1.Inv ∧ ga1.work_ = ga.work_ ∧ ga1.workdone_ = ga.workdone_ ∧ ga1.done_ = ga.done_
        ∧ ga1.helpers_.length = ga.helpers_.length := by
  intro fuel
  induction fuel with
  | zero =>
    intro nu nu1 ga ga1 hinv h
    simp only [enqueue, Except.ok.injEq, Prod.mk.injEq] at h
    rw [← h.2]
    exact ⟨hinv, rfl, rfl, rfl, rfl⟩
  | succ n ih =>
    intro nu nu1 ga ga1 hinv h
    unfold enqueue at h
    split at h
    · split at h
      · simp only [Except.ok.injEq, Prod.mk.injEq] at h
        rw [← h.2]
        exact ⟨hinv, rfl, rfl, rfl, rfl⟩
      · rename_i idle _
        split at h
        · simp at h
        · rename_i nu2 ga2 hd
          have h2 := inv_doNextWork net nu nu2 ga ga2 idle hinv hd
          have h3 := ih nu2 nu1 ga2 ga1 h2.1 h
          exact ⟨h3.1, h3.2.1.trans h2.2.1, h3.2.2.1.trans h2.2.2.1,
            h3.2.2.2.1.trans h2.2.2.2.1, h3.2.2.2.2.trans h2.2.2.2.2⟩
    · simp only [Except.ok.injEq, Prod.mk.injEq] at h
      rw [← h.2]
      exact ⟨hinv, rfl, rfl, rfl, rfl⟩

theorem enqueue_error (net : Net ν Req Res) :
    ∀ (fuel : Nat) (nu : ν) (ga : GetAnswers Req Res) (c : Check), ga.Inv →
      enqueue net fuel nu ga = .error c → c = .connect := by
  intro fuel
  induction fuel with
  | zero => intro nu ga c _ h; simp [enqueue] at h
  | succ n ih =>
    intro nu ga c hinv h
    unfold enqueue at h
    split at h
    · rename_i hlt
      split at h
      · simp at h
      · rename_i idle hidle
        split at h
        · rename_i c1 hd
          simp only [Except.error.injEq] at h
          subst h
          exact doNextWork_error net nu ga idle c1 hlt hidle hd
        · rename_i nu2 ga2 hd
          exact ih nu2 ga2 c (inv_doNextWork net nu nu2 ga ga2 idle hinv hd).1 h
    · simp at h

/-- The fuel of `enqueue` is never what stops it: with `work_.size()` turns of fuel the loop
ends because no unit is left to queue or no helper is idle. -/
theorem enqueue_exit (net : Net ν Req Res) :
    ∀ (fuel : Nat) (nu : ν) (ga : GetAnswers Req Res) (s1 : ν × GetAnswers Req Res),
      ga.work_.length ≤ ga.workqueued_ + fuel → enqueue net fuel nu ga = .ok s1 →
      s1.2.work_.length ≤ s1.2.workqueued_ ∨ s1.2.GetIdleHelper = none := by
  intro fuel
  induction fuel with
  | zero =>
    intro nu ga s1 hf h
    simp only [enqueue, Except.ok.injEq] at h
    subst h
    left
    simpa using hf
  | succ n ih =>
    intro nu ga s1 hf h
    unfold enqueue at h
    split at h
    · split at h
      · rename_i hidle
        simp only [Except.ok.injEq] at h
        subst h
        exact Or.inr hidle
      · rename_i idle _
        split at h
        · simp at h
        · rename_i nu2 ga2 hd
          rcases doNextWork_ok net nu nu2 ga ga2 idle hd with ⟨_, _, _, _, _, _, _, rfl⟩
          exact ih nu2 _ s1 (by simp only; omega) h
    · rename_i hge
      simp only [Except.ok.injEq] at h
      subst h
      left
      simpa using hge

end GetAnswers
end Tasbot

namespace Tasbot
namespace GetAnswers

variable {ν Req Res : Type}

/-- The three ways a helper is handled in the reading loop, under the invariant: it is left
alone; its result is recorded; or its read fails and the same unit is fetched again. -/
theorem handleHelper_cases (net : Net ν Req Res) (s : ν × GetAnswers Req Res) (i : Nat)
    (hinv : s.2.Inv) :
    (handleHelper net s i = .ok s
        ∧ ∀ helper, s.2.helpers_[i]? = some helper →
            ¬ (helper.state = .WORKING ∧ net.ready s.1 i = true))
    ∨ (∃ helper u w nu1 r, s.2.helpers_[i]? = some helper ∧ helper.state = .WORKING
        ∧ helper.workidx = some u ∧ s.2.work_[u]? = some w ∧ u < s.2.workqueued_
        ∧ s.2.done_.getD u false = false
        ∧ net.read s.1 i = (nu1, .ok r)
        ∧ handleHelper net s i = .ok (net.close nu1 i,
            { s.2 with
              work_ := s.2.work_.set u { w with res := r },
              done_ := s.2.done_.set u true,
              helpers_ := s.2.helpers_.set i
                { helper with state := .DISCONNECTED, workidx := none } }))
    ∨ (∃ helper u w nu1 rr, s.2.helpers_[i]? = some helper ∧ helper.state = .WORKING
        ∧ helper.workidx = some u ∧ s.2.work_[u]? = some w ∧ u < s.2.workqueued_
        ∧ s.2.done_.getD u false = false
        ∧ net.read s.1 i = (nu1, rr) ∧ (∀ r, rr ≠ .ok r)
        ∧ ((net.fetch (net.close nu1 i) i helper.port w.req = none
              ∧ handleHelper net s i = .error .connect)
           ∨ ∃ nu2 work1, net.fetch (net.close nu1 i) i helper.port w.req = some nu2
              ∧ handleHelper net s i = .ok (nu2, { s.2 with work_ := work1 })
              ∧ ((rr = .ioError ∧ work1 = s.2.work_)
                  ∨ ∃ g, rr = .parseError g ∧ work1 = s.2.work_.set u { w with res := g }))) := by
  unfold handleHelper
  cases hget : s.2.helpers_[i]? with
  | none => left; exact ⟨rfl, by intro helper hh; simp at hh⟩
  | some helper =>
    simp only
    by_cases hcond : helper.state = .WORKING ∧ net.ready s.1 i = true
    · rw [if_pos hcond]
      have hmem := mem_of_getElem?_eq_some hget
      cases hwi : helper.workidx with
      | none => exact absurd hwi ((hinv.state_iff helper hmem).mp hcond.1)
      | some u =>
        have hu := inv_held_unit hinv hmem hwi
        have hulen : u < s.2.work_.length := lt_of_lt_of_le hu.1 hinv.queued_le
        have hw : s.2.work_[u]? = some s.2.work_[u] := List.getElem?_eq_getElem hulen
        simp only [hw]
        have hself : ({ port := helper.port, state := .WORKING, workidx := some u } : Helper)
            = helper := by
          cases helper
          simp only [Helper.mk.injEq, true_and]
          exact ⟨hcond.1.symm, hwi.symm⟩
        have hfetch : ∀ (nu1 : ν) (ga1 : GetAnswers Req Res) (w1 : Work Req Res),
            ga1.workqueued_ = s.2.workqueued_ → ga1.work_[u]? = some w1 →
            FetchWork net (net.close nu1 i) ga1 i
                { port := helper.port, state := .DISCONNECTED, workidx := some u } u
              = match net.fetch (net.close nu1 i) i helper.port w1.req with
                | none => .error .connect
                | some nu2 => .ok (nu2, helper) := by
          intro nu1 ga1 w1 hq hw1
          unfold FetchWork
          rw [if_pos (by rw [hq]; exact hu.1), if_pos rfl]
          simp only [hw1]
          cases net.fetch (net.close nu1 i) i helper.port w1.req with
          | none => rfl
          | some nu2 => simp only [hself]
        cases hread : net.read s.1 i with
        | mk nu1 rr =>
          cases rr with
          | ok r =>
            right; left
            refine ⟨helper, u, s.2.work_[u], nu1, r, rfl, hcond.1, hwi, hw, hu.1, hu.2, rfl, ?_⟩
            simp only [hu.2, if_true]
          | parseError g =>
            right; right
            refine ⟨helper, u, s.2.work_[u], nu1, .parseError g, rfl, hcond.1, hwi, hw, hu.1,
              hu.2, rfl, by intro r; simp, ?_⟩
            simp only
            rw [hfetch nu1 { s.2 with work_ := s.2.work_.set u { s.2.work_[u] with res := g } }
              { s.2.work_[u] with res := g } rfl (by simp [List.getElem?_set, hulen])]
            cases hf : net.fetch (net.close nu1 i) i helper.port s.2.work_[u].req with
            | none => left; exact ⟨rfl, rfl⟩
            | some nu2 =>
              right
              refine ⟨nu2, s.2.work_.set u { s.2.work_[u] with res := g }, rfl, ?_,
                Or.inr ⟨g, rfl, rfl⟩⟩
              simp only [set_eq_self_of_getElem? _ _ _ hget]
          | ioError =>
            right; right
            refine ⟨helper, u, s.2.work_[u], nu1, .ioError, rfl, hcond.1, hwi, hw, hu.1,
              hu.2, rfl, by intro r; simp, ?_⟩
            simp only
            rw [hfetch nu1 s.2 s.2.work_[u] rfl hw]
            cases hf : net.fetch (net.close nu1 i) i helper.port s.2.work_[u].req with
            | none => left; exact ⟨rfl, rfl⟩
            | some nu2 =>
              right
              refine ⟨nu2, s.2.work_, rfl, ?_, Or.inl (by simp)⟩
              simp only [set_eq_self_of_getElem? _ _ _ hget]
    · rw [if_neg hcond]
      left
      refine ⟨rfl, ?_⟩
      intro helper2 hh
      simp only [Option.some.injEq] at hh
      rw [← hh]
      exact hcond

end GetAnswers
end Tasbot

namespace Tasbot
namespace GetAnswers

variable {ν Req Res : Type}

theorem handleHelper_error (net : Net ν Req Res) (s : ν × GetAnswers Req Res) (i : Nat)
    (c : Check) (hinv : s.2.Inv) (h : handleHelper net s i = .error c) : c = .connect := by
  rcases handleHelper_cases net s i hinv with h1 | h1 | h1
  · rw [h1.1] at h; simp at h
  · rcases h1 with ⟨_, _, _, _, _, _, _, _, _, _, _, _, hh⟩
    rw [hh] at h; simp at h
  · rcases h1 with ⟨_, _, _, _, _, _, _, _, _, _, _, _, _, hh⟩
    rcases hh with ⟨_, hh⟩ | ⟨_, _, _, hh, _⟩
    · rw [hh] at h
      simp only [Except.error.injEq] at h
      exact h.symm
    · rw [hh] at h; simp at h

/-- The reading loop handles helper `i`: the invariant is kept, the counters and the other
helpers are left alone, a unit that `i` does not hold keeps its slot, and a unit that is done
stays done with its recorded result. -/
theorem inv_handleHelper (net : Net ν Req Res) (s s1 : ν × GetAnswers Req Res) (i : Nat)
    (hinv : s.2.Inv) (h : handleHelper net s i = .ok s1) :
    s1.2.Inv ∧ s1.2.workqueued_ = s.2.workqueued_ ∧ s1.2.workdone_ = s.2.workdone_
      ∧ s1.2.work_.length = s.2.work_.length
      ∧ s1.2.work_.map (fun w => w.req) = s.2.work_.map (fun w => w.req)
      ∧ s1.2.helpers_.length = s.2.helpers_.length
      ∧ (∀ j, j ≠ i → s1.2.helpers_[j]? = s.2.helpers_[j]?)
      ∧ (∀ v, (∀ helper, s.2.helpers_[i]? = some helper → helper.workidx ≠ some v) →
          s1.2.work_[v]? = s.2.work_[v]? ∧ s1.2.done_.getD v false = s.2.done_.getD v false)
      ∧ (∀ v, s.2.done_.getD v false = true →
          s1.2.done_.getD v false = true ∧ s1.2.work_[v]? = s.2.work_[v]?) := by
  rcases handleHelper_cases net s i hinv with h1 | h1 | h1
  · rw [h1.1] at h
    simp only [Except.ok.injEq] at h
    subst h
    exact ⟨hinv, rfl, rfl, rfl, rfl, rfl, fun _ _ => rfl, fun _ _ => ⟨rfl, rfl⟩,
      fun _ hv => ⟨hv, rfl⟩⟩
  · rcases h1 with ⟨helper, u, w, nu1, r, hget, hst, hwi, hw, huq, hud, _, hh⟩
    rw [hh] at h
    simp only [Except.ok.injEq] at h
    subst h
    have hulen : u < s.2.done_.length := by
      rw [hinv.done_length]; exact lt_of_lt_of_le huq hinv.queued_le
    refine ⟨⟨?_, ?_, ?_, ?_, ?_, ?_⟩, rfl, rfl, by simp, ?_, by simp, ?_, ?_, ?_⟩
    · simp [hinv.done_length]
    · simpa using hinv.queued_le
    · intro x hx
      rcases List.mem_or_eq_of_mem_set hx with hx | hx
      · exact hinv.state_iff x hx
      · subst hx; simp
    · intro v
      have hc := countP_set_add (fun h : Helper => h.workidx == some v)
        { helper with state := .DISCONNECTED, workidx := none } s.2.helpers_ i helper hget
      have hh2 := hinv.held v
      simp only [hwi] at hc
      simp only [getD_set_true]
      by_cases hv : v = u
      · rw [hv] at hc hh2 ⊢
        rw [if_pos ⟨huq, hud⟩] at hh2
        rw [if_neg (by simp [hulen])]
        simp only [beq_self_eq_true, if_true] at hc
        have hz : (if (none : Option Nat) == some u then 1 else 0) = 0 := rfl
        omega
      · have hne : ¬ u = v := fun e => hv e.symm
        simp only [hv, false_and, if_false]
        simp [hne] at hc
        rw [← hh2]
        exact hc
    · intro v hv
      simp only [getD_set_true] at hv
      by_cases hvu : v = u
      · subst hvu; exact huq
      · simp only [hvu, false_and, if_false] at hv
        exact hinv.done_queued v hv
    · intro v hv
      simp only [getD_set_true]
      have := hinv.done_below v hv
      split
      · rfl
      · exact this
    · apply List.ext_getElem?
      intro n
      simp only [List.getElem?_map, List.getElem?_set]
      by_cases hn : u = n
      · subst hn
        simp [hw]
        exact lt_of_lt_of_le huq hinv.queued_le
      · simp [hn]
    · intro j hj
      simp only [List.getElem?_set]
      rw [if_neg (fun e => hj e.symm)]
    · intro v hv
      have hne : v ≠ u := by
        intro e
        exact hv helper hget (by rw [hwi, e])
      have hne2 : ¬ u = v := fun e => hne e.symm
      constructor
      · simp [List.getElem?_set, hne2]
      · show (s.2.done_.set u true).getD v false = s.2.done_.getD v false
        rw [getD_set_true, if_neg (by simp [hne])]
    · intro v hv
      have hne : v ≠ u := by
        intro e
        rw [e, hud] at hv
        cases hv
      have hne2 : ¬ u = v := fun e => hne e.symm
      constructor
      · show (s.2.done_.set u true).getD v false = true
        rw [getD_set_true, if_neg (by simp [hne])]
        exact hv
      · simp [List.getElem?_set, hne2]
  · rcases h1 with ⟨helper, u, w, nu1, rr, hget, hst, hwi, hw, huq, hud, _, _, hh⟩
    rcases hh with ⟨_, hh⟩ | ⟨nu2, work1, _, hh, hwork⟩
    · rw [hh] at h; simp at h
    · rw [hh] at h
      simp only [Except.ok.injEq] at h
      subst h
      have hlen : work1.length = s.2.work_.length := by
        rcases hwork with ⟨_, e⟩ | ⟨g, _, e⟩ <;> simp [e]
      have hreq : work1.map (fun w => w.req) = s.2.work_.map (fun w => w.req) := by
        rcases hwork with ⟨_, e⟩ | ⟨g, _, e⟩
        · rw [e]
        · rw [e]
          apply List.ext_getElem?
          intro n
          simp only [List.getElem?_map, List.getElem?_set]
          by_cases hn : u = n
          · subst hn
            simp [hw]
            exact lt_of_lt_of_le huq hinv.queued_le
          · simp [hn]
      have hother : ∀ v, v ≠ u → work1[v]? = s.2.work_[v]? := by
        intro v hv
        have hne2 : ¬ u = v := fun e => hv e.symm
        rcases hwork with ⟨_, e⟩ | ⟨g, _, e⟩
        · rw [e]
        · rw [e]; simp [List.getElem?_set, hne2]
      refine ⟨⟨?_, ?_, hinv.state_iff, hinv.held, hinv.done_queued, hinv.done_below⟩,
        rfl, rfl, hlen, hreq, rfl, fun _ _ => rfl, ?_, ?_⟩
      · show s.2.done_.length = work1.length
        rw [hlen]; exact hinv.done_length
      · show s.2.workqueued_ ≤ work1.length
        rw [hlen]; exact hinv.queued_le
      · intro v hv
        have hne : v ≠ u := by
          intro e
          exact hv helper hget (by rw [hwi, e])
        exact ⟨hother v hne, rfl⟩
      · intro v hv
        have hne : v ≠ u := by
          intro e
          rw [e, hud] at hv
          cases hv
        exact ⟨hv, hother v hne⟩

end GetAnswers
end Tasbot

namespace Tasbot
namespace GetAnswers

variable {ν Req Res : Type}

theorem inv_handleHelpers (net : Net ν Req Res) (is : List Nat) :
    ∀ (s s1 : ν × GetAnswers Req Res), s.2.Inv → handleHelpers net is s = .ok s1 →
      s1.2.Inv ∧ s1.2.workqueued_ = s.2.workqueued_ ∧ s1.2.workdone_ = s.2.workdone_
        ∧ s1.2.work_.length = s.2.work_.length
        ∧ s1.2.work_.map (fun w => w.req) = s.2.work_.map (fun w => w.req)
        ∧ s1.2.helpers_.length = s.2.helpers_.length
        ∧ (∀ v, s.2.done_.getD v false = true →
            s1.2.done_.getD v false = true ∧ s1.2.work_[v]? = s.2.work_[v]?) := by
  induction is with
  | nil =>
    intro s s1 hinv h
    simp only [handleHelpers, Except.ok.injEq] at h
    subst h
    exact ⟨hinv, rfl, rfl, rfl, rfl, rfl, fun _ hv => ⟨hv, rfl⟩⟩
  | cons i rest ih =>
    intro s s1 hinv h
    unfold handleHelpers at h
    split at h
    · simp at h
    · rename_i s2 h2
      have a := inv_handleHelper net s s2 i hinv h2
      have b := ih s2 s1 a.1 h
      refine ⟨b.1, b.2.1.trans a.2.1, b.2.2.1.trans a.2.2.1, b.2.2.2.1.trans a.2.2.2.1,
        b.2.2.2.2.1.trans a.2.2.2.2.1, b.2.2.2.2.2.1.trans a.2.2.2.2.2.1, ?_⟩
      intro v hv
      have a9 := a.2.2.2.2.2.2.2.2 v hv
      have b9 := b.2.2.2.2.2.2 v a9.1
      exact ⟨b9.1, b9.2.trans a9.2⟩

theorem handleHelpers_error (net : Net ν Req Res) (is : List Nat) :
    ∀ (s : ν × GetAnswers Req Res) (c : Check), s.2.Inv →
      handleHelpers net is s = .error c → c = .connect := by
  induction is with
  | nil => intro s c _ h; simp [handleHelpers] at h
  | cons i rest ih =>
    intro s c hinv h
    unfold handleHelpers at h
    split at h
    · rename_i c1 h1
      simp only [Except.error.injEq] at h
      subst h
      exact handleHelper_error net s i c1 hinv h1
    · rename_i s2 h2
      exact ih s2 c (inv_handleHelper net s s2 i hinv h2).1 h

theorem inv_advance (fuel : Nat) :
    ∀ (ga : GetAnswers Req Res), ga.Inv →
      (advance fuel ga).Inv ∧ (advance fuel ga).workqueued_ = ga.workqueued_
        ∧ (advance fuel ga).work_ = ga.work_ ∧ (advance fuel ga).done_ = ga.done_
        ∧ (advance fuel ga).helpers_ = ga.helpers_
        ∧ ga.workdone_ ≤ (advance fuel ga).workdone_ := by
  induction fuel with
  | zero => intro ga hinv; exact ⟨hinv, rfl, rfl, rfl, rfl, le_refl _⟩
  | succ n ih =>
    intro ga hinv
    unfold advance
    split
    · rename_i hc
      have hinv1 : ({ ga with workdone_ := ga.workdone_ + 1 } : GetAnswers Req Res).Inv := by
        refine ⟨hinv.done_length, hinv.queued_le, hinv.state_iff, hinv.held, hinv.done_queued, ?_⟩
        intro u hu
        by_cases hlt : u < ga.workdone_
        · exact hinv.done_below u hlt
        · have : u = ga.workdone_ := by
            have : u < ga.workdone_ + 1 := hu
            omega
          rw [this]; exact hc.2
      have h := ih _ hinv1
      exact ⟨h.1, h.2.1, h.2.2.1, h.2.2.2.1, h.2.2.2.2.1,
        le_trans (Nat.le_succ _) h.2.2.2.2.2⟩
    · exact ⟨hinv, rfl, rfl, rfl, rfl, le_refl _⟩

theorem inv_workdone_le {ga : GetAnswers Req Res} (hinv : ga.Inv) :
    ga.workdone_ ≤ ga.workqueued_ := by
  by_contra hcon
  have h1 := hinv.done_below ga.workqueued_ (by omega)
  have h2 := hinv.done_queued ga.workqueued_ h1
  omega

theorem meterCells_ok {ga : GetAnswers Req Res} (hinv : ga.Inv) (is : List Nat) :
    meterCells ga is = .ok () := by
  induction is with
  | nil => rfl
  | cons i rest ih =>
    unfold meterCells
    have hcell : meterCell ga i = .ok () := by
      unfold meterCell
      split
      · rfl
      · rename_i hd
        split
        · rename_i hq
          have hd2 : ga.done_.getD i false = false := by
            cases hdd : ga.done_.getD i false with
            | false => rfl
            | true => exact absurd hdd hd
          rw [hinv.held i, if_pos ⟨hq, hd2⟩]
        · rfl
    rw [hcell]
    exact ih

theorem meterCheck_error {ga : GetAnswers Req Res} (hinv : ga.Inv) (c : Check)
    (h : meterCheck ga = .error c) : c = .lowHigh ∧ ga.work_.length = 0 := by
  unfold meterCheck at h
  split at h
  · rw [meterCells_ok hinv] at h; simp at h
  · rename_i hlt
    simp only [Except.error.injEq] at h
    refine ⟨h.symm, ?_⟩
    unfold meterWindow at hlt
    simp only at hlt
    split at hlt
    · split at hlt
      · simp only at hlt
        have := Nat.min_le_left (ga.work_.length - 77) ga.workdone_
        omega
      · simp only at hlt
        have := Nat.min_le_left (ga.work_.length - 77) ga.workdone_
        omega
    · simp only at hlt
      omega

theorem inv_loopBody (net : Net ν Req Res) (s s1 : ν × GetAnswers Req Res) (b : Bool)
    (hinv : s.2.Inv) (h : LoopBody net s = .ok (b, s1)) :
    s1.2.Inv ∧ s1.2.work_.length = s.2.work_.length
      ∧ s1.2.work_.map (fun w => w.req) = s.2.work_.map (fun w => w.req)
      ∧ s1.2.helpers_.length = s.2.helpers_.length
      ∧ (∀ v, s.2.done_.getD v false = true →
          s1.2.done_.getD v false = true ∧ s1.2.work_[v]? = s.2.work_[v]?) := by
  unfold LoopBody at h
  split at h
  · simp at h
  · split at h
    · simp only [Except.ok.injEq, Prod.mk.injEq] at h
      rw [← h.2]
      exact ⟨hinv, rfl, rfl, rfl, fun _ hv => ⟨hv, rfl⟩⟩
    · split at h
      · simp at h
      · rename_i nu1 ga1 henq
        have e := inv_enqueue net _ _ _ _ _ hinv henq
        split at h
        · split at h
          · split at h
            · split at h
              · simp at h
              · split at h
                · simp at h
                · rename_i nu2 ga2 hh
                  have a := inv_handleHelpers net _ (net.check nu1, ga1) (nu2, ga2) e.1 hh
                  have d := inv_advance ga2.work_.length ga2 a.1
                  simp only [Except.ok.injEq, Prod.mk.injEq] at h
                  rw [← h.2]
                  simp only [d.2.2.1, d.2.2.2.1, d.2.2.2.2.1]
                  refine ⟨d.1, by rw [a.2.2.2.1]; simp [e.2.1],
                    by rw [a.2.2.2.2.1]; simp [e.2.1],
                    by rw [a.2.2.2.2.2.1]; simp [e.2.2.2.2], ?_⟩
                  intro v hv
                  have hv1 : ga1.done_.getD v false = true := by rw [e.2.2.2.1]; exact hv
                  have a7 := a.2.2.2.2.2.2 v hv1
                  exact ⟨a7.1, by rw [a7.2]; simp [e.2.1]⟩
            · simp at h
          · simp at h
        · simp at h

theorem loopBody_error (net : Net ν Req Res) (s : ν × GetAnswers Req Res) (c : Check)
    (hinv : s.2.Inv) (h : LoopBody net s = .error c) :
    (c = .lowHigh ∧ s.2.work_.length = 0) ∨ c = .numworking ∨ c = .connect := by
  unfold LoopBody at h
  split at h
  · rename_i c1 hm
    simp only [Except.error.injEq] at h
    subst h
    exact Or.inl (meterCheck_error hinv c1 hm)
  · split at h
    · simp at h
    · split at h
      · rename_i c1 henq
        simp only [Except.error.injEq] at h
        subst h
        exact Or.inr (Or.inr (enqueue_error net _ _ _ c1 hinv henq))
      · rename_i nu1 ga1 henq
        have e := inv_enqueue net _ _ _ _ _ hinv henq
        split at h
        · split at h
          · split at h
            · split at h
              · simp only [Except.error.injEq] at h
                exact Or.inr (Or.inr h.symm)
              · split at h
                · rename_i c1 hh
                  simp only [Except.error.injEq] at h
                  subst h
                  exact Or.inr (Or.inr (handleHelpers_error net _ _ c1 e.1 hh))
                · simp at h
            · simp only [Except.error.injEq] at h
              exact Or.inr (Or.inl h.symm)
          · simp only [Except.error.injEq] at h
            exact Or.inr (Or.inr h.symm)
        · simp only [Except.error.injEq] at h
          exact Or.inr (Or.inr h.symm)

theorem inv_reachable (net : Net ν Req Res) (nu0 : ν) (res0 : Res) (ports : List Int)
    (requests : List Req) (s : ν × GetAnswers Req Res)
    (h : Reachable net nu0 res0 ports requests s) :
    s.2.Inv ∧ s.2.work_.length = requests.length := by
  induction h with
  | init => exact ⟨inv_new res0 ports requests, by simp [GetAnswers.new]⟩
  | turn s s1 b _ hstep ih =>
    have a := inv_loopBody net s s1 b ih.1 hstep
    exact ⟨a.1, a.2.1.trans ih.2⟩
  | queued s s1 fuel _ hstep ih =>
    have a := inv_enqueue net fuel s.1 s1.1 s.2 s1.2 ih.1 hstep
    exact ⟨a.1, by rw [a.2.1]; exact ih.2⟩
  | polled s _ ih => exact ih
  | handled s s1 i _ hstep ih =>
    have a := inv_handleHelper net s s1 i ih.1 hstep
    exact ⟨a.1, a.2.2.2.1.trans ih.2⟩

end GetAnswers
end Tasbot

namespace Tasbot

theorem countP_eq_one_unique {α : Type} (p : α → Bool) :
    ∀ (l : List α), l.countP p = 1 →
      ∃ (h : Nat) (x : α), l[h]? = some x ∧ p x = true
        ∧ ∀ (h1 : Nat) (x1 : α), l[h1]? = some x1 → p x1 = true → h1 = h := by
  intro l
  induction l with
  | nil => intro h; simp at h
  | cons a t ih =>
    intro h
    rw [List.countP_cons] at h
    by_cases hp : p a = true
    · simp only [hp, if_true] at h
      have h0 : t.countP p = 0 := by omega
      refine ⟨0, a, by simp, hp, ?_⟩
      intro h1 x1 hget hx1
      cases h1 with
      | zero => rfl
      | succ k =>
        simp only [List.getElem?_cons_succ] at hget
        have hpos : 0 < t.countP p :=
          List.countP_pos_iff.mpr ⟨x1, mem_of_getElem?_eq_some hget, hx1⟩
        omega
    · simp only [hp] at h
      rcases ih (by simpa using h) with ⟨k, x, hget, hx, huniq⟩
      refine ⟨k + 1, x, by simpa using hget, hx, ?_⟩
      intro h1 x1 hget1 hx1
      cases h1 with
      | zero =>
        simp only [List.getElem?_cons_zero, Option.some.injEq] at hget1
        subst hget1
        exact absurd hx1 hp
      | succ j =>
        simp only [List.getElem?_cons_succ] at hget1
        rw [huniq j x1 hget1 hx1]

/-- C9: in every state that `GetAnswers::Loop` reaches, whatever the network does (reads that
succeed, fail or deliver garbage, sockets ready or not): `workdone_ <= workqueued_ <=` the
number of units; every unit below `workqueued_` that is not done is held by exactly one
helper, and that helper is `WORKING`; a helper holds only units below `workqueued_` that are
not done; the only checks that can fail are those on an empty unit list, on an empty helper
list and on the calls of SDL_net, so `CHECK(done_[workidx] == false)` never fails; handling a
helper changes no slot but that of the unit it holds; and a unit that is done stays done
with the result that was recorded for it. -/
theorem getAnswers_loop_invariant {ν Req Res : Type} (net : Net ν Req Res) (nu0 : ν)
    (res0 : Res) (ports : List Int) (requests : List Req) (s : ν × GetAnswers Req Res)
    (hreach : GetAnswers.Reachable net nu0 res0 ports requests s) :
    s.2.workdone_ ≤ s.2.workqueued_ ∧ s.2.workqueued_ ≤ s.2.work_.length
      ∧ s.2.work_.length = requests.length
      ∧ (∀ u, u < s.2.workqueued_ → s.2.done_.getD u false = false →
          ∃ (h : Nat) (helper : Helper), s.2.helpers_[h]? = some helper
            ∧ helper.workidx = some u ∧ helper.state = .WORKING
            ∧ ∀ (h1 : Nat) (helper1 : Helper), s.2.helpers_[h1]? = some helper1 →
                helper1.workidx = some u → h1 = h)
      ∧ (∀ helper ∈ s.2.helpers_, ∀ u, helper.workidx = some u →
          u < s.2.workqueued_ ∧ s.2.done_.getD u false = false ∧ helper.state = .WORKING)
      ∧ (∀ i c, GetAnswers.handleHelper net s i = .error c → c = .connect)
      ∧ (∀ c, GetAnswers.LoopBody net s = .error c →
          c = .lowHigh ∨ c = .numworking ∨ c = .connect)
      ∧ (∀ i s1, GetAnswers.handleHelper net s i = .ok s1 → ∀ v,
          ((∀ helper, s.2.helpers_[i]? = some helper → helper.workidx ≠ some v) →
            s1.2.work_[v]? = s.2.work_[v]? ∧ s1.2.done_.getD v false = s.2.done_.getD v false)
          ∧ (s.2.done_.getD v false = true →
              s1.2.done_.getD v false = true ∧ s1.2.work_[v]? = s.2.work_[v]?))
      ∧ (∀ b s1, GetAnswers.LoopBody net s = .ok (b, s1) → ∀ v,
          s.2.done_.getD v false = true →
            s1.2.done_.getD v false = true ∧ s1.2.work_[v]? = s.2.work_[v]?) := by
  have hr := GetAnswers.inv_reachable net nu0 res0 ports requests s hreach
  have hinv := hr.1
  refine ⟨GetAnswers.inv_workdone_le hinv, hinv.queued_le, hr.2, ?_, ?_, ?_, ?_, ?_, ?_⟩
  · intro u hu hd
    have hc := hinv.held u
    rw [if_pos ⟨hu, hd⟩] at hc
    rcases countP_eq_one_unique _ _ hc with ⟨h, helper, hget, hp, huniq⟩
    have hwi : helper.workidx = some u := by simpa using hp
    have hst : helper.state = .WORKING :=
      (hinv.state_iff helper (mem_of_getElem?_eq_some hget)).mpr (by rw [hwi]; simp)
    refine ⟨h, helper, hget, hwi, hst, ?_⟩
    intro h1 helper1 hget1 hw1
    exact huniq h1 helper1 hget1 (by simp [hw1])
  · intro helper hmem u hwi
    have a := GetAnswers.inv_held_unit hinv hmem hwi
    exact ⟨a.1, a.2, (hinv.state_iff helper hmem).mpr (by rw [hwi]; simp)⟩
  · intro i c h
    exact GetAnswers.handleHelper_error net s i c hinv h
  · intro c h
    rcases GetAnswers.loopBody_error net s c hinv h with h1 | h1 | h1
    · exact Or.inl h1.1
    · exact Or.inr (Or.inl h1)
    · exact Or.inr (Or.inr h1)
  · intro i s1 h v
    have a := GetAnswers.inv_handleHelper net s s1 i hinv h
    exact ⟨a.2.2.2.2.2.2.2.1 v, a.2.2.2.2.2.2.2.2 v⟩
  · intro b s1 h v hv
    exact (GetAnswers.inv_loopBody net s s1 b hinv h).2.2.2.2 v hv

end Tasbot

namespace Tasbot

/-! ## The dispatcher on the mock network -/

variable {Req Res : Type}

theorem sum_range_change (n i : Nat) (f g : Nat → Nat) (hi : i < n)
    (hfg : ∀ j, j ≠ i → f j = g j) :
    (∑ h ∈ Finset.range n, f h) + g i = (∑ h ∈ Finset.range n, g h) + f i := by
  have hmem : i ∈ Finset.range n := Finset.mem_range.mpr hi
  rw [← Finset.add_sum_erase _ f hmem, ← Finset.add_sum_erase _ g hmem]
  have : ∑ x ∈ (Finset.range n).erase i, f x = ∑ x ∈ (Finset.range n).erase i, g x := by
    apply Finset.sum_congr rfl
    intro x hx
    exact hfg x (Finset.ne_of_mem_erase hx)
  omega

/-- Handling a helper on the mock network never aborts; it keeps the invariant and, when the
helper is working, takes one read off what is left to do. -/
theorem mock_handleHelper (K : Req → Nat) (answer : Req → Res)
    (s : (Nat → Option Req × Nat) × GetAnswers Req Res) (i : Nat) (hinv : MockInv answer s) :
    ∃ s1, GetAnswers.handleHelper (mockNet K answer) s i = .ok s1 ∧ MockInv answer s1
      ∧ mockLoad K s1 ≤ mockLoad K s
      ∧ (∀ helper, s.2.helpers_[i]? = some helper → helper.state = .WORKING →
          mockLoad K s1 < mockLoad K s) := by
  rcases GetAnswers.handleHelper_cases (mockNet K answer) s i hinv.inv with h1 | h1 | h1
  · refine ⟨s, h1.1, hinv, le_refl _, ?_⟩
    intro helper hget hst
    exact absurd ⟨hst, rfl⟩ (h1.2 helper hget)
  · rcases h1 with ⟨helper, u, w, nu1, r, hget, hst, hwi, hw, huq, hud, hread, hh⟩
    have hpend := hinv.pending i helper u w hget hwi hw
    have hilt : i < s.2.helpers_.length := (List.getElem?_eq_some.mp hget).1
    -- the read succeeded, so no failing read was left
    have hnu : s.1 i = (some w.req, 0) ∧ r = answer w.req
        ∧ nu1 = fun j => if j = i then (none, 0) else s.1 j := by
      have hread2 := hread
      simp only [mockNet] at hread2
      cases hsi : s.1 i with
      | mk pend left =>
        rw [hsi] at hpend hread2
        simp only at hpend
        subst hpend
        cases left with
        | zero =>
          simp only [Prod.mk.injEq, ReadResult.ok.injEq] at hread2
          exact ⟨rfl, hread2.2.symm, hread2.1.symm⟩
        | succ l => simp at hread2
    have hframe := GetAnswers.inv_handleHelper (mockNet K answer) s _ i hinv.inv hh
    refine ⟨_, hh, ⟨hframe.1, ?_, ?_, ?_⟩, ?_⟩
    · intro h helper1 u1 w1 hg1 hwi1 hw1
      simp only [mockNet, hnu.2.2] at hg1 hw1 ⊢
      simp only [List.getElem?_set] at hg1
      by_cases hih : i = h
      · subst hih
        simp only [hilt, if_true, Option.some.injEq] at hg1
        rw [← hg1] at hwi1
        simp at hwi1
      · simp only [hih, if_false] at hg1
        have hne : ¬ h = i := fun e => hih e.symm
        simp only [hne, if_false]
        simp only [List.getElem?_set] at hw1
        by_cases hu1 : u = u1
        · subst hu1
          have hul : u < s.2.work_.length := (List.getElem?_eq_some.mp hw).1
          simp only [hul, if_true, Option.some.injEq] at hw1
          rw [← hw1]
          exact hinv.pending h helper1 u w hg1 hwi1 hw
        · simp only [hu1, if_false] at hw1
          exact hinv.pending h helper1 u1 w1 hg1 hwi1 hw1
    · intro h helper1 hg1 hwi1
      simp only [mockNet, hnu.2.2] at hg1 ⊢
      simp only [List.getElem?_set] at hg1
      by_cases hih : i = h
      · subst hih
        simp
      · simp only [hih, if_false] at hg1
        have hne : ¬ h = i := fun e => hih e.symm
        simp only [hne, if_false]
        exact hinv.idle h helper1 hg1 hwi1
    · intro u1 w1 hd1 hw1
      simp only [List.getElem?_set] at hw1
      by_cases hu1 : u = u1
      · subst hu1
        have hul : u < s.2.work_.length := (List.getElem?_eq_some.mp hw).1
        simp only [hul, if_true, Option.some.injEq] at hw1
        rw [← hw1]
        exact hnu.2.1
      · simp only [hu1, if_false] at hw1
        have hne : ¬ (u1 = u ∧ u < s.2.done_.length) := fun e => hu1 e.1.symm
        have hd2 : s.2.done_.getD u1 false = true := by
          have := hd1
          simp only [getD_set_true, hne, if_false] at this
          exact this
        exact hinv.results u1 w1 hd2 hw1
    · -- the load drops by the read that succeeded
      have hload : mockLoad K (((mockNet K answer).close nu1 i),
          { s.2 with
            work_ := s.2.work_.set u { w with res := r },
            done_ := s.2.done_.set u true,
            helpers_ := s.2.helpers_.set i
              { helper with state := .DISCONNECTED, workidx := none } }) + 1
          = mockLoad K s := by
        have hreq := hframe.2.2.2.2.1
        have hsum := sum_range_change s.2.helpers_.length i
          (fun h => helperLoad (((mockNet K answer).close nu1 i) h).2
            (s.2.helpers_.set i { helper with state := .DISCONNECTED, workidx := none })[h]?)
          (fun h => helperLoad (s.1 h).2 s.2.helpers_[h]?) hilt
          (by
            intro j hj
            have hne : ¬ i = j := fun e => hj e.symm
            simp only [mockNet, hnu.2.2, List.getElem?_set, hne, hj, if_false])
        have hF : helperLoad (((mockNet K answer).close nu1 i) i).2
            (s.2.helpers_.set i { helper with state := .DISCONNECTED, workidx := none })[i]?
            = 0 := by
          simp [List.getElem?_set, hilt, helperLoad]
        have hG : helperLoad (s.1 i).2 s.2.helpers_[i]? = 1 := by
          simp [hget, helperLoad, hst, hnu.1]
        beta_reduce at hsum
        rw [hF, hG] at hsum
        unfold mockLoad
        dsimp only at hreq ⊢
        rw [hreq, List.length_set, List.length_set]
        omega
      exact ⟨by omega, fun _ _ _ => by omega⟩
  · rcases h1 with ⟨helper, u, w, nu1, rr, hget, hst, hwi, hw, huq, hud, hread, hnok, hh⟩
    have hpend := hinv.pending i helper u w hget hwi hw
    have hilt : i < s.2.helpers_.length := (List.getElem?_eq_some.mp hget).1
    -- the read failed, so a failing read was left
    have hnu : ∃ l, s.1 i = (some w.req, l + 1) ∧ rr = .ioError
        ∧ nu1 = fun j => if j = i then (some w.req, l) else s.1 j := by
      have hread2 := hread
      simp only [mockNet] at hread2
      cases hsi : s.1 i with
      | mk pend left =>
        rw [hsi] at hpend hread2
        simp only at hpend
        subst hpend
        cases left with
        | zero =>
          simp only [Prod.mk.injEq] at hread2
          exact absurd hread2.2.symm (hnok _)
        | succ l =>
          simp only [Prod.mk.injEq] at hread2
          exact ⟨l, rfl, hread2.2.symm, hread2.1.symm⟩
    rcases hnu with ⟨l, hsi, hrr, hnu1⟩
    have hfetch : (mockNet K answer).fetch ((mockNet K answer).close nu1 i) i helper.port w.req
        = some (fun j => if j = i then (some w.req, l) else s.1 j) := by
      simp only [mockNet, hnu1, if_true]
      congr 1
      funext j
      by_cases hj : j = i <;> simp [hj]
    rcases hh with ⟨hnone, _⟩ | ⟨nu2, work1, hf2, hh, hwork⟩
    · rw [hfetch] at hnone; simp at hnone
    · rw [hfetch] at hf2
      simp only [Option.some.injEq] at hf2
      have hwork1 : work1 = s.2.work_ := by
        rcases hwork with ⟨_, e⟩ | ⟨g, e, _⟩
        · exact e
        · rw [hrr] at e; cases e
      subst hwork1
      have hs1 : ({ s.2 with work_ := s.2.work_ } : GetAnswers Req Res) = s.2 := rfl
      rw [hs1] at hh
      refine ⟨_, hh, ⟨hinv.inv, ?_, ?_, hinv.results⟩, ?_⟩
      · intro h helper1 u1 w1 hg1 hwi1 hw1
        rw [← hf2]
        by_cases hih : h = i
        · subst hih
          simp only [if_true]
          rw [hget] at hg1
          simp only [Option.some.injEq] at hg1
          subst hg1
          rw [hwi] at hwi1
          simp only [Option.some.injEq] at hwi1
          subst hwi1
          rw [hw] at hw1
          simp only [Option.some.injEq] at hw1
          rw [hw1]
        · simp only [hih, if_false]
          exact hinv.pending h helper1 u1 w1 hg1 hwi1 hw1
      · intro h helper1 hg1 hwi1
        rw [← hf2]
        by_cases hih : h = i
        · subst hih
          rw [hget] at hg1
          simp only [Option.some.injEq] at hg1
          subst hg1
          rw [hwi] at hwi1
          cases hwi1
        · simp only [hih, if_false]
          exact hinv.idle h helper1 hg1 hwi1
      · have hload : mockLoad K (nu2, s.2) + 1 = mockLoad K s := by
          have hsum := sum_range_change s.2.helpers_.length i
            (fun h => helperLoad (nu2 h).2 s.2.helpers_[h]?)
            (fun h => helperLoad (s.1 h).2 s.2.helpers_[h]?) hilt
            (by
              intro j hj
              simp only [← hf2, hj, if_false])
          have hF : helperLoad (nu2 i).2 s.2.helpers_[i]? = l + 1 := by
            simp [hget, helperLoad, hst, ← hf2]
          have hG : helperLoad (s.1 i).2 s.2.helpers_[i]? = l + 2 := by
            simp [hget, helperLoad, hst, hsi]
          beta_reduce at hsum
          rw [hF, hG] at hsum
          unfold mockLoad
          dsimp only
          omega
        exact ⟨by omega, fun _ _ _ => by omega⟩

end Tasbot

namespace Tasbot

variable {Req Res : Type}

theorem mock_handleHelpers (K : Req → Nat) (answer : Req → Res) (is : List Nat) :
    ∀ (s : (Nat → Option Req × Nat) × GetAnswers Req Res), MockInv answer s →
      ∃ s1, GetAnswers.handleHelpers (mockNet K answer) is s = .ok s1 ∧ MockInv answer s1
        ∧ mockLoad K s1 ≤ mockLoad K s
        ∧ ((∃ i ∈ is, ∃ helper, s.2.helpers_[i]? = some helper ∧ helper.state = .WORKING) →
            mockLoad K s1 < mockLoad K s) := by
  induction is with
  | nil =>
    intro s hinv
    refine ⟨s, rfl, hinv, le_refl _, ?_⟩
    rintro ⟨i, hi, _⟩
    simp at hi
  | cons i rest ih =>
    intro s hinv
    rcases mock_handleHelper K answer s i hinv with ⟨s1, h1, hinv1, hle1, hlt1⟩
    rcases ih s1 hinv1 with ⟨s2, h2, hinv2, hle2, hlt2⟩
    refine ⟨s2, ?_, hinv2, le_trans hle2 hle1, ?_⟩
    · unfold GetAnswers.handleHelpers
      rw [h1]
      exact h2
    · rintro ⟨j, hj, helper, hget, hst⟩
      by_cases hji : j = i
      · subst hji
        exact lt_of_le_of_lt hle2 (hlt1 helper hget hst)
      · have hjr : j ∈ rest := by
          rcases List.mem_cons.mp hj with e | e
          · exact absurd e hji
          · exact e
        have hframe := GetAnswers.inv_handleHelper (mockNet K answer) s s1 i hinv.inv h1
        have hget1 : s1.2.helpers_[j]? = some helper := by
          rw [hframe.2.2.2.2.2.2.1 j hji]; exact hget
        exact lt_of_lt_of_le (hlt2 ⟨j, hjr, helper, hget1, hst⟩) hle1

theorem mock_doNextWork (K : Req → Nat) (answer : Req → Res)
    (s : (Nat → Option Req × Nat) × GetAnswers Req Res) (idle : Nat)
    (hinv : MockInv answer s) (hlt : s.2.workqueued_ < s.2.work_.length)
    (hidle : s.2.GetIdleHelper = some idle) :
    ∃ s1, GetAnswers.DoNextWork (mockNet K answer) s.1 s.2 idle = .ok s1 ∧ MockInv answer s1
      ∧ mockLoad K s1 = mockLoad K s ∧ s1.2.workqueued_ = s.2.workqueued_ + 1 := by
  rcases GetAnswers.idleFrom_some s.2.helpers_ 0 idle hidle with ⟨helper, _, hget, hst⟩
  simp only [Nat.sub_zero] at hget
  have hilt : idle < s.2.helpers_.length := (List.getElem?_eq_some.mp hget).1
  have hmem := mem_of_getElem?_eq_some hget
  have hnone : helper.workidx = none := by
    by_contra hne
    have := (hinv.inv.state_iff helper hmem).mpr hne
    rw [hst] at this
    cases this
  have hpend := hinv.idle idle helper hget hnone
  have hw : s.2.work_[s.2.workqueued_]? = some s.2.work_[s.2.workqueued_] :=
    List.getElem?_eq_getElem hlt
  have hfetch : (mockNet K answer).fetch s.1 idle helper.port s.2.work_[s.2.workqueued_].req
      = some (fun j => if j = idle then
          (some s.2.work_[s.2.workqueued_].req, K s.2.work_[s.2.workqueued_].req)
          else s.1 j) := by
    simp only [mockNet]
    cases hsi : s.1 idle with
    | mk pend left =>
      rw [hsi] at hpend
      simp only at hpend
      subst hpend
      rfl
  have hdo : GetAnswers.DoNextWork (mockNet K answer) s.1 s.2 idle
      = .ok (fun j => if j = idle then
            (some s.2.work_[s.2.workqueued_].req, K s.2.work_[s.2.workqueued_].req)
            else s.1 j,
          { s.2 with workqueued_ := s.2.workqueued_ + 1,
                     helpers_ := s.2.helpers_.set idle
                       { helper with state := .WORKING, workidx := some s.2.workqueued_ } }) := by
    unfold GetAnswers.DoNextWork
    rw [if_pos hlt]
    simp only [hget]
    unfold GetAnswers.FetchWork
    simp only [Nat.lt_succ_self, if_true, hst, hw, hfetch]
  have hinv1 := GetAnswers.inv_doNextWork (mockNet K answer) _ _ _ _ idle hinv.inv hdo
  refine ⟨_, hdo, ⟨hinv1.1, ?_, ?_, ?_⟩, ?_, rfl⟩
  · intro h helper1 u1 w1 hg1 hwi1 hw1
    simp only [List.getElem?_set] at hg1
    by_cases hih : idle = h
    · subst hih
      simp only [hilt, if_true, Option.some.injEq] at hg1
      rw [← hg1] at hwi1
      simp only [Option.some.injEq] at hwi1
      subst hwi1
      have : w1 = s.2.work_[s.2.workqueued_] := by
        have hw1' : s.2.work_[s.2.workqueued_]? = some w1 := hw1
        rw [hw] at hw1'
        simp only [Option.some.injEq] at hw1'
        exact hw1'.symm
      subst this
      simp
    · simp only [hih, if_false] at hg1
      have hne : ¬ h = idle := fun e => hih e.symm
      simp only [hne, if_false]
      exact hinv.pending h helper1 u1 w1 hg1 hwi1 hw1
  · intro h helper1 hg1 hwi1
    simp only [List.getElem?_set] at hg1
    by_cases hih : idle = h
    · subst hih
      simp only [hilt, if_true, Option.some.injEq] at hg1
      rw [← hg1] at hwi1
      simp at hwi1
    · simp only [hih, if_false] at hg1
      have hne : ¬ h = idle := fun e => hih e.symm
      simp only [hne, if_false]
      exact hinv.idle h helper1 hg1 hwi1
  · exact hinv.results
  · have hsum := sum_range_change s.2.helpers_.length idle
      (fun h => helperLoad ((fun j => if j = idle then
          (some s.2.work_[s.2.workqueued_].req, K s.2.work_[s.2.workqueued_].req)
          else s.1 j) h).2
        (s.2.helpers_.set idle
          { helper with state := .WORKING, workidx := some s.2.workqueued_ })[h]?)
      (fun h => helperLoad (s.1 h).2 s.2.helpers_[h]?) hilt
      (by
        intro j hj
        have hne : ¬ idle = j := fun e => hj e.symm
        simp only [List.getElem?_set, hne, hj, if_false])
    have hF : helperLoad ((fun j => if j = idle then
          (some s.2.work_[s.2.workqueued_].req, K s.2.work_[s.2.workqueued_].req)
          else s.1 j) idle).2
        (s.2.helpers_.set idle
          { helper with state := .WORKING, workidx := some s.2.workqueued_ })[idle]?
        = K s.2.work_[s.2.workqueued_].req + 1 := by
      simp [List.getElem?_set, hilt, helperLoad]
    have hG : helperLoad (s.1 idle).2 s.2.helpers_[idle]? = 0 := by
      simp [hget, helperLoad, hst]
    beta_reduce at hsum
    rw [hF, hG] at hsum
    have hico := Finset.sum_eq_sum_Ico_succ_bot hlt
      (fun u => unitLoad K (s.2.work_.map (fun w => w.req)) u)
    have hU : unitLoad K (s.2.work_.map (fun w => w.req)) s.2.workqueued_
        = K s.2.work_[s.2.workqueued_].req + 1 := by
      simp [unitLoad, hw]
    beta_reduce at hico
    rw [hU] at hico
    unfold mockLoad
    dsimp only
    rw [List.length_set]
    omega

theorem mock_enqueue (K : Req → Nat) (answer : Req → Res) (fuel : Nat) :
    ∀ (s : (Nat → Option Req × Nat) × GetAnswers Req Res), MockInv answer s →
      s.2.work_.length ≤ s.2.workqueued_ + fuel →
      ∃ s1, GetAnswers.enqueue (mockNet K answer) fuel s.1 s.2 = .ok s1 ∧ MockInv answer s1
        ∧ mockLoad K s1 = mockLoad K s
        ∧ (s1.2.workqueued_ = s1.2.work_.length ∨ ∀ h ∈ s1.2.helpers_, h.state = .WORKING) := by
  induction fuel with
  | zero =>
    intro s hinv hf
    refine ⟨s, rfl, hinv, rfl, Or.inl ?_⟩
    have := hinv.inv.queued_le
    omega
  | succ n ih =>
    intro s hinv hf
    unfold GetAnswers.enqueue
    by_cases hlt : s.2.workqueued_ < s.2.work_.length
    · rw [if_pos hlt]
      cases hidle : s.2.GetIdleHelper with
      | none =>
        exact ⟨s, rfl, hinv, rfl, Or.inr (GetAnswers.idleFrom_none s.2.helpers_ 0 hidle)⟩
      | some idle =>
        rcases mock_doNextWork K answer s idle hinv hlt hidle with ⟨s1, h1, hinv1, hl1, hq1⟩
        have hw1 := (GetAnswers.inv_doNextWork (mockNet K answer) s.1 s1.1 s.2 s1.2 idle
          hinv.inv h1).2.1
        rcases ih s1 hinv1 (by rw [hw1, hq1]; omega) with ⟨s2, h2, hinv2, hl2, hex⟩
        refine ⟨s2, ?_, hinv2, hl2.trans hl1, hex⟩
        simp only [h1]
        exact h2
    · rw [if_neg hlt]
      refine ⟨s, rfl, hinv, rfl, Or.inl ?_⟩
      have := hinv.inv.queued_le
      omega

theorem advance_advanced (fuel : Nat) :
    ∀ (ga : GetAnswers Req Res), ga.workdone_ ≤ ga.work_.length →
      ga.work_.length ≤ ga.workdone_ + fuel → Advanced (GetAnswers.advance fuel ga) := by
  induction fuel with
  | zero =>
    intro ga h1 h2
    left
    show ga.workdone_ = ga.work_.length
    omega
  | succ n ih =>
    intro ga h1 h2
    unfold GetAnswers.advance
    split
    · rename_i hc
      exact ih _ (by show ga.workdone_ + 1 ≤ ga.work_.length; omega)
        (by show ga.work_.length ≤ ga.workdone_ + 1 + n; omega)
    · rename_i hc
      by_cases hlt : ga.workdone_ < ga.work_.length
      · right
        cases hd : ga.done_.getD ga.workdone_ false with
        | false => rfl
        | true => exact absurd ⟨hlt, hd⟩ hc
      · left; omega

end Tasbot

namespace Tasbot

variable {Req Res : Type}

theorem mockInv_advance (answer : Req → Res) (nu : Nat → Option Req × Nat)
    (ga : GetAnswers Req Res) (fuel : Nat) (hinv : MockInv answer (nu, ga)) (K : Req → Nat) :
    MockInv answer (nu, GetAnswers.advance fuel ga)
      ∧ mockLoad K (nu, GetAnswers.advance fuel ga) = mockLoad K (nu, ga) := by
  have a := GetAnswers.inv_advance fuel ga hinv.inv
  refine ⟨⟨a.1, ?_, ?_, ?_⟩, ?_⟩
  · intro h helper u w hg hwi hw
    simp only [a.2.2.2.2.1, a.2.2.1] at hg hw
    exact hinv.pending h helper u w hg hwi hw
  · intro h helper hg hwi
    simp only [a.2.2.2.2.1] at hg
    exact hinv.idle h helper hg hwi
  · intro u w hd hw
    simp only [a.2.2.2.1, a.2.2.1] at hd hw
    exact hinv.results u w hd hw
  · unfold mockLoad
    simp only [a.2.1, a.2.2.1, a.2.2.2.2.1]

theorem meterCheck_ok {ga : GetAnswers Req Res} (hinv : ga.Inv) (hn : 0 < ga.work_.length) :
    GetAnswers.meterCheck ga = .ok () := by
  cases h : GetAnswers.meterCheck ga with
  | error c =>
    have := (GetAnswers.meterCheck_error hinv c h).2
    omega
  | ok u => rfl

/-- One turn of `Loop` on the mock network: the loop returns, or the turn ends with less
left to do. -/
theorem mock_loopBody (K : Req → Nat) (answer : Req → Res)
    (s : (Nat → Option Req × Nat) × GetAnswers Req Res)
    (hinv : MockInv answer s) (hadv : Advanced s.2)
    (hH : 0 < s.2.helpers_.length) (hn : 0 < s.2.work_.length) :
    (s.2.workdone_ = s.2.work_.length
        ∧ GetAnswers.LoopBody (mockNet K answer) s = .ok (true, s))
    ∨ ∃ s1, GetAnswers.LoopBody (mockNet K answer) s = .ok (false, s1)
        ∧ MockInv answer s1 ∧ Advanced s1.2 ∧ mockLoad K s1 < mockLoad K s
        ∧ s1.2.helpers_.length = s.2.helpers_.length
        ∧ s1.2.work_.map (fun w => w.req) = s.2.work_.map (fun w => w.req) := by
  by_cases hdone : s.2.workdone_ = s.2.work_.length
  · left
    refine ⟨hdone, ?_⟩
    unfold GetAnswers.LoopBody
    rw [meterCheck_ok hinv.inv hn]
    simp only [hdone, if_true]
  · right
    rcases mock_enqueue K answer s.2.work_.length s hinv (by omega) with
      ⟨s1, henq, hinv1, hload1, hex⟩
    have e := GetAnswers.inv_enqueue (mockNet K answer) _ s.1 s1.1 s.2 s1.2 hinv.inv henq
    -- some helper is working: the unit at `workdone_` is not done
    have hund : s1.2.done_.getD s.2.workdone_ false = false := by
      rw [e.2.2.2.1]
      rcases hadv with h | h
      · exact absurd h hdone
      · exact h
    have hwlt : s.2.workdone_ < s.2.work_.length := by
      have h1 := GetAnswers.inv_workdone_le hinv.inv
      have h2 := hinv.inv.queued_le
      omega
    have hworking : ∃ i ∈ List.range s1.2.helpers_.length, ∃ helper,
        s1.2.helpers_[i]? = some helper ∧ helper.state = .WORKING := by
      have hex2 : ∃ helper ∈ s1.2.helpers_, helper.state = .WORKING := by
        by_cases hq : s.2.workdone_ < s1.2.workqueued_
        · have hc := hinv1.inv.held s.2.workdone_
          rw [if_pos ⟨hq, hund⟩] at hc
          have hpos : 0 < s1.2.helpers_.countP (fun h => h.workidx == some s.2.workdone_) := by
            omega
          rcases List.countP_pos_iff.mp hpos with ⟨helper, hmem, hp⟩
          refine ⟨helper, hmem, (hinv1.inv.state_iff helper hmem).mpr ?_⟩
          have : helper.workidx = some s.2.workdone_ := by simpa using hp
          rw [this]; simp
        · rcases hex with h | h
          · rw [e.2.1] at h; omega
          · have hlen : 0 < s1.2.helpers_.length := by rw [e.2.2.2.2]; exact hH
            have hget : s1.2.helpers_[0]? = some s1.2.helpers_[0] :=
              List.getElem?_eq_getElem hlen
            have hmem := mem_of_getElem?_eq_some hget
            exact ⟨_, hmem, h _ hmem⟩
      rcases hex2 with ⟨helper, hmem, hst⟩
      rcases List.mem_iff_getElem?.mp hmem with ⟨i, hi⟩
      exact ⟨i, List.mem_range.mpr (List.getElem?_eq_some.mp hi).1, helper, hi, hst⟩
    have hnum : GetAnswers.numworking s1.2 > 0 := by
      rcases hworking with ⟨i, _, helper, hget, hst⟩
      exact List.countP_pos_iff.mpr ⟨helper, mem_of_getElem?_eq_some hget, by simp [hst]⟩
    rcases mock_handleHelpers K answer (List.range s1.2.helpers_.length) s1 hinv1 with
      ⟨s2, hh, hinv2, hle2, hlt2⟩
    have a := GetAnswers.inv_handleHelpers (mockNet K answer) _ s1 s2 hinv1.inv hh
    have d := mockInv_advance answer s2.1 s2.2 s2.2.work_.length hinv2 K
    have dd := GetAnswers.inv_advance s2.2.work_.length s2.2 hinv2.inv
    refine ⟨(s2.1, GetAnswers.advance s2.2.work_.length s2.2), ?_, d.1, ?_, ?_, ?_, ?_⟩
    · unfold GetAnswers.LoopBody
      rw [meterCheck_ok hinv.inv hn]
      simp only [hdone, if_false]
      have henq' : GetAnswers.enqueue (mockNet K answer) s.2.work_.length s.1 s.2
          = .ok (s1.1, s1.2) := henq
      rw [henq']
      have halloc : (mockNet K answer).alloc s1.1 s1.2.helpers_.length = true := rfl
      have hadd : GetAnswers.addSockets (mockNet K answer) s1.1 s1.2 = true := by
        unfold GetAnswers.addSockets
        rw [List.all_eq_true]
        intro i _
        split
        · rfl
        · split <;> rfl
      have hfails : ¬ ((mockNet K answer).checkFails s1.1 = true) := by
        intro h; cases h
      have hcheck : ((mockNet K answer).check s1.1, s1.2) = s1 := rfl
      simp only
      rw [if_pos halloc, if_pos hadd, if_pos hnum, if_neg hfails, hcheck, hh]
    · apply advance_advanced
      · have h1 := GetAnswers.inv_workdone_le hinv2.inv
        have h2 := hinv2.inv.queued_le
        omega
      · omega
    · rw [d.2]
      have := hlt2 hworking
      show mockLoad K s2 < mockLoad K s
      omega
    · show (GetAnswers.advance s2.2.work_.length s2.2).helpers_.length = s.2.helpers_.length
      rw [dd.2.2.2.2.1, a.2.2.2.2.2.1, e.2.2.2.2]
    · show (GetAnswers.advance s2.2.work_.length s2.2).work_.map (fun w => w.req)
        = s.2.work_.map (fun w => w.req)
      rw [dd.2.2.1, a.2.2.2.2.1, e.2.1]

theorem mock_loop_terminates (K : Req → Nat) (answer : Req → Res) (m : Nat) :
    ∀ (s : (Nat → Option Req × Nat) × GetAnswers Req Res), MockInv answer s → Advanced s.2 →
      0 < s.2.helpers_.length → 0 < s.2.work_.length → mockLoad K s ≤ m →
      ∃ final, GetAnswers.Loop (mockNet K answer) (m + 1) s = some (.ok final)
        ∧ MockInv answer final ∧ final.2.workdone_ = final.2.work_.length
        ∧ final.2.work_.map (fun w => w.req) = s.2.work_.map (fun w => w.req) := by
  induction m with
  | zero =>
    intro s hinv hadv hH hn hm
    rcases mock_loopBody K answer s hinv hadv hH hn with ⟨hd, hb⟩ | ⟨s1, _, _, _, hlt, _⟩
    · refine ⟨s, ?_, hinv, hd, rfl⟩
      unfold GetAnswers.Loop
      rw [hb]
    · omega
  | succ n ih =>
    intro s hinv hadv hH hn hm
    rcases mock_loopBody K answer s hinv hadv hH hn with
      ⟨hd, hb⟩ | ⟨s1, hb, hinv1, hadv1, hlt, hlen, hreq⟩
    · refine ⟨s, ?_, hinv, hd, rfl⟩
      unfold GetAnswers.Loop
      rw [hb]
    · have hn1 : 0 < s1.2.work_.length := by
        have := congrArg List.length hreq
        simp only [List.length_map] at this
        omega
      rcases ih s1 hinv1 hadv1 (by omega) hn1 (by omega) with ⟨final, hl, hinvf, hdf, hreqf⟩
      refine ⟨final, ?_, hinvf, hdf, hreqf.trans hreq⟩
      unfold GetAnswers.Loop
      rw [hb]
      exact hl

theorem mockInv_new (answer : Req → Res) (res0 : Res) (ports : List Int)
    (requests : List Req) :
    MockInv answer (mockNet0, GetAnswers.new res0 ports requests) := by
  refine ⟨GetAnswers.inv_new res0 ports requests, ?_, ?_, ?_⟩
  · intro h helper u w hg hwi _
    simp only [GetAnswers.new, List.getElem?_map] at hg
    cases hp : ports[h]? with
    | none => simp [hp] at hg
    | some p =>
      simp only [hp, Option.map_some', Option.some.injEq] at hg
      rw [← hg] at hwi
      simp at hwi
  · intro h helper _ _
    rfl
  · intro u w hd _
    simp only [GetAnswers.new, List.getD_eq_getElem?_getD, List.getElem?_map] at hd
    cases hr : requests[u]? <;> simp [hr] at hd

/-- The state in which `Loop` returns on the mock network. -/
theorem mock_loop_result (K : Req → Nat) (answer : Req → Res) (res0 : Res)
    (ports : List Int) (requests : List Req) (hports : ports ≠ []) (hreqs : requests ≠ []) :
    ∃ fuel s, GetAnswers.Loop (mockNet K answer) fuel
        (mockNet0, GetAnswers.new res0 ports requests) = some (.ok s)
      ∧ s.2.done_ = requests.map (fun _ => true)
      ∧ s.2.GetWork = requests.map (fun r => { req := r, res := answer r }) := by
  have hH : 0 < (GetAnswers.new res0 ports requests).helpers_.length := by
    simp only [GetAnswers.new, List.length_map]
    exact List.length_pos.mpr hports
  have hn : 0 < (GetAnswers.new res0 ports requests).work_.length := by
    simp only [GetAnswers.new, List.length_map]
    exact List.length_pos.mpr hreqs
  have hadv : Advanced (GetAnswers.new res0 ports requests) := by
    right
    simp only [GetAnswers.new, List.getD_eq_getElem?_getD, List.getElem?_map]
    cases hr : requests[0]? <;> simp
  rcases mock_loop_terminates K answer _ (mockNet0, GetAnswers.new res0 ports requests)
    (mockInv_new answer res0 ports requests) hadv hH hn (le_refl _) with
    ⟨final, hl, hinvf, hdf, hreqf⟩
  have hreq : final.2.work_.map (fun w => w.req) = requests := by
    rw [hreqf]
    simp [GetAnswers.new, Function.comp_def]
  have hlen : final.2.work_.length = requests.length := by
    have := congrArg List.length hreq
    simpa using this
  have hdone : ∀ u, u < requests.length → final.2.done_.getD u false = true := by
    intro u hu
    exact hinvf.inv.done_below u (by rw [hdf, hlen]; exact hu)
  refine ⟨_, final, hl, ?_, ?_⟩
  · apply List.ext_getElem
    · simp [hinvf.inv.done_length, hlen]
    · intro u h1 h2
      have hu : u < requests.length := by simpa using h2
      have := hdone u hu
      simp only [List.getD_eq_getElem?_getD, List.getElem?_eq_getElem h1, Option.getD_some]
        at this
      simp [this]
  · show final.2.work_ = requests.map (fun r => { req := r, res := answer r })
    rw [← hreq, List.map_map]
    have hid : final.2.work_ = final.2.work_.map id := by simp
    conv_lhs => rw [hid]
    apply List.map_congr_left
    intro w hw
    rcases List.mem_iff_getElem?.mp hw with ⟨u, hu⟩
    have hulen : u < requests.length := by
      rw [← hlen]; exact (List.getElem?_eq_some.mp hu).1
    have hres := hinvf.results u w (hdone u hulen) hu
    cases w with
    | mk req res =>
      simp only at hres
      simp [hres]

/-- C10: on the mock network where the read of the answer to a request fails `K` times
(any `K >= 0`, which may differ from request to request) and succeeds afterwards,
`GetAnswers::Loop` terminates with every unit marked done, and the results it recorded are
those of the run where no read fails (`K = 0`): for each unit, the answer to its request. -/
theorem getAnswers_loop_fault_tolerant (K : Req → Nat) (answer : Req → Res) (res0 : Res)
    (ports : List Int) (requests : List Req) (hports : ports ≠ []) (hreqs : requests ≠ []) :
    ∃ fuel fuel0 s s0,
      GetAnswers.Loop (mockNet K answer) fuel (mockNet0, GetAnswers.new res0 ports requests)
        = some (.ok s)
      ∧ GetAnswers.Loop (mockNet (fun _ => 0) answer) fuel0
          (mockNet0, GetAnswers.new res0 ports requests) = some (.ok s0)
      ∧ s.2.done_ = requests.map (fun _ => true)
      ∧ s.2.GetWork = s0.2.GetWork
      ∧ s.2.GetWork = requests.map (fun r => { req := r, res := answer r }) := by
  rcases mock_loop_result K answer res0 ports requests hports hreqs with ⟨fuel, s, hl, hd, hw⟩
  rcases mock_loop_result (fun _ => 0) answer res0 ports requests hports hreqs with
    ⟨fuel0, s0, hl0, _, hw0⟩
  exact ⟨fuel, fuel0, s, s0, hl, hl0, hd, hw.trans hw0.symm, hw⟩

/-- Witness for C10: two helpers, five units, the read for request `r` failing `r % 3`
times. -/
theorem getAnswers_loop_fault_tolerant_witness :
    ∃ fuel fuel0 s s0,
      GetAnswers.Loop (mockNet (fun r : Nat => r % 3) (fun r : Nat => r * 10)) fuel
          (mockNet0, GetAnswers.new 0 [8000, 8001] [1, 2, 3, 4, 5]) = some (.ok s)
      ∧ GetAnswers.Loop (mockNet (fun _ => 0) (fun r : Nat => r * 10)) fuel0
          (mockNet0, GetAnswers.new 0 [8000, 8001] [1, 2, 3, 4, 5]) = some (.ok s0)
      ∧ s.2.done_ = [1, 2, 3, 4, 5].map (fun _ => true)
      ∧ s.2.GetWork = s0.2.GetWork
      ∧ s.2.GetWork = [1, 2, 3, 4, 5].map (fun r => { req := r, res := r * 10 }) :=
  getAnswers_loop_fault_tolerant (fun r : Nat => r % 3) (fun r : Nat => r * 10) 0
    [8000, 8001] [1, 2, 3, 4, 5] (by decide) (by decide)

end Tasbot

namespace Tasbot
/-- Witness for C9: the state after the first turn of `Loop` with two helpers and three
units on the mock network, where the first read for unit 0 fails and that for unit 1
succeeds. -/
theorem getAnswers_loop_invariant_witness :
    ∃ s, GetAnswers.Reachable (mockNet (fun r : Nat => r % 2) (fun r : Nat => r * 10))
          mockNet0 0 [8000, 8001] [1, 2, 3] s
      ∧ s.2.done_ = [false, true, false] ∧ s.2.workqueued_ = 2
      ∧ s.2.workdone_ ≤ s.2.workqueued_ ∧ s.2.workqueued_ ≤ s.2.work_.length
      ∧ (∀ i c, GetAnswers.handleHelper
            (mockNet (fun r : Nat => r % 2) (fun r : Nat => r * 10)) s i = .error c →
          c = .connect) :=
  ⟨_, GetAnswers.Reachable.turn _ _ _ GetAnswers.Reachable.init rfl, rfl, rfl,
    (getAnswers_loop_invariant (mockNet (fun r : Nat => r % 2) (fun r : Nat => r * 10))
      mockNet0 0 [8000, 8001] [1, 2, 3] _
      (GetAnswers.Reachable.turn _ _ _ GetAnswers.Reachable.init rfl)).1,
    (getAnswers_loop_invariant (mockNet (fun r : Nat => r % 2) (fun r : Nat => r * 10))
      mockNet0 0 [8000, 8001] [1, 2, 3] _
      (GetAnswers.Reachable.turn _ _ _ GetAnswers.Reachable.init rfl)).2.1,
    (getAnswers_loop_invariant (mockNet (fun r : Nat => r % 2) (fun r : Nat => r * 10))
      mockNet0 0 [8000, 8001] [1, 2, 3] _
      (GetAnswers.Reachable.turn _ _ _ GetAnswers.Reachable.init rfl)).2.2.2.2.2.1⟩
end Tasbot

namespace Tasbot

/-- With no helper and at least one unit, the loop of `Loop` that queues units queues
nothing. -/
theorem enqueue_no_helpers {ν Req Res : Type} (net : Net ν Req Res) (nu0 : ν) (res0 : Res)
    (requests : List Req) (hreqs : requests ≠ []) :
    GetAnswers.enqueue net (GetAnswers.new res0 [] requests).work_.length nu0
        (GetAnswers.new res0 [] requests)
      = .ok (nu0, GetAnswers.new res0 [] requests) := by
  have hn : 0 < (GetAnswers.new res0 [] requests).work_.length := by
    simp only [GetAnswers.new, List.length_map]
    exact List.length_pos.mpr hreqs
  cases hlen : (GetAnswers.new res0 [] requests).work_.length with
  | zero => omega
  | succ n =>
    unfold GetAnswers.enqueue
    have hq : (GetAnswers.new res0 [] requests).workqueued_ = 0 := rfl
    rw [if_pos (by rw [hq, hlen]; omega)]
    rfl

/-- With no helper and at least one unit, the first turn of `Loop` queues nothing and aborts:
on `CHECK(ss != NULL)` when `SDLNet_AllocSocketSet(0)` returns `NULL`, and else on
`CHECK(numworking > 0)`. -/
theorem loopBody_no_helpers {ν Req Res : Type} (net : Net ν Req Res) (nu0 : ν) (res0 : Res)
    (requests : List Req) (hreqs : requests ≠ []) :
    GetAnswers.LoopBody net (nu0, GetAnswers.new res0 [] requests)
      = .error (if net.alloc nu0 0 = true then Check.numworking else Check.connect) := by
  have hn : 0 < (GetAnswers.new res0 [] requests).work_.length := by
    simp only [GetAnswers.new, List.length_map]
    exact List.length_pos.mpr hreqs
  unfold GetAnswers.LoopBody
  rw [meterCheck_ok (GetAnswers.inv_new res0 [] requests) hn]
  have hne : (GetAnswers.new res0 [] requests).workdone_
      ≠ (GetAnswers.new res0 [] requests).work_.length := by
    have : (GetAnswers.new res0 [] requests).workdone_ = 0 := rfl
    omega
  simp only [hne, if_false]
  rw [enqueue_no_helpers net nu0 res0 requests hreqs]
  simp only
  have hlen : (GetAnswers.new res0 [] requests).helpers_.length = 0 := rfl
  rw [hlen]
  by_cases ha : net.alloc nu0 0 = true
  · rw [if_pos ha, if_pos ha]
    have hadd : GetAnswers.addSockets net nu0 (GetAnswers.new res0 [] requests) = true := rfl
    rw [if_pos hadd]
    have hnum : ¬ GetAnswers.numworking (GetAnswers.new res0 [] requests) > 0 := by
      have : GetAnswers.numworking (GetAnswers.new res0 [] requests) = 0 := rfl
      omega
    rw [if_neg hnum]
  · rw [if_neg ha, if_neg ha]

/-- With no helper and at least one unit, `Loop` aborts in its first turn. -/
theorem loop_no_helpers {ν Req Res : Type} (net : Net ν Req Res) (nu0 : ν) (res0 : Res)
    (requests : List Req) (hreqs : requests ≠ []) (fuel : Nat) :
    GetAnswers.Loop net (fuel + 1) (nu0, GetAnswers.new res0 [] requests)
      = some (.error (if net.alloc nu0 0 = true then Check.numworking else Check.connect)) := by
  unfold GetAnswers.Loop
  rw [loopBody_no_helpers net nu0 res0 requests hreqs]

/-- C12 (what the code does): with an empty list of ports and a non-empty list of units,
`Loop` does not complete and records no result. Whatever the network does, its first turn
leaves every unit unqueued and not done and aborts: on `CHECK(ss != NULL)` when
`SDLNet_AllocSocketSet(0)` returns `NULL`, and else on `CHECK(numworking > 0)`. So `Loop`
never returns. -/
theorem getAnswers_no_helpers_aborts {ν Req Res : Type} (net : Net ν Req Res) (nu0 : ν)
    (res0 : Res) (requests : List Req) (hreqs : requests ≠ []) :
    GetAnswers.enqueue net (GetAnswers.new res0 [] requests).work_.length nu0
        (GetAnswers.new res0 [] requests)
      = .ok (nu0, GetAnswers.new res0 [] requests)
    ∧ (GetAnswers.new res0 [] requests).workqueued_ = 0
    ∧ (∀ u, (GetAnswers.new res0 [] requests).done_.getD u false = false)
    ∧ (∀ fuel, GetAnswers.Loop net (fuel + 1) (nu0, GetAnswers.new res0 [] requests)
        = some (.error
            (if net.alloc nu0 0 = true then Check.numworking else Check.connect)))
    ∧ ∀ fuel s, GetAnswers.Loop net fuel (nu0, GetAnswers.new res0 [] requests)
        ≠ some (.ok s) := by
  refine ⟨enqueue_no_helpers net nu0 res0 requests hreqs, rfl, ?_,
    loop_no_helpers net nu0 res0 requests hreqs, ?_⟩
  · intro u
    simp only [GetAnswers.new, List.getD_eq_getElem?_getD, List.getElem?_map]
    cases requests[u]? <;> rfl
  · intro fuel s h
    cases fuel with
    | zero => simp [GetAnswers.Loop] at h
    | succ n =>
      rw [loop_no_helpers net nu0 res0 requests hreqs n] at h
      simp at h

/-- Witness for C12: three units, no helper, on a network whose calls all succeed: `Loop`
aborts on `CHECK(numworking > 0)`. -/
theorem getAnswers_no_helpers_aborts_witness :
    (∀ fuel, GetAnswers.Loop (mockNet (fun _ : Nat => 0) (fun r : Nat => r * 10)) (fuel + 1)
          (mockNet0, GetAnswers.new 0 [] [1, 2, 3]) = some (.error .numworking))
      ∧ ∀ fuel s, GetAnswers.Loop (mockNet (fun _ : Nat => 0) (fun r : Nat => r * 10)) fuel
          (mockNet0, GetAnswers.new 0 [] [1, 2, 3]) ≠ some (.ok s) :=
  ⟨(getAnswers_no_helpers_aborts (mockNet (fun _ : Nat => 0) (fun r : Nat => r * 10)) mockNet0 0
      [1, 2, 3] (by decide)).2.2.2.1,
   (getAnswers_no_helpers_aborts (mockNet (fun _ : Nat => 0) (fun r : Nat => r * 10)) mockNet0 0
      [1, 2, 3] (by decide)).2.2.2.2⟩

end Tasbot

namespace Tasbot

/-! ## The failure modes of `LoadEx` -/

/-- Counterexample for C19: a blob whose header declares 2^28 bytes (256 MiB, far
beyond any savestate) and whose payload inflates to four bytes is not refused:
`LoadEx` restores the four bytes. -/
theorem loadEx_large_declared_length_counterexample :
    readHeader [0, 0, 0, 16, 5, 0, 0, 255] = 268435456
      ∧ Emulator.LoadEx pushEngine storeZlib [0, 0, 0, 16, 5, 0, 0, 255] none
          = some [5, 0, 0, 255] := by
  constructor <;> rfl

/-- C19 (amended): `LoadEx` aborts when the payload fails to decompress (a truncated stream is
such a payload), when the payload inflates to more bytes than the header declares, when the
declared length does not fit a non-negative `int`, and when the engine refuses the decoded
state; a declared length below 2^31 is never refused for being large. When `LoadEx` restores
a state, that state is the whole inflated payload with the basis added back over the shared
prefix: it has the length of the inflated data, not the declared one, so no byte of it is
zero fill or left undecoded, and the engine accepted it. -/
theorem loadEx_aborts_or_restores_decoded (E : Engine) (Z : Zlib) (state : List Nat)
    (basis : Option (List Nat)) :
    (Z.uncompress (state.drop 4) = none → Emulator.LoadEx E Z state basis = none)
      ∧ (∀ data, Z.uncompress (state.drop 4) = some data → readHeader state < data.length →
          Emulator.LoadEx E Z state basis = none)
      ∧ (2147483648 ≤ readHeader state → Emulator.LoadEx E Z state basis = none)
      ∧ (∀ data, Z.uncompress (state.drop 4) = some data →
          E.loadRAW (addBasis data (basis.getD []) (basisLen basis data)) = false →
          Emulator.LoadEx E Z state basis = none)
      ∧ (∀ data, Z.uncompress (state.drop 4) = some data → data.length ≤ readHeader state →
          readHeader state < 2147483648 →
          E.loadRAW (addBasis data (basis.getD []) (basisLen basis data)) = true →
          Emulator.LoadEx E Z state basis
            = some (addBasis data (basis.getD []) (basisLen basis data)))
      ∧ (∀ restored, Emulator.LoadEx E Z state basis = some restored →
          ∃ data, Z.uncompress (state.drop 4) = some data
            ∧ data.length ≤ readHeader state
            ∧ restored = addBasis data (basis.getD []) (basisLen basis data)
            ∧ restored.length = data.length
            ∧ E.loadRAW restored = true) := by
  refine ⟨?_, ?_, ?_, ?_, ?_, ?_⟩
  · intro h
    unfold Emulator.LoadEx
    simp only [h]
    split <;> rfl
  · intro data h hlt
    unfold Emulator.LoadEx
    simp only [h]
    split
    · rw [if_neg (by omega)]
    · rfl
  · intro h
    unfold Emulator.LoadEx
    simp only
    rw [if_neg (by omega)]
  · intro data h hl
    unfold Emulator.LoadEx
    simp only [h]
    split
    · split
      · simp [hl]
      · rfl
    · rfl
  · intro data h hle hlt hl
    unfold Emulator.LoadEx
    simp only [h]
    rw [if_pos hlt, if_pos hle, if_pos hl]
  · intro restored h
    unfold Emulator.LoadEx at h
    simp only at h
    split at h
    · cases hu : Z.uncompress (state.drop 4) with
      | none => simp [hu] at h
      | some data =>
        simp only [hu] at h
        split at h
        · split at h
          · rename_i hl
            simp only [Option.some.injEq] at h
            subst h
            exact ⟨data, rfl, by assumption, rfl, by simp [addBasis], hl⟩
          · simp at h
        · simp at h
    · simp at h

/-- Witness for C19: a blob with a two-byte basis is restored as the inflated payload plus
the basis, four bytes long although the header declares 2^28. -/
theorem loadEx_aborts_or_restores_decoded_witness :
    ∃ data, storeZlib.uncompress (List.drop 4 [0, 0, 0, 16, 251, 56, 0, 255]) = some data
      ∧ data.length ≤ readHeader [0, 0, 0, 16, 251, 56, 0, 255]
      ∧ [5, 0, 0, 255] = addBasis data ((some [10, 200]).getD []) (basisLen (some [10, 200]) data)
      ∧ [5, 0, 0, 255].length = data.length
      ∧ pushEngine.loadRAW [5, 0, 0, 255] = true :=
  (loadEx_aborts_or_restores_decoded pushEngine storeZlib [0, 0, 0, 16, 251, 56, 0, 255]
    (some [10, 200])).2.2.2.2.2 [5, 0, 0, 255] rfl

end Tasbot

namespace Tasbot

/-! ## `GetNormalizedValue` -/

theorem getValueIndex_le (values : List (List Nat)) (now : List Nat) :
    GetValueIndex values now ≤ values.length := by
  unfold GetValueIndex
  exact (List.takeWhile_sublist _).length_le

theorem vecLess_irrefl (a : List Nat) : vecLess a a = false := by
  induction a with
  | nil => rfl
  | cons x xs ih => simp [vecLess, ih]

theorem getValueIndex_lt_of_mem (values : List (List Nat)) (now : List Nat)
    (hmem : now ∈ values) : GetValueIndex values now < values.length := by
  unfold GetValueIndex
  induction values with
  | nil => simp at hmem
  | cons v vs ih =>
    rw [List.takeWhile_cons]
    split
    · rename_i hv
      rcases List.mem_cons.mp hmem with h | h
      · subst h
        rw [vecLess_irrefl] at hv
        simp at hv
      · have := ih h
        simp only [List.length_cons]
        omega
    · simp

/-- The loop of `GetNormalizedValue` over objectives that all have an observation: the sum
grows by at most one for each objective. -/
theorem normalizedStep_foldl_bounds (mem : List Nat) (weighted : Weighted) (a : ℚ)
    (hobs : ∀ it ∈ weighted, it.2.observations ≠ []) :
    ∃ b, weighted.foldl (normalizedStep mem) (some a) = some b
      ∧ a ≤ b ∧ b ≤ a + weighted.length := by
  induction weighted generalizing a with
  | nil => exact ⟨a, rfl, le_refl _, by simp⟩
  | cons it rest ih =>
    have hne : it.2.observations.length ≠ 0 := by
      have := hobs it (List.mem_cons_self _ _)
      simpa using this
    have hpos : (0 : ℚ) < it.2.observations.length := by
      exact_mod_cast Nat.pos_of_ne_zero hne
    have hidx : ((GetValueIndex it.2.observations (projectMemory mem it.1) : Nat) : ℚ)
        ≤ it.2.observations.length := by
      exact_mod_cast getValueIndex_le _ _
    have hstep : normalizedStep mem (some a) it
        = some (a + (GetValueIndex it.2.observations (projectMemory mem it.1) : ℚ)
            / it.2.observations.length) := by
      simp [normalizedStep, GetValueFrac, divSize, hne]
    obtain ⟨b, hb, hab, hba⟩ := ih _ (fun x hx => hobs x (List.mem_cons_of_mem _ hx))
    refine ⟨b, ?_, ?_, ?_⟩
    · rw [List.foldl_cons, hstep, hb]
    · have : (0 : ℚ) ≤ (GetValueIndex it.2.observations (projectMemory mem it.1) : ℚ)
          / it.2.observations.length := by positivity
      linarith
    · have : (GetValueIndex it.2.observations (projectMemory mem it.1) : ℚ)
          / it.2.observations.length ≤ 1 := by
        rw [div_le_one hpos]
        exact hidx
      simp only [List.length_cons, Nat.cast_add, Nat.cast_one]
      linarith

/-- `Observe` leaves an observation with every objective. -/
theorem observe_observations_ne_nil (weighted : Weighted) (memory : List Nat) :
    ∀ it ∈ Observe weighted memory, it.2.observations ≠ [] := by
  intro it hit
  simp only [Observe, List.mem_map] at hit
  obtain ⟨x, _, rfl⟩ := hit
  intro h
  have := congrArg List.length h
  simp [List.length_insertionSort] at this

theorem observe_length (weighted : Weighted) (memory : List Nat) :
    (Observe weighted memory).length = weighted.length := by
  simp [Observe]

theorem observe_foldl_length (memories : List (List Nat)) (weighted : Weighted) :
    (memories.foldl Observe weighted).length = weighted.length := by
  induction memories generalizing weighted with
  | nil => rfl
  | cons m ms ih => rw [List.foldl_cons, ih, observe_length]

theorem observe_foldl_observations_ne_nil (memories : List (List Nat)) (weighted : Weighted)
    (hne : memories ≠ []) :
    ∀ it ∈ memories.foldl Observe weighted, it.2.observations ≠ [] := by
  induction memories generalizing weighted with
  | nil => exact absurd rfl hne
  | cons m ms ih =>
    rw [List.foldl_cons]
    cases ms with
    | nil => exact observe_observations_ne_nil weighted m
    | cons m2 ms2 => exact ih (Observe weighted m) (by simp)

/-- With an objective and an observation for each objective, the value is a number of
`[0, 1]`. -/
theorem getNormalizedValue_bounds (weighted : Weighted) (mem : List Nat)
    (hobj : weighted ≠ []) (hobs : ∀ it ∈ weighted, it.2.observations ≠ []) :
    ∃ v, GetNormalizedValue weighted mem = some v ∧ 0 ≤ v ∧ v ≤ 1 := by
  obtain ⟨b, hb, h0, h1⟩ := normalizedStep_foldl_bounds mem weighted 0 hobs
  have hlen : weighted.length ≠ 0 := by simpa using hobj
  have hpos : (0 : ℚ) < weighted.length := by exact_mod_cast Nat.pos_of_ne_zero hlen
  refine ⟨b / weighted.length, ?_, ?_, ?_⟩
  · simp [GetNormalizedValue, hb, divSize, hlen]
  · positivity
  · rw [div_le_one hpos]
    linarith

/-- Counterexample for C17: before the first call of `Observe` the value of the objective set
with the one objective `[0]` is 0/0, and so is the value of the empty objective set after a
call of `Observe`; neither is a number of `[0, 1]`. -/
theorem getNormalizedValue_unobserved_counterexample :
    (¬ ∃ v, GetNormalizedValue (List.foldl Observe [([0], ⟨1, []⟩)] []) [7] = some v
        ∧ 0 ≤ v ∧ v ≤ 1)
      ∧ ¬ ∃ v, GetNormalizedValue (List.foldl Observe [] [[3]]) [7] = some v
        ∧ 0 ≤ v ∧ v ≤ 1 := by
  constructor
  · rintro ⟨v, hv, _⟩
    simp [GetNormalizedValue, normalizedStep, GetValueFrac, divSize] at hv
  · rintro ⟨v, hv, _⟩
    simp [GetNormalizedValue, Observe, divSize] at hv

/-- C17 (amended): for every non-empty set of objectives, every history of at least one
`Observe` call (from any earlier observations) and every memory `mem`,
`GetNormalizedValue(mem)` is a number in the closed interval `[0, 1]`. -/
theorem getNormalizedValue_mem_unit_interval (weighted : Weighted)
    (memories : List (List Nat)) (mem : List Nat)
    (hobj : weighted ≠ []) (hobs : memories ≠ []) :
    ∃ v, GetNormalizedValue (memories.foldl Observe weighted) mem = some v
      ∧ 0 ≤ v ∧ v ≤ 1 :=
  getNormalizedValue_bounds _ mem
    (by
      intro h
      have := observe_foldl_length memories weighted
      rw [h] at this
      exact hobj (List.length_eq_zero.mp this.symm))
    (observe_foldl_observations_ne_nil memories weighted hobs)

/-- Witness for C17: two objectives, two observed memories. -/
theorem getNormalizedValue_mem_unit_interval_witness :
    ∃ v, GetNormalizedValue
        (List.foldl Observe [([0], ⟨1, []⟩), ([1, 0], ⟨2, []⟩)] [[3, 1], [5, 0]]) [4, 1]
          = some v ∧ 0 ≤ v ∧ v ≤ 1 :=
  getNormalizedValue_mem_unit_interval [([0], ⟨1, []⟩), ([1, 0], ⟨2, []⟩)] [[3, 1], [5, 0]]
    [4, 1] (by simp) (by simp)

end Tasbot

namespace Tasbot

/-- The first turn of the loop of `GetNormalizedValue` for an objective whose value is among
its observations adds less than one. -/
theorem normalizedStep_lt_of_mem (mem : List Nat) (a : ℚ) (it : List Nat × Info)
    (hmem : projectMemory mem it.1 ∈ it.2.observations) :
    ∃ f, normalizedStep mem (some a) it = some (a + f) ∧ 0 ≤ f ∧ f < 1 := by
  have hlt := getValueIndex_lt_of_mem _ _ hmem
  have hne : it.2.observations.length ≠ 0 := by omega
  have hpos : (0 : ℚ) < it.2.observations.length := by
    exact_mod_cast Nat.pos_of_ne_zero hne
  refine ⟨(GetValueIndex it.2.observations (projectMemory mem it.1) : ℚ)
      / it.2.observations.length, ?_, by positivity, ?_⟩
  · simp [normalizedStep, GetValueFrac, divSize, hne]
  · rw [div_lt_one hpos]
    exact_mod_cast hlt

/-- C18 (what the code does): when, for every objective, the value of `mem` at the objective's locations
is among the values observed for it (the highest observed value is one of them), the value
that `GetNormalizedValue(mem)` returns is a number below 1, never 1: `lower_bound` counts the
observations strictly below the value, and the value itself is not one of those. -/
theorem getNormalizedValue_observed_lt_one (weighted : Weighted) (mem : List Nat)
    (hobj : weighted ≠ [])
    (hmem : ∀ it ∈ weighted, projectMemory mem it.1 ∈ it.2.observations) :
    ∃ v, GetNormalizedValue weighted mem = some v ∧ 0 ≤ v ∧ v < 1 := by
  cases weighted with
  | nil => exact absurd rfl hobj
  | cons it rest =>
    obtain ⟨f, hf, hf0, hf1⟩ := normalizedStep_lt_of_mem mem 0 it
      (hmem it (List.mem_cons_self _ _))
    obtain ⟨b, hb, hab, hba⟩ := normalizedStep_foldl_bounds mem rest (0 + f)
      (fun x hx => List.ne_nil_of_mem (hmem x (List.mem_cons_of_mem _ hx)))
    have hpos : (0 : ℚ) < ((it :: rest).length : ℚ) := by
      simp only [List.length_cons, Nat.cast_add, Nat.cast_one]
      positivity
    refine ⟨b / (it :: rest).length, ?_, ?_, ?_⟩
    · rw [zero_add] at hf hb
      simp [GetNormalizedValue, hf, hb, divSize]
    · have : 0 ≤ b := by linarith
      positivity
    · rw [div_lt_one hpos]
      simp only [List.length_cons, Nat.cast_add, Nat.cast_one]
      linarith

/-- Witness for C18: one objective, the location 0, which was observed at 3 and at 5; at a
memory whose location 0 holds 5, the highest value observed, the value returned is 1/2. -/
theorem getNormalizedValue_observed_lt_one_witness :
    GetNormalizedValue (List.foldl Observe [([0], ⟨1, []⟩)] [[3], [5]]) [5] = some (1 / 2)
      ∧ ∃ v, GetNormalizedValue (List.foldl Observe [([0], ⟨1, []⟩)] [[3], [5]]) [5]
          = some v ∧ 0 ≤ v ∧ v < 1 :=
  ⟨by norm_num [GetNormalizedValue, Observe, normalizedStep, GetValueFrac, GetValueIndex,
      projectMemory, divSize, memAt, vecLess, List.insertionSort, List.orderedInsert],
    getNormalizedValue_observed_lt_one (List.foldl Observe [([0], ⟨1, []⟩)] [[3], [5]]) [5]
      (by simp [Observe])
      (by simp [Observe, projectMemory, memAt, vecLess, List.insertionSort,
        List.orderedInsert])⟩

end Tasbot

namespace Tasbot

/-! ## `sdlnet_recvall` and `ReadProto` -/

theorem stored_length (data : List Nat) (ret : Int) : (stored data ret).length = ret.toNat := by
  simp [stored]

/-- The loop of `sdlnet_recvall`: every call asks for at most the bytes still missing, the
value returned is at most `alreadyread + len`, and when it is `alreadyread + len` the calls
all returned a positive count within what was asked, the counts add up to `len`, and `len`
bytes were added to the buffer. -/
theorem recvallLoop_spec {σ : Type} (conn : Conn σ) (fuel : Nat) :
    ∀ (s : σ) (len alreadyread : Nat) (buffer : List Nat) (recvs : List (Nat × Int)),
      len ≤ fuel →
      ∃ new, (recvallLoop conn fuel s len alreadyread buffer recvs).recvs = recvs ++ new
        ∧ (∀ c ∈ new, c.1 ≤ len)
        ∧ (0 < len → ∃ ret rest, new = (len, ret) :: rest)
        ∧ (recvallLoop conn fuel s len alreadyread buffer recvs).ret ≤ alreadyread + len
        ∧ ((recvallLoop conn fuel s len alreadyread buffer recvs).ret = alreadyread + len →
            (recvallLoop conn fuel s len alreadyread buffer recvs).buffer.length
                = buffer.length + len
              ∧ (new.map (fun c => c.2)).sum = len
              ∧ ∀ c ∈ new, 0 < c.2 ∧ c.2 ≤ c.1) := by
  induction fuel with
  | zero =>
    intro s len alreadyread buffer recvs hle
    have hlen : len = 0 := by omega
    subst hlen
    exact ⟨[], by simp [recvallLoop], by simp, by simp, by simp [recvallLoop],
      by simp [recvallLoop]⟩
  | succ fuel ih =>
    intro s len alreadyread buffer recvs hle
    unfold recvallLoop
    by_cases hlen : 0 < len
    · simp only [hlen, if_true]
      by_cases h1 : (conn.recv s len).2.1 ≤ 0
      · simp only [h1, if_true]
        refine ⟨[(len, (conn.recv s len).2.1)], rfl, by simp, fun _ => ⟨_, _, rfl⟩,
          by omega, ?_⟩
        intro h
        omega
      · simp only [h1, if_false]
        by_cases h2 : (conn.recv s len).2.1 > len
        · simp only [h2, if_true]
          refine ⟨[(len, (conn.recv s len).2.1)], rfl, by simp, fun _ => ⟨_, _, rfl⟩,
            by omega, ?_⟩
          intro h
          omega
        · simp only [h2, if_false]
          by_cases h3 : (conn.recv s len).2.1 = len
          · simp only [h3, if_true]
            refine ⟨[(len, (conn.recv s len).2.1)], by rw [h3], by simp,
              fun _ => ⟨_, _, rfl⟩, le_refl _, ?_⟩
            intro _
            refine ⟨by simp [stored_length], by simp [h3], ?_⟩
            intro c hc
            simp only [List.mem_singleton] at hc
            subst hc
            simp only
            omega
          · simp only [h3, if_false]
            by_cases h4 : conn.errno (conn.recv s len).1 ≠ 0
            · rw [if_pos h4]
              refine ⟨[(len, (conn.recv s len).2.1)], rfl, by simp,
                fun _ => ⟨_, _, rfl⟩, by dsimp only; omega, ?_⟩
              intro h
              dsimp only at h
              omega
            · rw [if_neg h4]
              have hret : ((conn.recv s len).2.1.toNat : Int) = (conn.recv s len).2.1 :=
                Int.toNat_of_nonneg (by omega)
              obtain ⟨new, hnew, hask, _, hle2, hex⟩ := ih (conn.recv s len).1
                (len - (conn.recv s len).2.1.toNat) (alreadyread + (conn.recv s len).2.1.toNat)
                (buffer ++ stored (conn.recv s len).2.2 (conn.recv s len).2.1)
                (recvs ++ [(len, (conn.recv s len).2.1)]) (by omega)
              refine ⟨(len, (conn.recv s len).2.1) :: new, ?_, ?_, fun _ => ⟨_, _, rfl⟩,
                ?_, ?_⟩
              · rw [hnew]
                simp
              · intro c hc
                rcases List.mem_cons.mp hc with h | h
                · subst h
                  exact le_refl _
                · have := hask c h
                  omega
              · push_cast at hle2 ⊢
                omega
              · intro h
                have h5 := hex (by push_cast at h ⊢; omega)
                obtain ⟨hb, hsum, hpos⟩ := h5
                refine ⟨?_, ?_, ?_⟩
                · rw [hb]
                  simp only [List.length_append, stored_length]
                  omega
                · simp only [List.map_cons, List.sum_cons, hsum]
                  omega
                · intro c hc
                  rcases List.mem_cons.mp hc with h | h
                  · subst h
                    simp only
                    omega
                  · exact hpos c h
    · have hz : len = 0 := by omega
      subst hz
      simp only [lt_irrefl, if_false]
      exact ⟨[], by simp, by simp, by simp, by simp, by simp⟩

/-- C13: when the four bytes of the header arrive, with big-endian value `len`:
if `len` exceeds `MAX_MESSAGE` (2^30), `ReadProto` returns `false`, allocates no buffer and
makes no call of `SDLNet_TCP_Recv` after the one for the header, so no payload byte is read;
if `len ≤ MAX_MESSAGE`, it allocates `len` bytes and reads the payload with
`sdlnet_recvall` asked for `len` bytes: the first call asks for `len` bytes, no call asks
for more than `len`, and it returns `true` only with a message parsed from a payload of
exactly `len` bytes, received in calls that each returned a positive count adding up to
`len`. -/
theorem readProto_max_message {σ T : Type} (conn : Conn σ) (parse : List Nat → Option T)
    (s : σ) (hheader : (conn.recv s 4).2.1 = 4) :
    (MAX_MESSAGE < SDLNet_Read32 (stored (conn.recv s 4).2.2 4) →
        ReadProto conn parse s = ⟨(conn.recv s 4).1, [(4, 4)], none, none⟩)
      ∧ (SDLNet_Read32 (stored (conn.recv s 4).2.2 4) ≤ MAX_MESSAGE →
          (ReadProto conn parse s).allocated
              = some (SDLNet_Read32 (stored (conn.recv s 4).2.2 4))
            ∧ (ReadProto conn parse s).recvs = (4, 4) ::
                (sdlnet_recvall conn (conn.recv s 4).1
                  (SDLNet_Read32 (stored (conn.recv s 4).2.2 4))).recvs
            ∧ (∀ c ∈ (ReadProto conn parse s).recvs.tail,
                c.1 ≤ SDLNet_Read32 (stored (conn.recv s 4).2.2 4))
            ∧ (0 < SDLNet_Read32 (stored (conn.recv s 4).2.2 4) →
                ∃ ret rest, (ReadProto conn parse s).recvs.tail
                  = (SDLNet_Read32 (stored (conn.recv s 4).2.2 4), ret) :: rest)
            ∧ ∀ t, (ReadProto conn parse s).result = some t →
                ∃ payload, payload.length = SDLNet_Read32 (stored (conn.recv s 4).2.2 4)
                  ∧ parse payload = some t
                  ∧ (((ReadProto conn parse s).recvs.tail.map (fun c => c.2)).sum : Int)
                      = SDLNet_Read32 (stored (conn.recv s 4).2.2 4)
                  ∧ ∀ c ∈ (ReadProto conn parse s).recvs.tail, 0 < c.2 ∧ c.2 ≤ c.1) := by
  constructor
  · intro hbig
    unfold ReadProto
    simp only [hheader, ne_eq, not_true_eq_false, if_false, hbig, if_true]
  · intro hsmall
    obtain ⟨new, hnew, hask, hfirst, _, hex⟩ := recvallLoop_spec conn
      (SDLNet_Read32 (stored (conn.recv s 4).2.2 4)) (conn.recv s 4).1
      (SDLNet_Read32 (stored (conn.recv s 4).2.2 4)) 0 [] [] (le_refl _)
    have hnot : ¬ MAX_MESSAGE < SDLNet_Read32 (stored (conn.recv s 4).2.2 4) := by omega
    have hrecvs : (ReadProto conn parse s).recvs = (4, 4) ::
        (sdlnet_recvall conn (conn.recv s 4).1
          (SDLNet_Read32 (stored (conn.recv s 4).2.2 4))).recvs := by
      unfold ReadProto
      simp only [hheader, ne_eq, not_true_eq_false, if_false, gt_iff_lt, hnot]
      split <;> rfl
    have htail : (ReadProto conn parse s).recvs.tail = new := by
      rw [hrecvs, List.tail_cons]
      simpa [sdlnet_recvall] using hnew
    refine ⟨?_, hrecvs, ?_, ?_, ?_⟩
    · unfold ReadProto
      simp only [hheader, ne_eq, not_true_eq_false, if_false, gt_iff_lt, hnot]
      split <;> rfl
    · rw [htail]
      exact hask
    · rw [htail]
      exact hfirst
    · intro t ht
      rw [htail]
      unfold ReadProto at ht
      simp only [hheader, ne_eq, not_true_eq_false, if_false, gt_iff_lt, hnot] at ht
      split at ht
      · simp at ht
      · rename_i heq
        simp only [not_not] at heq
        have h5 := hex (by
          have : (sdlnet_recvall conn (conn.recv s 4).1
            (SDLNet_Read32 (stored (conn.recv s 4).2.2 4))).ret
              = (SDLNet_Read32 (stored (conn.recv s 4).2.2 4) : Int) := heq.symm
          simpa [sdlnet_recvall] using this)
        obtain ⟨hb, hsum, hpos⟩ := h5
        refine ⟨_, ?_, ht, hsum, hpos⟩
        simpa [sdlnet_recvall] using hb

/-- Witness for C13: a header that declares three bytes, whose payload arrives as one byte
and then two; a byte of the next message is left on the connection. -/
theorem readProto_max_message_witness :
    ReadProto wire (fun b => some b) ⟨[0, 0, 0, 3, 7, 8, 9, 42], [4, 1, 2]⟩
        = ⟨⟨[42], []⟩, [(4, 4), (3, 1), (2, 2)], some 3, some [7, 8, 9]⟩
      ∧ ∀ t, (ReadProto wire (fun b => some b)
            ⟨[0, 0, 0, 3, 7, 8, 9, 42], [4, 1, 2]⟩).result = some t →
          ∃ payload, payload.length = 3 ∧ some payload = some t
            ∧ (((ReadProto wire (fun b => some b)
                ⟨[0, 0, 0, 3, 7, 8, 9, 42], [4, 1, 2]⟩).recvs.tail.map (fun c => c.2)).sum : Int)
                = (3 : Nat)
            ∧ ∀ c ∈ (ReadProto wire (fun b => some b)
                ⟨[0, 0, 0, 3, 7, 8, 9, 42], [4, 1, 2]⟩).recvs.tail, 0 < c.2 ∧ c.2 ≤ c.1 :=
  ⟨by rfl,
    ((readProto_max_message wire (fun b => some b) ⟨[0, 0, 0, 3, 7, 8, 9, 42], [4, 1, 2]⟩
      (by decide)).2 (by decide)).2.2.2.2⟩

end Tasbot

namespace Tasbot

theorem read32_write32 (len : Nat) (hlen : len < 2 ^ 32) :
    SDLNet_Read32 (SDLNet_Write32 len) = len := by
  simp only [SDLNet_Read32, SDLNet_Write32, List.getD_cons_zero, List.getD_cons_succ]
  omega

theorem stored_take (data : List Nat) (k : Nat) (hk : k ≤ data.length) :
    stored data (k : Int) = data.take k := by
  apply List.ext_getElem
  · simp [stored, hk]
  · intro i h1 h2
    simp only [stored, List.length_map, List.length_range, Int.toNat_ofNat] at h1
    simp [stored, List.getD_eq_getElem?_getD, List.getElem?_eq_getElem (by omega : i < data.length)]

/-- On a connection that delivers in positive-size parts and sets no `errno`,
`sdlnet_recvall` keeps reading until it has the `payload.length` bytes it was asked for. -/
theorem wire_recvallLoop (fuel : Nat) :
    ∀ (payload rest chunks : List Nat) (alreadyread : Nat) (buffer : List Nat)
      (recvs : List (Nat × Int)),
      payload.length ≤ fuel → (∀ c ∈ chunks, 0 < c) →
      ∃ chunks2 recvs2,
        recvallLoop wire fuel ⟨payload ++ rest, chunks⟩ payload.length alreadyread buffer recvs
          = ⟨⟨rest, chunks2⟩, recvs2, alreadyread + payload.length, buffer ++ payload⟩ := by
  induction fuel with
  | zero =>
    intro payload rest chunks alreadyread buffer recvs hle _
    have hp : payload = [] := List.length_eq_zero.mp (by omega)
    subst hp
    exact ⟨chunks, recvs, by simp [recvallLoop]⟩
  | succ fuel ih =>
    intro payload rest chunks alreadyread buffer recvs hle hchunks
    unfold recvallLoop
    by_cases hlen : 0 < payload.length
    · rw [if_pos hlen]
      have hhead : 0 < chunks.headD payload.length := by
        cases chunks with
        | nil => exact hlen
        | cons c cs => exact hchunks c (List.mem_cons_self _ _)
      have hk : min (chunks.headD payload.length)
          (min payload.length (payload ++ rest).length) ≤ payload.length := by
        simp only [List.length_append]
        omega
      have hk0 : 0 < min (chunks.headD payload.length)
          (min payload.length (payload ++ rest).length) := by
        simp only [List.length_append]
        omega
      generalize hkdef : min (chunks.headD payload.length)
          (min payload.length (payload ++ rest).length) = k at hk hk0
      have hrecv : wire.recv ⟨payload ++ rest, chunks⟩ payload.length
          = (⟨payload.drop k ++ rest, chunks.tail⟩, (k : Int), payload.take k) := by
        simp only [wire, hkdef, List.drop_append_of_le_length hk,
          List.take_append_of_le_length hk]
      simp only [hrecv]
      have hst : stored (payload.take k) (k : Int) = payload.take k := by
        have := stored_take (payload.take k) k (by simp [hk])
        rw [this, List.take_take, min_self]
      rw [if_neg (by omega), if_neg (by omega)]
      by_cases hall : (k : Int) = payload.length
      · rw [if_pos hall]
        have hkeq : k = payload.length := by omega
        refine ⟨chunks.tail, recvs ++ [(payload.length, (k : Int))], ?_⟩
        rw [hst, hkeq]
        simp
      · rw [if_neg hall, if_neg (by simp [wire])]
        have htail : ∀ c ∈ chunks.tail, 0 < c :=
          fun c hc => hchunks c (List.mem_of_mem_tail hc)
        obtain ⟨chunks2, recvs2, h⟩ := ih (payload.drop k) rest chunks.tail
          (alreadyread + k) (buffer ++ payload.take k)
          (recvs ++ [(payload.length, (k : Int))])
          (by simp only [List.length_drop]; omega) htail
        refine ⟨chunks2, recvs2, ?_⟩
        simp only [Int.toNat_ofNat, hst]
        rw [List.length_drop] at h
        rw [h]
        have h1 : (alreadyread + k + (payload.length - k) : Nat)
            = alreadyread + payload.length := by omega
        simp only [List.append_assoc, List.take_append_drop]
        congr 1
        push_cast [h1]
        omega
    · have hp : payload = [] := List.length_eq_zero.mp (by omega)
      subst hp
      exact ⟨chunks, recvs, by simp⟩

/-- The part of C14 that holds: when the four bytes of the header arrive in one delivery,
`ReadProto` returns `true` with the parsed message however the payload is split into
positive-size deliveries, and leaves the bytes after the message on the connection. -/
theorem readProto_whole_header {T : Type} (parse : List Nat → Option T)
    (payload rest chunks : List Nat) (c : Nat) (hc : 4 ≤ c)
    (hlen : payload.length ≤ MAX_MESSAGE) (hchunks : ∀ c ∈ chunks, 0 < c) :
    (ReadProto wire parse ⟨SDLNet_Write32 payload.length ++ payload ++ rest, c :: chunks⟩).result
        = parse payload
      ∧ (ReadProto wire parse
          ⟨SDLNet_Write32 payload.length ++ payload ++ rest, c :: chunks⟩).sock.incoming
        = rest := by
  have hrecv : wire.recv ⟨SDLNet_Write32 payload.length ++ payload ++ rest, c :: chunks⟩ 4
      = (⟨payload ++ rest, chunks⟩, (4 : Int), SDLNet_Write32 payload.length) := by
    have h4 : min c (min 4 (SDLNet_Write32 payload.length ++ payload ++ rest).length) = 4 := by
      simp [SDLNet_Write32]
      omega
    simp only [wire, List.headD_cons, h4, List.tail_cons]
    simp [SDLNet_Write32]
  have hst : stored (SDLNet_Write32 payload.length) 4 = SDLNet_Write32 payload.length := by
    have := stored_take (SDLNet_Write32 payload.length) 4 (by simp [SDLNet_Write32])
    simpa [SDLNet_Write32] using this
  have hr32 : SDLNet_Read32 (SDLNet_Write32 payload.length) = payload.length :=
    read32_write32 _ (by unfold MAX_MESSAGE at hlen; omega)
  obtain ⟨chunks2, recvs2, h⟩ := wire_recvallLoop payload.length payload rest chunks 0 [] []
    (le_refl _) hchunks
  unfold ReadProto
  simp only [hrecv, hst, hr32, ne_eq, not_true_eq_false, if_false, gt_iff_lt,
    not_lt.mpr hlen, sdlnet_recvall, h]
  simp

/-- C14 (what the code does): for every message that `WriteProto` frames (the header of `SDLNet_Write32`
followed by the payload) and every way the connection delivers it, without error, in
positive-size parts of which the first has fewer than four bytes, `ReadProto` makes the one
call of `SDLNet_TCP_Recv` for the header, does not read on, and returns `false`. -/
theorem readProto_split_header_fails {T : Type} (parse : List Nat → Option T)
    (payload rest chunks : List Nat) (c : Nat) (hc : 0 < c) (hc4 : c < 4) :
    ReadProto wire parse ⟨SDLNet_Write32 payload.length ++ payload ++ rest, c :: chunks⟩
      = ⟨⟨(SDLNet_Write32 payload.length ++ payload ++ rest).drop c, chunks⟩,
          [(4, (c : Int))], none, none⟩ := by
  have h4 : min c (min 4 (SDLNet_Write32 payload.length ++ payload ++ rest).length) = c := by
    simp [SDLNet_Write32]
    omega
  have hrecv : wire.recv ⟨SDLNet_Write32 payload.length ++ payload ++ rest, c :: chunks⟩ 4
      = (⟨(SDLNet_Write32 payload.length ++ payload ++ rest).drop c, chunks⟩, (c : Int),
          (SDLNet_Write32 payload.length ++ payload ++ rest).take c) := by
    simp only [wire, List.headD_cons, h4, List.tail_cons]
  unfold ReadProto
  simp only [hrecv]
  rw [if_pos (by omega)]

/-- Witness for C14: the message with payload `[7, 8, 9]`, delivered as 2 + 2 + 3 bytes, is
refused after the first two bytes of the header; delivered as 4 + 1 + 2 bytes it is read. -/
theorem readProto_split_header_fails_witness :
    ReadProto wire (fun b => some b) ⟨[0, 0, 0, 3, 7, 8, 9], [2, 2, 3]⟩
        = ⟨⟨[0, 3, 7, 8, 9], [2, 3]⟩, [(4, 2)], none, none⟩
      ∧ (ReadProto wire (fun b => some b) ⟨[0, 0, 0, 3, 7, 8, 9], [4, 1, 2]⟩).result
        = some [7, 8, 9] :=
  ⟨readProto_split_header_fails (fun b => some b) [7, 8, 9] [] [2, 3] 2 (by decide)
    (by decide), by rfl⟩

end Tasbot

namespace Tasbot

/-! ## The planner state: checkpoints, `Commit` and `Rewind` -/

theorem replay_append (E : Engine) (st0 : List Nat) (xs ys : List Nat) :
    replay E st0 (xs ++ ys) = replay E (replay E st0 xs) ys := by
  simp [replay, List.foldl_append]

/-- On a list in increasing order of a key, popping from the back while the key is above `m`
leaves exactly the elements whose key is at most `m`. -/
theorem rdropWhile_eq_filter_of_sorted {α : Type} (key : α → Nat) (m : Int) (l : List α)
    (hs : l.Pairwise (fun a b => key a < key b)) :
    l.rdropWhile (fun x => decide ((key x : Int) > m))
      = l.filter (fun x => decide ((key x : Int) ≤ m)) := by
  have hrev : ∀ r : List α, r.Pairwise (fun a b => key b < key a) →
      r.dropWhile (fun x => decide ((key x : Int) > m))
        = r.filter (fun x => decide ((key x : Int) ≤ m)) := by
    intro r hr
    induction r with
    | nil => rfl
    | cons a t ih =>
      rw [List.pairwise_cons] at hr
      by_cases ha : (key a : Int) > m
      · rw [List.dropWhile_cons_of_pos (by simpa using ha),
          List.filter_cons_of_neg (by simpa using ha)]
        exact ih hr.2
      · rw [List.dropWhile_cons_of_neg (by simpa using ha),
          List.filter_cons_of_pos (by simpa using ha)]
        congr 1
        symm
        rw [List.filter_eq_self]
        intro b hb
        have := hr.1 b hb
        simp only [decide_eq_true_eq]
        omega
  unfold List.rdropWhile
  rw [hrev l.reverse (List.pairwise_reverse.mpr hs), List.filter_reverse, List.reverse_reverse]

theorem inv_init (E : Engine) (st0 : List Nat) (objectives : Weighted) :
    PlayFun.Inv E st0 (PlayFun.init st0 objectives) where
  sync := rfl
  sound := by
    intro e he
    simp [PlayFun.init, Emulator.ResetCache, StateCache.Resize] at he
  subtitles_length := rfl
  movenum_le := by simp [PlayFun.init]
  sorted := by simp [PlayFun.init]
  save_eq := by simp [PlayFun.init]

/-- The fields that `Commit` writes, when it returns. -/
theorem commit_eq {E : Engine} {input : Nat} {message : String} {pf pf1 : PlayFun}
    (h : Commit E input message pf = some pf1) :
    ∃ cache state, Emulator.CachingStep E input pf.cache pf.state = some (cache, state)
      ∧ pf1.state = state ∧ pf1.cache = cache
      ∧ pf1.movie = pf.movie ++ [input]
      ∧ pf1.subtitles = pf.subtitles ++ [message]
      ∧ pf1.checkpoints = (if (pf.movie ++ [input]).length % CHECKPOINT_EVERY = 0 then
          pf.checkpoints ++ [⟨state, (pf.movie ++ [input]).length⟩] else pf.checkpoints)
      ∧ pf1.watermark = pf.watermark := by
  unfold Commit at h
  cases hc : Emulator.CachingStep E input pf.cache pf.state with
  | none => simp [hc] at h
  | some r =>
    obtain ⟨cache, state⟩ := r
    simp only [hc, Option.some.injEq] at h
    subst h
    exact ⟨cache, state, rfl, rfl, rfl, rfl, rfl, rfl, rfl⟩

theorem inv_commit {E : Engine} {st0 : List Nat} {input : Nat} {message : String}
    {pf pf1 : PlayFun} (hinv : PlayFun.Inv E st0 pf)
    (h : Commit E input message pf = some pf1) : PlayFun.Inv E st0 pf1 := by
  obtain ⟨cache, state, hc, hst, hca, hmov, hsub, hcps, _⟩ := commit_eq h
  obtain ⟨hsound, hstep⟩ := StateCache.sound_cachingStep hinv.sound hc
  have hsync : pf1.state = replay E st0 pf1.movie := by
    rw [hst, hmov, replay_append, ← hinv.sync, hstep]
    rfl
  have hlen : pf1.movie.length = pf.movie.length + 1 := by simp [hmov]
  have hold_le : ∀ cp ∈ pf.checkpoints, cp.movenum ≤ pf1.movie.length :=
    fun cp hcp => by have := hinv.movenum_le cp hcp; omega
  have hold_save : ∀ cp ∈ pf.checkpoints,
      cp.save = replay E st0 (pf1.movie.take cp.movenum) := by
    intro cp hcp
    rw [hmov, List.take_append_of_le_length (hinv.movenum_le cp hcp)]
    exact hinv.save_eq cp hcp
  refine ⟨hsync, by rw [hca]; exact hsound, by rw [hsub, hmov]; simp [hinv.subtitles_length],
    ?_, ?_, ?_⟩
  · rw [hcps]
    split
    · intro cp hcp
      rcases List.mem_append.mp hcp with h1 | h1
      · exact hold_le cp h1
      · simp only [List.mem_singleton] at h1
        subst h1
        rw [hmov]
    · exact hold_le
  · rw [hcps]
    split
    · rw [List.pairwise_append]
      refine ⟨hinv.sorted, by simp, ?_⟩
      intro a ha b hb
      simp only [List.mem_singleton] at hb
      subst hb
      have := hinv.movenum_le a ha
      simp only [List.length_append, List.length_singleton]
      omega
    · exact hinv.sorted
  · rw [hcps]
    split
    · intro cp hcp
      rcases List.mem_append.mp hcp with h1 | h1
      · exact hold_save cp h1
      · simp only [List.mem_singleton] at h1
        subst h1
        simp only
        rw [← hmov, List.take_length, ← hsync, hst]
    · exact hold_save

/-- The fields that `Rewind` writes, when its `CHECK`s pass. -/
theorem rewind_eq {movenum : Int} {pf pf1 : PlayFun} (h : Rewind movenum pf = some pf1) :
    0 ≤ movenum ∧ movenum < pf.movie.length
      ∧ pf1 = { pf with
          movie := pf.movie.take movenum.toNat,
          subtitles := pf.subtitles.take movenum.toNat,
          checkpoints := pf.checkpoints.rdropWhile
            (fun cp => decide ((cp.movenum : Int) > movenum)) } := by
  unfold Rewind at h
  split at h
  · rename_i hc
    simp only [Option.some.injEq] at h
    exact ⟨hc.1, hc.2.1, h.symm⟩
  · simp at h

/-- The state that the backtracking sequence leaves satisfies the invariant. -/
theorem inv_backtrack {E : Engine} {st0 : List Nat} {pf pf1 : PlayFun} {start : Checkpoint}
    {st : List Nat} (hinv : PlayFun.Inv E st0 pf) (hmem : start ∈ pf.checkpoints)
    (hrew : Rewind start.movenum pf = some pf1)
    (hload : Emulator.LoadUncompressed E start.save = some st) :
    PlayFun.Inv E st0 { pf1 with state := st } := by
  obtain ⟨_, hlt, hpf1⟩ := rewind_eq hrew
  have hst : st = start.save := by
    unfold Emulator.LoadUncompressed at hload
    split at hload
    · exact (Option.some.inj hload).symm
    · simp at hload
  have hcps : pf1.checkpoints
      = pf.checkpoints.filter (fun cp => decide ((cp.movenum : Int) ≤ start.movenum)) := by
    rw [hpf1]
    exact rdropWhile_eq_filter_of_sorted (fun cp : Checkpoint => cp.movenum) _ _ hinv.sorted
  have hmov : pf1.movie = pf.movie.take start.movenum := by
    rw [hpf1]
    simp
  have hsub : pf1.subtitles = pf.subtitles.take start.movenum := by
    rw [hpf1]
    simp
  have hcache : pf1.cache = pf.cache := by rw [hpf1]
  have hlt2 : start.movenum < pf.movie.length := by exact_mod_cast hlt
  have hkept : ∀ cp ∈ pf1.checkpoints, cp ∈ pf.checkpoints ∧ cp.movenum ≤ start.movenum := by
    intro cp hcp
    rw [hcps, List.mem_filter] at hcp
    refine ⟨hcp.1, ?_⟩
    have := hcp.2
    simp only [decide_eq_true_eq] at this
    exact_mod_cast this
  refine ⟨?_, ?_, ?_, ?_, ?_, ?_⟩
  · show st = replay E st0 pf1.movie
    rw [hst, hmov]
    exact hinv.save_eq start hmem
  · show pf1.cache.Sound E
    rw [hcache]
    exact hinv.sound
  · show pf1.subtitles.length = pf1.movie.length
    rw [hsub, hmov, List.length_take, List.length_take, hinv.subtitles_length]
  · show ∀ cp ∈ pf1.checkpoints, cp.movenum ≤ pf1.movie.length
    intro cp hcp
    rw [hmov, List.length_take]
    have := (hkept cp hcp).2
    omega
  · show pf1.checkpoints.Pairwise _
    rw [hcps]
    exact hinv.sorted.filter _
  · show ∀ cp ∈ pf1.checkpoints, cp.save = replay E st0 (pf1.movie.take cp.movenum)
    intro cp hcp
    obtain ⟨hm, hle⟩ := hkept cp hcp
    rw [hmov, List.take_take, min_eq_left hle]
    exact hinv.save_eq cp hm

theorem inv_explore {E : Engine} {st0 : List Nat} {pf : PlayFun}
    {steps : List (List Nat × Nat)} {cache : StateCache} {outs : List (List Nat)}
    {st : List Nat} (hinv : PlayFun.Inv E st0 pf)
    (hrun : Emulator.runCaching E pf.cache steps = some (cache, outs))
    (hload : Emulator.LoadUncompressed E (Emulator.SaveUncompressed pf.state) = some st) :
    PlayFun.Inv E st0 { pf with cache := cache, state := st } := by
  have hst : st = pf.state := by
    unfold Emulator.LoadUncompressed Emulator.SaveUncompressed at hload
    split at hload
    · exact (Option.some.inj hload).symm
    · simp at hload
  have hs := (StateCache.sound_runCaching steps hinv.sound hrun).1
  exact ⟨by show st = _; rw [hst]; exact hinv.sync, hs, hinv.subtitles_length,
    hinv.movenum_le, hinv.sorted, hinv.save_eq⟩

/-- Every reachable planner state satisfies the invariant. -/
theorem inv_of_reachable {E : Engine} {st0 : List Nat} {objectives : Weighted} {pf : PlayFun}
    (h : PlayFun.Reachable E st0 objectives pf) : PlayFun.Inv E st0 pf := by
  induction h with
  | init => exact inv_init E st0 objectives
  | commit pf pf1 input message _ hc ih => exact inv_commit ih hc
  | warmup pf pf1 input _ hc ih =>
    have h1 := inv_commit ih hc
    exact ⟨h1.sync, h1.sound, h1.subtitles_length, h1.movenum_le, h1.sorted, h1.save_eq⟩
  | backtrack pf pf1 start st _ hmem hrew hload ih => exact inv_backtrack ih hmem hrew hload
  | explore pf steps cache outs st _ hrun hload ih => exact inv_explore ih hrun hload

end Tasbot

namespace Tasbot

theorem reachable_commits {E : Engine} {st0 : List Nat} {objectives : Weighted}
    (message : String) (inputs : List Nat) :
    ∀ (pf pf1 : PlayFun), PlayFun.Reachable E st0 objectives pf →
      Commits E message inputs pf = some pf1 → PlayFun.Reachable E st0 objectives pf1 := by
  induction inputs with
  | nil =>
    intro pf pf1 hr h
    simp only [Commits, Option.some.injEq] at h
    subst h
    exact hr
  | cons input rest ih =>
    intro pf pf1 hr h
    unfold Commits at h
    cases hc : Commit E input message pf with
    | none => simp [hc] at h
    | some pf2 =>
      simp only [hc] at h
      exact ih pf2 pf1 (.commit pf pf2 input message hr hc) h

/-- C15: with a deterministic step function (the engine is a function of input and state),
in every planner state reachable through `Commit` and through the backtracking sequence
`Rewind(checkpoint.movenum)` followed by loading that checkpoint's state (and through
exploration that restores the state it saved), every stored checkpoint `(save, movenum)`
satisfies: replaying the first `movenum` inputs of the current movie from the initial state
yields exactly `save`. -/
theorem checkpoint_save_eq_replay (E : Engine) (st0 : List Nat) (objectives : Weighted)
    (pf : PlayFun) (hreach : PlayFun.Reachable E st0 objectives pf) :
    ∀ cp ∈ pf.checkpoints, cp.save = replay E st0 (pf.movie.take cp.movenum) :=
  (inv_of_reachable hreach).save_eq

section

set_option maxRecDepth 100000

/-- Witness for C15: after 100 calls of `Commit` there is one checkpoint, at 100 inputs, and
it holds the state that the 100 inputs replay to. -/
theorem checkpoint_save_eq_replay_witness :
    ∃ pf, Commits addEngine "motif" (List.replicate 100 1) (PlayFun.init [9] []) = some pf
      ∧ pf.checkpoints = [⟨[109], 100⟩]
      ∧ ∀ cp ∈ pf.checkpoints, cp.save = replay addEngine [9] (pf.movie.take cp.movenum) :=
  ⟨_, rfl, rfl, checkpoint_save_eq_replay addEngine [9] [] _
    (reachable_commits "motif" (List.replicate 100 1) _ _ .init rfl)⟩

/-- C16: in any reachable planner state and for every `movenum` with
`0 ≤ movenum < movie.size()`, `Rewind(movenum)` passes its checks and leaves movie and
subtitles equal to their first `movenum` elements (both of length `movenum`), leaves exactly
the checkpoints whose `movenum` is at most the given one, in their original order and
unmodified, and touches nothing else. -/
theorem rewind_truncates (E : Engine) (st0 : List Nat) (objectives : Weighted)
    (pf : PlayFun) (movenum : Int) (hreach : PlayFun.Reachable E st0 objectives pf)
    (h0 : 0 ≤ movenum) (hlt : movenum < pf.movie.length) :
    ∃ pf1, Rewind movenum pf = some pf1
      ∧ pf1.movie = pf.movie.take movenum.toNat
      ∧ pf1.subtitles = pf.subtitles.take movenum.toNat
      ∧ pf1.movie.length = movenum.toNat ∧ pf1.subtitles.length = movenum.toNat
      ∧ pf1.checkpoints
          = pf.checkpoints.filter (fun cp => decide ((cp.movenum : Int) ≤ movenum))
      ∧ pf1.state = pf.state ∧ pf1.cache = pf.cache ∧ pf1.memories = pf.memories
      ∧ pf1.objectives = pf.objectives ∧ pf1.watermark = pf.watermark := by
  have hinv := inv_of_reachable hreach
  have hn : movenum.toNat ≤ pf.movie.length := by omega
  refine ⟨{ pf with
      movie := pf.movie.take movenum.toNat,
      subtitles := pf.subtitles.take movenum.toNat,
      checkpoints := pf.checkpoints.rdropWhile
        (fun cp => decide ((cp.movenum : Int) > movenum)) },
    ?_, rfl, rfl, ?_, ?_, ?_, rfl, rfl, rfl, rfl, rfl⟩
  · unfold Rewind
    rw [if_pos ⟨h0, hlt, hinv.subtitles_length.symm⟩]
  · simp only [List.length_take]
    omega
  · simp only [List.length_take, hinv.subtitles_length]
    omega
  · exact rdropWhile_eq_filter_of_sorted (fun cp : Checkpoint => cp.movenum) _ _ hinv.sorted

/-- Witness for C16: after 201 calls of `Commit` (checkpoints at 100 and at 200 inputs),
`Rewind(150)` leaves 150 inputs and the checkpoint at 100 inputs. -/
theorem rewind_truncates_witness :
    ∃ pf, Commits addEngine "motif" (List.replicate 201 0) (PlayFun.init [9] []) = some pf
      ∧ pf.checkpoints = [⟨[9], 100⟩, ⟨[9], 200⟩]
      ∧ ∃ pf1, Rewind 150 pf = some pf1
        ∧ pf1.movie = pf.movie.take (150 : Int).toNat
        ∧ pf1.subtitles = pf.subtitles.take (150 : Int).toNat
        ∧ pf1.movie.length = (150 : Int).toNat ∧ pf1.subtitles.length = (150 : Int).toNat
        ∧ pf1.checkpoints
            = pf.checkpoints.filter (fun cp => decide ((cp.movenum : Int) ≤ 150))
        ∧ pf1.state = pf.state ∧ pf1.cache = pf.cache ∧ pf1.memories = pf.memories
        ∧ pf1.objectives = pf.objectives ∧ pf1.watermark = pf.watermark :=
  ⟨_, rfl, rfl, rewind_truncates addEngine [9] [] _ 150
    (reachable_commits "motif" (List.replicate 201 0) _ _ .init rfl) (by decide)
    (by decide)⟩

end

end Tasbot

namespace Tasbot
namespace StateCache

/-! ## `CachingStep` returns -/

/-- With a limit of at least one, `CHECK(num_to_remove < all_sequences.size())` holds. -/
theorem maybeResize_returns {L S : Nat} {c : StateCache} (h : c.Consistent L S)
    (hL : 1 ≤ L) : ∃ c1, c.MaybeResize = some c1 := by
  unfold MaybeResize
  split
  · rename_i hover
    have hlen : ((c.hashtable.map (fun e => e.seq)).insertionSort (fun a b => a ≤ b)).length
        = c.count := by
      rw [List.length_insertionSort, List.length_map, h.count_eq]
    have hlim := h.limit_eq
    have hlt : c.count - c.limit
        < ((c.hashtable.map (fun e => e.seq)).insertionSort (fun a b => a ≤ b)).length := by
      rw [hlen]
      omega
    simp only [List.getElem?_eq_getElem hlt]
    exact ⟨_, rfl⟩
  · exact ⟨c, rfl⟩

/-- The binding that `Remember` inserted is still bound when `Remember` returns. -/
theorem remember_returns {L S : Nat} {c : StateCache} (h : c.Consistent L S) (hL : 1 ≤ L)
    {input : Nat} {start : List Nat} (result : List Nat) (hstart : hashable start = true)
    (hfind : c.find input start = none) :
    ∃ c1, c.Remember input start result = some c1
      ∧ ∃ e ∈ c1.hashtable, keyEquals e input start = true := by
  have hins : c.insert input start result
      = some { c with hashtable := c.hashtable ++ [⟨input, start, c.next_sequence, result⟩],
                      next_sequence := c.next_sequence + 1,
                      count := c.count + 1 } := by
    unfold StateCache.insert
    rw [if_pos hstart, hfind]
  have h2 := (consistent_insert h hins).1
  obtain ⟨c1, hres⟩ := maybeResize_returns h2 hL
  refine ⟨c1, by simp only [Remember, hins, Option.some_bind, hres], ?_⟩
  refine ⟨⟨input, start, c.next_sequence, result⟩, ?_, by simp [keyEquals]⟩
  unfold MaybeResize at hres
  split at hres
  · simp only at hres
    split at hres
    · simp at hres
    · rename_i minseq hmin
      simp only [Option.some.injEq] at hres
      subst hres
      simp only [evict_fst, List.mem_filter, List.mem_append, List.mem_singleton, or_true,
        decide_eq_true_eq, true_and]
      have hmem : minseq ∈ (c.hashtable
          ++ [(⟨input, start, c.next_sequence, result⟩ : Entry)]).map
          (fun e : Entry => e.seq) := by
        have := List.mem_iff_getElem?.mpr ⟨_, hmin⟩
        exact (List.perm_insertionSort _ _).mem_iff.mp this
      rcases List.mem_map.mp hmem with ⟨x, hx, hxs⟩
      rcases List.mem_append.mp hx with h1 | h1
      · have := h.seq_lt x h1
        omega
      · simp only [List.mem_singleton] at h1
        subst h1
        simp only at hxs
        omega
  · simp only [Option.some.injEq] at hres
    subst hres
    simp

end StateCache

/-- `CachingStep` returns, in the state of `Step`, when the cache is as its methods leave it
with a limit of at least one, the starting state is not empty and the engine accepts the
state it steps to. -/
theorem cachingStep_returns {E : Engine} {L S : Nat} {c : StateCache}
    (hc : c.Consistent L S) (hL : 1 ≤ L) (hs : c.Sound E) (input : Nat) {st : List Nat}
    (hst : st ≠ []) (hacc : E.loadRAW (Emulator.Step E input st) = true) :
    ∃ c1, Emulator.CachingStep E input c st = some (c1, Emulator.Step E input st)
      ∧ c1.Consistent L S ∧ c1.Sound E := by
  have hh : StateCache.hashable st = true := by
    cases st with
    | nil => exact absurd rfl hst
    | cons a t => rfl
  unfold Emulator.CachingStep
  simp only [Emulator.SaveUncompressed]
  cases hfind : c.find input st with
  | some e =>
    have hget : c.GetKnownResult input st
        = some ({ c with hits := c.hits + 1,
                         hashtable := StateCache.touch input st c.next_sequence c.hashtable,
                         next_sequence := c.next_sequence + 1 }, some e.result) := by
      unfold StateCache.GetKnownResult
      rw [if_pos hh, hfind]
    have hsd := StateCache.sound_getKnownResult hs hget
    have hcs := StateCache.consistent_getKnownResult hc hget
    have hres : e.result = Emulator.Step E input st := hsd.2 _ rfl
    rw [hget]
    simp only
    refine ⟨_, ?_, hcs.1, hsd.1⟩
    unfold Emulator.LoadUncompressed
    rw [hres, if_pos hacc]
    rfl
  | none =>
    have hget : c.GetKnownResult input st = some ({ c with misses := c.misses + 1 }, none) := by
      unfold StateCache.GetKnownResult
      rw [if_pos hh, hfind]
    have hsd := StateCache.sound_getKnownResult hs hget
    have hcs := StateCache.consistent_getKnownResult hc hget
    have hfind1 : ({ c with misses := c.misses + 1 } : StateCache).find input st = none :=
      hfind
    obtain ⟨c2, hrem, e, he, hkey⟩ := StateCache.remember_returns hcs.1 hL
      (Emulator.Step E input st) hh hfind1
    have hs2 := StateCache.sound_remember hsd.1 hrem
    have hc2 : c2.Consistent L S := by
      simp only [StateCache.Remember] at hrem
      rcases Option.bind_eq_some.mp hrem with ⟨c3, hins, hres⟩
      exact (StateCache.consistent_maybeResize (StateCache.consistent_insert hcs.1 hins).1
        hres).1
    have hsome : (c2.find input st).isSome = true := by
      unfold StateCache.find
      rw [List.find?_isSome]
      exact ⟨e, he, hkey⟩
    obtain ⟨e2, he2⟩ := Option.isSome_iff_exists.mp hsome
    have hget2 : c2.GetKnownResult input st
        = some ({ c2 with hits := c2.hits + 1,
                          hashtable := StateCache.touch input st c2.next_sequence c2.hashtable,
                          next_sequence := c2.next_sequence + 1 }, some e2.result) := by
      unfold StateCache.GetKnownResult
      rw [if_pos hh, he2]
    have hsd2 := StateCache.sound_getKnownResult hs2 hget2
    have hcs2 := StateCache.consistent_getKnownResult hc2 hget2
    rw [hget]
    simp only [Emulator.SaveUncompressed, hrem, hget2]
    exact ⟨_, rfl, hcs2.1, hsd2.1⟩

end Tasbot

namespace Tasbot

/-! ## `InnerLoop` computes a function of its arguments -/

theorem replay_cons (E : Engine) (st : List Nat) (input : Nat) (rest : List Nat) :
    replay E st (input :: rest) = replay E (Emulator.Step E input st) rest := rfl

theorem good_replay {E : Engine} {good : List Nat → Prop} (hE : E.Closed good)
    (inputs : List Nat) : ∀ st, good st → good (replay E st inputs) := by
  induction inputs with
  | nil => exact fun st h => h
  | cons input rest ih => exact fun st h => ih _ (hE.step input st h)

theorem loadUncompressed_good {E : Engine} {good : List Nat → Prop} (hE : E.Closed good)
    {st : List Nat} (h : good st) : Emulator.LoadUncompressed E st = some st := by
  unfold Emulator.LoadUncompressed
  rw [if_pos (hE.accepts st h)]

/-- A run of `CachingStep`s returns, in the state that the inputs replay to. -/
theorem cachingSteps_returns {E : Engine} {good : List Nat → Prop} (hE : E.Closed good)
    {L S : Nat} (hL : 1 ≤ L) (inputs : List Nat) :
    ∀ (c : StateCache) (st : List Nat), c.Consistent L S → c.Sound E → good st →
      ∃ c1, Emulator.cachingSteps E c st inputs = some (c1, replay E st inputs)
        ∧ c1.Consistent L S ∧ c1.Sound E := by
  induction inputs with
  | nil => exact fun c st hc hs _ => ⟨c, rfl, hc, hs⟩
  | cons input rest ih =>
    intro c st hc hs hg
    obtain ⟨c1, h1, hc1, hs1⟩ := cachingStep_returns hc hL hs input (hE.ne_nil st hg)
      (hE.accepts _ (hE.step input st hg))
    obtain ⟨c2, h2, hc2, hs2⟩ := ih c1 _ hc1 hs1 (hE.step input st hg)
    refine ⟨c2, ?_, hc2, hs2⟩
    rw [replay_cons, ← h2]
    simp only [Emulator.cachingSteps, h1]

/-- The loop over the futures returns what `futuresScores` computes, whatever the cache
holds. -/
theorem innerLoopFutures_returns {E : Engine} {good : List Nat → Prop} (hE : E.Closed good)
    {L S : Nat} (hL : 1 ≤ L) (objectives : Weighted) (new_memory new_state : List Nat)
    (hnew : good new_state) (norig : Nat) (futures : List (List Nat)) :
    ∀ (f : Nat) (s : InnerState), s.cache.Consistent L S → s.cache.Sound E →
      (f = 0 → s.state = new_state) →
      ∃ c1 st1, c1.Consistent L S ∧ c1.Sound E
        ∧ innerLoopFutures E objectives new_memory new_state norig futures f s
          = (futuresScores E objectives new_memory new_state norig futures f s.res).map
              (fun r => ⟨c1, st1, r⟩) := by
  induction futures with
  | nil =>
    intro f s hc hs _
    exact ⟨s.cache, s.state, hc, hs, rfl⟩
  | cons future rest ih =>
    intro f s hc hs hf0
    have hload : (if f ≠ 0 then Emulator.LoadUncompressed E new_state else some s.state)
        = some new_state := by
      by_cases hf : f = 0
      · rw [if_neg (by simpa using hf), hf0 hf]
      · rw [if_pos hf, loadUncompressed_good hE hnew]
    obtain ⟨c1, h1, hc1, hs1⟩ := cachingSteps_returns hE hL future s.cache new_state hc hs hnew
    unfold innerLoopFutures futuresScores
    simp only [hload, ScoreByFuture, h1]
    cases hadd : (if f < norig then addAt s.res.futurescores f
        (Evaluate objectives new_memory (Emulator.GetMemory E (replay E new_state future)))
        else some s.res.futurescores) with
    | none => exact ⟨c1, [], hc1, hs1, rfl⟩
    | some futurescores =>
      simp only
      exact ih (f + 1) _ hc1 hs1 (by omega)

/-- `InnerLoop` returns what `innerLoopScores` computes, whatever the cache holds. -/
theorem innerLoop_returns {E : Engine} {good : List Nat → Prop} (hE : E.Closed good)
    {L S : Nat} (hL : 1 ≤ L) (objectives : Weighted) {cache : StateCache}
    (hc : cache.Consistent L S) (hs : cache.Sound E) (next : List Nat)
    (futures : List (List Nat)) {current_state : List Nat} (hgood : good current_state)
    (futurescores : List ℚ) :
    ∃ c1 st1, c1.Consistent L S ∧ c1.Sound E
      ∧ InnerLoop E objectives cache next futures current_state futurescores
        = (innerLoopScores E objectives next futures current_state futurescores).map
            (fun r => ⟨c1, st1, r⟩) := by
  obtain ⟨c1, h1, hc1, hs1⟩ := cachingSteps_returns hE hL next cache current_state hc hs hgood
  unfold InnerLoop innerLoopScores
  simp only [loadUncompressed_good hE hgood, h1, Emulator.SaveUncompressed]
  by_cases hlen : futures.length = 0
  · simp only [hlen, if_true]
    exact ⟨c1, [], hc1, hs1, rfl⟩
  · simp only [hlen, if_false]
    cases hfake : fakeFuture next ((futures.map (fun f => f.length)).sum / futures.length) with
    | none => exact ⟨c1, [], hc1, hs1, rfl⟩
    | some fake =>
      simp only
      exact innerLoopFutures_returns hE hL objectives _ _ (good_replay hE next _ hgood) _ _ 0
        _ hc1 hs1 (fun _ => rfl)

theorem addAt_length {v w : List ℚ} {f : Nat} {x : ℚ} (h : addAt v f x = some w) :
    w.length = v.length := by
  unfold addAt at h
  split at h
  · simp only [Option.some.injEq] at h
    subst h
    simp
  · simp at h

/-- The loop over the futures stores within `futurescores` when the vector has a slot for
each real future. -/
theorem futuresScores_isSome (E : Engine) (objectives : Weighted)
    (new_memory new_state : List Nat) (norig : Nat) (futures : List (List Nat)) :
    ∀ (f : Nat) (res : PlayFunResponse), norig ≤ res.futurescores.length →
      ∃ r, futuresScores E objectives new_memory new_state norig futures f res = some r
        ∧ r.futurescores.length = res.futurescores.length := by
  induction futures with
  | nil => exact fun f res _ => ⟨res, rfl, rfl⟩
  | cons future rest ih =>
    intro f res hlen
    unfold futuresScores
    simp only
    by_cases hf : f < norig
    · simp only [hf, if_true]
      have hadd : addAt res.futurescores f (Evaluate objectives new_memory
          (Emulator.GetMemory E (replay E new_state future)))
          = some (res.futurescores.set f (res.futurescores.getD f 0 + Evaluate objectives
              new_memory (Emulator.GetMemory E (replay E new_state future)))) := by
        unfold addAt
        rw [if_pos (by omega)]
      rw [hadd]
      simp only
      obtain ⟨r, hr, hrl⟩ := ih (f + 1) (scoreFuture res
        (res.futurescores.set f (res.futurescores.getD f 0 + Evaluate objectives
              new_memory (Emulator.GetMemory E (replay E new_state future))))
        (Evaluate objectives new_memory
        (Emulator.GetMemory E (replay E new_state future))))
        (by simp only [scoreFuture, List.length_set]; exact hlen)
      exact ⟨r, hr, by rw [hrl]; simp [scoreFuture]⟩
    · simp only [hf, if_false]
      obtain ⟨r, hr, hrl⟩ := ih (f + 1) (scoreFuture res res.futurescores
        (Evaluate objectives new_memory (Emulator.GetMemory E (replay E new_state future))))
        (by simp only [scoreFuture]; exact hlen)
      exact ⟨r, hr, by rw [hrl]; simp [scoreFuture]⟩

/-- With a future, a non-empty candidate and a slot for each future, `innerLoopScores` has
a value, with as many future scores as the vector passed in. -/
theorem innerLoopScores_isSome (E : Engine) (objectives : Weighted) (next : List Nat)
    (futures : List (List Nat)) (current_state : List Nat) (futurescores : List ℚ)
    (hnext : next ≠ []) (hfut : futures ≠ []) (hlen : futures.length ≤ futurescores.length) :
    ∃ r, innerLoopScores E objectives next futures current_state futurescores = some r
      ∧ r.futurescores.length = futurescores.length := by
  unfold innerLoopScores
  have h0 : futures.length ≠ 0 := by simpa using hfut
  simp only [h0, if_false]
  have hfake : ∃ fake, fakeFuture next ((futures.map (fun f => f.length)).sum / futures.length)
      = some fake := by
    unfold fakeFuture
    split
    · exact ⟨[], rfl⟩
    · obtain ⟨b, hb⟩ : ∃ b, next.getLast? = some b := by
        cases h : next.getLast? with
        | none => exact absurd (List.getLast?_eq_none_iff.mp h) hnext
        | some b => exact ⟨b, rfl⟩
      exact ⟨_, by rw [hb]; rfl⟩
  obtain ⟨fake, hf⟩ := hfake
  rw [hf]
  exact futuresScores_isSome E objectives _ _ _ _ 0 _ hlen

end Tasbot

namespace Tasbot

/-! ## The two branches of `ParallelStep` -/

theorem addFutureScores_isSome (scores : List ℚ) :
    ∀ totals : List ℚ, scores.length ≤ totals.length →
      ∃ t, addFutureScores totals scores = some t ∧ t.length = totals.length := by
  induction scores with
  | nil =>
    intro totals _
    exact ⟨totals, by cases totals <;> rfl, rfl⟩
  | cons s ss ih =>
    intro totals h
    cases totals with
    | nil => simp at h
    | cons t ts =>
      obtain ⟨r, hr, hrl⟩ := ih ts (by simpa using h)
      exact ⟨(t + s) :: r, by simp [addFutureScores, hr], by simp [hrl]⟩

theorem parallelStepBody_isSome (sel : Selection) (i : Nat) (res : PlayFunResponse)
    (h : res.futurescores.length ≤ sel.futuretotals.length) :
    ∃ sel1, parallelStepBody sel i res = some sel1
      ∧ sel1.futuretotals.length = sel.futuretotals.length := by
  obtain ⟨t, ht, htl⟩ := addFutureScores_isSome res.futurescores sel.futuretotals h
  unfold parallelStepBody
  rw [ht]
  simp only
  split
  · exact ⟨_, rfl, htl⟩
  · exact ⟨_, rfl, htl⟩

theorem parallelStepLoop_isSome (rs : List PlayFunResponse) :
    ∀ (i : Nat) (sel : Selection),
      (∀ r ∈ rs, r.futurescores.length ≤ sel.futuretotals.length) →
      ∃ sel1, parallelStepLoop rs i sel = some sel1 := by
  induction rs with
  | nil => exact fun i sel _ => ⟨sel, rfl⟩
  | cons r rest ih =>
    intro i sel h
    obtain ⟨sel1, h1, hl1⟩ := parallelStepBody_isSome sel i r
      (h r (List.mem_cons_self _ _))
    obtain ⟨sel2, h2⟩ := ih (i + 1) sel1
      (fun x hx => by rw [hl1]; exact h x (List.mem_cons_of_mem _ hx))
    exact ⟨sel2, by simp only [parallelStepLoop, h1, h2]⟩

/-- The scores of a candidate have a value, with `NFUTURES` future scores. -/
theorem candidateScores_eq (E : Engine) (objectives : Weighted) (futures : List (List Nat))
    (current_state next : List Nat) (hnext : next ≠ []) (hfut : futures.length = NFUTURES) :
    innerLoopScores E objectives next futures current_state (List.replicate NFUTURES 0)
        = some (candidateScores E objectives futures current_state next)
      ∧ (candidateScores E objectives futures current_state next).futurescores.length
        = NFUTURES := by
  obtain ⟨r, hr, hrl⟩ := innerLoopScores_isSome E objectives next futures current_state
    (List.replicate NFUTURES 0) hnext
    (by intro h; rw [h] at hfut; exact absurd hfut (by decide))
    (by simp [hfut])
  unfold candidateScores
  rw [hr]
  exact ⟨rfl, by simpa using hrl⟩

/-- The candidate loop of the local branch is the candidate loop on the scores that
`innerLoopScores` computes. -/
theorem parallelStepLocalLoop_eq {E : Engine} {good : List Nat → Prop} (hE : E.Closed good)
    {L S : Nat} (hL : 1 ≤ L) (objectives : Weighted) (futures : List (List Nat))
    (hfut : futures.length = NFUTURES) {current_state : List Nat}
    (hgood : good current_state) (nexts : List (List Nat)) :
    ∀ (i : Nat) (s : Stepped), (∀ next ∈ nexts, next ≠ []) →
      s.cache.Consistent L S → s.cache.Sound E →
      ∃ c1 st1, parallelStepLocalLoop E objectives futures current_state nexts i s
        = (parallelStepLoop (nexts.map (candidateScores E objectives futures current_state))
            i s.sel).map
            (fun sel => ⟨c1, st1, sel,
              (nexts.map (candidateScores E objectives futures current_state)).foldl
                Scoredist.push s.distribution⟩) := by
  induction nexts with
  | nil => exact fun i s _ _ _ => ⟨s.cache, s.state, rfl⟩
  | cons next rest ih =>
    intro i s hn hc hs
    obtain ⟨c1, st1, hc1, hs1, h1⟩ := innerLoop_returns hE hL objectives hc hs next futures
      hgood (List.replicate NFUTURES 0)
    have hcand := (candidateScores_eq E objectives futures current_state next
      (hn next (List.mem_cons_self _ _)) hfut).1
    rw [hcand] at h1
    unfold parallelStepLocalLoop
    simp only [h1, Option.map_some', List.map_cons, parallelStepLoop, List.foldl_cons]
    cases hb : parallelStepBody s.sel i
        (candidateScores E objectives futures current_state next) with
    | none => exact ⟨c1, st1, rfl⟩
    | some sel1 =>
      simp only
      exact ih (i + 1) _ (fun x hx => hn x (List.mem_cons_of_mem _ hx)) hc1 hs1

/-- A helper's answer is the scores that `innerLoopScores` computes, whatever its cache
holds. -/
theorem helperAnswer_eq {E : Engine} {good : List Nat → Prop} (hE : E.Closed good)
    {L S : Nat} (hL : 1 ≤ L) (objectives : Weighted)
    (cacheOf : PlayFunRequest → StateCache)
    (hcaches : ∀ req, (cacheOf req).Consistent L S ∧ (cacheOf req).Sound E)
    (futures : List (List Nat)) (hfut : futures.length = NFUTURES)
    {current_state : List Nat} (hgood : good current_state) (next : List Nat)
    (hnext : next ≠ []) :
    helperAnswer E objectives cacheOf ⟨current_state, next, futures⟩
      = candidateScores E objectives futures current_state next := by
  obtain ⟨c1, st1, _, _, h1⟩ := innerLoop_returns hE hL objectives
    (hcaches ⟨current_state, next, futures⟩).1 (hcaches ⟨current_state, next, futures⟩).2
    next futures hgood (List.replicate futures.length 0)
  rw [hfut, (candidateScores_eq E objectives futures current_state next hnext hfut).1] at h1
  unfold helperAnswer helperPlayFun
  simp only [hfut, h1, Option.map_some']

/-- C11: for the same candidates (each with at least one input), the same pool of `NFUTURES`
futures, the same starting state and the same starting `futuretotals` (one slot for each
future), the distributed branch of `ParallelStep` (on the mock network whose helpers,
after any number of failed reads, answer a request by running `InnerLoop` on their own
caches) and the local sequential branch both return, with identical per-candidate
immediate, futures and worst-future scores, identical accumulated `futuretotals` and
`best_score`, and the same `best_next_idx`. The engine accepts the states it steps to, and
the caches of the master and of the helpers are as `ResetCache` with a limit of at least
one and `CachingStep` leave them. -/
theorem parallelStep_marionet_eq_local (E : Engine) (good : List Nat → Prop)
    (hE : E.Closed good) (objectives : Weighted) (L S Lh Sh : Nat) (hL : 1 ≤ L)
    (hLh : 1 ≤ Lh) (cache : StateCache) (state : List Nat) (hc : cache.Consistent L S)
    (hs : cache.Sound E) (cacheOf : PlayFunRequest → StateCache)
    (hcaches : ∀ req, (cacheOf req).Consistent Lh Sh ∧ (cacheOf req).Sound E)
    (K : PlayFunRequest → Nat) (ports : List Int) (hports : ports ≠ [])
    (nexts : List (List Nat)) (hne : nexts ≠ []) (hnexts : ∀ next ∈ nexts, next ≠ [])
    (futures : List (List Nat)) (hfut : futures.length = NFUTURES)
    (current_state : List Nat) (hgood : good current_state) (futuretotals : List ℚ)
    (htotals : futuretotals.length = futures.length) :
    ∃ fuel stepped,
      ParallelStepLocal E objectives cache state nexts futures current_state futuretotals
          = some stepped
        ∧ ParallelStepMarionet
            (dispatchOn (mockNet K (helperAnswer E objectives cacheOf)) fuel mockNet0
              PlayFunResponse.empty ports)
            nexts futures current_state futuretotals
          = some (stepped.sel, stepped.distribution)
        ∧ stepped.distribution.immediates
          = nexts.map (fun next =>
              (candidateScores E objectives futures current_state next).immediate_score)
        ∧ stepped.distribution.positives
          = nexts.map (fun next =>
              (candidateScores E objectives futures current_state next).futures_score)
        ∧ stepped.distribution.chosen_idx = stepped.sel.best_next_idx := by
  have hlen : nexts.length > 0 := List.length_pos.mpr hne
  -- the scores of the candidates
  have hsome : ∃ sel, parallelStepLoop
      (nexts.map (candidateScores E objectives futures current_state)) 0
      { futuretotals := futuretotals, best_score := 0, best_next_idx := 0 } = some sel := by
    apply parallelStepLoop_isSome
    intro r hr
    obtain ⟨next, hnext, rfl⟩ := List.mem_map.mp hr
    rw [(candidateScores_eq E objectives futures current_state next (hnexts next hnext)
      hfut).2]
    simp only [htotals, hfut, le_refl]
  obtain ⟨sel, hsel⟩ := hsome
  -- the local branch
  obtain ⟨c1, st1, hlocal⟩ := parallelStepLocalLoop_eq hE hL objectives futures hfut hgood
    nexts 0
    { cache := cache, state := state,
      sel := { futuretotals := futuretotals, best_score := 0, best_next_idx := 0 },
      distribution := ⟨[], [], [], [], 0⟩ } hnexts hc hs
  simp only [hsel, Option.map_some'] at hlocal
  -- the distributed branch
  obtain ⟨fuel, s, hloop, _, hwork⟩ := mock_loop_result K
    (helperAnswer E objectives cacheOf) PlayFunResponse.empty ports
    (nexts.map (fun next =>
      ({ current_state := current_state, next := next, futures := futures } : PlayFunRequest)))
    hports (by simpa using hne)
  have hres : s.2.GetWork.map (fun w => w.res)
      = nexts.map (candidateScores E objectives futures current_state) := by
    rw [hwork, List.map_map, List.map_map]
    apply List.map_congr_left
    intro next hnext
    exact helperAnswer_eq hE hLh objectives cacheOf hcaches futures hfut hgood next
      (hnexts next hnext)
  have himm : ∀ (rs : List PlayFunResponse) (d : Scoredist),
      (rs.foldl Scoredist.push d).immediates = d.immediates ++ rs.map (fun r => r.immediate_score)
        ∧ (rs.foldl Scoredist.push d).positives
          = d.positives ++ rs.map (fun r => r.futures_score) := by
    intro rs
    induction rs with
    | nil => intro d; simp
    | cons r rest ih =>
      intro d
      simp only [List.foldl_cons, List.map_cons]
      rw [(ih (d.push r)).1, (ih (d.push r)).2]
      simp [Scoredist.push]
  refine ⟨fuel,
    { cache := c1, state := st1, sel := sel,
      distribution :=
        { (nexts.map (candidateScores E objectives futures current_state)).foldl
            Scoredist.push ⟨[], [], [], [], 0⟩ with chosen_idx := sel.best_next_idx } },
    ?_, ?_, ?_, ?_, ?_⟩
  · unfold ParallelStepLocal
    rw [if_pos hlen, hlocal]
  · unfold ParallelStepMarionet
    rw [if_pos hlen]
    simp only [dispatchOn, hloop, hres, ParallelStep, List.length_map, hlen, if_true, hsel]
  · simp only
    rw [(himm _ _).1]
    simp [List.map_map, Function.comp_def]
  · simp only
    rw [(himm _ _).2]
    simp [List.map_map, Function.comp_def]
  · rfl

/-- The engine `addEngine` accepts the states it steps to, which are not empty. -/
theorem addEngine_closed : addEngine.Closed (fun st => st ≠ []) where
  ne_nil := fun _ h => h
  accepts := fun _ _ => rfl
  step := fun input st h => by
    simp only [Emulator.Step, addEngine]
    intro h1
    exact h (List.map_eq_nil_iff.mp h1)

/-- Witness for C11: two candidates, 34 futures of two inputs each, one objective, one
helper. -/
theorem parallelStep_marionet_eq_local_witness :
    ∃ fuel stepped,
      ParallelStepLocal addEngine [([0], ⟨1, []⟩)]
          (Emulator.ResetCache 100000 10000 StateCache.new) [9] [[1], [2, 3]]
          (List.replicate 34 [1, 2]) [9] (List.replicate 34 0)
          = some stepped
        ∧ ParallelStepMarionet
            (dispatchOn (mockNet (fun _ => 0) (helperAnswer addEngine [([0], ⟨1, []⟩)]
              (fun _ => Emulator.ResetCache 100000 10000 StateCache.new))) fuel mockNet0
              PlayFunResponse.empty [8000])
            [[1], [2, 3]] (List.replicate 34 [1, 2]) [9] (List.replicate 34 0)
          = some (stepped.sel, stepped.distribution)
        ∧ stepped.distribution.immediates
          = [[1], [2, 3]].map (fun next =>
              (candidateScores addEngine [([0], ⟨1, []⟩)] (List.replicate 34 [1, 2]) [9]
                next).immediate_score)
        ∧ stepped.distribution.positives
          = [[1], [2, 3]].map (fun next =>
              (candidateScores addEngine [([0], ⟨1, []⟩)] (List.replicate 34 [1, 2]) [9]
                next).futures_score)
        ∧ stepped.distribution.chosen_idx = stepped.sel.best_next_idx :=
  parallelStep_marionet_eq_local addEngine (fun st => st ≠ []) addEngine_closed
    [([0], ⟨1, []⟩)] 100000 10000 100000 10000 (by decide) (by decide)
    (Emulator.ResetCache 100000 10000 StateCache.new) [9]
    (StateCache.consistent_resize 100000 10000 StateCache.new)
    (by intro e he; simp [Emulator.ResetCache, StateCache.Resize] at he)
    (fun _ => Emulator.ResetCache 100000 10000 StateCache.new)
    (fun _ => ⟨StateCache.consistent_resize 100000 10000 StateCache.new,
      by intro e he; simp [Emulator.ResetCache, StateCache.Resize] at he⟩)
    (fun _ => 0) [8000] (by decide) [[1], [2, 3]] (by decide) (by decide)
    (List.replicate 34 [1, 2]) (by simp [NFUTURES]) [9] (by decide) (List.replicate 34 0)
    (by simp)

end Tasbot

namespace Tasbot

/-! ## `MaybeBacktrack` when nothing better is found -/

/-- The checkpoint that `GetRecentCheckpoint` returns is a stored one that passed the
distance test. -/
theorem getRecentCheckpoint_some {pf : PlayFun} {start : Checkpoint}
    (h : pf.GetRecentCheckpoint = some start) :
    start ∈ pf.checkpoints
      ∧ (pf.movie.length + 18446744073709551616 - start.movenum) % 18446744073709551616
          > MIN_BACKTRACK_DISTANCE
      ∧ start.movenum > pf.watermark := by
  unfold PlayFun.GetRecentCheckpoint at h
  have hmem := List.mem_of_find?_eq_some h
  have hp := List.find?_some h
  simp only [Bool.and_eq_true, decide_eq_true_eq] at hp
  exact ⟨List.mem_reverse.mp hmem, hp.1, hp.2⟩

/-- C20: in a reachable planner state, when the backtrack attempt finds nothing better
(`GetRecentCheckpoint` returns no checkpoint, or `TryImprove` returns an empty replacement
list), `MaybeBacktrack` returns and leaves the planner state, with the committed movie, the
subtitles and the checkpoint list, exactly as it was before the call (only
`*rounds_until_backtrack` changes). -/
theorem maybeBacktrack_nothing_better (E : Engine) (st0 : List Nat) (objectives : Weighted)
    (marionet : Option Marionet) (rounds_until_backtrack : Int) (futures : List (List Nat))
    (pf : PlayFun) (hreach : PlayFun.Reachable E st0 objectives pf)
    (hnothing : pf.GetRecentCheckpoint = none
      ∨ ∃ start, pf.GetRecentCheckpoint = some start
          ∧ PlayFun.TryImprove marionet start (pf.movie.drop start.movenum)
              (Emulator.SaveUncompressed pf.state) = some []) :
    ∃ pf1 rounds, PlayFun.MaybeBacktrack E marionet rounds_until_backtrack futures pf
        = some (pf1, rounds)
      ∧ pf1.movie = pf.movie ∧ pf1.subtitles = pf.subtitles
      ∧ pf1.checkpoints = pf.checkpoints ∧ pf1 = pf := by
  have hinv := inv_of_reachable hreach
  unfold PlayFun.MaybeBacktrack
  by_cases hr : rounds_until_backtrack - 1 = 0
  · simp only [hr, if_true]
    rcases hnothing with hnone | ⟨start, hstart, htry⟩
    · rw [hnone]
      exact ⟨pf, _, rfl, rfl, rfl, rfl, rfl⟩
    · rw [hstart]
      obtain ⟨hmem, hdist, _⟩ := getRecentCheckpoint_some hstart
      have hle := hinv.movenum_le start hmem
      have hpos : (pf.movie.length : Int) - start.movenum > 0 := by
        unfold MIN_BACKTRACK_DISTANCE at hdist
        omega
      simp only [hpos, if_true, htry, List.isEmpty_nil]
      exact ⟨pf, _, rfl, rfl, rfl, rfl, rfl⟩
  · simp only [hr, if_false]
    exact ⟨pf, _, rfl, rfl, rfl, rfl, rfl⟩

section

set_option maxRecDepth 100000

/-- Witness for C20: after 401 calls of `Commit` there are checkpoints at 100, 200, 300 and
400 inputs; the attempt made when the counter reaches zero picks the one at 100 inputs, the
only one more than `MIN_BACKTRACK_DISTANCE` inputs in the past, and `TryImprove` (in the
build without `MARIONET`) returns no replacement. -/
theorem maybeBacktrack_nothing_better_witness :
    ∃ pf, Commits addEngine "motif" (List.replicate 401 0) (PlayFun.init [9] []) = some pf
      ∧ pf.checkpoints = [⟨[9], 100⟩, ⟨[9], 200⟩, ⟨[9], 300⟩, ⟨[9], 400⟩]
      ∧ pf.GetRecentCheckpoint = some ⟨[9], 100⟩
      ∧ ∃ pf1 rounds, PlayFun.MaybeBacktrack addEngine none 1 [] pf = some (pf1, rounds)
        ∧ pf1.movie = pf.movie ∧ pf1.subtitles = pf.subtitles
        ∧ pf1.checkpoints = pf.checkpoints ∧ pf1 = pf :=
  ⟨_, rfl, rfl, rfl, maybeBacktrack_nothing_better addEngine [9] [] none 1 [] _
    (reachable_commits "motif" (List.replicate 401 0) _ _ .init rfl)
    (Or.inr ⟨⟨[9], 100⟩, rfl, rfl⟩)⟩

end

end Tasbot

namespace Tasbot

/-! ## The check of `MaybeResize` and the cache limit -/

/-- With a limit of zero, an eviction pass fails
`CHECK(num_to_remove < all_sequences.size())`. -/
theorem StateCache.maybeResize_limit_zero {S : Nat} {c : StateCache} (h : c.Consistent 0 S)
    (hover : c.count > 0 + S) : c.MaybeResize = none := by
  have hlim := h.limit_eq
  have hslop := h.slop_eq
  unfold StateCache.MaybeResize
  rw [if_pos (by omega)]
  have hlen : ((c.hashtable.map (fun e => e.seq)).insertionSort (fun a b => a ≤ b)).length
      = c.count := by
    rw [List.length_insertionSort, List.length_map, h.count_eq]
  have hnone : ((c.hashtable.map (fun e => e.seq)).insertionSort
      (fun a b => a ≤ b))[c.count - c.limit]? = none := by
    rw [List.getElem?_eq_none_iff, hlen, hlim]
    omega
  simp only [hnone]

/-- When `limit + slop` is below `2^64`, `slop + 1` is below `2^31` and the count is at most
one above `limit + slop`, the arithmetic of the machine in `MaybeResize` is exact. -/
theorem StateCache.maybeResize64_eq {L S : Nat} {c : StateCache} (h : c.Consistent L S)
    (hwrap : L + S < 18446744073709551616) (hint : S + 1 < 2147483648)
    (hb : c.count ≤ L + S + 1) : c.MaybeResize64 = c.MaybeResize := by
  have hlim := h.limit_eq
  have hslop := h.slop_eq
  unfold StateCache.MaybeResize64 StateCache.MaybeResize
  rw [hlim, hslop, Nat.mod_eq_of_lt hwrap]
  by_cases hover : c.count > L + S
  · rw [if_pos hover, if_pos hover]
    have hidx : (toInt32 (((c.count : Int) - (L : Int)) % 18446744073709551616)
        % 18446744073709551616).toNat = c.count - L := by
      unfold toInt32
      omega
    simp only [hidx]
  · rw [if_neg hover, if_neg hover]

/-- Under the same bounds, an operation on a cache whose count is at most `limit + slop`
does in the arithmetic of the machine what it does with natural numbers. -/
theorem StateCache.apply64_eq {L S : Nat} {c : StateCache} (h : c.Consistent L S)
    (hwrap : L + S < 18446744073709551616) (hint : S + 1 < 2147483648)
    (hb : c.count ≤ L + S) (op : CacheOp) : c.apply64 op = c.apply op := by
  cases op with
  | remember input start result =>
    simp only [StateCache.apply64, StateCache.apply, StateCache.Remember64,
      StateCache.Remember]
    cases hins : c.insert input start result with
    | none => rfl
    | some c1 =>
      have h1 := StateCache.consistent_insert h hins
      simp only [Option.some_bind]
      exact StateCache.maybeResize64_eq h1.1 hwrap hint (by omega)
  | lookup input start => rfl

/-- Under the same bounds, a sequence of operations after `ResetCache` does in the
arithmetic of the machine what it does with natural numbers. -/
theorem StateCache.run64_eq {L S : Nat} (hwrap : L + S < 18446744073709551616)
    (hint : S + 1 < 2147483648) (ops : List CacheOp) :
    ∀ c : StateCache, c.Consistent L S → c.count ≤ L + S → c.run64 ops = c.run ops := by
  induction ops with
  | nil => intro c _ _; rfl
  | cons op ops ih =>
    intro c h hb
    simp only [StateCache.run64, StateCache.run]
    rw [StateCache.apply64_eq h hwrap hint hb op]
    cases hop : c.apply op with
    | none => rfl
    | some c1 =>
      have h1 := StateCache.consistent_apply h hb op hop
      simp only [Option.some_bind]
      exact ih c1 h1.1 h1.2

section
set_option maxRecDepth 100000

/-- Counterexample for C30: after `ResetCache(2^64 - 1, 1)` the limit is at least 1, yet the
first insertion starts an eviction pass (`limit + slop` wraps to 0, below the count 1), in
which `num_to_remove` is `1 - (2^64 - 1) = 2` in `uint64`, and
`CHECK(num_to_remove < all_sequences.size())` fails on the single entry: `Remember`
aborts. -/
theorem maybeResize_check_wraps :
    ∃ c1, (Emulator.ResetCache 18446744073709551615 1 StateCache.new).insert 0 [9] [0] = some c1
      ∧ 1 ≤ c1.limit ∧ c1.count = 1
      ∧ c1.count > (c1.limit + c1.slop) % 18446744073709551616
      ∧ toInt32 (((c1.count : Int) - (c1.limit : Int)) % 18446744073709551616) = 2
      ∧ c1.MaybeResize64 = none
      ∧ (Emulator.ResetCache 18446744073709551615 1 StateCache.new).Remember64 0 [9] [0]
          = none := by
  refine ⟨⟨[⟨0, [9], 0, [0]⟩], 18446744073709551615, 1, 1, 1, 0, 0⟩, by decide, by decide,
    rfl, by decide, by decide, by decide, by decide⟩

end

/-- C30 (amended): let `limit + slop` be below `2^64` and `slop + 1` below `2^31`, so that
the sum does not wrap and `num_to_remove` fits its `int`. After `ResetCache(L, S)` (the
constructor `StateCache()` is the case `L = 0`, `S = 10000`) and any operations that return,
at an insertion that starts an eviction pass (it raises the entry count above `L + S`),
`CHECK(num_to_remove < all_sequences.size())` holds if and only if `L ≥ 1`. With `L = 0` the
pass starts at the insertion that raises the count to `S + 1`, and `Remember` aborts on the
check instead of evicting. -/
theorem maybeResize_check_iff_limit (L S : Nat) (hwrap : L + S < 18446744073709551616)
    (hint : S + 1 < 2147483648) (c0 : StateCache) (ops : List CacheOp)
    (c : StateCache) (input : Nat) (start result : List Nat) (c1 : StateCache)
    (hrun : (Emulator.ResetCache L S c0).run64 ops = some c)
    (hins : c.insert input start result = some c1)
    (hover : c1.count > (c1.limit + c1.slop) % 18446744073709551616) :
    ((∃ c2, c1.MaybeResize64 = some c2) ↔ 1 ≤ L)
      ∧ (L = 0 → c1.count = S + 1 ∧ c1.MaybeResize64 = none
          ∧ c.Remember64 input start result = none) := by
  have h0 := StateCache.consistent_resize L S c0
  have hb0 : (Emulator.ResetCache L S c0).count ≤ L + S := by
    simp [Emulator.ResetCache, StateCache.Resize]
  have hrun64 := StateCache.run64_eq hwrap hint ops (Emulator.ResetCache L S c0) h0 hb0
  rw [hrun64] at hrun
  have hc := StateCache.consistent_run ops h0 hb0 hrun
  have h1 := StateCache.consistent_insert hc.1 hins
  have heq := StateCache.maybeResize64_eq h1.1 hwrap hint (by have := hc.2; have := h1.2; omega)
  have hover1 : c1.count > L + S := by
    rw [h1.1.limit_eq, h1.1.slop_eq, Nat.mod_eq_of_lt hwrap] at hover
    exact hover
  have hzero : L = 0 → c1.MaybeResize = none := by
    intro hL
    subst hL
    exact StateCache.maybeResize_limit_zero h1.1 hover1
  rw [heq]
  refine ⟨⟨?_, fun hL => StateCache.maybeResize_returns h1.1 hL⟩, ?_⟩
  · rintro ⟨c2, h2⟩
    by_contra hL
    rw [hzero (by omega)] at h2
    simp at h2
  · intro hL
    refine ⟨by have := hc.2; have := h1.2; omega, hzero hL, ?_⟩
    simp only [StateCache.Remember64, hins, Option.some_bind]
    rw [heq]
    exact hzero hL

/-- Witness for C30 (amended): limit 0 and slop 1; the second insertion raises the count to
2 and the pass it starts fails the check. -/
theorem maybeResize_check_iff_limit_witness :
    ((∃ c2, (⟨[⟨0, [9], 0, [0]⟩, ⟨1, [9], 1, [1]⟩], 0, 2, 2, 1, 0, 0⟩ : StateCache).MaybeResize64
          = some c2) ↔ 1 ≤ 0)
      ∧ (0 = 0 → (⟨[⟨0, [9], 0, [0]⟩, ⟨1, [9], 1, [1]⟩], 0, 2, 2, 1, 0, 0⟩ : StateCache).count
            = 1 + 1
          ∧ (⟨[⟨0, [9], 0, [0]⟩, ⟨1, [9], 1, [1]⟩], 0, 2, 2, 1, 0, 0⟩ : StateCache).MaybeResize64
            = none
          ∧ (⟨[⟨0, [9], 0, [0]⟩], 0, 1, 1, 1, 0, 0⟩ : StateCache).Remember64 1 [9] [1] = none) :=
  maybeResize_check_iff_limit 0 1 (by decide) (by decide) StateCache.new [.remember 0 [9] [0]]
    ⟨[⟨0, [9], 0, [0]⟩], 0, 1, 1, 1, 0, 0⟩ 1 [9] [1]
    ⟨[⟨0, [9], 0, [0]⟩, ⟨1, [9], 1, [1]⟩], 0, 2, 2, 1, 0, 0⟩
    (by decide) (by decide) (by decide)

end Tasbot

namespace Tasbot

/-! ## `GetRecentCheckpoint` -/

/-- On a list in decreasing order of a key, the first element that passes a test has the
largest key among those that pass. -/
theorem find?_largest_of_sorted {α : Type} (key : α → Nat) (p : α → Bool) (r : List α)
    (hs : r.Pairwise (fun a b => key b < key a)) {x : α} (h : r.find? p = some x) :
    x ∈ r ∧ p x = true ∧ ∀ y ∈ r, p y = true → key y ≤ key x := by
  induction r with
  | nil => simp at h
  | cons a t ih =>
    rw [List.pairwise_cons] at hs
    rw [List.find?_cons] at h
    cases hp : p a with
    | true =>
      simp only [hp, Option.some.injEq] at h
      subst h
      refine ⟨List.mem_cons_self _ _, hp, ?_⟩
      intro y hy _
      rcases List.mem_cons.mp hy with h1 | h1
      · rw [h1]
      · exact Nat.le_of_lt (hs.1 y h1)
    | false =>
      simp only [hp] at h
      obtain ⟨hm, hpx, hmax⟩ := ih hs.2 h
      refine ⟨List.mem_cons_of_mem _ hm, hpx, ?_⟩
      intro y hy hpy
      rcases List.mem_cons.mp hy with h1 | h1
      · rw [h1, hp] at hpy
        simp at hpy
      · exact hmax y h1 hpy

/-- C23 (what the code does): in a reachable planner state, `GetRecentCheckpoint` returns the
checkpoint of largest `movenum` among those that are more than `MIN_BACKTRACK_DISTANCE`
inputs behind the end of the movie (`movie.size() - movenum > MIN_BACKTRACK_DISTANCE`) and
after the watermark (`movenum > watermark`), both strictly, and it returns `NULL` if and only
if no checkpoint passes both strict tests. -/
theorem getRecentCheckpoint_strict (E : Engine) (st0 : List Nat) (objectives : Weighted)
    (pf : PlayFun) (hreach : PlayFun.Reachable E st0 objectives pf)
    (hsize : pf.movie.length < 18446744073709551616) :
    (∀ start, pf.GetRecentCheckpoint = some start →
        start ∈ pf.checkpoints
          ∧ pf.movie.length - start.movenum > MIN_BACKTRACK_DISTANCE
          ∧ start.movenum > pf.watermark
          ∧ ∀ cp ∈ pf.checkpoints, pf.movie.length - cp.movenum > MIN_BACKTRACK_DISTANCE →
              cp.movenum > pf.watermark → cp.movenum ≤ start.movenum)
      ∧ (pf.GetRecentCheckpoint = none ↔
          ∀ cp ∈ pf.checkpoints,
            ¬ (pf.movie.length - cp.movenum > MIN_BACKTRACK_DISTANCE
                ∧ cp.movenum > pf.watermark)) := by
  have hinv := inv_of_reachable hreach
  have hdist : ∀ cp ∈ pf.checkpoints,
      (pf.movie.length + 18446744073709551616 - cp.movenum) % 18446744073709551616
        = pf.movie.length - cp.movenum := by
    intro cp hcp
    have hle := hinv.movenum_le cp hcp
    have h1 : pf.movie.length + 18446744073709551616 - cp.movenum
        = (pf.movie.length - cp.movenum) + 18446744073709551616 := by omega
    rw [h1, Nat.add_mod_right, Nat.mod_eq_of_lt (by omega)]
  constructor
  · intro start hstart
    unfold PlayFun.GetRecentCheckpoint at hstart
    obtain ⟨hm, hp, hmax⟩ := find?_largest_of_sorted (fun cp : Checkpoint => cp.movenum) _
      pf.checkpoints.reverse (List.pairwise_reverse.mpr hinv.sorted) hstart
    have hm2 : start ∈ pf.checkpoints := List.mem_reverse.mp hm
    simp only [Bool.and_eq_true, decide_eq_true_eq] at hp
    rw [hdist start hm2] at hp
    refine ⟨hm2, hp.1, hp.2, ?_⟩
    intro cp hcp h1 h2
    apply hmax cp (List.mem_reverse.mpr hcp)
    simp only [Bool.and_eq_true, decide_eq_true_eq]
    rw [hdist cp hcp]
    exact ⟨h1, h2⟩
  · unfold PlayFun.GetRecentCheckpoint
    rw [List.find?_eq_none]
    constructor
    · intro h cp hcp hboth
      apply h cp (List.mem_reverse.mpr hcp)
      simp only [Bool.and_eq_true, decide_eq_true_eq]
      rw [hdist cp hcp]
      exact hboth
    · intro h cp hcp hp
      have hcp2 := List.mem_reverse.mp hcp
      simp only [Bool.and_eq_true, decide_eq_true_eq] at hp
      rw [hdist cp hcp2] at hp
      exact h cp hcp2 hp

section

set_option maxRecDepth 100000

/-- Witness for C23: after 400 calls of `Commit`, with the watermark at 0, the checkpoint at
100 inputs is `MIN_BACKTRACK_DISTANCE` (300) inputs behind the end of the movie and not
before the watermark, yet `GetRecentCheckpoint` returns `NULL`. -/
theorem getRecentCheckpoint_strict_witness :
    ∃ pf, Commits addEngine "motif" (List.replicate 400 0) (PlayFun.init [9] []) = some pf
      ∧ pf.checkpoints = [⟨[9], 100⟩, ⟨[9], 200⟩, ⟨[9], 300⟩, ⟨[9], 400⟩]
      ∧ pf.movie.length = 400 ∧ pf.watermark = 0
      ∧ pf.GetRecentCheckpoint = none
      ∧ (pf.GetRecentCheckpoint = none ↔
          ∀ cp ∈ pf.checkpoints,
            ¬ (pf.movie.length - cp.movenum > MIN_BACKTRACK_DISTANCE
                ∧ cp.movenum > pf.watermark)) :=
  ⟨_, rfl, rfl, rfl, rfl, rfl,
    (getRecentCheckpoint_strict addEngine [9] [] _
      (reachable_commits "motif" (List.replicate 400 0) _ _ .init rfl)
      (lt_of_eq_of_lt (rfl : _ = 400) (by decide))).2⟩

end

end Tasbot

namespace Tasbot

/-! ## `Dualize` and `ReverseRange` -/

theorem getD_map_range (n : Nat) (f : Nat → Nat) (i : Nat) (hi : i < n) :
    ((List.range n).map f).getD i 0 = f i := by
  rw [List.getD_eq_getElem?_getD, List.getElem?_map, List.getElem?_range hi]
  rfl

theorem map_range_getD (v : List Nat) : (List.range v.length).map (fun i => v.getD i 0) = v := by
  apply List.ext_getElem
  · simp
  · intro i h1 h2
    simp [List.getD_eq_getElem?_getD, List.getElem?_eq_getElem h2]

section

set_option maxRecDepth 100000

/-- On every byte, the body of the loop of `Dualize` exchanges the bits of each pair of
opposite buttons, and twice the body is the identity. -/
theorem dualizeInput_spec :
    ∀ b, b < 256 → Exchanged b (dualizeInput b) ∧ dualizeInput (dualizeInput b) = b := by
  decide

end

/-- C26: for every vector `v` of bytes and every span `[start, start + len)` within it,
`Dualize` passes its checks and replaces each byte in the span by the byte with each pair of
opposite button bits exchanged (R and L, D and U, T and S, B and A), leaves the bytes
outside the span unchanged, and `Dualize` on the same span of the result returns the
original vector. -/
theorem dualize_exchanges (v : List Nat) (start len : Nat) (hspan : start + len ≤ v.length)
    (hbytes : ∀ x ∈ v, x < 256) :
    ∃ w, Dualize v start len = some w
      ∧ w.length = v.length
      ∧ (∀ i, start ≤ i → i < start + len → Exchanged (v.getD i 0) (w.getD i 0))
      ∧ (∀ i, i < start ∨ start + len ≤ i → w.getD i 0 = v.getD i 0)
      ∧ Dualize w start len = some v := by
  have hcheck : (0 : Int) ≤ start ∧ (0 : Int) ≤ (start : Int) + len
      ∧ (start : Int) + len ≤ v.length := by
    refine ⟨by omega, by omega, by exact_mod_cast hspan⟩
  have hbyte : ∀ i, i < v.length → v.getD i 0 < 256 := by
    intro i hi
    rw [List.getD_eq_getElem?_getD, List.getElem?_eq_getElem hi]
    exact hbytes _ (List.getElem_mem hi)
  have hw : Dualize v start len = some ((List.range v.length).map (fun i : Nat =>
      if (start : Int) ≤ (i : Int) ∧ (i : Int) < (start : Int) + len
      then dualizeInput (v.getD i 0) else v.getD i 0)) := by
    unfold Dualize
    rw [if_pos hcheck]
  refine ⟨_, hw, by simp, ?_, ?_, ?_⟩
  · intro i h1 h2
    rw [getD_map_range _ _ i (by omega), if_pos ⟨by omega, by omega⟩]
    exact (dualizeInput_spec _ (hbyte i (by omega))).1
  · intro i hi
    by_cases hlt : i < v.length
    · rw [getD_map_range _ _ i hlt, if_neg (by omega)]
    · rw [List.getD_eq_default _ _ (by simp; omega), List.getD_eq_default _ _ (by omega)]
  · unfold Dualize
    rw [if_pos (by simpa using hcheck)]
    simp only [List.length_map, List.length_range, Option.some.injEq]
    conv_rhs => rw [← map_range_getD v]
    apply List.map_congr_left
    intro i hi
    have hi2 : i < v.length := List.mem_range.mp hi
    rw [getD_map_range _ _ i hi2]
    split
    · exact (dualizeInput_spec _ (hbyte i hi2)).2
    · rfl

/-- Witness for C26: the middle two of four bytes; `R` with `A` becomes `L` with `B`, and `U`
becomes `D`. -/
theorem dualize_exchanges_witness :
    ∃ w, Dualize [1, 129, 16, 255] (1 : Nat) (2 : Nat) = some w
      ∧ w.length = [1, 129, 16, 255].length
      ∧ (∀ i, 1 ≤ i → i < 1 + 2 → Exchanged ([1, 129, 16, 255].getD i 0) (w.getD i 0))
      ∧ (∀ i, i < 1 ∨ 1 + 2 ≤ i → w.getD i 0 = [1, 129, 16, 255].getD i 0)
      ∧ Dualize w (1 : Nat) (2 : Nat) = some [1, 129, 16, 255] :=
  dualize_exchanges [1, 129, 16, 255] 1 2 (by decide) (by decide)

/-- C25 (what the code does): for every vector `v` and every span `[start, start + len)`
within it, `ReverseRange` passes its checks and stores the reversed span at the positions
`[0, len)`, not at `[start, start + len)`: position `i < len` gets `v[start + len - 1 - i]`
and every position from `len` on is unchanged. -/
theorem reverseRange_stores_at_front (v : List Nat) (start len : Nat)
    (hspan : start + len ≤ v.length) :
    ∃ w, ReverseRange v start len = some w
      ∧ w.length = v.length
      ∧ (∀ i, i < len → w.getD i 0 = v.getD (start + len - 1 - i) 0)
      ∧ (∀ i, len ≤ i → w.getD i 0 = v.getD i 0) := by
  have hcheck : (0 : Int) ≤ start ∧ (0 : Int) ≤ (start : Int) + len
      ∧ (start : Int) + len ≤ v.length := by
    refine ⟨by omega, by omega, by exact_mod_cast hspan⟩
  have hw : ReverseRange v start len = some ((List.range v.length).map (fun i : Nat =>
      if (i : Int) < (len : Int) then v.getD (((start : Int) + len - 1) - (i : Int)).toNat 0
      else v.getD i 0)) := by
    unfold ReverseRange
    rw [if_pos hcheck]
  refine ⟨_, hw, by simp, ?_, ?_⟩
  · intro i hi
    rw [getD_map_range _ _ i (by omega), if_pos (by omega)]
    congr 1
    omega
  · intro i hi
    by_cases hlt : i < v.length
    · rw [getD_map_range _ _ i hlt, if_neg (by omega)]
    · rw [List.getD_eq_default _ _ (by simp; omega), List.getD_eq_default _ _ (by omega)]

/-- Witness for C25: reversing the last two of `1, 2, 3, 4` gives `4, 3, 3, 4`, not
`1, 2, 4, 3`, and reversing the same span again does not restore the vector. -/
theorem reverseRange_stores_at_front_witness :
    ReverseRange [1, 2, 3, 4] 2 2 = some [4, 3, 3, 4]
      ∧ ReverseRange [4, 3, 3, 4] 2 2 = some [4, 3, 3, 4]
      ∧ ∃ w, ReverseRange [1, 2, 3, 4] (2 : Nat) (2 : Nat) = some w
        ∧ w.length = [1, 2, 3, 4].length
        ∧ (∀ i, i < 2 → w.getD i 0 = [1, 2, 3, 4].getD (2 + 2 - 1 - i) 0)
        ∧ (∀ i, 2 ≤ i → w.getD i 0 = [1, 2, 3, 4].getD i 0) :=
  ⟨by decide, by decide, reverseRange_stores_at_front [1, 2, 3, 4] 2 2 (by decide)⟩

/-- The inputs that `TryDualizeAndReverse` leaves: the dualized span reversed by
`ReverseRange`, and reversed by it once more when `keepreversed` is false. -/
theorem tryDualizeAndReverse_inputs {E : Engine} {objectives : Weighted}
    {start_state start_memory end_memory : List Nat} {startidx len : Int}
    { keepreversed : Bool} {s s1 : Trying}
    (h : TryDualizeAndReverse E objectives start_state start_memory end_memory startidx len
      keepreversed s = some s1) :
    ∃ dual rev, Dualize s.inputs startidx len = some dual
      ∧ ReverseRange dual startidx len = some rev
      ∧ (if keepreversed then some s1.inputs = some rev
         else some s1.inputs = ReverseRange rev startidx len) := by
  have htry : ∀ (t t1 : Trying) (x y : ℚ),
      tryInputs E objectives start_state start_memory end_memory t x = some (t1, y) →
      t1.inputs = t.inputs := by
    intro t t1 x y ht
    unfold tryInputs at ht
    split at ht
    · simp at ht
    · simp only [Option.some.injEq, Prod.mk.injEq] at ht
      rw [← ht.1]
    · simp only [Option.some.injEq, Prod.mk.injEq] at ht
      rw [← ht.1]
  unfold TryDualizeAndReverse at h
  cases hd : Dualize s.inputs startidx len with
  | none => simp [hd] at h
  | some dual =>
    simp only [hd] at h
    cases h1 : tryInputs E objectives start_state start_memory end_memory
        { s with inputs := dual } 0 with
    | none => simp [h1] at h
    | some r1 =>
      obtain ⟨t1, score⟩ := r1
      have e1 := htry _ _ _ _ h1
      simp only [h1] at h
      cases hr : ReverseRange t1.inputs startidx len with
      | none => simp [hr] at h
      | some rev =>
        simp only [hr] at h
        cases h2 : tryInputs E objectives start_state start_memory end_memory
            { t1 with inputs := rev } score with
        | none => simp [h2] at h
        | some r2 =>
          obtain ⟨t2, score2⟩ := r2
          have e2 := htry _ _ _ _ h2
          simp only [h2] at h
          simp only at e1 e2
          rw [e1] at hr
          refine ⟨dual, rev, rfl, hr, ?_⟩
          cases keepreversed with
          | true =>
            simp only [if_true, Option.some.injEq] at h ⊢
            rw [← h, e2]
          | false =>
            simp only [Bool.false_eq_true, if_false] at h ⊢
            rw [← e2]
            rcases Option.map_eq_some'.mp h with ⟨v, hv, hs1⟩
            rw [hv, ← hs1]

end Tasbot

namespace Tasbot

/-! ## The futures dropped by `TakeBestAmong` -/

/-- The scan of a dropping pass ends at an index whose total is the largest. -/
theorem worstFuture_scan (futuretotals : List ℚ) (m : Nat) :
    ∀ (s : Nat) (worst : ℚ × Nat),
      worst.1 = futuretotals.getD worst.2 0 → worst.2 < s →
      (∀ i, i < s → futuretotals.getD i 0 ≤ worst.1) →
      ((List.range' s m).foldl
          (fun worst i =>
            if worst.1 < futuretotals.getD i 0 then (futuretotals.getD i 0, i) else worst)
          worst).2 < s + m
        ∧ ∀ i, i < s + m → futuretotals.getD i 0 ≤ futuretotals.getD
            ((List.range' s m).foldl
              (fun worst i =>
                if worst.1 < futuretotals.getD i 0 then (futuretotals.getD i 0, i) else worst)
              worst).2 0 := by
  induction m with
  | zero =>
    intro s worst h1 h2 h3
    simp only [List.range'_zero, List.foldl_nil, Nat.add_zero]
    exact ⟨h2, fun i hi => by rw [← h1]; exact h3 i hi⟩
  | succ m ih =>
    intro s worst h1 h2 h3
    rw [List.range'_succ, List.foldl_cons]
    have hs : s + (m + 1) = (s + 1) + m := by omega
    rw [hs]
    by_cases hlt : worst.1 < futuretotals.getD s 0
    · rw [if_pos hlt]
      apply ih (s + 1) (futuretotals.getD s 0, s) rfl (by simp)
      intro i hi
      by_cases his : i = s
      · rw [his]
      · exact le_of_lt (lt_of_le_of_lt (h3 i (by omega)) hlt)
    · rw [if_neg hlt]
      apply ih (s + 1) worst h1 (by omega)
      intro i hi
      by_cases his : i = s
      · rw [his]
        exact not_lt.mp hlt
      · exact h3 i (by omega)

/-- C24 (what the code does): a pass of the loop that drops futures in `TakeBestAmong`
removes the future at an index `worst_idx` whose accumulated total is greater than or equal
to the total of every future in the pool: it drops a future with the largest total, not one
with the smallest. -/
theorem dropFuture_removes_largest (futures : List Future) (futuretotals : List ℚ)
    (hne : futures ≠ []) (hlen : futures.length ≤ futuretotals.length) :
    ∃ worst_idx last, worst_idx < futures.length
      ∧ futures.getLast? = some last
      ∧ (∀ i, i < futures.length →
          futuretotals.getD i 0 ≤ futuretotals.getD worst_idx 0)
      ∧ dropFuture futures futuretotals
        = some ((if worst_idx ≠ futures.length - 1 then futures.set worst_idx last
                 else futures).dropLast) := by
  have hpos : 0 < futures.length := List.length_pos.mpr hne
  obtain ⟨last, hlast⟩ : ∃ last, futures.getLast? = some last := by
    cases h : futures.getLast? with
    | none => exact absurd (List.getLast?_eq_none_iff.mp h) hne
    | some b => exact ⟨b, rfl⟩
  have hscan := worstFuture_scan futuretotals (futures.length - 1) 1
    (futuretotals.getD 0 0, 0) rfl Nat.zero_lt_one
    (fun i hi => by
      have : i = 0 := by omega
      rw [this])
  have h1 : 1 + (futures.length - 1) = futures.length := by omega
  rw [h1] at hscan
  refine ⟨(worstFuture futuretotals futures.length).2, last, hscan.1, hlast, hscan.2, ?_⟩
  unfold dropFuture
  rw [hlast]
  simp only [hlen, if_true]

/-- Witness for C24: eight futures whose totals are 1, 2, ..., 8. The seven passes remove the
futures with the totals 8, 7, ..., 2 and keep the one with the total 1. -/
theorem dropFuture_removes_largest_witness :
    dropFutures [1, 2, 3, 4, 5, 6, 7, 8] DROPFUTURES eightFutures
        = some [⟨[0], true, 0, 0⟩]
      ∧ ∃ worst_idx last, worst_idx < eightFutures.length
        ∧ eightFutures.getLast? = some last
        ∧ (∀ i, i < eightFutures.length → ([1, 2, 3, 4, 5, 6, 7, 8] : List ℚ).getD i 0
            ≤ ([1, 2, 3, 4, 5, 6, 7, 8] : List ℚ).getD worst_idx 0)
        ∧ dropFuture eightFutures [1, 2, 3, 4, 5, 6, 7, 8]
          = some ((if worst_idx ≠ eightFutures.length - 1 then
              eightFutures.set worst_idx last else eightFutures).dropLast) :=
  ⟨by norm_num [dropFutures, dropFuture, worstFuture, DROPFUTURES, eightFutures, List.range',
      List.range, List.range.loop],
    dropFuture_removes_largest eightFutures [1, 2, 3, 4, 5, 6, 7, 8] (by decide)
      (by decide)⟩

end Tasbot

namespace Tasbot

/-! ## Motif reweighting (C28) -/

/-- The loop of `GetTotalWeight` computes the sum of the weights. -/
theorem Motifs.foldl_weight (l : List (List Nat × Motifs.Info)) :
    ∀ t : ℚ, l.foldl (fun totalweight b => totalweight + b.2.weight) t
      = t + (l.map (fun b => b.2.weight)).sum := by
  induction l with
  | nil => intro t; simp
  | cons b rest ih =>
    intro t
    simp only [List.foldl_cons, List.map_cons, List.sum_cons]
    rw [ih]
    ring

/-- The total weight is the sum of the weights. -/
theorem Motifs.getTotalWeight_eq (m : Motifs) :
    m.GetTotalWeight = (m.motifs.map (fun b => b.2.weight)).sum := by
  unfold Motifs.GetTotalWeight
  rw [Motifs.foldl_weight]
  simp

/-- A change of `picked` changes no weight and no key. -/
theorem Motifs.update_picked (inputs : List Nat) (l : List (List Nat × Motifs.Info)) :
    (Motifs.update inputs (fun info => { info with picked := info.picked + 1 }) l).map
        (fun b => (b.1, b.2.weight))
      = l.map (fun b => (b.1, b.2.weight)) := by
  induction l with
  | nil => rfl
  | cons b rest ih =>
    unfold Motifs.update
    by_cases h : (b.1 == inputs) = true
    · rw [if_pos h]; rfl
    · rw [if_neg h]
      simp only [List.map_cons, ih]

/-- The binding found is found by its key and weight alone. -/
theorem Motifs.find_weight (inputs : List Nat) (l : List (List Nat × Motifs.Info)) :
    (l.find? (fun b => b.1 == inputs)).map (fun b => b.2.weight)
      = ((l.map (fun b => (b.1, b.2.weight))).find? (fun b => b.1 == inputs)).map
          (fun b => b.2) := by
  induction l with
  | nil => rfl
  | cons b rest ih =>
    simp only [List.map_cons, List.find?_cons]
    by_cases h : (b.1 == inputs) = true
    · simp only [h, Option.map_some']
    · simp only [h, ih]

/-- After `Pick` the weights, the total and the pointers are what they were. -/
theorem Motifs.pick_weights (m : Motifs) (inputs : List Nat) :
    (m.Pick inputs).motifs.map (fun b => b.2.weight) = m.motifs.map (fun b => b.2.weight)
      ∧ (m.Pick inputs).GetTotalWeight = m.GetTotalWeight
      ∧ (m.Pick inputs).GetWeightPtr inputs = m.GetWeightPtr inputs := by
  have h := Motifs.update_picked inputs m.motifs
  have h1 : (m.Pick inputs).motifs.map (fun b => b.2.weight)
      = m.motifs.map (fun b => b.2.weight) := by
    have := congrArg (List.map (fun p : List Nat × ℚ => p.2)) h
    simpa [Motifs.Pick, List.map_map, Function.comp_def] using this
  refine ⟨h1, ?_, ?_⟩
  · rw [Motifs.getTotalWeight_eq, Motifs.getTotalWeight_eq, h1]
  · unfold Motifs.GetWeightPtr Motifs.find
    rw [Motifs.find_weight, Motifs.find_weight]
    unfold Motifs.Pick
    simp only
    rw [h]

/-- The weight of the binding found is one of the summands of the total: with weights that
are not negative it is at most the total. -/
theorem Motifs.weight_le_total (inputs : List Nat) (l : List (List Nat × Motifs.Info))
    (hnonneg : ∀ b ∈ l, 0 ≤ b.2.weight) :
    0 ≤ (l.map (fun b => b.2.weight)).sum
      ∧ ∀ w, (l.find? (fun b => b.1 == inputs)).map (fun b => b.2.weight) = some w →
          0 ≤ w ∧ w ≤ (l.map (fun b => b.2.weight)).sum := by
  induction l with
  | nil => simp
  | cons b rest ih =>
    have hb := hnonneg b (List.mem_cons_self _ _)
    obtain ⟨h0, hw⟩ := ih (fun x hx => hnonneg x (List.mem_cons_of_mem _ hx))
    refine ⟨by simp only [List.map_cons, List.sum_cons]; linarith, ?_⟩
    intro w hfind
    simp only [List.find?_cons] at hfind
    simp only [List.map_cons, List.sum_cons]
    by_cases h : (b.1 == inputs) = true
    · simp only [h, Option.map_some', Option.some.injEq] at hfind
      subst hfind
      exact ⟨hb, by linarith⟩
    · simp only [h] at hfind
      obtain ⟨h1, h2⟩ := hw w hfind
      exact ⟨h1, by linarith⟩

/-- The store through the pointer: the total changes by the difference of the weights, the
pointer reads the new weight, and every binding is an old one or holds the new weight. -/
theorem Motifs.update_weight (inputs : List Nat) (d : ℚ)
    (l : List (List Nat × Motifs.Info)) (w : ℚ)
    (hfind : (l.find? (fun b => b.1 == inputs)).map (fun b => b.2.weight) = some w) :
    ((Motifs.update inputs (fun info => { info with weight := d }) l).map
          (fun b => b.2.weight)).sum
        = (l.map (fun b => b.2.weight)).sum - w + d
      ∧ ((Motifs.update inputs (fun info => { info with weight := d }) l).find?
            (fun b => b.1 == inputs)).map (fun b => b.2.weight) = some d
      ∧ ∀ b ∈ Motifs.update inputs (fun info => { info with weight := d }) l,
          b ∈ l ∨ b.2.weight = d := by
  induction l with
  | nil => simp at hfind
  | cons b rest ih =>
    unfold Motifs.update
    simp only [List.find?_cons] at hfind
    by_cases h : (b.1 == inputs) = true
    · simp only [h, Option.map_some', Option.some.injEq] at hfind
      subst hfind
      rw [if_pos h]
      refine ⟨by simp only [List.map_cons, List.sum_cons]; ring, ?_, ?_⟩
      · simp only [List.find?_cons, h, Option.map_some']
      · intro x hx
        rcases List.mem_cons.mp hx with hx | hx
        · right; rw [hx]
        · left; exact List.mem_cons_of_mem _ hx
    · simp only [h] at hfind
      obtain ⟨h1, h2, h3⟩ := ih hfind
      rw [if_neg h]
      refine ⟨by simp only [List.map_cons, List.sum_cons, h1]; ring, ?_, ?_⟩
      · simp only [List.find?_cons, h]
        exact h2
      · intro x hx
        rcases List.mem_cons.mp hx with hx | hx
        · left; rw [hx]; exact List.mem_cons_self _ _
        · rcases h3 x hx with hx | hx
          · left; exact List.mem_cons_of_mem _ hx
          · right; exact hx

end Tasbot

namespace Tasbot

/-- The weights of a library are those of the weight list. -/
theorem Motifs.weight_of_mem {l l' : List (List Nat × Motifs.Info)}
    (h : l'.map (fun b => b.2.weight) = l.map (fun b => b.2.weight))
    {b : List Nat × Motifs.Info} (hb : b ∈ l') : ∃ b0 ∈ l, b0.2.weight = b.2.weight := by
  have : b.2.weight ∈ l'.map (fun b => b.2.weight) := List.mem_map.mpr ⟨b, hb, rfl⟩
  rw [h] at this
  obtain ⟨b0, hb0, h0⟩ := List.mem_map.mp this
  exact ⟨b0, hb0, h0⟩

/-- Counterexample for C28: in a library of eleven motifs, two of weight 1 and nine of weight
9/10, no share exceeds `MOTIF_MAX_FRAC`; after the motif `[1]` was committed without an
increase of the normalized value, its weight is 4/5, the total is 99/10, and the share of the
motif `[0]`, 10/99, exceeds `MOTIF_MAX_FRAC`. -/
theorem reweightMotif_decrease_breaks_cap :
    (∀ b ∈ elevenMotifs.motifs, b.2.weight / elevenMotifs.GetTotalWeight ≤ MOTIF_MAX_FRAC)
      ∧ ∃ m, reweightMotif elevenMotifs [1] (some 1) (some 0) = some m
          ∧ m.GetWeightPtr [1] = some (4 / 5)
          ∧ m.GetTotalWeight = 99 / 10
          ∧ m.GetWeightPtr [0] = some 1
          ∧ ∃ b ∈ m.motifs, b.1 = [0] ∧ b.2.weight / m.GetTotalWeight > MOTIF_MAX_FRAC := by
  refine ⟨?_, ?_⟩
  · norm_num [elevenMotifs, Motifs.GetTotalWeight, MOTIF_MAX_FRAC, List.range, List.range.loop]
  · refine ⟨⟨[([0], ⟨1, 0⟩), ([1], ⟨4 / 5, 1⟩)]
        ++ (List.range 9).map (fun k => ([k + 2], ⟨9 / 10, 0⟩))⟩, ?_, ?_, ?_, ?_,
        ([0], ⟨1, 0⟩), ?_, rfl, ?_⟩ <;>
      norm_num [reweightMotif, elevenMotifs, Motifs.GetTotalWeight, MOTIF_MAX_FRAC,
        MOTIF_MIN_FRAC, MOTIF_ALPHA, List.range, List.range.loop, Motifs.IsMotif, Motifs.find,
        Motifs.Pick, Motifs.update, Motifs.GetWeightPtr, Motifs.setWeight, valueIncreased,
        aboveMinFrac, belowMaxFrac]

section
set_option maxHeartbeats 400000

/-- C28 (amended): in a library whose weights are not negative, whose total weight is
positive and in which no motif's share of the total exceeds `MOTIF_MAX_FRAC`, the reweighting
of `TakeBestAmong` returns; when the normalized value increased, no motif's share of the new
total exceeds `MOTIF_MAX_FRAC`; and whenever the weight of the committed motif was decreased,
its share of the new total is above `MOTIF_MIN_FRAC`. (After a decrease the shares of the
other motifs may exceed `MOTIF_MAX_FRAC`.) -/
theorem reweightMotif_shares (motifs : Motifs) (next : List Nat) (oldval newval : Option ℚ)
    (hnonneg : ∀ b ∈ motifs.motifs, 0 ≤ b.2.weight)
    (htotal : 0 < motifs.GetTotalWeight)
    (hcap : ∀ b ∈ motifs.motifs, b.2.weight / motifs.GetTotalWeight ≤ MOTIF_MAX_FRAC) :
    ∃ m, reweightMotif motifs next oldval newval = some m
      ∧ (valueIncreased oldval newval = true →
          ∀ b ∈ m.motifs, b.2.weight / m.GetTotalWeight ≤ MOTIF_MAX_FRAC)
      ∧ ∀ w w1, motifs.GetWeightPtr next = some w → m.GetWeightPtr next = some w1 →
          w1 < w → MOTIF_MIN_FRAC < w1 / m.GetTotalWeight := by
  have hne : motifs.GetTotalWeight ≠ 0 := ne_of_gt htotal
  obtain ⟨hpw, hpt, hpp⟩ := Motifs.pick_weights motifs next
  have hcap1 : ∀ b ∈ (motifs.Pick next).motifs,
      0 ≤ b.2.weight ∧ b.2.weight / motifs.GetTotalWeight ≤ MOTIF_MAX_FRAC := by
    intro b hb
    obtain ⟨b0, hb0, h0⟩ := Motifs.weight_of_mem hpw hb
    rw [← h0]
    exact ⟨hnonneg b0 hb0, hcap b0 hb0⟩
  unfold reweightMotif
  by_cases hm : motifs.IsMotif next = true
  · rw [if_pos hm]
    simp only
    obtain ⟨bb, hbb⟩ := Option.isSome_iff_exists.mp hm
    have hptr : motifs.GetWeightPtr next = some bb.2.weight := by
      unfold Motifs.GetWeightPtr
      rw [hbb]
      rfl
    rw [hpp, hptr]
    simp only
    obtain ⟨hsum0, hwle⟩ := Motifs.weight_le_total next motifs.motifs hnonneg
    obtain ⟨hw0, hwt⟩ := hwle bb.2.weight hptr
    rw [← Motifs.getTotalWeight_eq] at hwt
    have hfind1 : ((motifs.Pick next).motifs.find? (fun b => b.1 == next)).map
        (fun b => b.2.weight) = some bb.2.weight := by
      have := hpp
      unfold Motifs.GetWeightPtr Motifs.find at this
      rw [this]
      exact hptr
    have hset : ∀ d : ℚ,
        ((motifs.Pick next).setWeight next d).GetTotalWeight
            = motifs.GetTotalWeight - bb.2.weight + d
          ∧ ((motifs.Pick next).setWeight next d).GetWeightPtr next = some d
          ∧ ∀ b ∈ ((motifs.Pick next).setWeight next d).motifs,
              b ∈ (motifs.Pick next).motifs ∨ b.2.weight = d := by
      intro d
      obtain ⟨h1, h2, h3⟩ := Motifs.update_weight next d (motifs.Pick next).motifs _ hfind1
      refine ⟨?_, h2, h3⟩
      rw [Motifs.getTotalWeight_eq, ← hpt, Motifs.getTotalWeight_eq (motifs.Pick next)]
      exact h1
    by_cases hinc : valueIncreased oldval newval = true
    · rw [if_pos hinc]
      by_cases hb : belowMaxFrac (bb.2.weight / MOTIF_ALPHA) motifs.GetTotalWeight = true
      · rw [if_pos hb]
        obtain ⟨ht, hp, hmem⟩ := hset (bb.2.weight / MOTIF_ALPHA)
        have hd : bb.2.weight / MOTIF_ALPHA / motifs.GetTotalWeight < MOTIF_MAX_FRAC := by
          unfold belowMaxFrac at hb
          rw [if_neg hne] at hb
          exact of_decide_eq_true hb
        have hge : bb.2.weight ≤ bb.2.weight / MOTIF_ALPHA := by
          unfold MOTIF_ALPHA
          rw [le_div_iff₀ (by norm_num)]
          nlinarith
        have ht2 : motifs.GetTotalWeight
            ≤ ((motifs.Pick next).setWeight next (bb.2.weight / MOTIF_ALPHA)).GetTotalWeight := by
          rw [ht]; linarith
        have hpos2 := lt_of_lt_of_le htotal ht2
        have hmax : (0 : ℚ) ≤ MOTIF_MAX_FRAC := by unfold MOTIF_MAX_FRAC; norm_num
        refine ⟨_, rfl, ?_, ?_⟩
        · intro _ b hbm
          rw [div_le_iff₀ hpos2]
          rcases hmem b hbm with h | h
          · have := (hcap1 b h).2
            rw [div_le_iff₀ htotal] at this
            exact le_trans this (mul_le_mul_of_nonneg_left ht2 hmax)
          · rw [h]
            rw [div_lt_iff₀ htotal] at hd
            exact le_trans (le_of_lt hd) (mul_le_mul_of_nonneg_left ht2 hmax)
        · intro w w1 h1 h2 hlt
          rw [hp] at h2
          cases h1; cases h2
          exact absurd hlt (not_lt.mpr hge)
      · rw [if_neg hb]
        refine ⟨_, rfl, ?_, ?_⟩
        · intro _ b hbm
          rw [hpt]
          exact (hcap1 b hbm).2
        · intro w w1 h1 h2 hlt
          rw [hpp, hptr] at h2
          cases h1; cases h2
          exact absurd hlt (lt_irrefl _)
    · rw [if_neg hinc]
      by_cases ha : aboveMinFrac (bb.2.weight * MOTIF_ALPHA) motifs.GetTotalWeight = true
      · rw [if_pos ha]
        obtain ⟨ht, hp, hmem⟩ := hset (bb.2.weight * MOTIF_ALPHA)
        have hd : MOTIF_MIN_FRAC < bb.2.weight * MOTIF_ALPHA / motifs.GetTotalWeight := by
          unfold aboveMinFrac at ha
          rw [if_neg hne] at ha
          exact of_decide_eq_true ha
        have hmin : (0 : ℚ) < MOTIF_MIN_FRAC := by unfold MOTIF_MIN_FRAC; norm_num
        have hdpos : 0 < bb.2.weight * MOTIF_ALPHA := by
          have := lt_trans hmin hd
          rw [lt_div_iff₀ htotal] at this
          linarith
        have hle : bb.2.weight * MOTIF_ALPHA ≤ bb.2.weight := by
          unfold MOTIF_ALPHA
          nlinarith
        have hpos2 : 0 < ((motifs.Pick next).setWeight next
            (bb.2.weight * MOTIF_ALPHA)).GetTotalWeight := by
          rw [ht]; linarith
        have ht2 : ((motifs.Pick next).setWeight next
            (bb.2.weight * MOTIF_ALPHA)).GetTotalWeight ≤ motifs.GetTotalWeight := by
          rw [ht]; linarith
        refine ⟨_, rfl, fun h => absurd h hinc, ?_⟩
        intro w w1 _ h2 _
        rw [hp] at h2
        cases h2
        exact lt_of_lt_of_le hd (div_le_div_of_nonneg_left (le_of_lt hdpos) hpos2 ht2)
      · rw [if_neg ha]
        refine ⟨_, rfl, fun h => absurd h hinc, ?_⟩
        intro w w1 h1 h2 hlt
        rw [hpp, hptr] at h2
        cases h1; cases h2
        exact absurd hlt (lt_irrefl _)
  · rw [if_neg hm]
    refine ⟨_, rfl, fun _ => hcap, ?_⟩
    intro w w1 h1 h2 hlt
    rw [h1] at h2
    cases h2
    exact absurd hlt (lt_irrefl _)

end

/-- Witness for C28 (amended): twenty motifs of weight 1, of which the motif `[3]` was
committed with an increase of the normalized value. -/
theorem reweightMotif_shares_witness :
    ∃ m, reweightMotif twentyMotifs [3] (some 0) (some 1) = some m
      ∧ (valueIncreased (some 0) (some 1) = true →
          ∀ b ∈ m.motifs, b.2.weight / m.GetTotalWeight ≤ MOTIF_MAX_FRAC)
      ∧ ∀ w w1, twentyMotifs.GetWeightPtr [3] = some w → m.GetWeightPtr [3] = some w1 →
          w1 < w → MOTIF_MIN_FRAC < w1 / m.GetTotalWeight :=
  reweightMotif_shares twentyMotifs [3] (some 0) (some 1)
    (by norm_num [twentyMotifs, List.range, List.range.loop])
    (by norm_num [twentyMotifs, Motifs.GetTotalWeight, List.range, List.range.loop])
    (by norm_num [twentyMotifs, Motifs.GetTotalWeight, MOTIF_MAX_FRAC, List.range,
      List.range.loop])

end Tasbot

namespace Tasbot

/-! ## Lexicographic orderings (objective.cc): C21, C22, C29 -/

/-- The memories are equal on an ordering when they are equal at each of its locations. -/
theorem equalOnPrefix_iff (mem1 mem2 : List Nat) (o : List Nat) :
    EqualOnPrefix mem1 mem2 o = true ↔ ∀ p ∈ o, memAt mem1 p = memAt mem2 p := by
  induction o with
  | nil => simp [EqualOnPrefix]
  | cons p rest ih =>
    unfold EqualOnPrefix
    by_cases h : memAt mem1 p = memAt mem2 p
    · rw [if_neg (not_not.mpr h), ih]
      simp [h]
    · rw [if_pos h]
      simp [h]

/-- Equality on an extended ordering. -/
theorem equalOnPrefix_append (mem1 mem2 : List Nat) (o : List Nat) (c : Nat) :
    EqualOnPrefix mem1 mem2 (o ++ [c]) = true
      ↔ EqualOnPrefix mem1 mem2 o = true ∧ memAt mem1 c = memAt mem2 c := by
  rw [equalOnPrefix_iff, equalOnPrefix_iff]
  constructor
  · intro h
    exact ⟨fun p hp => h p (List.mem_append_left _ hp),
      h c (List.mem_append_right _ (List.mem_singleton_self c))⟩
  · rintro ⟨h1, h2⟩ p hp
    rcases List.mem_append.mp hp with hp | hp
    · exact h1 p hp
    · rw [List.mem_singleton.mp hp]; exact h2

/-- The test of `LessEqual` at the first location. -/
theorem lessEqual_cons (mem1 mem2 : List Nat) (p : Nat) (rest : List Nat) :
    LessEqual mem1 mem2 (p :: rest)
      = if memAt mem1 p > memAt mem2 p then false
        else if memAt mem1 p < memAt mem2 p then true
        else LessEqual mem1 mem2 rest := rfl

/-- The test of `EqualOnPrefix` at the first location. -/
theorem equalOnPrefix_cons (mem1 mem2 : List Nat) (p : Nat) (rest : List Nat) :
    EqualOnPrefix mem1 mem2 (p :: rest)
      = if memAt mem1 p ≠ memAt mem2 p then false else EqualOnPrefix mem1 mem2 rest := rfl

/-- The order by an extended ordering: the new location decides between memories that are
equal on the old one. -/
theorem lessEqual_append (mem1 mem2 : List Nat) (o : List Nat) (c : Nat) :
    LessEqual mem1 mem2 (o ++ [c])
      = if EqualOnPrefix mem1 mem2 o = true then decide (memAt mem1 c ≤ memAt mem2 c)
        else LessEqual mem1 mem2 o := by
  induction o with
  | nil =>
    simp only [List.nil_append, LessEqual, EqualOnPrefix, if_true]
    by_cases h1 : memAt mem1 c > memAt mem2 c
    · rw [if_pos h1]
      exact (decide_eq_false (not_le.mpr h1)).symm
    · rw [if_neg h1]
      by_cases h2 : memAt mem1 c < memAt mem2 c
      · rw [if_pos h2]; exact (decide_eq_true (le_of_lt h2)).symm
      · rw [if_neg h2]; exact (decide_eq_true (not_lt.mp h1)).symm
  | cons p rest ih =>
    rw [List.cons_append, lessEqual_cons, lessEqual_cons, equalOnPrefix_cons]
    by_cases h1 : memAt mem1 p > memAt mem2 p
    · simp only [if_pos h1, if_pos (ne_of_gt h1), Bool.false_eq_true, if_false]
    · simp only [if_neg h1]
      by_cases h2 : memAt mem1 p < memAt mem2 p
      · simp only [if_pos h2, if_pos (ne_of_lt h2), Bool.false_eq_true, if_false]
      · simp only [if_neg h2,
          if_neg (not_not.mpr (le_antisymm (not_lt.mp h1) (not_lt.mp h2)))]
        exact ih

/-- The order by an ordering is transitive. -/
theorem lessEqual_trans (o : List Nat) : ∀ (a b c : List Nat),
    LessEqual a b o = true → LessEqual b c o = true → LessEqual a c o = true := by
  induction o with
  | nil => intro a b c _ _; rfl
  | cons p rest ih =>
    intro a b c hab hbc
    unfold LessEqual at hab hbc ⊢
    by_cases h1 : memAt a p > memAt b p
    · rw [if_pos h1] at hab; cases hab
    · rw [if_neg h1] at hab
      by_cases h3 : memAt b p > memAt c p
      · rw [if_pos h3] at hbc; cases hbc
      · rw [if_neg h3] at hbc
        have hac : ¬ memAt a p > memAt c p := by omega
        rw [if_neg hac]
        by_cases h5 : memAt a p < memAt c p
        · rw [if_pos h5]
        · rw [if_neg h5]
          have h2 : ¬ memAt a p < memAt b p := by omega
          have h4 : ¬ memAt b p < memAt c p := by omega
          rw [if_neg h2] at hab
          rw [if_neg h4] at hbc
          exact ih a b c hab hbc

/-- Adjacent memories in order are in order at any distance. -/
theorem lessEqual_of_adjacent (memories : List (List Nat)) (look o : List Nat)
    (hadj : ∀ lo, lo + 1 < look.length →
      LessEqual (memoryAt memories (look.getD lo 0))
        (memoryAt memories (look.getD (lo + 1) 0)) o = true)
    (i : Nat) : ∀ j, i < j → j < look.length →
      LessEqual (memoryAt memories (look.getD i 0)) (memoryAt memories (look.getD j 0)) o
        = true := by
  intro j
  induction j with
  | zero => intro h; omega
  | succ j ih =>
    intro hij hj
    by_cases h : i = j
    · subst h; exact hadj i hj
    · exact lessEqual_trans o _ _ _ (ih (by omega) (by omega)) (hadj j hj)

/-- The self-check passes exactly when adjacent memories are in order. -/
theorem checkOrdering_iff (look : List Nat) (memories : List (List Nat)) (o : List Nat) :
    CheckOrdering look memories o = true
      ↔ ∀ lo, lo + 1 < look.length →
          LessEqual (memoryAt memories (look.getD lo 0))
            (memoryAt memories (look.getD (lo + 1) 0)) o = true := by
  unfold CheckOrdering
  rw [List.all_eq_true]
  constructor
  · intro h lo hlo
    exact h lo (List.mem_range.mpr (by omega))
  · intro h lo hlo
    exact h lo (by have := List.mem_range.mp hlo; omega)

/-- The members of `lequal`. -/
theorem mem_lequal (memories : List (List Nat)) (look pfx : List Nat) (lo : Nat) :
    lo ∈ lequal memories look pfx
      ↔ lo + 1 < look.length
        ∧ EqualOnPrefix (memoryAt memories (look.getD lo 0))
            (memoryAt memories (look.getD (lo + 1) 0)) pfx = true := by
  unfold lequal
  rw [List.mem_filter, List.mem_range]
  constructor
  · rintro ⟨h1, h2⟩; exact ⟨by omega, h2⟩
  · rintro ⟨h1, h2⟩; exact ⟨by omega, h2⟩

/-- The scan of a location: it is skipped when it decreases on a pair, and else `less` tells
whether it increases on one. -/
theorem scanLocation_eq (memories : List (List Nat)) (look : List Nat) (c : Nat)
    (l : List Nat) : ∀ less : Bool,
    scanLocation memories look c l less
      = if l.any (fun lo => decide (memAt (memoryAt memories (look.getD lo 0)) c
            > memAt (memoryAt memories (look.getD (lo + 1) 0)) c)) = true then none
        else some (less || l.any (fun lo =>
          decide (memAt (memoryAt memories (look.getD lo 0)) c
            < memAt (memoryAt memories (look.getD (lo + 1) 0)) c))) := by
  induction l with
  | nil => intro less; simp [scanLocation]
  | cons lo rest ih =>
    intro less
    unfold scanLocation
    simp only [List.any_cons]
    by_cases h : memAt (memoryAt memories (look.getD lo 0)) c
        > memAt (memoryAt memories (look.getD (lo + 1) 0)) c
    · rw [if_pos h, decide_eq_true h, Bool.true_or, if_pos rfl]
    · rw [if_neg h, ih, decide_eq_false h, Bool.false_or, Bool.or_assoc]

end Tasbot

namespace Tasbot

/-- The body of the loop of `EnumeratePartial`, by what it pushes. -/
theorem enumerateStep_eq (memories : List (List Nat)) (look pfx : List Nat)
    (acc : List Nat × List Nat) (c : Nat) :
    enumerateStep memories look pfx acc c
      = (acc.1 ++ (if keptInRemain memories look pfx c = true then [c] else []),
         acc.2 ++ (if keptAsCandidate memories look pfx c = true then [c] else [])) := by
  unfold enumerateStep keptInRemain keptAsCandidate
  by_cases h : pfx.contains c = true
  · rw [if_pos h]
    have hc : c ∈ pfx := by simpa using h
    simp [hc]
  · rw [if_neg h]
    have h0 : pfx.contains c = false := by
      cases hh : pfx.contains c
      · rfl
      · exact absurd hh h
    rw [h0]
    cases scanLocation memories look c (lequal memories look pfx) false with
    | none => simp
    | some b => cases b <;> simp

/-- The loop of `EnumeratePartial` over `left` filters `left` twice. -/
theorem foldl_enumerateStep (memories : List (List Nat)) (look pfx : List Nat)
    (left : List Nat) : ∀ acc : List Nat × List Nat,
    left.foldl (enumerateStep memories look pfx) acc
      = (acc.1 ++ left.filter (keptInRemain memories look pfx),
         acc.2 ++ left.filter (keptAsCandidate memories look pfx)) := by
  induction left with
  | nil => intro acc; simp
  | cons c rest ih =>
    intro acc
    rw [List.foldl_cons, ih, enumerateStep_eq]
    simp only [List.filter_cons]
    by_cases h1 : keptInRemain memories look pfx c = true <;>
      by_cases h2 : keptAsCandidate memories look pfx c = true <;>
      simp [h1, h2]

/-- With a `look` that is not empty, `EnumeratePartial` returns the locations of `left` that
it keeps in `*remain` and those it takes as `*candidates`. -/
theorem enumeratePartial_eq (memories : List (List Nat)) (look pfx left : List Nat)
    (hlook : look ≠ []) :
    EnumeratePartial memories look pfx left
      = some (left.filter (keptInRemain memories look pfx),
              left.filter (keptAsCandidate memories look pfx)) := by
  unfold EnumeratePartial
  rw [if_neg hlook, foldl_enumerateStep]
  rfl

/-- A candidate is not in the ordering, decreases on no adjacent pair that is equal on the
ordering and increases on one of them; and conversely. -/
theorem keptAsCandidate_iff (memories : List (List Nat)) (look pfx : List Nat) (c : Nat) :
    keptAsCandidate memories look pfx c = true
      ↔ c ∉ pfx
        ∧ (∀ lo, lo + 1 < look.length →
            EqualOnPrefix (memoryAt memories (look.getD lo 0))
              (memoryAt memories (look.getD (lo + 1) 0)) pfx = true →
            memAt (memoryAt memories (look.getD lo 0)) c
              ≤ memAt (memoryAt memories (look.getD (lo + 1) 0)) c)
        ∧ ∃ lo, lo + 1 < look.length
          ∧ EqualOnPrefix (memoryAt memories (look.getD lo 0))
              (memoryAt memories (look.getD (lo + 1) 0)) pfx = true
          ∧ memAt (memoryAt memories (look.getD lo 0)) c
              < memAt (memoryAt memories (look.getD (lo + 1) 0)) c := by
  have hcont : pfx.contains c = true ↔ c ∈ pfx := by simp
  unfold keptAsCandidate
  rw [scanLocation_eq, Bool.and_eq_true, Bool.not_eq_true', Bool.false_or]
  constructor
  · rintro ⟨h1, h2⟩
    have hc : c ∉ pfx := by
      intro hc
      rw [hcont.mpr hc] at h1
      cases h1
    refine ⟨hc, ?_⟩
    by_cases hany : (lequal memories look pfx).any (fun lo =>
        decide (memAt (memoryAt memories (look.getD lo 0)) c
          > memAt (memoryAt memories (look.getD (lo + 1) 0)) c)) = true
    · rw [if_pos hany] at h2
      simp at h2
    · rw [if_neg hany] at h2
      simp only [beq_iff_eq, Option.some.injEq] at h2
      rw [List.any_eq_true] at hany h2
      refine ⟨?_, ?_⟩
      · intro lo hlo heq
        by_contra hgt
        exact hany ⟨lo, (mem_lequal memories look pfx lo).mpr ⟨hlo, heq⟩,
          decide_eq_true (not_le.mp hgt)⟩
      · obtain ⟨lo, hmem, hlt⟩ := h2
        obtain ⟨hlo, heq⟩ := (mem_lequal memories look pfx lo).mp hmem
        exact ⟨lo, hlo, heq, of_decide_eq_true hlt⟩
  · rintro ⟨hc, hle, lo, hlo, heq, hlt⟩
    refine ⟨?_, ?_⟩
    · cases hh : pfx.contains c
      · rfl
      · exact absurd (hcont.mp hh) hc
    · have hany : ¬ (lequal memories look pfx).any (fun lo =>
          decide (memAt (memoryAt memories (look.getD lo 0)) c
            > memAt (memoryAt memories (look.getD (lo + 1) 0)) c)) = true := by
        rw [List.any_eq_true]
        rintro ⟨lo1, hmem, hgt⟩
        obtain ⟨hlo1, heq1⟩ := (mem_lequal memories look pfx lo1).mp hmem
        exact absurd (of_decide_eq_true hgt) (not_lt.mpr (hle lo1 hlo1 heq1))
      rw [if_neg hany]
      simp only [beq_iff_eq, Option.some.injEq]
      rw [List.any_eq_true]
      exact ⟨lo, (mem_lequal memories look pfx lo).mpr ⟨hlo, heq⟩, decide_eq_true hlt⟩

end Tasbot

namespace Tasbot

/-- A location kept in `*remain` is not in the ordering. -/
theorem keptInRemain_not_mem (memories : List (List Nat)) (look pfx : List Nat) (c : Nat)
    (h : keptInRemain memories look pfx c = true) : c ∉ pfx := by
  have hcont : pfx.contains c = true ↔ c ∈ pfx := by simp
  unfold keptInRemain at h
  rw [Bool.and_eq_true, Bool.not_eq_true'] at h
  intro hc
  rw [hcont.mpr hc] at h
  exact absurd h.1 (by decide)

/-- A candidate is kept in `*remain`. -/
theorem keptInRemain_of_candidate (memories : List (List Nat)) (look pfx : List Nat) (c : Nat)
    (h : keptAsCandidate memories look pfx c = true) :
    keptInRemain memories look pfx c = true := by
  unfold keptAsCandidate at h
  unfold keptInRemain
  rw [Bool.and_eq_true] at h ⊢
  refine ⟨h.1, ?_⟩
  rw [beq_iff_eq.mp h.2]
  decide

/-- A location outside the ordering that is not kept in `*remain` is equal on every adjacent
pair that is equal on the ordering. -/
theorem equal_of_not_kept (memories : List (List Nat)) (look pfx : List Nat) (c : Nat)
    (hc : c ∉ pfx) (h : keptInRemain memories look pfx c = false) :
    ∀ lo, lo + 1 < look.length →
      EqualOnPrefix (memoryAt memories (look.getD lo 0))
        (memoryAt memories (look.getD (lo + 1) 0)) pfx = true →
      memAt (memoryAt memories (look.getD lo 0)) c
        = memAt (memoryAt memories (look.getD (lo + 1) 0)) c := by
  have hcont : pfx.contains c = true ↔ c ∈ pfx := by simp
  have h0 : pfx.contains c = false := by
    cases hh : pfx.contains c
    · rfl
    · exact absurd (hcont.mp hh) hc
  unfold keptInRemain at h
  rw [h0, Bool.not_false, Bool.true_and, scanLocation_eq, Bool.false_or] at h
  have h1 : (if (lequal memories look pfx).any (fun lo =>
        decide (memAt (memoryAt memories (look.getD lo 0)) c
          > memAt (memoryAt memories (look.getD (lo + 1) 0)) c)) = true then none
      else some ((lequal memories look pfx).any (fun lo =>
        decide (memAt (memoryAt memories (look.getD lo 0)) c
          < memAt (memoryAt memories (look.getD (lo + 1) 0)) c)))) = some false := by
    simpa using h
  by_cases hany : (lequal memories look pfx).any (fun lo =>
      decide (memAt (memoryAt memories (look.getD lo 0)) c
        > memAt (memoryAt memories (look.getD (lo + 1) 0)) c)) = true
  · rw [if_pos hany] at h1
    cases h1
  · rw [if_neg hany] at h1
    have h2 : ¬ (lequal memories look pfx).any (fun lo =>
        decide (memAt (memoryAt memories (look.getD lo 0)) c
          < memAt (memoryAt memories (look.getD (lo + 1) 0)) c)) = true := by
      rw [Option.some.inj h1]
      decide
    rw [List.any_eq_true] at hany h2
    intro lo hlo heq
    have hmem := (mem_lequal memories look pfx lo).mpr ⟨hlo, heq⟩
    have hge : ¬ memAt (memoryAt memories (look.getD lo 0)) c
        > memAt (memoryAt memories (look.getD (lo + 1) 0)) c :=
      fun hgt => hany ⟨lo, hmem, decide_eq_true hgt⟩
    have hle : ¬ memAt (memoryAt memories (look.getD lo 0)) c
        < memAt (memoryAt memories (look.getD (lo + 1) 0)) c :=
      fun hlt => h2 ⟨lo, hmem, decide_eq_true hlt⟩
    omega

/-- The invariant holds for the call that extends the ordering by a candidate, with `remain`
for `left`. -/
theorem Objective.Inv.extend {memories : List (List Nat)} {look : List Nat} {width : Nat}
    {pfx left : List Nat} (hinv : Objective.Inv memories look width pfx left) (c0 : Nat)
    (hc0 : c0 ∈ left) (hcand : keptAsCandidate memories look pfx c0 = true) :
    Objective.Inv memories look width (pfx ++ [c0])
      (left.filter (keptInRemain memories look pfx)) := by
  obtain ⟨_, hle, _⟩ := (keptAsCandidate_iff memories look pfx c0).mp hcand
  refine ⟨?_, ?_, ?_, ?_⟩
  · intro lo hlo
    rw [lessEqual_append]
    by_cases heq : EqualOnPrefix (memoryAt memories (look.getD lo 0))
        (memoryAt memories (look.getD (lo + 1) 0)) pfx = true
    · rw [if_pos heq]
      exact decide_eq_true (hle lo hlo heq)
    · rw [if_neg heq]
      exact hinv.adj lo hlo
  · intro c hc hrem hpfx lo hlo heq
    have hcp : c ∉ pfx := fun h => hpfx (List.mem_append_left _ h)
    have heq0 := ((equalOnPrefix_append _ _ pfx c0).mp heq).1
    by_cases hl : c ∈ left
    · have hk : keptInRemain memories look pfx c = false := by
        cases hh : keptInRemain memories look pfx c
        · rfl
        · exact absurd (List.mem_filter.mpr ⟨hl, hh⟩) hrem
      exact equal_of_not_kept memories look pfx c hcp hk lo hlo heq0
    · exact hinv.gone c hc hl hcp lo hlo heq0
  · intro c hc
    exact hinv.left_lt c (List.mem_filter.mp hc).1
  · intro c hc
    rcases List.mem_append.mp hc with h | h
    · exact hinv.pfx_lt c h
    · rw [List.mem_singleton.mp h]
      exact hinv.left_lt c0 hc0

/-- An ordering without candidates has the properties of an emitted ordering. -/
theorem Objective.Inv.emitted {memories : List (List Nat)} {look : List Nat} {width : Nat}
    {pfx left : List Nat} (hinv : Objective.Inv memories look width pfx left)
    (hnone : left.filter (keptAsCandidate memories look pfx) = []) :
    Objective.Emitted memories look width pfx := by
  refine ⟨hinv.adj, ?_, hinv.pfx_lt⟩
  rintro c hc hcp ⟨hle, lo, hlo, heq, hlt⟩
  by_cases hl : c ∈ left
  · have hk : keptAsCandidate memories look pfx c = true :=
      (keptAsCandidate_iff memories look pfx c).mpr ⟨hcp, hle, lo, hlo, heq, hlt⟩
    have : c ∈ left.filter (keptAsCandidate memories look pfx) :=
      List.mem_filter.mpr ⟨hl, hk⟩
    rw [hnone] at this
    cases this
  · have := hinv.gone c hc hl hcp lo hlo heq
    omega

/-- The locations left to consider outside the ordering are fewer in the call that extends
the ordering by a candidate. -/
theorem remain_measure (memories : List (List Nat)) (look pfx left : List Nat) (c0 : Nat)
    (hc0 : c0 ∈ left) (hcand : keptAsCandidate memories look pfx c0 = true) :
    ((left.filter (keptInRemain memories look pfx)).filter
        (fun c => !(pfx ++ [c0]).contains c)).length
      < (left.filter (fun c => !pfx.contains c)).length := by
  have hcont : ∀ (l : List Nat) (c : Nat), l.contains c = true ↔ c ∈ l := by
    intro l c; simp
  have hc0p : c0 ∉ pfx :=
    keptInRemain_not_mem memories look pfx c0
      (keptInRemain_of_candidate memories look pfx c0 hcand)
  have heq : (left.filter (keptInRemain memories look pfx)).filter
        (fun c => !(pfx ++ [c0]).contains c)
      = (left.filter (fun c => !pfx.contains c)).filter
          (fun c => keptInRemain memories look pfx c && !(pfx ++ [c0]).contains c) := by
    rw [List.filter_filter, List.filter_filter]
    apply List.filter_congr
    intro c _
    by_cases hk : keptInRemain memories look pfx c = true
    · have hcp := keptInRemain_not_mem memories look pfx c hk
      have h0 : pfx.contains c = false := by
        cases hh : pfx.contains c
        · rfl
        · exact absurd ((hcont pfx c).mp hh) hcp
      rw [hk, h0]
      simp
    · have hk0 : keptInRemain memories look pfx c = false := by
        cases hh : keptInRemain memories look pfx c
        · rfl
        · exact absurd hh hk
      rw [hk0]
      simp
  rw [heq, List.length_filter_lt_length_iff_exists]
  refine ⟨c0, List.mem_filter.mpr ⟨hc0, ?_⟩, ?_⟩
  · cases hh : pfx.contains c0
    · rfl
    · exact absurd ((hcont pfx c0).mp hh) hc0p
  · have : (pfx ++ [c0]).contains c0 = true :=
      (hcont _ _).mpr (List.mem_append_right _ (List.mem_singleton_self c0))
    rw [this]
    simp

/-- The loop over the candidates, when each recursive call passes orderings with the
property `P` to the callback and leaves `*limit` as `LimitAfter` says: so does the loop. -/
theorem candidatesLoop_spec (P : List Nat → Prop)
    (call : Nat → List (List Nat) × Int → Option (List (List Nat) × Int))
    (cands : List Nat) :
    (∀ c ∈ cands, ∀ s : List (List Nat) × Int, ∃ new limit1,
        call c s = some (s.1 ++ new, limit1) ∧ (∀ o ∈ new, P o)
          ∧ Objective.LimitAfter s.2 limit1 new.length) →
    ∀ s : List (List Nat) × Int, ∃ new limit1,
      candidatesLoop call cands s = some (s.1 ++ new, limit1) ∧ (∀ o ∈ new, P o)
        ∧ (cands ≠ [] → 1 ≤ new.length)
        ∧ (s.2 < 0 → limit1 = s.2)
        ∧ (0 < s.2 → limit1 = s.2 - new.length ∧ 0 ≤ limit1)
        ∧ (s.2 = 0 → cands ≠ [] → limit1 = 0 ∧ new.length = 1) := by
  induction cands with
  | nil =>
    intro _ s
    refine ⟨[], s.2, by simp [candidatesLoop], by simp, by simp, fun _ => rfl, ?_, by simp⟩
    intro h
    exact ⟨by simp, le_of_lt h⟩
  | cons c rest ih =>
    intro hcall s
    obtain ⟨new1, l1, h1, hP1, hL1⟩ := hcall c (List.mem_cons_self _ _) s
    have ih1 := ih (fun c1 hc1 => hcall c1 (List.mem_cons_of_mem _ hc1))
    unfold candidatesLoop
    rw [h1]
    simp only
    by_cases hz : l1 = 0
    · rw [if_pos hz]
      refine ⟨new1, l1, rfl, hP1, fun _ => hL1.one_le, hL1.neg, hL1.pos, fun h _ => hL1.zero h⟩
    · rw [if_neg hz]
      obtain ⟨new2, l2, h2, hP2, _, hneg2, hpos2, _⟩ := ih1 (s.1 ++ new1, l1)
      refine ⟨new1 ++ new2, l2, ?_, ?_, ?_, ?_, ?_, ?_⟩
      · rw [h2, List.append_assoc]
      · intro o ho
        rcases List.mem_append.mp ho with h | h
        · exact hP1 o h
        · exact hP2 o h
      · intro _
        rw [List.length_append]
        have := hL1.one_le
        omega
      · intro h
        have := hL1.neg h
        rw [hneg2 (by simp only; omega), this]
      · intro h
        obtain ⟨ha, hb⟩ := hL1.pos h
        obtain ⟨hc, hd⟩ := hpos2 (by simp only; omega)
        simp only at hc
        refine ⟨?_, hd⟩
        rw [hc, ha, List.length_append]
        push_cast
        ring
      · intro h _
        exact absurd (hL1.zero h).1 hz

end Tasbot

namespace Tasbot

/-- With a `look` that is not empty, under the invariant, and with fuel for the locations
left to consider, `EnumeratePartialRec` returns: the orderings it passes to the callback are
ordered on adjacent memories and maximal, and it leaves `*limit` as `LimitAfter` says. -/
theorem enumeratePartialRec_spec (memories : List (List Nat)) (look : List Nat)
    (hlook : look ≠ []) (width : Nat) :
    ∀ (fuel : Nat) (pfx left : List Nat) (seed : Int) (s : List (List Nat) × Int),
      Objective.Inv memories look width pfx left →
      (left.filter (fun c => !pfx.contains c)).length < fuel →
      ∃ new limit1,
        EnumeratePartialRec memories look fuel pfx left seed s = some (s.1 ++ new, limit1)
          ∧ (∀ o ∈ new, Objective.Emitted memories look width o)
          ∧ Objective.LimitAfter s.2 limit1 new.length := by
  intro fuel
  induction fuel with
  | zero => intro pfx left seed s _ h; omega
  | succ fuel ih =>
    intro pfx left seed s hinv hfuel
    have key : ∀ (seed1 : Int) (cands1 : List Nat),
        cands1.Perm (left.filter (keptAsCandidate memories look pfx)) →
        ∃ new limit1,
          (if cands1 = [] then
              if CheckOrdering look memories pfx = true then
                some (s.1 ++ [pfx], if s.2 > 0 then s.2 - 1 else s.2)
              else none
            else
              candidatesLoop
                (fun c s1 => EnumeratePartialRec memories look fuel (pfx ++ [c])
                  (left.filter (keptInRemain memories look pfx)) seed1 s1)
                cands1 s) = some (s.1 ++ new, limit1)
            ∧ (∀ o ∈ new, Objective.Emitted memories look width o)
            ∧ Objective.LimitAfter s.2 limit1 new.length := by
      intro seed1 cands1 hperm
      by_cases hnil : cands1 = []
      · rw [if_pos hnil, if_pos ((checkOrdering_iff look memories pfx).mpr hinv.adj)]
        have hc : left.filter (keptAsCandidate memories look pfx) = [] := by
          rw [hnil] at hperm
          exact List.nil_perm.mp hperm
        refine ⟨[pfx], _, rfl, ?_, ?_⟩
        · intro o ho
          rw [List.mem_singleton.mp ho]
          exact hinv.emitted hc
        · refine ⟨by simp, ?_, ?_, ?_⟩
          · intro h
            rw [if_neg (by omega)]
          · intro h
            rw [if_neg (by omega)]
            exact ⟨h, rfl⟩
          · intro h
            rw [if_pos h]
            exact ⟨by simp, by omega⟩
      · rw [if_neg hnil]
        obtain ⟨new, limit1, h1, hP, hone, hneg, hpos, hzero⟩ :=
          candidatesLoop_spec (Objective.Emitted memories look width)
            (fun c s1 => EnumeratePartialRec memories look fuel (pfx ++ [c])
              (left.filter (keptInRemain memories look pfx)) seed1 s1)
            cands1
            (by
              intro c hc s1
              have hc1 := List.mem_filter.mp ((hperm.mem_iff).mp hc)
              have hm := remain_measure memories look pfx left c hc1.1 hc1.2
              exact ih (pfx ++ [c]) _ seed1 s1 (hinv.extend c hc1.1 hc1.2) (by omega))
            s
        exact ⟨new, limit1, h1, hP, ⟨hone hnil, hneg, fun h => hzero h hnil, hpos⟩⟩
    rw [EnumeratePartialRec, enumeratePartial_eq memories look pfx left hlook]
    simp only
    by_cases hseed : seed ≠ 0
    · simp only [if_pos hseed]
      exact key _ _ (List.perm_insertionSort _ _)
    · simp only [if_neg hseed]
      exact key _ _ (List.Perm.refl _)

/-- Before the first call, for the empty ordering and all the locations, the invariant
holds. -/
theorem Objective.Inv.init (memories : List (List Nat)) (look : List Nat) (width : Nat) :
    Objective.Inv memories look width [] (List.range width) := by
  refine ⟨fun _ _ => rfl, ?_, ?_, ?_⟩
  · intro c hc hl
    exact absurd (List.mem_range.mpr hc) hl
  · intro c hc
    exact List.mem_range.mp hc
  · intro c hc
    cases hc

/-- On a matrix and a `look` that are not empty, `EnumerateFull` returns; the orderings it
passes to the callback are ordered on adjacent memories and maximal, and their number is as
`LimitAfter` says. -/
theorem enumerateFull_spec (memories : List (List Nat)) (look : List Nat) (limit seed : Int)
    (hne : memories ≠ []) (hlook : look ≠ []) :
    ∃ emitted limit1, EnumerateFull memories look limit seed = some emitted
      ∧ (∀ o ∈ emitted, Objective.Emitted memories look (memoryAt memories 0).length o)
      ∧ Objective.LimitAfter limit limit1 emitted.length := by
  obtain ⟨new, limit1, h1, hP, hL⟩ :=
    enumeratePartialRec_spec memories look hlook (memoryAt memories 0).length
      ((List.range (memoryAt memories 0).length).length + 1) []
      (List.range (memoryAt memories 0).length) seed ([], limit)
      (Objective.Inv.init memories look _)
      (Nat.lt_succ_of_le (List.length_filter_le _ _))
  refine ⟨new, limit1, ?_, hP, hL⟩
  unfold EnumerateFull
  rw [if_neg hne]
  simp only
  rw [h1]
  rfl

/-- The `look` of `EnumerateFullAll` holds the index 0 and only indices of memories. -/
theorem lookAll_spec (memories : List (List Nat)) (hne : memories ≠ []) :
    lookAll memories ≠ [] ∧ ∀ i ∈ lookAll memories, i < memories.length := by
  refine ⟨?_, ?_⟩
  · have h0 : 0 ∈ lookAll memories := by
      unfold lookAll
      rw [List.mem_filter]
      exact ⟨List.mem_range.mpr (List.length_pos.mpr hne), by simp⟩
    intro h
    rw [h] at h0
    cases h0
  · intro i hi
    unfold lookAll at hi
    exact List.mem_range.mp (List.mem_filter.mp hi).1

end Tasbot

namespace Tasbot

/-- C21: for every matrix of memories that is not empty and is rectangular, every limit and
every seed, `EnumerateFullAll` returns, and every ordering it passes to the callback is a
lexicographic objective on the looked-at memories: for all positions `i < j` of `look`,
`memories[look[i]]` is `LessEqual` to `memories[look[j]]` by the ordering, so that
`CheckOrdering` does not abort on it; and the ordering names only locations that every
looked-at memory has. -/
theorem enumerateFullAll_valid (memories : List (List Nat)) (limit seed : Int)
    (hne : memories ≠ [])
    (hrect : ∀ m ∈ memories, m.length = (memoryAt memories 0).length) :
    ∃ emitted, EnumerateFullAll memories limit seed = some emitted
      ∧ ∀ o ∈ emitted,
          (∀ i j, i < j → j < (lookAll memories).length →
            LessEqual (memoryAt memories ((lookAll memories).getD i 0))
              (memoryAt memories ((lookAll memories).getD j 0)) o = true)
          ∧ CheckOrdering (lookAll memories) memories o = true
          ∧ ∀ c ∈ o, ∀ i ∈ lookAll memories, c < (memoryAt memories i).length := by
  obtain ⟨hlook, hlt⟩ := lookAll_spec memories hne
  obtain ⟨emitted, _, h1, hP, _⟩ :=
    enumerateFull_spec memories (lookAll memories) limit seed hne hlook
  refine ⟨emitted, h1, ?_⟩
  intro o ho
  have hE := hP o ho
  refine ⟨fun i j hij hj => lessEqual_of_adjacent memories _ o hE.adj i j hij hj,
    (checkOrdering_iff _ memories o).mpr hE.adj, ?_⟩
  intro c hc i hi
  have hi1 := hlt i hi
  have hmem : memoryAt memories i ∈ memories := by
    unfold memoryAt
    rw [List.getD_eq_getElem _ _ hi1]
    exact List.getElem_mem hi1
  rw [hrect _ hmem]
  exact hE.lt c hc

/-- Witness for C21: the matrix `kMem0` of the test, without a limit, with the seed 5. -/
theorem enumerateFullAll_valid_witness :
    ∃ emitted, EnumerateFullAll kMem0 (-1) 5 = some emitted
      ∧ ∀ o ∈ emitted,
          (∀ i j, i < j → j < (lookAll kMem0).length →
            LessEqual (memoryAt kMem0 ((lookAll kMem0).getD i 0))
              (memoryAt kMem0 ((lookAll kMem0).getD j 0)) o = true)
          ∧ CheckOrdering (lookAll kMem0) kMem0 o = true
          ∧ ∀ c ∈ o, ∀ i ∈ lookAll kMem0, c < (memoryAt kMem0 i).length :=
  enumerateFullAll_valid kMem0 (-1) 5 (by decide) (by decide)

/-- C22 (what the code does): on a matrix and a `look` that are not empty, for every limit
that is not negative and every seed, `EnumerateFull` returns, and the number of orderings it
passes to the callback is at least one and at most the larger of `limit` and one: with the
limit 0 the callback is invoked exactly once. (`EnumerateFullAll` is `EnumerateFull` for its
own `look`.) -/
theorem enumerateFull_count (memories : List (List Nat)) (look : List Nat) (limit seed : Int)
    (hne : memories ≠ []) (hlook : look ≠ []) (hlimit : 0 ≤ limit) :
    ∃ emitted, EnumerateFull memories look limit seed = some emitted
      ∧ 1 ≤ emitted.length ∧ (emitted.length : Int) ≤ max limit 1 := by
  obtain ⟨emitted, limit1, h1, _, hL⟩ := enumerateFull_spec memories look limit seed hne hlook
  refine ⟨emitted, h1, hL.one_le, ?_⟩
  rcases lt_or_eq_of_le hlimit with h | h
  · obtain ⟨ha, hb⟩ := hL.pos h
    exact le_max_of_le_left (by omega)
  · rw [(hL.zero h.symm).2]
    exact le_max_right _ _

section
set_option maxRecDepth 100000

/-- Witness for C22, at the failing input: on the matrix `kMem0` with the limit 0,
`EnumerateFullAll` passes one ordering to the callback. -/
theorem enumerateFull_count_witness :
    EnumerateFullAll kMem0 0 0 = some [[0, 4, 1]]
      ∧ ∃ emitted, EnumerateFull kMem0 (lookAll kMem0) 0 0 = some emitted
          ∧ 1 ≤ emitted.length ∧ (emitted.length : Int) ≤ max 0 1 :=
  ⟨by decide, enumerateFull_count kMem0 (lookAll kMem0) 0 0 (by decide) (by decide) (by decide)⟩

/-- C29: on a matrix that is not empty, `EnumerateFullAll` without a limit (`-1`) and with
the seed 0 returns, and every ordering it passes to the callback is maximal over all the
locations of a memory: no location outside the ordering is non-decreasing on every adjacent
pair of looked-at memories that are equal on the ordering and increasing on one such pair.
On the matrix `kMem0` of the test it passes exactly one ordering, `[0, 4, 1]`. -/
theorem enumerateFullAll_maximal (memories : List (List Nat)) (hne : memories ≠ []) :
    (∃ emitted, EnumerateFullAll memories (-1) 0 = some emitted
      ∧ ∀ o ∈ emitted, ∀ c, c < (memoryAt memories 0).length → c ∉ o →
          ¬ ((∀ lo, lo + 1 < (lookAll memories).length →
                EqualOnPrefix (memoryAt memories ((lookAll memories).getD lo 0))
                  (memoryAt memories ((lookAll memories).getD (lo + 1) 0)) o = true →
                memAt (memoryAt memories ((lookAll memories).getD lo 0)) c
                  ≤ memAt (memoryAt memories ((lookAll memories).getD (lo + 1) 0)) c)
              ∧ ∃ lo, lo + 1 < (lookAll memories).length
                ∧ EqualOnPrefix (memoryAt memories ((lookAll memories).getD lo 0))
                    (memoryAt memories ((lookAll memories).getD (lo + 1) 0)) o = true
                ∧ memAt (memoryAt memories ((lookAll memories).getD lo 0)) c
                    < memAt (memoryAt memories ((lookAll memories).getD (lo + 1) 0)) c))
      ∧ EnumerateFullAll kMem0 (-1) 0 = some [[0, 4, 1]] := by
  refine ⟨?_, by decide⟩
  obtain ⟨emitted, _, h1, hP, _⟩ :=
    enumerateFull_spec memories (lookAll memories) (-1) 0 hne (lookAll_spec memories hne).1
  exact ⟨emitted, h1, fun o ho c hc hco => (hP o ho).maximal c hc hco⟩

/-- Witness for C29: the matrix `kMem0` of the test. -/
theorem enumerateFullAll_maximal_witness :
    (∃ emitted, EnumerateFullAll kMem0 (-1) 0 = some emitted
      ∧ ∀ o ∈ emitted, ∀ c, c < (memoryAt kMem0 0).length → c ∉ o →
          ¬ ((∀ lo, lo + 1 < (lookAll kMem0).length →
                EqualOnPrefix (memoryAt kMem0 ((lookAll kMem0).getD lo 0))
                  (memoryAt kMem0 ((lookAll kMem0).getD (lo + 1) 0)) o = true →
                memAt (memoryAt kMem0 ((lookAll kMem0).getD lo 0)) c
                  ≤ memAt (memoryAt kMem0 ((lookAll kMem0).getD (lo + 1) 0)) c)
              ∧ ∃ lo, lo + 1 < (lookAll kMem0).length
                ∧ EqualOnPrefix (memoryAt kMem0 ((lookAll kMem0).getD lo 0))
                    (memoryAt kMem0 ((lookAll kMem0).getD (lo + 1) 0)) o = true
                ∧ memAt (memoryAt kMem0 ((lookAll kMem0).getD lo 0)) c
                    < memAt (memoryAt kMem0 ((lookAll kMem0).getD (lo + 1) 0)) c))
      ∧ EnumerateFullAll kMem0 (-1) 0 = some [[0, 4, 1]] :=
  enumerateFullAll_maximal kMem0 (by decide)

end

end Tasbot

namespace Tasbot

/-! ## The replacements that `DoTryImprove` returns (C27) -/

/-- The order of `CompareByFirstDesc` is total. -/
instance firstDesc_total : IsTotal (ℚ × List Nat) firstDesc :=
  ⟨fun a b => le_total b.1 a.1⟩

/-- The order of `CompareByFirstDesc` is transitive. -/
instance firstDesc_trans : IsTrans (ℚ × List Nat) firstDesc :=
  ⟨fun _ _ _ hab hbc => le_trans hbc hab⟩

end Tasbot

namespace Tasbot

/-! ## `DoTryImprove` returns -/

/-- A memory is tied with itself under every objective. -/
theorem order_self (m : List Nat) (o : List Nat) : Order m m o = 0 := by
  induction o with
  | nil => rfl
  | cons p rest ih =>
    unfold Order
    rw [if_neg (lt_irrefl _), if_neg (lt_irrefl _)]
    exact ih

/-- The score of a memory against itself is zero. -/
theorem evaluate_self (objectives : Weighted) (m : List Nat) : Evaluate objectives m m = 0 := by
  unfold Evaluate
  have h : ∀ (l : Weighted) (score : ℚ), l.foldl (evaluateStep m m) score = score := by
    intro l
    induction l with
    | nil => intro score; rfl
    | cons it rest ih =>
      intro score
      rw [List.foldl_cons, ih]
      unfold evaluateStep
      rw [order_self]
      rfl
  exact h objectives 0

/-- With an engine that accepts the states it steps to, a cache as `ResetCache` (with a limit
of at least one) and `CachingStep` leave it, and a start state of the engine, `IsImprovement`
returns, and it leaves such a cache; it rejects the empty inputs. -/
theorem isImprovement_returns {E : Engine} {good : List Nat → Prop} (hE : E.Closed good)
    {L S : Nat} (hL : 1 ≤ L) (objectives : Weighted) (cache : StateCache)
    (hc : cache.Consistent L S) (hs : cache.Sound E) (start_state : List Nat)
    (hgood : good start_state) (start_memory inputs end_memory : List Nat) :
    ∃ c1 r, IsImprovement E objectives cache start_state start_memory inputs end_memory
        = some (c1, replay E start_state inputs, r)
      ∧ c1.Consistent L S ∧ c1.Sound E
      ∧ (inputs = [] → start_memory = Emulator.GetMemory E start_state → r = none) := by
  obtain ⟨c1, h1, hc1, hs1⟩ := cachingSteps_returns hE hL inputs cache start_state hc hs hgood
  unfold IsImprovement
  rw [loadUncompressed_good hE hgood]
  simp only
  rw [h1]
  simp only
  by_cases ha : Evaluate objectives start_memory end_memory
      ≥ Evaluate objectives start_memory (Emulator.GetMemory E (replay E start_state inputs))
  · rw [if_pos ha]
    exact ⟨c1, none, rfl, hc1, hs1, fun _ _ => rfl⟩
  · rw [if_neg ha]
    by_cases hb : Evaluate objectives start_memory
        (Emulator.GetMemory E (replay E start_state inputs)) ≤ 0
    · rw [if_pos hb]
      exact ⟨c1, none, rfl, hc1, hs1, fun _ _ => rfl⟩
    · rw [if_neg hb]
      have hnot : ¬ (inputs = [] ∧ start_memory = Emulator.GetMemory E start_state) := by
        rintro ⟨hi, hm⟩
        apply hb
        rw [hi, hm]
        exact le_of_eq (evaluate_self objectives _)
      by_cases hd : Evaluate objectives end_memory
          (Emulator.GetMemory E (replay E start_state inputs)) ≤ 0
      · rw [if_pos hd]
        exact ⟨c1, none, rfl, hc1, hs1, fun _ _ => rfl⟩
      · rw [if_neg hd]
        exact ⟨c1, _, rfl, hc1, hs1, fun hi hm => absurd ⟨hi, hm⟩ hnot⟩

end Tasbot

namespace Tasbot

end Tasbot

namespace Tasbot

section
set_option maxRecDepth 100000
set_option maxHeartbeats 1000000

end

end Tasbot

namespace Tasbot

/-! ## The acceptance test of `IsImprovement` (C7) -/

/-- C7: `IsImprovement` on the replacement `inputs` returns, with the machine in the state
that replaying `inputs` from `start_state` leaves (the engine accepts the states it steps to,
and the cache is as `ResetCache` with a limit of at least one and `CachingStep` leave it).
With `new_memory` the memory of that state, `S = Evaluate(start_memory, end_memory)`,
`N = Evaluate(start_memory, new_memory)` and `E = Evaluate(end_memory, new_memory)`, it
returns true if and only if `S < N`, `N > 0` and `E > 0`, and the score it then reports is
exactly `N + E`. -/
theorem isImprovement_iff (E : Engine) (good : List Nat → Prop) (hE : E.Closed good)
    (L S : Nat) (hL : 1 ≤ L) (objectives : Weighted) (cache : StateCache)
    (hc : cache.Consistent L S) (hs : cache.Sound E) (start_state : List Nat)
    (hgood : good start_state) (start_memory inputs end_memory : List Nat) :
    ∃ c1 r, IsImprovement E objectives cache start_state start_memory inputs end_memory
        = some (c1, replay E start_state inputs, r)
      ∧ (r.isSome = true ↔
          Evaluate objectives start_memory end_memory
              < Evaluate objectives start_memory
                  (Emulator.GetMemory E (replay E start_state inputs))
            ∧ Evaluate objectives start_memory
                (Emulator.GetMemory E (replay E start_state inputs)) > 0
            ∧ Evaluate objectives end_memory
                (Emulator.GetMemory E (replay E start_state inputs)) > 0)
      ∧ ∀ score, r = some score →
          score = Evaluate objectives start_memory
                      (Emulator.GetMemory E (replay E start_state inputs))
                    + Evaluate objectives end_memory
                        (Emulator.GetMemory E (replay E start_state inputs)) := by
  obtain ⟨c1, r, h1, _, _, _⟩ := isImprovement_returns hE hL objectives cache hc hs
    start_state hgood start_memory inputs end_memory
  have hv := isImprovement_value E objectives cache start_state start_memory inputs end_memory
    c1 (replay E start_state inputs) r h1
  exact ⟨c1, r, h1, hv.1, hv.2⟩

section
set_option maxRecDepth 100000

/-- Witness for C7: two objectives and the replacement `[2]`, which replays from `[5, 5]` to
`[7, 7]` and beats both the start `[5, 5]` and the original end `[6, 5]`: `S = 1`, `N = 2`,
`E = 2`, and `IsImprovement` accepts it with the score 4. -/
theorem isImprovement_iff_witness :
    IsImprovement addEngine [([0], ⟨1, []⟩), ([1], ⟨1, []⟩)]
        (Emulator.ResetCache 5 5 StateCache.new) [5, 5] [5, 5] [2] [6, 5]
      = some (⟨[⟨2, [5, 5], 1, [7, 7]⟩], 5, 1, 2, 5, 1, 1⟩, [7, 7], some 4)
    ∧ ∃ c1 r, IsImprovement addEngine [([0], ⟨1, []⟩), ([1], ⟨1, []⟩)]
          (Emulator.ResetCache 5 5 StateCache.new) [5, 5] [5, 5] [2] [6, 5]
        = some (c1, replay addEngine [5, 5] [2], r)
      ∧ (r.isSome = true ↔
          Evaluate [([0], ⟨1, []⟩), ([1], ⟨1, []⟩)] [5, 5] [6, 5]
              < Evaluate [([0], ⟨1, []⟩), ([1], ⟨1, []⟩)] [5, 5]
                  (Emulator.GetMemory addEngine (replay addEngine [5, 5] [2]))
            ∧ Evaluate [([0], ⟨1, []⟩), ([1], ⟨1, []⟩)] [5, 5]
                (Emulator.GetMemory addEngine (replay addEngine [5, 5] [2])) > 0
            ∧ Evaluate [([0], ⟨1, []⟩), ([1], ⟨1, []⟩)] [6, 5]
                (Emulator.GetMemory addEngine (replay addEngine [5, 5] [2])) > 0)
      ∧ ∀ score, r = some score →
          score = Evaluate [([0], ⟨1, []⟩), ([1], ⟨1, []⟩)] [5, 5]
                      (Emulator.GetMemory addEngine (replay addEngine [5, 5] [2]))
                    + Evaluate [([0], ⟨1, []⟩), ([1], ⟨1, []⟩)] [6, 5]
                        (Emulator.GetMemory addEngine (replay addEngine [5, 5] [2])) :=
  ⟨by norm_num [IsImprovement, Emulator.cachingSteps, Emulator.CachingStep,
      Emulator.LoadUncompressed, Emulator.SaveUncompressed, Emulator.Step, Emulator.GetMemory,
      Emulator.ResetCache, addEngine, StateCache.GetKnownResult, StateCache.Remember,
      StateCache.insert, StateCache.MaybeResize, StateCache.find, StateCache.touch,
      StateCache.keyEquals, StateCache.hashable, StateCache.Resize, StateCache.new, Evaluate,
      evaluateStep, Order, memAt],
   isImprovement_iff addEngine (fun st => st ≠ []) addEngine_closed 5 5 (by decide)
    [([0], ⟨1, []⟩), ([1], ⟨1, []⟩)] (Emulator.ResetCache 5 5 StateCache.new)
    (StateCache.consistent_resize 5 5 StateCache.new)
    (by intro e he; simp [Emulator.ResetCache, StateCache.Resize] at he)
    [5, 5] (by decide) [5, 5] [2] [6, 5]⟩

end

end Tasbot
